import Mathlib

/-!
# turbo-geth state engine: buffers, touches and trie-root computation

A shallow embedding of `core/state/database.go` (package `state`).

* Go maps are association lists without duplicate keys (`GoMap`); the order of the
  list is the order in which a `range` loop visits the entries.
* Go pointers to accounts are references into an explicit heap (`Heap`), so that the
  sharing between a buffer and the aggregate buffer is kept.
* A Go `error` is `Option Error` (`none` is `nil`); a nil-pointer dereference (a
  run-time panic) is the outer `Option` of the functions that can reach one.
* The packages `trie`, `common`, `accounts`, `dbutils` and the database behind
  `ethdb.Database` are collaborators: their operations are the fields of `Ext`.
-/

namespace TurboGeth

/-! ## Bytes and hashes -/

/-- One byte. -/
abbrev Byte := Fin 256

/-- A Go byte slice that is not nil. -/
abbrev Bytes := List Byte

/-- Modelled from the spec: the constant `common.HashLength` (package `common` is not part of
the sources at hand), the 32 bytes of a hash. -/
def HashLength : Nat := 32

/-- Modelled from the spec: the type `common.Hash`, an array of `HashLength` bytes. -/
abbrev Hash := { l : Bytes // l.length = HashLength }

/-- The zero value `common.Hash{}`. -/
def Hash.zero : Hash := ⟨List.replicate HashLength 0, by simp⟩

instance : Inhabited Hash := ⟨Hash.zero⟩

/-- A hash whose last byte is `n` and whose other bytes are zero (for examples). -/
def Hash.ofByte (n : Byte) : Hash := ⟨List.replicate 31 0 ++ [n], by simp [HashLength]⟩

/-- Modelled from the spec: the `Less` of `common.StorageKeys` and `common.Hashes` (sort
ascending), the byte order of `bytes.Compare(a, b) < 0`. -/
def bytesLess : Bytes → Bytes → Bool
  | [], [] => false
  | [], _ :: _ => true
  | _ :: _, [] => false
  | x :: xs, y :: ys => if x < y then true else if y < x then false else bytesLess xs ys

/-- The order `sort.Sort` sorts by: `a` may stand before `b` when `b` is not less than `a`. -/
def bytesLe (a b : Bytes) : Prop := bytesLess b a = false

instance : DecidableRel bytesLe := fun a b => inferInstanceAs (Decidable (bytesLess b a = false))

/-- Result of `sort.Sort` on a slice of fixed-length byte arrays (`common.Hashes`,
`common.StorageKeys`): the slice rearranged into ascending byte order. -/
def sortByBytes {n : Nat} (l : List { b : Bytes // b.length = n }) :
    List { b : Bytes // b.length = n } :=
  l.insertionSort (fun a b => bytesLe a.val b.val)

/-- Strictly ascending in byte order. -/
def StrictAscending (l : List Bytes) : Prop := l.Pairwise (fun a b => bytesLess a b = true)

/-- Ascending in byte order (equal neighbours allowed). -/
def Ascending (l : List Bytes) : Prop := l.Pairwise bytesLe

/-- Modelled from the spec: the constant `common.AddressLength`, the 20 bytes of an address. -/
def AddressLength : Nat := 20

/-- Modelled from the spec: the type `common.Address`, an array of `AddressLength` bytes. -/
abbrev Address := { l : Bytes // l.length = AddressLength }

/-- Modelled from the spec: the type `common.StorageKey`, an array of `2 * HashLength` bytes
(the composite trie key addrHash‖keyHash). -/
abbrev StorageKey := { l : Bytes // l.length = HashLength + HashLength }

/-- The key made by `copy(storageKey[:], addrHash[:])` and
`copy(storageKey[common.HashLength:], keyHash[:])`. -/
def StorageKey.make (addrHash keyHash : Hash) : StorageKey :=
  ⟨addrHash.val ++ keyHash.val, by rw [List.length_append, addrHash.property, keyHash.property]⟩

/-- The hash read back by `copy(addrHash[:], storageKey[:])`. -/
def StorageKey.addrHash (k : StorageKey) : Hash :=
  ⟨k.val.take HashLength, by rw [List.length_take, k.property]; simp⟩

/-- The hash read back by `copy(keyHash[:], storageKey[common.HashLength:])`. -/
def StorageKey.keyHash (k : StorageKey) : Hash :=
  ⟨k.val.drop HashLength, by rw [List.length_drop, k.property]; simp⟩

/-- The bytes of a zeroed array of `n` bytes after `copy(dst[:], src)`. -/
def copyBytes (n : Nat) (src : Bytes) : Bytes := src.take n ++ List.replicate (n - src.length) 0

theorem copyBytes_length (n : Nat) (src : Bytes) : (copyBytes n src).length = n := by
  unfold copyBytes
  rw [List.length_append, List.length_take, List.length_replicate]
  omega

/-- The hash `var h common.Hash; copy(h[:], src)`. -/
def Hash.copyFrom (src : Bytes) : Hash := ⟨copyBytes HashLength src, copyBytes_length _ _⟩

/-- The address `var a common.Address; copy(a[:], src)`. -/
def Address.copyFrom (src : Bytes) : Address := ⟨copyBytes AddressLength src, copyBytes_length _ _⟩

/-- The hash after `copy(dst[:], src)`: the first bytes are those of `src`, the others stay. -/
def Hash.copyOver (dst : Hash) (src : Bytes) : Hash :=
  ⟨src.take HashLength ++ dst.val.drop (src.take HashLength).length, by
    rw [List.length_append, List.length_drop, dst.property, List.length_take]
    omega⟩

/-- The value of `binary.BigEndian.Uint64(b)` (for any number of bytes: the big-endian
number they spell). -/
def beUint (b : Bytes) : Nat := b.foldl (fun acc x => acc * 256 + x.val) 0

/-- The eight bytes of `binary.BigEndian.PutUint64`. -/
def be64 (n : Nat) : Bytes :=
  (List.range 8).map (fun i => Fin.ofNat ((n / 256 ^ (7 - i)) % 256))

/-- Modelled from the spec: `dbutils.GenerateStoragePrefix(a, inc)`, the bytes a‖BE64(inc). -/
def GenerateStoragePrefix (addrHash : Hash) (incarnation : Nat) : Bytes :=
  addrHash.val ++ be64 incarnation

/-- Modelled from the spec: `dbutils.GenerateCompositeStorageKey(a, inc, k)`, the bytes
a‖BE64(inc)‖k. -/
def GenerateCompositeStorageKey (addrHash : Hash) (incarnation : Nat) (seckey : Hash) : Bytes :=
  addrHash.val ++ be64 incarnation ++ seckey.val

/-- Modelled from the spec: `dbutils.GenerateCompositeTrieKey(a, k)`, the bytes a‖k. -/
def GenerateCompositeTrieKey (addrHash keyHash : Hash) : Bytes := addrHash.val ++ keyHash.val

/-- Length of an incarnation in a storage key. -/
def IncarnationLength : Nat := 8

/-- First incarnation for contract accounts. After 1 it increases by 1. -/
def FirstContractIncarnation : Nat := 1

/-- Incarnation for non contracts. -/
def NonContractIncarnation : Nat := 0

/-- Modelled from the spec: the constant `ethdb.MaxTimestampLength` (8), the bytes reserved
at the end of a key for a timestamp. -/
def MaxTimestampLength : Nat := 8

/-! ## Go maps -/

/-- Value bound to `k` in an association list (the first one). -/
def alLookup {K V : Type} [DecidableEq K] (k : K) : List (K × V) → Option V
  | [] => none
  | e :: rest => if e.1 = k then some e.2 else alLookup k rest

/-- Assignment in an association list: replaces the value of `k` where it stands, or adds
the entry at the end. -/
def alAssign {K V : Type} [DecidableEq K] (k : K) (v : V) : List (K × V) → List (K × V)
  | [] => [(k, v)]
  | e :: rest => if e.1 = k then (k, v) :: rest else e :: alAssign k v rest

/-- Removal of `k` from an association list. -/
def alDelete {K V : Type} [DecidableEq K] (k : K) : List (K × V) → List (K × V)
  | [] => []
  | e :: rest => if e.1 = k then alDelete k rest else e :: alDelete k rest

theorem alAssign_keys {K V : Type} [DecidableEq K] (k : K) (v : V) (l : List (K × V)) :
    (alAssign k v l).map Prod.fst =
      if k ∈ l.map Prod.fst then l.map Prod.fst else l.map Prod.fst ++ [k] := by
  induction l with
  | nil => simp [alAssign]
  | cons e rest ih =>
    by_cases h : e.1 = k
    · simp [alAssign, h]
    · have h2 : ¬ k = e.1 := fun h3 => h h3.symm
      simp only [alAssign, h, if_false, List.map_cons, ih, List.mem_cons, h2, false_or]
      split <;> simp

theorem alAssign_nodup {K V : Type} [DecidableEq K] (k : K) (v : V) (l : List (K × V))
    (h : (l.map Prod.fst).Nodup) : ((alAssign k v l).map Prod.fst).Nodup := by
  rw [alAssign_keys]
  split
  · exact h
  · rename_i hk
    rw [List.nodup_append]
    refine ⟨h, by simp, ?_⟩
    intro a ha hb
    simp at hb
    subst hb
    exact absurd ha hk

theorem alDelete_keys {K V : Type} [DecidableEq K] (k : K) (l : List (K × V)) :
    (alDelete k l).map Prod.fst = (l.map Prod.fst).filter (fun x => decide (x ≠ k)) := by
  induction l with
  | nil => simp [alDelete]
  | cons e rest ih =>
    by_cases h : e.1 = k
    · simp [alDelete, h, ih]
    · simp [alDelete, h, ih]

theorem alDelete_nodup {K V : Type} [DecidableEq K] (k : K) (l : List (K × V))
    (h : (l.map Prod.fst).Nodup) : ((alDelete k l).map Prod.fst).Nodup := by
  rw [alDelete_keys]
  exact h.filter _

/-- A Go `map[K]V`: its entries in the order a `range` loop visits them; a key occurs once. -/
structure GoMap (K V : Type) where
  entries : List (K × V)
  nodup : (entries.map Prod.fst).Nodup

namespace GoMap

variable {K V : Type} [DecidableEq K]

/-- Result of `make(map[K]V)`. -/
def empty : GoMap K V := ⟨[], List.nodup_nil⟩

/-- The comma-ok lookup `v, ok := m[k]`: `none` when `ok` is false. -/
def get? (m : GoMap K V) (k : K) : Option V := alLookup k m.entries

/-- The test `_, ok := m[k]`. -/
def contains (m : GoMap K V) (k : K) : Bool := (m.get? k).isSome

/-- The assignment `m[k] = v`. -/
def set (m : GoMap K V) (k : K) (v : V) : GoMap K V :=
  ⟨alAssign k v m.entries, alAssign_nodup k v m.entries m.nodup⟩

/-- The call `delete(m, k)`. -/
def delete (m : GoMap K V) (k : K) : GoMap K V :=
  ⟨alDelete k m.entries, alDelete_nodup k m.entries m.nodup⟩

/-- The keys in iteration order. -/
def keys (m : GoMap K V) : List K := m.entries.map Prod.fst

instance [DecidableEq V] : DecidableEq (GoMap K V) := fun a b =>
  decidable_of_iff (a.entries = b.entries)
    ⟨fun h => by cases a; cases b; cases h; rfl, fun h => by rw [h]⟩

instance : Inhabited (GoMap K V) := ⟨empty⟩

end GoMap

/-! ## Accounts and the heap of account objects -/

/-- Modelled from the spec: the record `accounts.Account` (package `accounts` is not part of
the sources at hand): initialised flag, nonce, balance, storage root, code hash and
incarnation. -/
structure Account where
  Initialised : Bool
  Nonce : Nat
  Balance : Int
  Root : Hash
  CodeHash : Hash
  Incarnation : Nat
deriving DecidableEq, Inhabited

/-- A `*accounts.Account` that is not nil: the index of a cell of the heap. -/
abbrev AccountRef := Nat

/-- The account objects that pointers refer to. -/
structure Heap where
  cells : List Account
deriving DecidableEq, Inhabited

/-- Reading through a pointer. -/
def Heap.read (h : Heap) (r : AccountRef) : Account := h.cells.getD r default

/-- Writing through a pointer. -/
def Heap.write (h : Heap) (r : AccountRef) (a : Account) : Heap := ⟨h.cells.set r a⟩

/-- A new account object holding `a`, and the pointer to it. -/
def Heap.alloc (h : Heap) (a : Account) : Heap × AccountRef := (⟨h.cells ++ [a]⟩, h.cells.length)

/-- Errors the state engine returns. -/
inductive Error where
  /-- The error of `fmt.Errorf("mismatched storage root for %x: expected %x, got %x", ...)`. -/
  | mismatchedStorageRoot (addrHash expected got : Hash)
  /-- An error value handed back by a collaborator (hashing, database, resolver). -/
  | external (msg : String)
  /-- The error of `fmt.Errorf("could not get preimage for key %x", key)`. -/
  | noPreimage (key : Bytes)
deriving DecidableEq, Inhabited

/-! ## Buffer -/

/-- Structure holding updates, deletes, and reads registered within one change period.
A storage value and an account pointer may be nil (`none`). -/
structure Buffer where
  storageUpdates : GoMap Hash (GoMap Hash (Option Bytes))
  storageReads : GoMap Hash (GoMap Hash Unit)
  accountUpdates : GoMap Hash (Option AccountRef)
  accountReads : GoMap Hash Unit
  deleted : GoMap Hash Unit
  created : GoMap Hash Unit
deriving DecidableEq, Inhabited

namespace Buffer

/-- Prepares buffer for work or clears previous data: every map is made anew. -/
def initialise (_b : Buffer) : Buffer :=
  { storageUpdates := GoMap.empty
    storageReads := GoMap.empty
    accountUpdates := GoMap.empty
    accountReads := GoMap.empty
    deleted := GoMap.empty
    created := GoMap.empty }

/-- The buffer of `b := &Buffer{}; b.initialise()`. -/
def fresh : Buffer := initialise default

/-- Replaces account pointer with pointers to the copies (`account.SelfCopy()`). -/
def detachAccounts (b : Buffer) (heap : Heap) : Buffer × Heap :=
  b.accountUpdates.entries.foldl (fun (s : Buffer × Heap) e =>
    match e.2 with
    | some account =>
      let (heap, cpy) := s.2.alloc (s.2.read account)
      ({ s.1 with accountUpdates := s.1.accountUpdates.set e.1 (some cpy) }, heap)
    | none => s) (b, heap)

/-- The loop `for keyHash, v := range om { m[keyHash] = v }`. -/
def mergeInto {V : Type} (m om : GoMap Hash V) : GoMap Hash V :=
  om.entries.foldl (fun m e => m.set e.1 e.2) m

/-- The loop over a map of maps in `merge`: the inner map of `b` is looked up, made when it
is missing, and receives the entries of the other inner map. -/
def mergeNested {V : Type} (bm other : GoMap Hash (GoMap Hash V)) : GoMap Hash (GoMap Hash V) :=
  other.entries.foldl (fun bm e =>
    match bm.get? e.1 with
    | some m => bm.set e.1 (mergeInto m e.2)
    | none => (bm.set e.1 GoMap.empty).set e.1 (mergeInto GoMap.empty e.2)) bm

/-- Merges the content of another buffer into this one. -/
def merge (b other : Buffer) : Buffer :=
  { storageUpdates := mergeNested b.storageUpdates other.storageUpdates
    storageReads := mergeNested b.storageReads other.storageReads
    accountUpdates := mergeInto b.accountUpdates other.accountUpdates
    accountReads := mergeInto b.accountReads other.accountReads
    deleted := mergeInto b.deleted other.deleted
    created := mergeInto b.created other.created }

end Buffer

/-! ## Collaborators -/

/-- The collaborators of the state engine, none of them part of the sources at hand: the
partial trie (package `trie`), the resolver, the proof generator, the database behind
`ethdb.Database`, the hash function of package `common` and the constants of `dbutils` and
`debug`. The engine is embedded over an arbitrary `Ext`. A trie value stands for the trie
together with what its touch function records in the pruner. -/
structure Ext where
  Trie : Type
  Db : Type
  ProofGen : Type
  Pruner : Type
  Cache : Type
  Request : Type
  /-- The function `common.HashData`. -/
  HashData : Bytes → Hash × Option Error
  /-- The constant `trie.EmptyRoot`. -/
  EmptyRoot : Hash
  /-- The flag `debug.IsThinHistory()`. -/
  IsThinHistory : Bool
  /-- The bucket name `dbutils.PreimagePrefix`. -/
  PreimagePrefix : Bytes
  tUpdate : Trie → Bytes → Bytes → Nat → Trie
  tDelete : Trie → Bytes → Nat → Trie
  tUpdateAccount : Trie → Bytes → Account → Trie
  tDeleteSubtree : Trie → Bytes → Nat → Trie
  tDeepHash : Trie → Bytes → Bool × Hash
  tHash : Trie → Hash
  tGet : Trie → Bytes → Option Bytes × Bool
  tNeedResolution : Trie → Option Bytes → Bytes → Bool × Request
  /-- The call `ResolveWithDb` of a resolver made by `NewResolver(topLevels, accounts, blockNr)`
  with `SetHistorical(historical)` and the requests added so far: the trie with the loaded
  subtries, and the error. -/
  resolveWithDb : Nat → Bool → Nat → Bool → List Request → Db → Nat → Trie → Trie × Option Error
  pgAddTouch : ProofGen → Bytes → ProofGen
  pgAddStorageTouch : ProofGen → Bytes → ProofGen
  dbGet : Db → Bytes → Bytes → Option Bytes × Option Error
  dbPut : Db → Bytes → Bytes → Bytes → Db × Option Error
  /-- The call `GetAsOf(bucket, hBucket, key, timestamp)`. -/
  dbGetAsOf : Db → Bytes → Bytes → Bytes → Nat → Option Bytes × Option Error
  dbDelete : Db → Bytes → Bytes → Db × Option Error
  dbDeleteTimestamp : Db → Nat → Db × Option Error
  /-- The entries that `Walk(bucket, startkey, fixedbits, walker)` hands to its walker as long
  as the walker asks for more, in this order, and the error that ends the walk when the
  database fails after them. -/
  dbWalk : Db → Bytes → Bytes → Nat → List (Bytes × Bytes) × Option Error
  /-- The same for `WalkAsOf(bucket, hBucket, startkey, fixedbits, timestamp, walker)`. -/
  dbWalkAsOf : Db → Bytes → Bytes → Bytes → Nat → Nat → List (Bytes × Bytes) × Option Error
  /-- The bucket names of `dbutils`. -/
  AccountsBucket : Bytes
  AccountsHistoryBucket : Bytes
  StorageBucket : Bytes
  StorageHistoryBucket : Bytes
  ContractCodeBucket : Bytes
  ChangeSetBucket : Bytes
  /-- The functions `dbutils.EncodeTimestamp`, `dbutils.DecodeTimestamp` and
  `dbutils.DecodeChangeSet`; a decoded change set is the list of its (key, value) pairs in
  the order its `Walk` visits them. -/
  EncodeTimestamp : Nat → Bytes
  DecodeTimestamp : Bytes → Nat × Bytes
  DecodeChangeSet : Bytes → List (Bytes × Bytes) × Option Error
  /-- The method `DecodeForStorage` on a zero account: the decoded account and the error. -/
  DecodeForStorage : Bytes → Account × Option Error
  /-- The method `IsEmptyCodeHash` of an account. -/
  IsEmptyCodeHash : Account → Bool

/-! ## TrieDbState -/

/-- TrieDbState implements StateReader by wrapping a trie and a database, where trie acts as
a cache for the database. The Go field `buffers` is `frozenBuffers` followed by the current
buffer: every assignment of the source keeps `currentBuffer` the last element of `buffers`
(`StartNewBuffer`, `WithNewBuffer`, `clearUpdates`), and both are pointers to one object. -/
structure TrieDbState (E : Ext) where
  t : E.Trie
  db : E.Db
  blockNr : Nat
  frozenBuffers : List Buffer
  aggregateBuffer : Option Buffer
  currentBuffer : Option Buffer
  codeCache : E.Cache
  codeSizeCache : E.Cache
  historical : Bool
  noHistory : Bool
  resolveReads : Bool
  savePreimages : Bool
  pg : E.ProofGen
  tp : E.Pruner
  heap : Heap

variable {E : Ext}

/-- The Go field `tds.buffers`. -/
def TrieDbState.buffers (tds : TrieDbState E) : List Buffer :=
  tds.frozenBuffers ++ tds.currentBuffer.toList

/-- Rolls the current buffer into the aggregate and starts a new one. -/
def TrieDbState.StartNewBuffer (tds : TrieDbState E) : TrieDbState E :=
  match tds.currentBuffer with
  | some cur =>
    let agg := match tds.aggregateBuffer with
      | some agg => agg
      | none => Buffer.fresh
    let aggregateBuffer := agg.merge cur
    let (detached, heap) := cur.detachAccounts tds.heap
    { tds with
      aggregateBuffer := some aggregateBuffer
      frozenBuffers := tds.frozenBuffers ++ [detached]
      currentBuffer := some Buffer.fresh
      heap := heap }
  | none => { tds with currentBuffer := some Buffer.fresh }

/-- Forgets every buffer. -/
def TrieDbState.clearUpdates (tds : TrieDbState E) : TrieDbState E :=
  { tds with frozenBuffers := [], currentBuffer := none, aggregateBuffer := none }

/-- A state on the trie, the database, the caches, the proof generator and the pruner of the
receiver, with an aggregate and a current buffer of its own, both initialised. The literal of
the source names no `savePreimages`, which is therefore the zero value. -/
def TrieDbState.WithNewBuffer (tds : TrieDbState E) : TrieDbState E :=
  { t := tds.t
    db := tds.db
    blockNr := tds.blockNr
    frozenBuffers := []
    aggregateBuffer := some Buffer.fresh
    currentBuffer := some Buffer.fresh
    codeCache := tds.codeCache
    codeSizeCache := tds.codeSizeCache
    historical := tds.historical
    noHistory := tds.noHistory
    resolveReads := tds.resolveReads
    savePreimages := false
    pg := tds.pg
    tp := tds.tp
    heap := tds.heap }

/-! ## Touches -/

/-- Builds the sorted list of all storage keys that were touched within the period for which
updates are aggregated, and with `withValues` the values written to them. The receiver
enters through its aggregate buffer, the only field read. -/
def buildStorageTouches (aggregateBuffer : Buffer) (withReads withValues : Bool) :
    List StorageKey × List (Option Bytes) :=
  let storageTouches : List StorageKey :=
    aggregateBuffer.storageUpdates.entries.foldl (fun touches e =>
      if withValues && aggregateBuffer.deleted.contains e.1 then touches
      else e.2.entries.foldl (fun touches kv => touches ++ [StorageKey.make e.1 kv.1]) touches) []
  let storageTouches : List StorageKey :=
    if withReads then
      aggregateBuffer.storageReads.entries.foldl (fun touches e =>
        let mWrite := aggregateBuffer.storageUpdates.get? e.1
        e.2.entries.foldl (fun touches kv =>
          match mWrite with
          | some mw =>
            if mw.contains kv.1 then touches else touches ++ [StorageKey.make e.1 kv.1]
          | none => touches ++ [StorageKey.make e.1 kv.1]) touches) storageTouches
    else storageTouches
  let storageTouches := sortByBytes storageTouches
  let values : List (Option Bytes) :=
    if withValues then
      storageTouches.map (fun storageKey =>
        match aggregateBuffer.storageUpdates.get? (StorageKey.addrHash storageKey) with
        | some m => (m.get? (StorageKey.keyHash storageKey)).join
        | none => none)
    else []
  (storageTouches, values)

/-- The loop of `buildAccountTouches` that fills `aValues`: nil for the first of two equal
neighbours, else the pending account, with an empty root when the address has storage
writes. The accounts are returned by value. -/
def accountValues (E : Ext) (aggregateBuffer : Buffer) (heap : Heap) :
    List Hash → List (Option Account)
  | [] => []
  | addrHash :: rest =>
    (if rest.head? = some addrHash then none
     else
       match (aggregateBuffer.accountUpdates.get? addrHash).join with
       | some a =>
         if aggregateBuffer.storageUpdates.contains addrHash then
           some { heap.read a with Root := E.EmptyRoot }
         else some (heap.read a)
       | none => none) :: accountValues E aggregateBuffer heap rest

/-- Builds a sorted list of all address hashes that were touched within the period for which
updates are aggregated. -/
def buildAccountTouches (E : Ext) (aggregateBuffer : Buffer) (heap : Heap)
    (withReads withValues : Bool) : List Hash × List (Option Account) :=
  let accountTouches : List Hash :=
    aggregateBuffer.accountUpdates.entries.foldl (fun touches e =>
      let touches :=
        if e.2.isSome && aggregateBuffer.deleted.contains e.1 then touches ++ [e.1] else touches
      touches ++ [e.1]) []
  let accountTouches : List Hash :=
    if withReads then
      aggregateBuffer.accountReads.entries.foldl (fun touches e =>
        if aggregateBuffer.accountUpdates.contains e.1 then touches else touches ++ [e.1])
        accountTouches
    else accountTouches
  let accountTouches := sortByBytes accountTouches
  let aValues : List (Option Account) :=
    if withValues then accountValues E aggregateBuffer heap accountTouches else []
  (accountTouches, aValues)

/-! ## Resolution -/

/-- Expands the accounts trie (by loading data from the database) if it is required for
accessing accounts whose addresses are contained in the accountTouches. A resolver exists
once one touch needs resolution. -/
def TrieDbState.resolveAccountTouches (tds : TrieDbState E) (accountTouches : List Hash) :
    TrieDbState E × Option Error :=
  let requests : List E.Request := accountTouches.foldl (fun reqs addrHash =>
    let (need, req) := E.tNeedResolution tds.t none addrHash.val
    if need then reqs ++ [req] else reqs) []
  if requests.isEmpty then (tds, none)
  else
    let (t, err) := E.resolveWithDb 0 true tds.blockNr tds.historical requests tds.db tds.blockNr tds.t
    ({ tds with t := t }, err)

/-- Expands the storage tries (by loading data from the database) if it is required for
accessing storage slots containing in the storageTouches. -/
def TrieDbState.resolveStorageTouches (tds : TrieDbState E) (storageTouches : List StorageKey) :
    TrieDbState E × Option Error :=
  let requests : List E.Request := storageTouches.foldl (fun reqs storageKey =>
    let (need, req) :=
      E.tNeedResolution tds.t (some (storageKey.val.take HashLength)) storageKey.val
    if need then reqs ++ [req] else reqs) []
  if requests.isEmpty then (tds, none)
  else
    let (t, err) := E.resolveWithDb 0 false tds.blockNr tds.historical requests tds.db tds.blockNr tds.t
    ({ tds with t := t }, err)

/-- Feeds the account touches into the proof generator. -/
def TrieDbState.populateAccountBlockProof (tds : TrieDbState E) (accountTouches : List Hash) :
    TrieDbState E :=
  { tds with pg := accountTouches.foldl (fun pg addrHash => E.pgAddTouch pg addrHash.val) tds.pg }

/-- Populate pending block proof so that it will be sufficient for accessing all storage
slots in storageTouches. -/
def TrieDbState.populateStorageBlockProof (tds : TrieDbState E)
    (storageTouches : List StorageKey) : TrieDbState E × Option Error :=
  ({ tds with
     pg := storageTouches.foldl (fun pg storageKey => E.pgAddStorageTouch pg storageKey.val) tds.pg },
   none)

/-- ResolveStateTrie resolves parts of the state trie that would be necessary for any updates
(and reads, if `resolveReads` is set). -/
def TrieDbState.ResolveStateTrie (tds : TrieDbState E) : TrieDbState E × Option Error :=
  let tds : TrieDbState E :=
    match tds.currentBuffer with
    | some cur =>
      let agg := match tds.aggregateBuffer with
        | some agg => agg
        | none => Buffer.fresh
      { tds with aggregateBuffer := some (agg.merge cur) }
    | none => tds
  match tds.aggregateBuffer with
  | none => (tds, none)
  | some aggregateBuffer =>
    let storageTouches := (buildStorageTouches aggregateBuffer tds.resolveReads false).1
    let accountTouches := (buildAccountTouches E aggregateBuffer tds.heap tds.resolveReads false).1
    match tds.resolveAccountTouches accountTouches with
    | (tds, some err) => (tds, some err)
    | (tds, none) =>
      let tds := if tds.resolveReads then tds.populateAccountBlockProof accountTouches else tds
      match tds.resolveStorageTouches storageTouches with
      | (tds, some err) => (tds, some err)
      | (tds, none) =>
        if tds.resolveReads then
          match tds.populateStorageBlockProof storageTouches with
          | (tds, some err) => (tds, some err)
          | (tds, none) => (tds, none)
        else (tds, none)

/-! ## Trie roots -/

/-- What the loops of `updateTrieRoots` change: the trie, the account objects, and the map
that prevents repeated clearouts of the storage. -/
structure RootsState (E : Ext) where
  t : E.Trie
  heap : Heap
  alreadyCreated : GoMap Hash Unit

/-- The statement `if account, ok := m[addrHash]; ok && account != nil { account.Root = root }`. -/
def setRoot (heap : Heap) (m : GoMap Hash (Option AccountRef)) (addrHash root : Hash) : Heap :=
  match m.get? addrHash with
  | some (some account) => heap.write account { heap.read account with Root := root }
  | _ => heap

/-- The value of `ok, h := tds.t.DeepHash(addrHash[:]); if !ok { h = trie.EmptyRoot }`. -/
def deepHashOrEmpty (E : Ext) (t : E.Trie) (addrHash : Hash) : Hash :=
  if (E.tDeepHash t addrHash.val).1 then (E.tDeepHash t addrHash.val).2 else E.EmptyRoot

/-- The comparison of the storage root of the account `m[addrHash]`, when there is one, with
the deep hash `h`. -/
def checkRoot (heap : Heap) (m : GoMap Hash (Option AccountRef)) (addrHash h : Hash) :
    Option Error :=
  match m.get? addrHash with
  | some (some account) =>
    if (heap.read account).Root ≠ h then
      some (Error.mismatchedStorageRoot addrHash (heap.read account).Root h)
    else none
  | _ => none

/-- Body of the loop over `b.created`. -/
def createdStep (E : Ext) (blockNr : Nat) (b : Buffer)
    (accountUpdates : GoMap Hash (Option AccountRef)) (s : RootsState E) (addrHash : Hash) :
    RootsState E :=
  if s.alreadyCreated.contains addrHash then s
  else
    let heap := setRoot s.heap b.accountUpdates addrHash E.EmptyRoot
    let heap := setRoot heap accountUpdates addrHash E.EmptyRoot
    { t := E.tDeleteSubtree s.t addrHash.val blockNr
      heap := heap
      alreadyCreated := s.alreadyCreated.set addrHash () }

/-- Body of the loop over `b.accountUpdates`. -/
def accountStep (E : Ext) (blockNr : Nat) (s : RootsState E) (e : Hash × Option AccountRef) :
    RootsState E :=
  match e.2 with
  | some account => { s with t := E.tUpdateAccount s.t e.1.val (s.heap.read account) }
  | none => { s with t := E.tDelete s.t e.1.val blockNr }

/-- Body of the loop over the storage writes of one address; the key is
`dbutils.GenerateCompositeTrieKey(addrHash, keyHash)`. -/
def storageWrite (E : Ext) (forward : Bool) (blockNr : Nat) (addrHash : Hash) (t : E.Trie)
    (kv : Hash × Option Bytes) : E.Trie :=
  let cKey := GenerateCompositeTrieKey addrHash kv.1
  let v := kv.2.getD []
  if 0 < v.length then
    if forward then E.tUpdate t cKey v blockNr
    else if (E.tGet t cKey).2 then E.tUpdate t cKey v blockNr else t
  else
    if forward then E.tDelete t cKey blockNr
    else if (E.tGet t cKey).2 then E.tDelete t cKey blockNr else t

/-- Body of the loop over `b.storageUpdates`: the writes of one address, then the storage
root is set (forward or thin history) or compared. -/
def storageStep (E : Ext) (forward : Bool) (blockNr : Nat) (b : Buffer)
    (accountUpdates : GoMap Hash (Option AccountRef)) (s : RootsState E)
    (e : Hash × GoMap Hash (Option Bytes)) : RootsState E × Option Error :=
  let t := e.2.entries.foldl (storageWrite E forward blockNr e.1) s.t
  if forward || E.IsThinHistory then
    let heap := setRoot s.heap b.accountUpdates e.1 (deepHashOrEmpty E t e.1)
    let heap := setRoot heap accountUpdates e.1 (deepHashOrEmpty E t e.1)
    ({ s with t := t, heap := heap }, none)
  else
    match checkRoot s.heap b.accountUpdates e.1 (deepHashOrEmpty E t e.1) with
    | some err => ({ s with t := t }, some err)
    | none => ({ s with t := t }, checkRoot s.heap accountUpdates e.1 (deepHashOrEmpty E t e.1))

/-- A loop whose body may return an error, which ends the loop. -/
def loopErr {S A : Type} (f : S → A → S × Option Error) : S → List A → S × Option Error
  | s, [] => (s, none)
  | s, a :: rest =>
    match f s a with
    | (s, some err) => (s, some err)
    | (s, none) => loopErr f s rest

/-- Body of the loop over `b.deleted`. -/
def deletedStep (E : Ext) (blockNr : Nat) (b : Buffer)
    (accountUpdates : GoMap Hash (Option AccountRef)) (s : RootsState E) (addrHash : Hash) :
    RootsState E :=
  if b.created.contains addrHash then s
  else
    let heap := setRoot s.heap b.accountUpdates addrHash E.EmptyRoot
    let heap := setRoot heap accountUpdates addrHash E.EmptyRoot
    { s with t := E.tDeleteSubtree s.t addrHash.val blockNr, heap := heap }

/-- Body of the loop over `tds.buffers`, up to the point where the root is taken. -/
def bufferStep (E : Ext) (forward : Bool) (blockNr : Nat)
    (accountUpdates : GoMap Hash (Option AccountRef)) (s : RootsState E) (b : Buffer) :
    RootsState E × Option Error :=
  let s := b.created.keys.foldl (createdStep E blockNr b accountUpdates) s
  let s := b.accountUpdates.entries.foldl (accountStep E blockNr) s
  match loopErr (storageStep E forward blockNr b accountUpdates) s b.storageUpdates.entries with
  | (s, some err) => (s, some err)
  | (s, none) => (b.deleted.keys.foldl (deletedStep E blockNr b accountUpdates) s, none)

/-- The loop over `tds.buffers`: one root per buffer, or nil roots and the error. -/
def bufferLoop (E : Ext) (forward : Bool) (blockNr : Nat)
    (accountUpdates : GoMap Hash (Option AccountRef)) :
    RootsState E → List Hash → List Buffer → RootsState E × Option (List Hash) × Option Error
  | s, roots, [] => (s, some roots, none)
  | s, roots, b :: rest =>
    match bufferStep E forward blockNr accountUpdates s b with
    | (s, some err) => (s, none, some err)
    | (s, none) => bufferLoop E forward blockNr accountUpdates s (roots ++ [E.tHash s.t]) rest

/-- Performs the updates on the trie and computes one root per buffer.
forward is `true` if the function is used to progress the state forward (by adding blocks),
`false` if the function is used to rewind the state. The result is `none` when the
aggregate buffer is nil (the first statement dereferences it). -/
def TrieDbState.updateTrieRoots (tds : TrieDbState E) (forward : Bool) :
    Option (TrieDbState E × Option (List Hash) × Option Error) :=
  match tds.aggregateBuffer with
  | none => none
  | some aggregateBuffer =>
    let accountUpdates := aggregateBuffer.accountUpdates
    match bufferLoop E forward tds.blockNr accountUpdates ⟨tds.t, tds.heap, GoMap.empty⟩ []
        tds.buffers with
    | (s, roots, err) => some ({ tds with t := s.t, heap := s.heap }, roots, err)

/-- UpdateStateTrie assumes that the state trie is already fully resolved, i.e. any operations
will find necessary data inside the trie. -/
def TrieDbState.UpdateStateTrie (tds : TrieDbState E) :
    Option (TrieDbState E × Option (List Hash) × Option Error) :=
  match tds.updateTrieRoots true with
  | none => none
  | some (tds, roots, err) => some (tds.clearUpdates, roots, err)

/-! ## Hashing and the writer -/

/-- Stores the preimage of a hash unless one is stored already. -/
def TrieDbState.savePreimage (tds : TrieDbState E) (save : Bool) (hash preimage : Bytes) :
    TrieDbState E × Option Error :=
  if !save || !tds.savePreimages then (tds, none)
  else if (E.dbGet tds.db E.PreimagePrefix hash).1.isSome then (tds, none)
  else
    let (db, err) := E.dbPut tds.db E.PreimagePrefix hash preimage
    ({ tds with db := db }, err)

/-- Hash of an address; on a hashing error the zero hash and the error. -/
def TrieDbState.HashAddress (tds : TrieDbState E) (address : Address) (save : Bool) :
    TrieDbState E × Hash × Option Error :=
  match E.HashData address.val with
  | (_, some err) => (tds, Hash.zero, some err)
  | (addrHash, none) =>
    let (tds, err) := tds.savePreimage save addrHash.val address.val
    (tds, addrHash, err)

/-- Hash of a storage key; on a hashing error the zero hash and the error. -/
def TrieDbState.HashKey (tds : TrieDbState E) (key : Hash) (save : Bool) :
    TrieDbState E × Hash × Option Error :=
  match E.HashData key.val with
  | (_, some err) => (tds, Hash.zero, some err)
  | (keyHash, none) =>
    let (tds, err) := tds.savePreimage save keyHash.val key.val
    (tds, keyHash, err)

/-- The call `bytes.TrimLeft(value[:], "\x00")`. -/
def trimLeftZeros (value : Bytes) : Bytes := value.dropWhile (fun x => x = 0)

/-- The buffer after `m, ok := b.storageUpdates[addrHash]; if !ok { m = make(...);
b.storageUpdates[addrHash] = m }`. -/
def Buffer.withInnerMap (b : Buffer) (addrHash : Hash) : Buffer :=
  if b.storageUpdates.contains addrHash then b
  else { b with storageUpdates := b.storageUpdates.set addrHash GoMap.empty }

namespace TrieStateWriter

/-- Registers the account pointer as the pending update of the address. The result is
`none` when there is no current buffer (nil dereference). -/
def UpdateAccountData (tds : TrieDbState E) (address : Address) (_original : Option AccountRef)
    (account : Option AccountRef) : Option (TrieDbState E × Option Error) :=
  match tds.HashAddress address false with
  | (tds, _, some err) => some (tds, some err)
  | (tds, addrHash, none) =>
    match tds.currentBuffer with
    | none => none
    | some cur =>
      some ({ tds with
              currentBuffer := some { cur with accountUpdates := cur.accountUpdates.set addrHash account } },
            none)

/-- Registers the deletion of the account in the current buffer. The test on the hashing
error is `err != err`, as in the source. -/
def DeleteAccount (tds : TrieDbState E) (address : Address) (_original : Option AccountRef) :
    Option (TrieDbState E × Option Error) :=
  match tds.HashAddress address false with
  | (tds, addrHash, err) =>
    if err ≠ err then some (tds, err)
    else
      match tds.currentBuffer with
      | none => none
      | some cur =>
        some ({ tds with
                currentBuffer := some { cur with
                  accountUpdates := cur.accountUpdates.set addrHash none
                  storageUpdates := cur.storageUpdates.delete addrHash
                  deleted := cur.deleted.set addrHash () } },
              none)

/-- Registers a storage write in the current buffer; the inner map of the address is made
when it is missing, before the key is hashed. -/
def WriteAccountStorage (tds : TrieDbState E) (address : Address) (_incarnation : Nat)
    (key _original value : Hash) : Option (TrieDbState E × Option Error) :=
  match tds.HashAddress address false with
  | (tds, _, some err) => some (tds, some err)
  | (tds, addrHash, none) =>
    let v := trimLeftZeros value.val
    match tds.currentBuffer with
    | none => none
    | some cur =>
      let m : GoMap Hash (Option Bytes) := (cur.storageUpdates.get? addrHash).getD GoMap.empty
      let cur : Buffer := cur.withInnerMap addrHash
      let tds : TrieDbState E := { tds with currentBuffer := some cur }
      match tds.HashKey key false with
      | (tds, _, some err) => some (tds, some err)
      | (tds, seckey, none) =>
        let m := if 0 < v.length then m.set seckey (some v) else m.set seckey none
        some ({ tds with
                currentBuffer := some { cur with storageUpdates := cur.storageUpdates.set addrHash m } },
              none)

end TrieStateWriter

/-! ## Walks, incarnations and reads -/

/-- The loop of a walk over the entries of a bucket: the walker is called for each entry; if
it returns false or an error, the walk stops; `err` is the error of the database after the
last entry. -/
def walkEntries {S : Type} (walker : S → Bytes → Bytes → S × Bool × Option Error) :
    S → List (Bytes × Bytes) → Option Error → S × Option Error
  | s, [], err => (s, err)
  | s, e :: rest, err =>
    match walker s e.1 e.2 with
    | (s, _, some werr) => (s, some werr)
    | (s, false, none) => (s, none)
    | (s, true, none) => walkEntries walker s rest err

/-- The call `db.Walk(bucket, startkey, fixedbits, walker)`, the walker acting on a state. -/
def Walk {S : Type} (E : Ext) (db : E.Db) (bucket startkey : Bytes) (fixedbits : Nat)
    (walker : S → Bytes → Bytes → S × Bool × Option Error) (s : S) : S × Option Error :=
  walkEntries walker s (E.dbWalk db bucket startkey fixedbits).1
    (E.dbWalk db bucket startkey fixedbits).2

/-- The call `db.WalkAsOf(bucket, hBucket, startkey, fixedbits, timestamp, walker)`. -/
def WalkAsOf {S : Type} (E : Ext) (db : E.Db) (bucket hBucket startkey : Bytes)
    (fixedbits timestamp : Nat) (walker : S → Bytes → Bytes → S × Bool × Option Error) (s : S) :
    S × Option Error :=
  walkEntries walker s (E.dbWalkAsOf db bucket hBucket startkey fixedbits timestamp).1
    (E.dbWalkAsOf db bucket hBucket startkey fixedbits timestamp).2

/-- The entries that the walk of `nextIncarnation` is offered, and the error of the database
after them: those of the storage bucket under the prefix of the address hash. -/
def TrieDbState.incarnationWalk (tds : TrieDbState E) (addrHash : Hash) :
    List (Bytes × Bytes) × Option Error :=
  if tds.historical then
    E.dbWalkAsOf tds.db E.StorageBucket E.StorageHistoryBucket
      (copyBytes (HashLength + IncarnationLength + HashLength + MaxTimestampLength) addrHash.val)
      (8 * HashLength) tds.blockNr
  else
    E.dbWalk tds.db E.StorageBucket
      (copyBytes (HashLength + IncarnationLength + HashLength) addrHash.val) (8 * HashLength)

/-- The walker of `nextIncarnation`, on the variables `found` and `incarnationBytes`:
`copy(incarnationBytes[:], k[common.HashLength:]); found = true; return false, nil`. -/
def incarnationWalker (_s : Bool × Bytes) (k _v : Bytes) : (Bool × Bytes) × Bool × Option Error :=
  ((true, copyBytes IncarnationLength (k.drop HashLength)), false, none)

/-- nextIncarnation determines what should be the next incarnation of an account (i.e. how
many time it has existed before at this address). The arithmetic is that of `uint64`. -/
def TrieDbState.nextIncarnation (tds : TrieDbState E) (addrHash : Hash) : Nat × Option Error :=
  let walked : (Bool × Bytes) × Option Error :=
    if tds.historical then
      WalkAsOf E tds.db E.StorageBucket E.StorageHistoryBucket
        (copyBytes (HashLength + IncarnationLength + HashLength + MaxTimestampLength) addrHash.val)
        (8 * HashLength) tds.blockNr incarnationWalker (false, copyBytes IncarnationLength [])
    else
      Walk E tds.db E.StorageBucket
        (copyBytes (HashLength + IncarnationLength + HashLength) addrHash.val)
        (8 * HashLength) incarnationWalker (false, copyBytes IncarnationLength [])
  match walked with
  | (_, some err) => (0, some err)
  | ((found, incarnationBytes), none) =>
    if found then ((Nat.xor (2 ^ 64 - 1) (beUint incarnationBytes) + 1) % 2 ^ 64, none)
    else (FirstContractIncarnation, none)

/-- Marks the address as created in the current buffer and sets the next incarnation on the
account pending for it, if there is one (`account.SetIncarnation(incarnation)`). -/
def TrieStateWriter.CreateContract (tds : TrieDbState E) (address : Address) :
    Option (TrieDbState E × Option Error) :=
  match tds.HashAddress address true with
  | (tds, _, some err) => some (tds, some err)
  | (tds, addrHash, none) =>
    match tds.currentBuffer with
    | none => none
    | some cur =>
      let cur : Buffer := { cur with created := cur.created.set addrHash () }
      let tds : TrieDbState E := { tds with currentBuffer := some cur }
      match tds.nextIncarnation addrHash with
      | (_, some err) => some (tds, some err)
      | (incarnation, none) =>
        match cur.accountUpdates.get? addrHash with
        | some (some account) =>
          some ({ tds with
                  heap := tds.heap.write account
                    { tds.heap.read account with Incarnation := incarnation } }, none)
        | _ => some (tds, none)

/-- The statements of `ReadAccountStorage` under `if tds.resolveReads`: the read is recorded
unless the slot has a pending write in the current buffer. The result is `none` when there
is no current buffer (nil dereference). -/
def TrieDbState.recordStorageRead (tds : TrieDbState E) (addrHash seckey : Hash) :
    Option (TrieDbState E) :=
  match tds.currentBuffer with
  | none => none
  | some cur =>
    let addReadRecord : Bool :=
      match cur.storageUpdates.get? addrHash with
      | some mWrite => !mWrite.contains seckey
      | none => true
    if addReadRecord then
      let m : GoMap Hash Unit := (cur.storageReads.get? addrHash).getD GoMap.empty
      some { tds with
             currentBuffer := some { cur with storageReads := cur.storageReads.set addrHash (m.set seckey ()) } }
    else some tds

/-- Reads a storage slot: empty for an address deleted in the current or the aggregate
buffer, else from the trie, and from the database when the trie has not resolved the path. -/
def TrieDbState.ReadAccountStorage (tds : TrieDbState E) (address : Address) (incarnation : Nat)
    (key : Hash) : Option (TrieDbState E × Option Bytes × Option Error) :=
  match tds.HashAddress address false with
  | (tds, _, some err) => some (tds, none, some err)
  | (tds, addrHash, none) =>
    if (match tds.currentBuffer with
        | some cur => cur.deleted.contains addrHash
        | none => false) then some (tds, none, none)
    else if (match tds.aggregateBuffer with
        | some agg => agg.deleted.contains addrHash
        | none => false) then some (tds, none, none)
    else
      match tds.HashKey key false with
      | (tds, _, some err) => some (tds, none, some err)
      | (tds, seckey, none) =>
        match (if tds.resolveReads then tds.recordStorageRead addrHash seckey else some tds) with
        | none => none
        | some tds =>
          let (enc, ok) := E.tGet tds.t (GenerateCompositeTrieKey addrHash seckey)
          if !ok then
            let (enc, err) :=
              if tds.historical then
                E.dbGetAsOf tds.db E.StorageBucket E.StorageHistoryBucket
                  (GenerateCompositeStorageKey addrHash incarnation seckey) tds.blockNr
              else
                E.dbGet tds.db E.StorageBucket
                  (GenerateCompositeStorageKey addrHash incarnation seckey)
            some (tds, if err.isSome then none else enc, none)
          else some (tds, enc, none)

/-- The comparison of two accounts that `UpdateAccountData` uses, on the accounts that the two
pointers refer to; `Balance.Cmp` compares the two integers. -/
def accountsEqual (a1 a2 : Account) : Bool :=
  if a1.Nonce ≠ a2.Nonce then false
  else if (if !a1.Initialised then a2.Initialised
      else if !a2.Initialised then true
      else decide (a1.Balance ≠ a2.Balance)) then false
  else if a1.Root ≠ a2.Root then false
  else if (if a1.CodeHash = Hash.zero then decide (a2.CodeHash ≠ Hash.zero)
      else if a2.CodeHash = Hash.zero then true
      else decide (a1.CodeHash ≠ a2.CodeHash)) then false
  else true

/-! ## Rewind data (`ethdb/walk.go`) -/

/-- The walker of `RewindData`: collects in `m`, per bucket, the first value met for each
changed key, and stops at the first timestamp above `timestampSrc`. -/
def rewindWalker (E : Ext) (timestampSrc : Nat) (m : GoMap Bytes (GoMap Bytes Bytes))
    (k v : Bytes) : GoMap Bytes (GoMap Bytes Bytes) × Bool × Option Error :=
  let (timestamp, bucket) := E.DecodeTimestamp k
  if timestamp > timestampSrc then (m, false, none)
  else
    match E.DecodeChangeSet v with
    | (_, some err) => (m, false, some err)
    | (changedAccounts, none) =>
      if changedAccounts.length > 0 then
        let t : GoMap Bytes Bytes := (m.get? bucket).getD GoMap.empty
        let t := changedAccounts.foldl (fun t kv => if t.contains kv.1 then t else t.set kv.1 kv.2) t
        (m.set bucket t, true, none)
      else (m, true, none)

/-- Generates rewind data for all buckets between the timestamp: timestampSrc is the current
timestamp, and timestampDst is where we rewind. `df` acts on a state; the sum
`timestampDst + 1` is that of `uint64`. -/
def RewindData {S : Type} (E : Ext) (db : E.Db) (timestampSrc timestampDst : Nat)
    (df : S → Bytes → Bytes → Bytes → S × Option Error) (s : S) : S × Option Error :=
  let suffixDst := E.EncodeTimestamp ((timestampDst + 1) % 2 ^ 64)
  match Walk E db E.ChangeSetBucket suffixDst 0 (rewindWalker E timestampSrc) GoMap.empty with
  | (_, some err) => (s, some err)
  | (m, none) =>
    loopErr (fun s (e : Bytes × GoMap Bytes Bytes) =>
      loopErr (fun s (kv : Bytes × Bytes) => df s e.1 kv.1 kv.2) s e.2.entries) s m.entries

/-- The walker of `GetModifiedAccounts`: collects the keys of the change sets of the accounts
history bucket up to `endTimestamp`. -/
def modifiedWalker (E : Ext) (endTimestamp : Nat) (keys : List Bytes) (k v : Bytes) :
    List Bytes × Bool × Option Error :=
  let (keyTimestamp, bucket) := E.DecodeTimestamp k
  if bucket ≠ E.AccountsHistoryBucket then (keys, true, none)
  else if keyTimestamp > endTimestamp then (keys, false, none)
  else
    match E.DecodeChangeSet v with
    | (_, some err) => (keys, false, some err)
    | (d, none) => (keys ++ d.map Prod.fst, true, none)

/-- The loop of `GetModifiedAccounts` that resolves the keys through the preimage bucket. -/
def resolvePreimages (E : Ext) (db : E.Db) : List Bytes → List Address × Option Error
  | [] => ([], none)
  | key :: rest =>
    match E.dbGet db E.PreimagePrefix key with
    | (_, some _) => ([], some (Error.noPreimage key))
    | (value, none) =>
      match resolvePreimages E db rest with
      | (_, some err) => ([], some err)
      | (accounts, none) => (Address.copyFrom (value.getD []) :: accounts, none)

/-- The addresses of the accounts changed between two timestamps; nil when there are none. -/
def GetModifiedAccounts (E : Ext) (db : E.Db) (startTimestamp endTimestamp : Nat) :
    Option (List Address) × Option Error :=
  let startCode := E.EncodeTimestamp startTimestamp
  match Walk E db E.ChangeSetBucket startCode 0 (modifiedWalker E endTimestamp) [] with
  | (_, some err) => (none, some err)
  | (keys, none) =>
    if keys.length = 0 then (none, none)
    else
      match resolvePreimages E db keys with
      | (_, some err) => (none, some err)
      | (accounts, none) => (some accounts, none)

/-! ## Unwind -/

/-- The callback that `UnwindTo` hands to `RewindData`, on the current buffer `b`: a tuple of
the accounts history bucket registers the account pre-image (or the null marker) and
rewrites the accounts bucket; a tuple of the storage history bucket registers the storage
pre-image and rewrites the storage bucket. The result is `none` on a slice out of range
(the capacity of `key` taken equal to its length) or without a current buffer. -/
def TrieDbState.unwindStep (tds : TrieDbState E) (bucket key value : Bytes) :
    Option (TrieDbState E × Option Error) :=
  match tds.currentBuffer with
  | none => none
  | some b =>
    if bucket = E.AccountsHistoryBucket then
      let addrHash := Hash.copyFrom key
      if 0 < value.length then
        match E.DecodeForStorage value with
        | (_, some err) => some (tds, some err)
        | (acc, none) =>
          let acc : Account :=
            if decide (acc.Incarnation > 0) && E.IsThinHistory && E.IsEmptyCodeHash acc then
              match E.dbGet tds.db E.ContractCodeBucket
                  (GenerateStoragePrefix addrHash acc.Incarnation) with
              | (codeHash, some _) => { acc with CodeHash := acc.CodeHash.copyOver (codeHash.getD []) }
              | (_, none) => acc
            else acc
          let (heap, ref) := tds.heap.alloc acc
          let b : Buffer := { b with accountUpdates := b.accountUpdates.set addrHash (some ref) }
          let (db, err) := E.dbPut tds.db E.AccountsBucket addrHash.val value
          some ({ tds with currentBuffer := some b, heap := heap, db := db }, err)
      else
        let b : Buffer := { b with accountUpdates := b.accountUpdates.set addrHash none }
        let (db, err) := E.dbDelete tds.db E.AccountsBucket addrHash.val
        some ({ tds with currentBuffer := some b, db := db }, err)
    else if bucket = E.StorageHistoryBucket then
      if key.length < HashLength + IncarnationLength + HashLength then none
      else
        let addrHash := Hash.copyFrom (key.take HashLength)
        let keyHash := Hash.copyFrom (key.drop (HashLength + IncarnationLength))
        let m : GoMap Hash (Option Bytes) := (b.storageUpdates.get? addrHash).getD GoMap.empty
        if 0 < value.length then
          let b : Buffer :=
            { b with storageUpdates := b.storageUpdates.set addrHash (m.set keyHash (some value)) }
          let (db, err) := E.dbPut tds.db E.StorageBucket
            (key.take (HashLength + IncarnationLength + HashLength)) value
          some ({ tds with currentBuffer := some b, db := db }, err)
        else
          let b : Buffer :=
            { b with storageUpdates := b.storageUpdates.set addrHash (m.set keyHash none) }
          let (db, err) := E.dbDelete tds.db E.StorageBucket
            (key.take (HashLength + IncarnationLength + HashLength))
          some ({ tds with currentBuffer := some b, db := db }, err)
    else some (tds, none)

/-- The callback of `UnwindTo` on a state that is `none` once a call has panicked. -/
def unwindDf (s : Option (TrieDbState E)) (bucket key value : Bytes) :
    Option (TrieDbState E) × Option Error :=
  match s with
  | none => (none, none)
  | some tds =>
    match tds.unwindStep bucket key value with
    | none => (none, none)
    | some (tds, err) => (some tds, err)

/-- The timestamps of the loop `for i := tds.blockNr; i > blockNr; i--`. -/
def unwindTimestamps (current target : Nat) : List Nat :=
  (List.range (current - target)).map (fun j => current - j)

/-- The part of `UnwindTo` before the loop that deletes the history: a new buffer is
started, the pre-images of `RewindData` (the function of `ethdb/walk.go` on the database of
the state) go to it, the trie is resolved and updated in rewind mode. The result is `none`
on a run-time panic. -/
def TrieDbState.unwindPrepare (tds : TrieDbState E) (blockNr : Nat) :
    Option (TrieDbState E × Option Error) :=
  let tds := tds.StartNewBuffer
  match RewindData E tds.db tds.blockNr blockNr unwindDf (some tds) with
  | (none, _) => none
  | (some tds, some err) => some (tds, some err)
  | (some tds, none) =>
    match tds.ResolveStateTrie with
    | (tds, some err) => some (tds, some err)
    | (tds, none) =>
      match tds.updateTrieRoots false with
      | none => none
      | some (tds, _, err) => some (tds, err)

/-- Rewinds the state to the block `blockNr`: after `unwindPrepare` the history above
`blockNr` is deleted, the buffers are cleared and the block number is set. -/
def TrieDbState.UnwindTo (tds : TrieDbState E) (blockNr : Nat) :
    Option (TrieDbState E × Option Error) :=
  match tds.unwindPrepare blockNr with
  | none => none
  | some (tds, some err) => some (tds, some err)
  | some (tds, none) =>
    match loopErr (fun db i => E.dbDeleteTimestamp db i) tds.db
        (unwindTimestamps tds.blockNr blockNr) with
    | (db, some err) => some ({ tds with db := db }, some err)
    | (db, none) => some ({ ({ tds with db := db }).clearUpdates with blockNr := blockNr }, none)

/-! ## The trie operations of a run -/

/-- A call that changes the trie. -/
inductive TrieOp where
  | Update (key value : Bytes) (blockNr : Nat)
  | Delete (key : Bytes) (blockNr : Nat)
  | UpdateAccount (key : Bytes) (account : Account)
  | DeleteSubtree (key : Bytes) (blockNr : Nat)
deriving DecidableEq

/-- The collaborators `E` with a trie that also lists, in order, the calls that changed it. -/
def Ext.logged (E : Ext) : Ext :=
  { E with
    Trie := E.Trie × List TrieOp
    tUpdate := fun t key v n => (E.tUpdate t.1 key v n, t.2 ++ [TrieOp.Update key v n])
    tDelete := fun t key n => (E.tDelete t.1 key n, t.2 ++ [TrieOp.Delete key n])
    tUpdateAccount := fun t key a => (E.tUpdateAccount t.1 key a, t.2 ++ [TrieOp.UpdateAccount key a])
    tDeleteSubtree := fun t key n => (E.tDeleteSubtree t.1 key n, t.2 ++ [TrieOp.DeleteSubtree key n])
    tDeepHash := fun t key => E.tDeepHash t.1 key
    tHash := fun t => E.tHash t.1
    tGet := fun t key => E.tGet t.1 key
    tNeedResolution := fun t contract key => E.tNeedResolution t.1 contract key
    resolveWithDb := fun topLevels accounts blockNr historical requests db n t =>
      (((E.resolveWithDb topLevels accounts blockNr historical requests db n t.1).1, t.2),
       (E.resolveWithDb topLevels accounts blockNr historical requests db n t.1).2) }

/-! ## A small instance of the collaborators

Used to evaluate the engine on concrete inputs. The trie is a flat table of accounts and of
storage slots, always resolved; a digest is the sum of the bytes stored. -/

/-- A flat trie: account leaves by key and storage slots by composite key. -/
structure FlatTrie where
  accounts : List (Bytes × Account)
  storage : List (Bytes × Bytes)
deriving DecidableEq, Inhabited

/-- Digest of a list of slots: the sum of all bytes of keys and values, in the last byte. -/
def FlatTrie.digest (slots : List (Bytes × Bytes)) : Hash :=
  Hash.ofByte (Fin.ofNat ((slots.map (fun e => (e.1.map Fin.val).sum + (e.2.map Fin.val).sum)).sum))

/-- The slots whose key starts with the address hash. -/
def FlatTrie.subtrie (t : FlatTrie) (addrHash : Bytes) : List (Bytes × Bytes) :=
  t.storage.filter (fun e => e.1.take addrHash.length = addrHash)

/-- An input padded or cut to the length of a hash: the hash function of the instance. -/
def padHash (b : Bytes) : Hash :=
  ⟨(b ++ List.replicate HashLength 0).take HashLength, by simp [HashLength]⟩

/-- The pairs of a change set of the instance: each pair is the length of the key, the key,
the length of the value and the value. -/
def decodePairs : Nat → Bytes → List (Bytes × Bytes)
  | 0, _ => []
  | _, [] => []
  | fuel + 1, kl :: rest =>
    match rest.drop kl.val with
    | [] => [(rest.take kl.val, [])]
    | vl :: rest2 => (rest.take kl.val, rest2.take vl.val) :: decodePairs fuel (rest2.drop vl.val)

/-- The encoding of a change set that `decodePairs` reads. -/
def encodePairs (pairs : List (Bytes × Bytes)) : Bytes :=
  pairs.flatMap (fun p => Fin.ofNat p.1.length :: p.1 ++ Fin.ofNat p.2.length :: p.2)

/-- The entries of a bucket of the instance from `startkey` on, in ascending key order,
among the keys that share the first `fixedbits / 8` bytes with `startkey`. -/
def sampleWalk (db : List ((Bytes × Bytes) × Bytes)) (bucket startkey : Bytes) (fixedbits : Nat) :
    List (Bytes × Bytes) × Option Error :=
  (((db.filter (fun e => decide (e.1.1 = bucket) && !bytesLess e.1.2 startkey &&
      decide (e.1.2.take (fixedbits / 8) = startkey.take (fixedbits / 8)))).map
        (fun e => (e.1.2, e.2))).insertionSort (fun a b => bytesLe a.1 b.1), none)

/-- The account that the instance decodes: nonce, balance and incarnation in three bytes,
then optionally the storage root and the code hash. -/
def sampleDecodeAccount (b : Bytes) : Account × Option Error :=
  match b with
  | nonce :: balance :: incarnation :: rest =>
    ({ Initialised := true, Nonce := nonce.val, Balance := balance.val,
       Root := Hash.copyFrom rest, CodeHash := Hash.copyFrom (rest.drop HashLength),
       Incarnation := incarnation.val }, none)
  | _ => (default, some (Error.external "account too short"))

/-- The instance: flat trie, nothing to resolve, a database of (bucket, key) entries, and a
proof generator that lists its touches. Timestamps are encoded in eight big-endian bytes. -/
def sampleExt : Ext where
  Trie := FlatTrie
  Db := List ((Bytes × Bytes) × Bytes)
  ProofGen := List Bytes
  Pruner := Unit
  Cache := Unit
  Request := Unit
  HashData := fun b => (padHash b, none)
  EmptyRoot := Hash.zero
  IsThinHistory := false
  PreimagePrefix := [115]
  tUpdate := fun t key v _ => { t with storage := alAssign key v t.storage }
  tDelete := fun t key _ =>
    { accounts := alDelete key t.accounts, storage := alDelete key t.storage }
  tUpdateAccount := fun t key a => { t with accounts := alAssign key a t.accounts }
  tDeleteSubtree := fun t key _ =>
    { t with storage := t.storage.filter (fun e => e.1.take key.length ≠ key) }
  tDeepHash := fun t key => (!(t.subtrie key).isEmpty, FlatTrie.digest (t.subtrie key))
  tHash := fun t =>
    Hash.ofByte (Fin.ofNat (t.accounts.length + (FlatTrie.digest t.storage).val.getLast!.val))
  tGet := fun t key => (alLookup key t.storage, true)
  tNeedResolution := fun _ _ _ => (false, ())
  resolveWithDb := fun _ _ _ _ _ _ _ t => (t, none)
  pgAddTouch := fun pg b => pg ++ [b]
  pgAddStorageTouch := fun pg b => pg ++ [b]
  dbGet := fun db bucket key =>
    match alLookup (bucket, key) db with
    | some v => (some v, none)
    | none => (none, some (Error.external "db: key not found"))
  dbPut := fun db bucket key v => (alAssign (bucket, key) v db, none)
  dbGetAsOf := fun db bucket _ key _ =>
    match alLookup (bucket, key) db with
    | some v => (some v, none)
    | none => (none, some (Error.external "db: key not found"))
  dbDelete := fun db bucket key => (alDelete (bucket, key) db, none)
  dbDeleteTimestamp := fun db timestamp =>
    (db.filter (fun e => !(decide (e.1.1 = [99]) && decide (beUint (e.1.2.take 8) = timestamp))),
     none)
  dbWalk := sampleWalk
  dbWalkAsOf := fun db bucket _ startkey fixedbits _ => sampleWalk db bucket startkey fixedbits
  AccountsBucket := [65]
  AccountsHistoryBucket := [104, 65]
  StorageBucket := [83]
  StorageHistoryBucket := [104, 83]
  ContractCodeBucket := [67]
  ChangeSetBucket := [99]
  EncodeTimestamp := fun t => be64 t
  DecodeTimestamp := fun k => (beUint (k.take 8), k.drop 8)
  DecodeChangeSet := fun v => (decodePairs v.length v, none)
  DecodeForStorage := sampleDecodeAccount
  IsEmptyCodeHash := fun a => decide (a.CodeHash = Hash.zero)

/-- The instance with a hash function that fails on every input. -/
def failingHashExt : Ext := { sampleExt with HashData := fun _ => (Hash.zero, some (Error.external "hash")) }

/-- A state of the instance without buffers, as `newTrieDbState` makes it, on an empty trie
and an empty database. -/
def sampleState : TrieDbState sampleExt where
  t := { accounts := [], storage := [] }
  db := []
  blockNr := 0
  frozenBuffers := []
  aggregateBuffer := none
  currentBuffer := none
  codeCache := ()
  codeSizeCache := ()
  historical := false
  noHistory := false
  resolveReads := false
  savePreimages := true
  pg := []
  tp := ()
  heap := ⟨[]⟩

/-- An address: twenty bytes equal to `n`. -/
def Address.ofByte (n : Byte) : Address := ⟨List.replicate 20 n, by simp [AddressLength]⟩

/-- The state of the instance after `StartNewBuffer`: one empty buffer, the current one. -/
def startedState : TrieDbState sampleExt := sampleState.StartNewBuffer

/-- As `startedState`, over the instance whose hash function fails. -/
def startedFailingState : TrieDbState failingHashExt :=
  { t := { accounts := [], storage := [] }, db := [], blockNr := 0, frozenBuffers := [],
    aggregateBuffer := none, currentBuffer := some Buffer.fresh, codeCache := (),
    codeSizeCache := (), historical := false, noHistory := false, resolveReads := false,
    savePreimages := true, pg := [], tp := (), heap := ⟨[]⟩ }

/-- An aggregate buffer in which the slot 2 of the address hash 1 is read and written and the
address hash 1 is deleted. -/
def readWrittenDeleted : Buffer :=
  { Buffer.fresh with
    storageUpdates := GoMap.empty.set (Hash.ofByte 1) (GoMap.empty.set (Hash.ofByte 2) (some [7]))
    storageReads := GoMap.empty.set (Hash.ofByte 1) (GoMap.empty.set (Hash.ofByte 2) ())
    deleted := GoMap.empty.set (Hash.ofByte 1) () }

/-- The buffer that `DeleteAccount` leaves for the address hash `padHash` of twenty bytes 1,
followed by a storage write to slot 2 of the same address. -/
def deletedThenWritten : Buffer :=
  { Buffer.fresh with
    storageUpdates :=
      GoMap.empty.set (padHash (List.replicate 20 1)) (GoMap.empty.set (Hash.ofByte 2) (some [7]))
    accountUpdates := GoMap.empty.set (padHash (List.replicate 20 1)) none
    deleted := GoMap.empty.set (padHash (List.replicate 20 1)) () }

/-- A state of the instance with one buffer, merged into the aggregate, that holds an update
of the address hash of twenty bytes 1 with the account object 0, whose storage root is the
hash of last byte 9, and a storage write to slot 2 of that address. -/
def mismatchState : TrieDbState sampleExt :=
  { sampleState with
    currentBuffer := some
      { Buffer.fresh with
        storageUpdates :=
          GoMap.empty.set (padHash (List.replicate 20 1)) (GoMap.empty.set (Hash.ofByte 2) (some [7]))
        accountUpdates := GoMap.empty.set (padHash (List.replicate 20 1)) (some 0) }
    aggregateBuffer := some
      { Buffer.fresh with
        storageUpdates :=
          GoMap.empty.set (padHash (List.replicate 20 1)) (GoMap.empty.set (Hash.ofByte 2) (some [7]))
        accountUpdates := GoMap.empty.set (padHash (List.replicate 20 1)) (some 0) }
    heap := ⟨[{ (default : Account) with Root := Hash.ofByte 9 }]⟩ }

/-- A state of the instance whose current buffer holds an update of the address hash of
twenty bytes 1 with the account object 0; the storage bucket holds a slot of that address
stored under the complement of incarnation 4. -/
def pendingAccountState : TrieDbState sampleExt :=
  { sampleState with
    db := [(([83], (padHash (List.replicate 20 1)).val ++ be64 (2 ^ 64 - 1 - 4) ++
      (Hash.ofByte 1).val), [1])]
    currentBuffer := some
      { Buffer.fresh with
        accountUpdates := GoMap.empty.set (padHash (List.replicate 20 1)) (some 0) }
    heap := ⟨[(default : Account)]⟩ }

/-- The trie call that a forward compute issues for one storage write of an address. -/
def forwardWriteOp (blockNr : Nat) (addrHash : Hash) (kv : Hash × Option Bytes) : TrieOp :=
  if 0 < (kv.2.getD []).length then
    TrieOp.Update (GenerateCompositeTrieKey addrHash kv.1) (kv.2.getD []) blockNr
  else TrieOp.Delete (GenerateCompositeTrieKey addrHash kv.1) blockNr

/-- The state of the instance with the listing trie, after `StartNewBuffer`, with one account
object. -/
def loggedStartedState : TrieDbState sampleExt.logged :=
  { t := (({ accounts := [], storage := [] } : FlatTrie), []), db := [], blockNr := 0,
    frozenBuffers := [], aggregateBuffer := none, currentBuffer := some Buffer.fresh,
    codeCache := (), codeSizeCache := (), historical := false, noHistory := false,
    resolveReads := false, savePreimages := true, pg := ([] : List Bytes), tp := (),
    heap := ⟨[(default : Account)]⟩ }

/-- The state of the instance with the listing trie after this run: in the first buffer the
account of the address of twenty bytes 1 is registered, the contract created and its slot 2
written; in the second buffer the account is deleted; then `ResolveStateTrie` and a forward
`updateTrieRoots`. -/
def createdThenDeletedRun : Option (TrieDbState sampleExt.logged) :=
  (TrieStateWriter.UpdateAccountData loggedStartedState (Address.ofByte 1) none (some 0)).bind
    fun r1 =>
  (TrieStateWriter.CreateContract r1.1 (Address.ofByte 1)).bind fun r2 =>
  (TrieStateWriter.WriteAccountStorage r2.1 (Address.ofByte 1) 1 (Hash.ofByte 2) Hash.zero
    (Hash.ofByte 7)).bind fun r3 =>
  (TrieStateWriter.DeleteAccount r3.1.StartNewBuffer (Address.ofByte 1) none).bind fun r4 =>
  (r4.1.ResolveStateTrie.1.updateTrieRoots true).map fun r5 => r5.1

/-- A buffer in which the address hash 1 is deleted and created and has a write to slot 2. -/
def deletedCreatedWritten : Buffer :=
  { Buffer.fresh with
    storageUpdates := GoMap.empty.set (Hash.ofByte 1) (GoMap.empty.set (Hash.ofByte 2) (some [7]))
    accountUpdates := GoMap.empty.set (Hash.ofByte 1) (some 0)
    deleted := GoMap.empty.set (Hash.ofByte 1) ()
    created := GoMap.empty.set (Hash.ofByte 1) () }

/-- Neither the buffer nor the aggregate holds the account object `r` for the address. -/
def NotHeldAt (b : Buffer) (accountUpdates : GoMap Hash (Option AccountRef)) (r : AccountRef)
    (a : Hash) : Prop :=
  b.accountUpdates.get? a ≠ some (some r) ∧ accountUpdates.get? a ≠ some (some r)

/-- The heap keeps its size and the account object `r`. -/
def KeepsRef (r : AccountRef) {E : Ext} (s s' : RootsState E) : Prop :=
  s'.heap.cells.length = s.heap.cells.length ∧ s'.heap.read r = s.heap.read r

/-- The heap keeps its size. -/
def KeepsSize {E : Ext} (s s' : RootsState E) : Prop :=
  s'.heap.cells.length = s.heap.cells.length

/-- The state of the loops of a forward `updateTrieRoots` in the buffer `b`, started in `s`,
right before the storage writes of the address that follows the addresses `es1`. -/
def stateBeforeWrites (E : Ext) (blockNr : Nat) (b : Buffer)
    (accountUpdates : GoMap Hash (Option AccountRef)) (s : RootsState E)
    (es1 : List (Hash × GoMap Hash (Option Bytes))) : RootsState E :=
  es1.foldl (fun s e => (storageStep E true blockNr b accountUpdates s e).1)
    (b.accountUpdates.entries.foldl (accountStep E blockNr)
      (b.created.keys.foldl (createdStep E blockNr b accountUpdates) s))

/-- A state of the instance with two buffers: the first, detached, holds the account object
1 for the address hash 1 and a write to its slot 2; the second, the current one, holds the
account object 0 for the same address, which the aggregate holds too. -/
def twoBufferState : TrieDbState sampleExt :=
  { sampleState with
    frozenBuffers :=
      [{ Buffer.fresh with
         storageUpdates :=
           GoMap.empty.set (Hash.ofByte 1) (GoMap.empty.set (Hash.ofByte 2) (some [7]))
         accountUpdates := GoMap.empty.set (Hash.ofByte 1) (some 1) }]
    currentBuffer := some
      { Buffer.fresh with accountUpdates := GoMap.empty.set (Hash.ofByte 1) (some 0) }
    aggregateBuffer := some
      { Buffer.fresh with
        storageUpdates :=
          GoMap.empty.set (Hash.ofByte 1) (GoMap.empty.set (Hash.ofByte 2) (some [7]))
        accountUpdates := GoMap.empty.set (Hash.ofByte 1) (some 0) }
    heap := ⟨[(default : Account), (default : Account)]⟩ }

/-- The instance with thin history. -/
def thinExt : Ext := { sampleExt with IsThinHistory := true }

/-- A database of the instance: at timestamp 5 the account of the address hash 1 changed,
its pre-image has nonce 1, balance 5, incarnation 1 and no code hash; the contract code
bucket holds, for that address and incarnation 1, the code hash of 32 bytes 7. -/
def thinDb : List ((Bytes × Bytes) × Bytes) :=
  [(([99], be64 5 ++ [104, 65]), encodePairs [((Hash.ofByte 1).val, [1, 5, 1])]),
   (([67], GenerateStoragePrefix (Hash.ofByte 1) 1), List.replicate 32 7)]

/-- A state of the thin-history instance at block 5 over `thinDb`. -/
def thinState : TrieDbState thinExt :=
  { t := { accounts := [], storage := [] }, db := thinDb, blockNr := 5, frozenBuffers := [],
    aggregateBuffer := none, currentBuffer := none, codeCache := (), codeSizeCache := (),
    historical := false, noHistory := false, resolveReads := false, savePreimages := true,
    pg := [], tp := (), heap := ⟨[]⟩ }

/-- A database of the instance with the history of two accounts: the change sets of the
accounts history bucket at the timestamps 3, 4 and 6, and the pre-image of the address hash 1
(the address of twenty bytes 1); the address hash 2 has no pre-image. -/
def historyDb : List ((Bytes × Bytes) × Bytes) :=
  [(([99], be64 3 ++ [104, 65]), encodePairs [((Hash.ofByte 1).val, [1, 5, 0])]),
   (([99], be64 4 ++ [104, 65]),
      encodePairs [((Hash.ofByte 1).val, [2, 5, 0]), ((Hash.ofByte 2).val, [])]),
   (([99], be64 6 ++ [104, 65]), encodePairs [((Hash.ofByte 2).val, [3, 3, 0])]),
   (([115], (Hash.ofByte 1).val), List.replicate 20 1)]

/-- A state of the instance at block 6 over `historyDb`. -/
def historyState : TrieDbState sampleExt :=
  { t := { accounts := [], storage := [] }, db := historyDb, blockNr := 6, frozenBuffers := [],
    aggregateBuffer := none, currentBuffer := none, codeCache := (), codeSizeCache := (),
    historical := false, noHistory := false, resolveReads := false, savePreimages := true,
    pg := [], tp := (), heap := ⟨[]⟩ }

/-- The entries of the whole change-set bucket, in the order in which a walk from the empty
key offers them. -/
def changeSetEntries (E : Ext) (db : E.Db) : List (Bytes × Bytes) :=
  (E.dbWalk db E.ChangeSetBucket [] 0).1

/-- The timestamp in the key of an entry of the change-set bucket. -/
def entryTimestamp (E : Ext) (e : Bytes × Bytes) : Nat := (E.DecodeTimestamp e.1).1

/-- The changes that entries of the change-set bucket record, each as ((bucket, key), value),
in the order of the entries and within a change set in the order of the change set. -/
def changesOf (E : Ext) (entries : List (Bytes × Bytes)) : List ((Bytes × Bytes) × Bytes) :=
  entries.flatMap (fun e =>
    (E.DecodeChangeSet e.2).1.map (fun kv => (((E.DecodeTimestamp e.1).2, kv.1), kv.2)))

/-- The value of the first change of (bucket, key) in a list of changes. -/
def firstChange (changes : List ((Bytes × Bytes) × Bytes)) (bucket key : Bytes) : Option Bytes :=
  alLookup (bucket, key) changes

/-- What the walker of `RewindData` does to `m` with an entry that it does not stop at and
that decodes. -/
def rewindAbsorb (E : Ext) (m : GoMap Bytes (GoMap Bytes Bytes)) (e : Bytes × Bytes) :
    GoMap Bytes (GoMap Bytes Bytes) :=
  if (E.DecodeChangeSet e.2).1.length > 0 then
    m.set (E.DecodeTimestamp e.1).2
      ((E.DecodeChangeSet e.2).1.foldl (fun t kv => if t.contains kv.1 then t else t.set kv.1 kv.2)
        ((m.get? (E.DecodeTimestamp e.1).2).getD GoMap.empty))
  else m

/-- The value that the map of `RewindData` holds for (bucket, key). -/
def rewindValue (m : GoMap Bytes (GoMap Bytes Bytes)) (bucket key : Bytes) : Option Bytes :=
  (m.get? bucket).bind (fun t => t.get? key)

/-- The tuples (bucket, key, value) that the loops of `RewindData` over `m` hand to `df`, in
the order of the loops. -/
def rewindCalls (m : GoMap Bytes (GoMap Bytes Bytes)) : List (Bytes × Bytes × Bytes) :=
  m.entries.flatMap (fun e => e.2.entries.map (fun kv => (e.1, kv.1, kv.2)))

/-- A callback that records the tuples it is called with. -/
def recordCall (log : List (Bytes × Bytes × Bytes)) (bucket key value : Bytes) :
    List (Bytes × Bytes × Bytes) × Option Error :=
  (log ++ [(bucket, key, value)], none)

/-- The keys of the change sets of the accounts history bucket whose timestamp `t` satisfies
`startTimestamp ≤ t ≤ endTimestamp`, in the order of the bucket and of each change set. -/
def modifiedKeys (E : Ext) (db : E.Db) (startTimestamp endTimestamp : Nat) : List Bytes :=
  ((changeSetEntries E db).filter (fun e =>
      decide ((E.DecodeTimestamp e.1).2 = E.AccountsHistoryBucket ∧
        startTimestamp ≤ entryTimestamp E e ∧ entryTimestamp E e ≤ endTimestamp))).flatMap
    (fun e => (E.DecodeChangeSet e.2).1.map Prod.fst)

/-- The address that the pre-image bucket holds for a key (the zero address padded, when the
value is shorter). -/
def preimageAddress (E : Ext) (db : E.Db) (key : Bytes) : Address :=
  Address.copyFrom ((E.dbGet db E.PreimagePrefix key).1.getD [])

/-- The trie calls of the loop over `b.created`: a clearout for each created address that no
earlier buffer of the run has cleared. -/
def createdOps (blockNr : Nat) (alreadyCreated : GoMap Hash Unit) (b : Buffer) : List TrieOp :=
  (b.created.keys.filter (fun k => !alreadyCreated.contains k)).map
    (fun k => TrieOp.DeleteSubtree k.val blockNr)

/-- The trie call of the loop over `b.accountUpdates` for one entry. -/
def accountOp (blockNr : Nat) (heap : Heap) (e : Hash × Option AccountRef) : TrieOp :=
  match e.2 with
  | some account => TrieOp.UpdateAccount e.1.val (heap.read account)
  | none => TrieOp.Delete e.1.val blockNr

/-- One trie call for every storage write of the buffer, in the order of the loops. -/
def storageOps (blockNr : Nat) (b : Buffer) : List TrieOp :=
  b.storageUpdates.entries.flatMap (fun e => e.2.entries.map (forwardWriteOp blockNr e.1))

/-- The trie calls of the loop over `b.deleted`: a clearout for each address that is deleted
and not created in the buffer. -/
def deletedOps (blockNr : Nat) (b : Buffer) : List TrieOp :=
  (b.deleted.keys.filter (fun k => !b.created.contains k)).map
    (fun k => TrieOp.DeleteSubtree k.val blockNr)

/-- The trie calls of the storage writes of one address, started on the trie `t`, in the
order of the writes: a forward run issues the call of every write; a rewind issues the call
of a write when `Get` reports the path of its slot as resolved on the trie that the writes
before it have left, and no call for it otherwise. -/
def writeCalls (E : Ext) (forward : Bool) (blockNr : Nat) (addrHash : Hash) :
    E.Trie → List (Hash × Option Bytes) → List TrieOp
  | _, [] => []
  | t, kv :: rest =>
    (if forward || (E.tGet t (GenerateCompositeTrieKey addrHash kv.1)).2
      then [forwardWriteOp blockNr addrHash kv] else []) ++
      writeCalls E forward blockNr addrHash (storageWrite E forward blockNr addrHash t kv) rest

/-- The trie calls of the loop over the storage updates of a buffer, started in the state
`s`: the calls of the writes of each address in turn, up to and including the address at
which the comparison of the storage root ends the run with an error. -/
def storageCalls (E : Ext) (forward : Bool) (blockNr : Nat) (b : Buffer)
    (accountUpdates : GoMap Hash (Option AccountRef)) :
    RootsState E → List (Hash × GoMap Hash (Option Bytes)) → List TrieOp
  | _, [] => []
  | s, e :: rest =>
    writeCalls E forward blockNr e.1 s.t e.2.entries ++
      (match storageStep E forward blockNr b accountUpdates s e with
       | (s', none) => storageCalls E forward blockNr b accountUpdates s' rest
       | (_, some _) => [])

/-- The instance with a trie in which no path is resolved: `Get` reports a bare hash node for
every key. -/
def unresolvedExt : Ext := { sampleExt with tGet := fun _ _ => (none, false) }

/-- A buffer that creates the address hash 1. -/
def creatingBuffer : Buffer :=
  { Buffer.fresh with created := GoMap.empty.set (Hash.ofByte 1) () }

/-- A buffer with a write of the value 7 to the slot 2 of the address hash 1. -/
def writingBuffer : Buffer :=
  { Buffer.fresh with
    storageUpdates := GoMap.empty.set (Hash.ofByte 1) (GoMap.empty.set (Hash.ofByte 2) (some [7])) }

/-- A state of the instance with the listing trie and two buffers, each of which creates the
address hash 1. -/
def twiceCreatedState : TrieDbState sampleExt.logged :=
  { loggedStartedState with
    frozenBuffers := [creatingBuffer]
    currentBuffer := some creatingBuffer
    aggregateBuffer := some creatingBuffer }

/-- A state of the instance without resolved paths, with the listing trie and one buffer,
which holds a storage write. -/
def unresolvedWriteState : TrieDbState unresolvedExt.logged :=
  { t := (({ accounts := [], storage := [] } : FlatTrie), []), db := [], blockNr := 0,
    frozenBuffers := [], aggregateBuffer := some writingBuffer,
    currentBuffer := some writingBuffer, codeCache := (), codeSizeCache := (),
    historical := false, noHistory := false, resolveReads := false, savePreimages := true,
    pg := ([] : List Bytes), tp := (), heap := ⟨[]⟩ }

/-- An aggregate buffer with updates of the address hashes 1 and 2, the first with storage
writes to the slots 2 and 3, entered in this order. -/
def orderedBuffer : Buffer :=
  { Buffer.fresh with
    storageUpdates := GoMap.empty.set (Hash.ofByte 1)
      ((GoMap.empty.set (Hash.ofByte 2) (some [7])).set (Hash.ofByte 3) (some [8]))
    accountUpdates := (GoMap.empty.set (Hash.ofByte 1) (some 0)).set (Hash.ofByte 2) none }

/-- The contents of `orderedBuffer`, entered in the opposite order. -/
def reorderedBuffer : Buffer :=
  { Buffer.fresh with
    storageUpdates := GoMap.empty.set (Hash.ofByte 1)
      ((GoMap.empty.set (Hash.ofByte 3) (some [8])).set (Hash.ofByte 2) (some [7]))
    accountUpdates := (GoMap.empty.set (Hash.ofByte 2) none).set (Hash.ofByte 1) (some 0) }

/-- The value that `buildAccountTouches` aligns with the address hash `addrHash` when the
address hash `next` follows it in the sorted list. -/
def accountValueAt (E : Ext) (aggregateBuffer : Buffer) (heap : Heap) (addrHash : Hash)
    (next : Option Hash) : Option Account :=
  if next = some addrHash then none
  else
    match (aggregateBuffer.accountUpdates.get? addrHash).join with
    | some a =>
      if aggregateBuffer.storageUpdates.contains addrHash then
        some { heap.read a with Root := E.EmptyRoot }
      else some (heap.read a)
    | none => none

/-! ## The remote server (`ethdb/remote/bolt_remote.go`) -/

/-- The database library `bolt` behind the server, not part of the sources at hand:
read-only transactions, buckets and cursors. `begin` is `db.Begin(false)`, `bucket` is
`tx.Bucket(name)` (nil when there is no such bucket), `get` is the value of
`bucket.Get(key)` (nil when there is no such key). -/
structure Bolt where
  DB : Type
  Tx : Type
  Bucket : Type
  Cursor : Type
  begin : DB → DB × Except Error Tx
  rollback : DB → Tx → DB × Option Error
  bucket : Tx → Bytes → Option Bucket
  get : Bucket → Bytes → Option Bytes
  cursor : Bucket → Cursor

/-- Version is the current version of the remote db protocol. -/
def Version : Nat := 1

/-- The commands of the boltdb remote protocol (`Command` is `uint8`, numbered by `iota`). -/
def CmdVersion : Nat := 0
/-- CmdLastError request the last error generated by any command. -/
def CmdLastError : Nat := 1
/-- CmdBeginTx : txHandle. -/
def CmdBeginTx : Nat := 2
/-- CmdEndTx (txHandle). -/
def CmdEndTx : Nat := 3
/-- CmdBucket (txHandle, name): bucketHandle. -/
def CmdBucket : Nat := 4
/-- CmdGet (bucketHandle, key): value. -/
def CmdGet : Nat := 5
/-- CmdCursor (bucketHandle): cursorHandle. -/
def CmdCursor : Nat := 6
/-- CmdSeek (cursorHandle, seekKey): (key, value). -/
def CmdSeek : Nat := 7

/-- A value of the input stream as the decoder of the codec library reads it: an unsigned
integer or a byte string. -/
inductive Item where
  | uint (n : Nat)
  | bytes (b : Bytes)
deriving DecidableEq

/-- A value that the server encodes to its output, labelled by what it answers: the version,
the string of the last error, a handle, the value of a key (nil or bytes). -/
inductive Reply where
  | version (n : Nat)
  | errorString (s : String)
  | handle (h : Nat)
  | value (v : Option Bytes)
deriving DecidableEq

/-- Outcome of `decoder.Decode(&x)`: the end of the input (`io.EOF`), another error, or the
value and the rest of the input. -/
inductive Decoded (α : Type) where
  | eof
  | bad (err : Error)
  | ok (a : α) (rest : List Item)

/-- Decoding into an unsigned integer of `bits` bits: the next item has to be an unsigned
integer that fits. -/
def decodeUint (bits : Nat) : List Item → Decoded Nat
  | [] => Decoded.eof
  | Item.uint n :: rest =>
    if n < 2 ^ bits then Decoded.ok n rest else Decoded.bad (Error.external "decode: overflow")
  | Item.bytes _ :: _ => Decoded.bad (Error.external "decode: not an integer")

/-- Decoding into a byte slice: the next item has to be a byte string. -/
def decodeBytes : List Item → Decoded Bytes
  | [] => Decoded.eof
  | Item.bytes b :: rest => Decoded.ok b rest
  | Item.uint _ :: _ => Decoded.bad (Error.external "decode: not a byte string")

/-- The error with which `Server` returns when an argument cannot be decoded. -/
def decodeError {α : Type} : Decoded α → Error
  | Decoded.bad err => err
  | _ => Error.external "EOF"

/-- The string of `fmt.Sprintf("%v", lastError)`. -/
def errorText : Option Error → String
  | none => "<nil>"
  | some (Error.external msg) => msg
  | some (Error.mismatchedStorageRoot _ _ _) => "mismatched storage root"
  | some (Error.noPreimage _) => "could not get preimage"

/-- The local variables of `Server`, the connection's context: the last error, the last
handle, the transactions, buckets and cursors opened by the client, the buckets opened in
each transaction and the cursors opened in each bucket; with them the database, the replies
written to `out` so far (writes to `out` succeed, as with a `bytes.Buffer`), and the
transactions whose rollback is deferred to the return of `Server`. -/
structure ServerState (B : Bolt) where
  db : B.DB
  lastError : Option Error
  lastHandle : Nat
  transactions : GoMap Nat B.Tx
  buckets : GoMap Nat B.Bucket
  bucketsByTx : GoMap Nat (List Nat)
  cursors : GoMap Nat B.Cursor
  cursorsByBucket : GoMap Nat (List Nat)
  out : List Reply
  deferred : List B.Tx

/-- The context at the start of `Server`. -/
def ServerState.initial (B : Bolt) (db : B.DB) : ServerState B :=
  { db := db, lastError := none, lastHandle := 0, transactions := GoMap.empty,
    buckets := GoMap.empty, bucketsByTx := GoMap.empty, cursors := GoMap.empty,
    cursorsByBucket := GoMap.empty, out := [], deferred := [] }

/-- What one turn of the loop of `Server` leads to: the return of `Server` with its error, or
the next turn on the rest of the input. -/
inductive Outcome (B : Bolt) where
  | finished (σ : ServerState B) (err : Option Error)
  | next (σ : ServerState B) (rest : List Item)

/-- The error of `fmt.Errorf("transaction not found")`. -/
def errTransactionNotFound : Error := Error.external "transaction not found"

/-- The error of `fmt.Errorf("bucket not found")`. -/
def errBucketNotFound : Error := Error.external "bucket not found"

/-- The statements of `CmdEndTx` that remove one bucket handle: its cursors, its list of
cursors, and the bucket. -/
def removeBucket {B : Bolt} (σ : ServerState B) (bucketHandle : Nat) : ServerState B :=
  let σ : ServerState B :=
    match σ.cursorsByBucket.get? bucketHandle with
    | some cursorHandles =>
      { σ with
        cursors := cursorHandles.foldl (fun cursors cursorHandle => cursors.delete cursorHandle)
          σ.cursors
        cursorsByBucket := σ.cursorsByBucket.delete bucketHandle }
    | none => σ
  { σ with buckets := σ.buckets.delete bucketHandle }

/-- The statements of `CmdEndTx` that remove all the buckets of a transaction. -/
def removeBuckets {B : Bolt} (σ : ServerState B) (txHandle : Nat) : ServerState B :=
  match σ.bucketsByTx.get? txHandle with
  | some bucketHandles =>
    { bucketHandles.foldl removeBucket σ with
      bucketsByTx := (bucketHandles.foldl removeBucket σ).bucketsByTx.delete txHandle }
  | none => σ

/-- The case `CmdBeginTx`. -/
def cmdBeginTx {B : Bolt} (σ : ServerState B) (rest : List Item) : Outcome B :=
  match B.begin σ.db with
  | (db, Except.ok tx) =>
    let lastHandle := (σ.lastHandle + 1) % 2 ^ 64
    Outcome.next
      { σ with
        db := db
        lastError := none
        deferred := tx :: σ.deferred
        lastHandle := lastHandle
        transactions := σ.transactions.set lastHandle tx
        out := σ.out ++ [Reply.handle lastHandle] } rest
  | (db, Except.error err) =>
    Outcome.next { σ with db := db, lastError := some err, out := σ.out ++ [Reply.handle 0] } rest

/-- The case `CmdEndTx`. -/
def cmdEndTx {B : Bolt} (σ : ServerState B) (rest : List Item) : Outcome B :=
  match decodeUint 64 rest with
  | Decoded.ok txHandle rest =>
    match σ.transactions.get? txHandle with
    | some tx =>
      let σ := removeBuckets σ txHandle
      match B.rollback σ.db tx with
      | (db, some err) => Outcome.finished { σ with db := db } (some err)
      | (db, none) =>
        Outcome.next
          { σ with db := db, transactions := σ.transactions.delete txHandle, lastError := none }
          rest
    | none => Outcome.next { σ with lastError := some errTransactionNotFound } rest
  | d => Outcome.finished σ (some (decodeError d))

/-- The case `CmdBucket`. -/
def cmdBucket {B : Bolt} (σ : ServerState B) (rest : List Item) : Outcome B :=
  match decodeUint 64 rest with
  | Decoded.ok txHandle rest =>
    match decodeBytes rest with
    | Decoded.ok name rest =>
      match σ.transactions.get? txHandle with
      | some tx =>
        match B.bucket tx name with
        | none =>
          Outcome.next
            { σ with lastError := some errBucketNotFound, out := σ.out ++ [Reply.handle 0] } rest
        | some bucket =>
          let lastHandle := (σ.lastHandle + 1) % 2 ^ 64
          Outcome.next
            { σ with
              lastHandle := lastHandle
              buckets := σ.buckets.set lastHandle bucket
              bucketsByTx :=
                match σ.bucketsByTx.get? txHandle with
                | some bucketHandles => σ.bucketsByTx.set txHandle (bucketHandles ++ [lastHandle])
                | none => σ.bucketsByTx.set txHandle [lastHandle]
              lastError := none
              out := σ.out ++ [Reply.handle lastHandle] } rest
      | none =>
        Outcome.next
          { σ with lastError := some errTransactionNotFound, out := σ.out ++ [Reply.handle 0] }
          rest
    | d => Outcome.finished σ (some (decodeError d))
  | d => Outcome.finished σ (some (decodeError d))

/-- The case `CmdGet`. -/
def cmdGet {B : Bolt} (σ : ServerState B) (rest : List Item) : Outcome B :=
  match decodeUint 64 rest with
  | Decoded.ok bucketHandle rest =>
    match decodeBytes rest with
    | Decoded.ok key rest =>
      match σ.buckets.get? bucketHandle with
      | some bucket =>
        Outcome.next
          { σ with lastError := none, out := σ.out ++ [Reply.value (B.get bucket key)] } rest
      | none =>
        Outcome.next
          { σ with lastError := some errBucketNotFound, out := σ.out ++ [Reply.value none] } rest
    | d => Outcome.finished σ (some (decodeError d))
  | d => Outcome.finished σ (some (decodeError d))

/-- The case `CmdCursor`. -/
def cmdCursor {B : Bolt} (σ : ServerState B) (rest : List Item) : Outcome B :=
  match decodeUint 64 rest with
  | Decoded.ok bucketHandle rest =>
    match σ.buckets.get? bucketHandle with
    | some bucket =>
      let lastHandle := (σ.lastHandle + 1) % 2 ^ 64
      Outcome.next
        { σ with
          lastHandle := lastHandle
          cursors := σ.cursors.set lastHandle (B.cursor bucket)
          cursorsByBucket :=
            match σ.cursorsByBucket.get? bucketHandle with
            | some cursorHandles =>
              σ.cursorsByBucket.set bucketHandle (cursorHandles ++ [lastHandle])
            | none => σ.cursorsByBucket.set bucketHandle [lastHandle]
          lastError := none
          out := σ.out ++ [Reply.handle lastHandle] } rest
    | none =>
      Outcome.next
        { σ with lastError := some errBucketNotFound, out := σ.out ++ [Reply.handle 0] } rest
  | d => Outcome.finished σ (some (decodeError d))

/-- The case `CmdSeek`: the cursor handle and the seek key are decoded, and that is all. -/
def cmdSeek {B : Bolt} (σ : ServerState B) (rest : List Item) : Outcome B :=
  match decodeUint 64 rest with
  | Decoded.ok _cursorHandle rest =>
    match decodeBytes rest with
    | Decoded.ok _seekKey rest => Outcome.next σ rest
    | d => Outcome.finished σ (some (decodeError d))
  | d => Outcome.finished σ (some (decodeError d))

/-- One turn of the loop of `Server`: a command is read and served. The end of the input
where a command is expected ends the loop without error. -/
def serverStep {B : Bolt} (σ : ServerState B) (input : List Item) : Outcome B :=
  match decodeUint 8 input with
  | Decoded.eof => Outcome.finished σ none
  | Decoded.bad err => Outcome.finished σ (some err)
  | Decoded.ok c rest =>
    if c = CmdVersion then Outcome.next { σ with out := σ.out ++ [Reply.version Version] } rest
    else if c = CmdLastError then
      Outcome.next { σ with out := σ.out ++ [Reply.errorString (errorText σ.lastError)] } rest
    else if c = CmdBeginTx then cmdBeginTx σ rest
    else if c = CmdEndTx then cmdEndTx σ rest
    else if c = CmdBucket then cmdBucket σ rest
    else if c = CmdGet then cmdGet σ rest
    else if c = CmdCursor then cmdCursor σ rest
    else if c = CmdSeek then cmdSeek σ rest
    else Outcome.finished σ (some (Error.external "unknown command"))

/-- The loop of `Server`, for at most `fuel` turns. -/
def serverLoop {B : Bolt} : Nat → ServerState B → List Item → Option (ServerState B × Option Error)
  | 0, _, _ => none
  | fuel + 1, σ, input =>
    match serverStep σ input with
    | Outcome.finished σ err => some (σ, err)
    | Outcome.next σ rest => serverLoop fuel σ rest

/-- The deferred calls that run when `Server` returns: the rollback of every transaction
begun, the last one first; their errors are logged only. -/
def runDeferred {B : Bolt} (σ : ServerState B) : ServerState B :=
  { σ with db := σ.deferred.foldl (fun db tx => (B.rollback db tx).1) σ.db, deferred := [] }

/-- Server is to be called as a go-routine, one per every client connection. It runs while
the connection is active and keeps the entire connection's context in the local variables.
Every turn of the loop reads at least one item, so that one turn more than the input has
items is enough. -/
def Server (B : Bolt) (db : B.DB) (input : List Item) : Option (ServerState B × Option Error) :=
  (serverLoop (input.length + 1) (ServerState.initial B db) input).map
    (fun r => (runDeferred r.1, r.2))

/-- The state and the rest of the input after `n` turns of the loop of `Server`, when the
loop makes that many turns. -/
def serverTurns {B : Bolt} : Nat → ServerState B → List Item → Option (ServerState B × List Item)
  | 0, σ, input => some (σ, input)
  | n + 1, σ, input =>
    match serverStep σ input with
    | Outcome.finished _ _ => none
    | Outcome.next σ rest => serverTurns n σ rest

/-- The handles among the replies, in the order in which they were written. -/
def handleReplies (out : List Reply) : List Nat :=
  out.filterMap (fun r => match r with
    | Reply.handle h => some h
    | _ => none)

/-- An instance of the database library: a database is a list of buckets, each a name with
its entries; a transaction sees the database, a bucket is its entries, a cursor is the
entries it walks; nothing fails. -/
def sampleBolt : Bolt where
  DB := List (Bytes × List (Bytes × Bytes))
  Tx := List (Bytes × List (Bytes × Bytes))
  Bucket := List (Bytes × Bytes)
  Cursor := List (Bytes × Bytes)
  begin := fun db => (db, Except.ok db)
  rollback := fun db _ => (db, none)
  bucket := fun tx name => alLookup name tx
  get := fun bucket key => alLookup key bucket
  cursor := fun bucket => bucket

/-- A database of the instance with the bucket `[98]`, which holds the keys `[1]` and `[3]`. -/
def sampleBoltDb : List (Bytes × List (Bytes × Bytes)) := [([98], [([1], [10]), ([3], [30])])]

/-- The entries that the cursor of a handle walks, in a context of the instance. -/
def sampleCursorAt (σ : ServerState sampleBolt) (cursorHandle : Nat) :
    Option (List (Bytes × Bytes)) :=
  σ.cursors.get? cursorHandle

/-- What holds of the context of a connection as long as the counter of handles has not
wrapped: a handle written in reply is above the handles written before it, unless it is 0,
and no handle written or held in a map is above the last handle; a bucket handle is listed
under one transaction and a cursor handle under one bucket. -/
structure ServerState.Inv {B : Bolt} (σ : ServerState B) : Prop where
  sorted : (handleReplies σ.out).Pairwise (fun a b => b ≠ 0 → a < b)
  repliesLe : ∀ h ∈ handleReplies σ.out, h ≤ σ.lastHandle
  txLe : ∀ h tx, σ.transactions.get? h = some tx → h ≤ σ.lastHandle
  bucketsLe : ∀ h b, σ.buckets.get? h = some b → h ≤ σ.lastHandle
  cursorsLe : ∀ h c, σ.cursors.get? h = some c → h ≤ σ.lastHandle
  byTxLe : ∀ tx l, σ.bucketsByTx.get? tx = some l → ∀ h ∈ l, h ≤ σ.lastHandle
  byBucketLe : ∀ bh l, σ.cursorsByBucket.get? bh = some l → ∀ h ∈ l, h ≤ σ.lastHandle
  byTxDisjoint : ∀ tx₁ tx₂ l₁ l₂, tx₁ ≠ tx₂ → σ.bucketsByTx.get? tx₁ = some l₁ →
    σ.bucketsByTx.get? tx₂ = some l₂ → ∀ h ∈ l₁, h ∉ l₂
  byBucketDisjoint : ∀ bh₁ bh₂ l₁ l₂, bh₁ ≠ bh₂ → σ.cursorsByBucket.get? bh₁ = some l₁ →
    σ.cursorsByBucket.get? bh₂ = some l₂ → ∀ h ∈ l₁, h ∉ l₂

/-- How a turn of the loop that reads `n` items after the command relates the context before
it to the context after it, `n'` items being left: as long as the counter does not wrap, the
last handle grows by at most one, and only if an item was read; what holds of the context
keeps holding; and a bucket handle that is not above the last handle and is not open stays
closed. -/
def ServerState.Turn {B : Bolt} (σ : ServerState B) (n : Nat) (σ' : ServerState B) (n' : Nat) :
    Prop :=
  n' ≤ n ∧
  (σ.lastHandle + 1 < 2 ^ 64 →
    σ.lastHandle ≤ σ'.lastHandle ∧ σ'.lastHandle + n' ≤ σ.lastHandle + n + 1 ∧
    (σ.Inv → σ'.Inv) ∧
    (∀ bh, bh ≤ σ.lastHandle → σ.buckets.get? bh = none → σ'.buckets.get? bh = none))

/-- The map `m'` is the map `m`, or the map `m` with an entry for the handle `new`. -/
def ExtendsAt {V : Type} (m' m : GoMap Nat V) (new : Nat) : Prop :=
  m' = m ∨ ∃ v, ∀ h, m'.get? h = if h = new then some v else m.get? h

/-- The map of lists `m'` is the map `m`, or the map `m` with the handle `new` added at the
end of the list of one key (the list being made when there is none). -/
def ListsExtend (m' m : GoMap Nat (List Nat)) (new : Nat) : Prop :=
  m' = m ∨ ∃ key, ∀ k, m'.get? k =
    if k = key then some ((m.get? key).getD [] ++ [new]) else m.get? k

/-- An input of the instance: a transaction is begun (handle 1), the bucket `[98]` opened in
it (handle 2) and a cursor made on it (handle 3); a second transaction is begun (handle 4)
and the bucket opened in it (handle 5); the first transaction is ended; then the key `[1]` is
asked for through the bucket handle 2 and through the bucket handle 5. -/
def twoTxInput : List Item :=
  [Item.uint CmdBeginTx, Item.uint CmdBucket, Item.uint 1, Item.bytes [98],
   Item.uint CmdCursor, Item.uint 2, Item.uint CmdBeginTx,
   Item.uint CmdBucket, Item.uint 4, Item.bytes [98],
   Item.uint CmdEndTx, Item.uint 1,
   Item.uint CmdGet, Item.uint 2, Item.bytes [1],
   Item.uint CmdGet, Item.uint 5, Item.bytes [1]]

/-- The context of the connection after the first five commands of `twoTxInput`. -/
def twoTxState : ServerState sampleBolt :=
  ((serverTurns 5 (ServerState.initial sampleBolt sampleBoltDb) twoTxInput).map
    Prod.fst).getD (ServerState.initial sampleBolt sampleBoltDb)

/-! ## The block witness (package `trie`) -/

/-- Modelled from the spec: the node of the binary trie that `HexToBin` makes (the package
`trie` is not part of the sources at hand, only a test of it): the tagged variants of the
design notes, leaf, extension, branch and hash-only node, the last a bare digest that stands
in for an unresolved subtree; an account leaf, which carries the storage subtrie of the
account; and the empty trie. A path is a list of bits. -/
inductive BinNode where
  | empty
  | leaf (path : List Bool) (value : Bytes)
  | account (path : List Bool) (acc : Account) (storage : BinNode)
  | ext (path : List Bool) (child : BinNode)
  | branch (zero one : BinNode)
  | hashOnly (digest : Hash)
deriving DecidableEq

/-- Modelled from the spec: the path of a key in the binary trie, the bits of its bytes from
the highest bit of the first byte on. -/
def keyBits (key : Bytes) : List Bool :=
  key.flatMap (fun b => (List.range 8).map (fun i => decide ((b.val / 2 ^ (7 - i)) % 2 = 1)))

/-- Modelled from the spec: the method `Get` of the trie: the bytes under the key and whether
the traversal stayed in resolved nodes (`false` iff it hit a bare hash node). -/
def BinNode.get : BinNode → List Bool → Option Bytes × Bool
  | BinNode.empty, _ => (none, true)
  | BinNode.leaf p v, k => if k = p then (some v, true) else (none, true)
  | BinNode.account p _ st, k =>
    if k.take p.length = p then st.get (k.drop p.length) else (none, true)
  | BinNode.ext p c, k => if k.take p.length = p then c.get (k.drop p.length) else (none, true)
  | BinNode.branch _ _, [] => (none, true)
  | BinNode.branch z o, b :: k => if b then o.get k else z.get k
  | BinNode.hashOnly _, _ => (none, false)

/-- Modelled from the spec: the method `GetAccount` of the trie: the account under the key and
whether the traversal stayed in resolved nodes. -/
def BinNode.getAccount : BinNode → List Bool → Option Account × Bool
  | BinNode.empty, _ => (none, true)
  | BinNode.leaf _ _, _ => (none, true)
  | BinNode.account p a _, k => if k = p then (some a, true) else (none, true)
  | BinNode.ext p c, k =>
    if k.take p.length = p then c.getAccount (k.drop p.length) else (none, true)
  | BinNode.branch _ _, [] => (none, true)
  | BinNode.branch z o, b :: k => if b then o.getAccount k else z.getAccount k
  | BinNode.hashOnly _, _ => (none, false)

/-- Modelled from the spec: the bytes of a natural number in the byte stream of a witness (the
spec names a byte stream and leaves its layout open; this is a layout in which every field
tells where it ends): groups of seven bits, the lowest group first, a byte below 128 being
the last one; `fuel` bounds the number of groups. -/
def writeNatAux : Nat → Nat → Bytes
  | 0, n => [Fin.ofNat n]
  | fuel + 1, n =>
    if n < 128 then [Fin.ofNat n] else Fin.ofNat (128 + n % 128) :: writeNatAux fuel (n / 128)

/-- Modelled from the spec: the bytes of a natural number in the stream; `n` steps are enough
for the groups of `n`. -/
def writeNat (n : Nat) : Bytes := writeNatAux n n

/-- Modelled from the spec: reads what `writeNat` wrote. -/
def readNat : Bytes → Option (Nat × Bytes)
  | [] => none
  | b :: rest =>
    if b.val < 128 then some (b.val, rest)
    else
      match readNat rest with
      | some (n, r) => some (b.val - 128 + 128 * n, r)
      | none => none

/-- Modelled from the spec: a byte string in the stream: its length, then its bytes. -/
def writeBytes (b : Bytes) : Bytes := writeNat b.length ++ b

/-- Modelled from the spec: reads what `writeBytes` wrote. -/
def readBytes (l : Bytes) : Option (Bytes × Bytes) :=
  match readNat l with
  | some (n, r) => if n ≤ r.length then some (r.take n, r.drop n) else none
  | none => none

/-- Modelled from the spec: a path in the stream: its length, then one byte per bit. -/
def writeBits (p : List Bool) : Bytes :=
  writeNat p.length ++ p.map (fun b => if b then 1 else 0)

/-- Modelled from the spec: reads what `writeBits` wrote. -/
def readBits (l : Bytes) : Option (List Bool × Bytes) :=
  match readNat l with
  | some (n, r) =>
    if n ≤ r.length then some ((r.take n).map (fun x => decide (x ≠ 0)), r.drop n) else none
  | none => none

/-- Modelled from the spec: reads the 32 bytes of a hash. -/
def readHash (l : Bytes) : Option (Hash × Bytes) :=
  if h : HashLength ≤ l.length then
    some (⟨l.take HashLength, by rw [List.length_take]; exact Nat.min_eq_left h⟩,
      l.drop HashLength)
  else none

/-- Modelled from the spec: an integer in the stream: a byte for the sign, then the absolute
value. -/
def writeInt (i : Int) : Bytes := (if i < 0 then 1 else 0) :: writeNat i.natAbs

/-- Modelled from the spec: reads what `writeInt` wrote. -/
def readInt : Bytes → Option (Int × Bytes)
  | [] => none
  | s :: rest =>
    match readNat rest with
    | some (n, r) => some (if s = 1 then -(n : Int) else (n : Int), r)
    | none => none

/-- Modelled from the spec: an account in the stream, field by field. -/
def writeAccount (a : Account) : Bytes :=
  (if a.Initialised then 1 else 0) :: (writeNat a.Nonce ++ (writeInt a.Balance ++
    (a.Root.val ++ (a.CodeHash.val ++ writeNat a.Incarnation))))

/-- Modelled from the spec: reads what `writeAccount` wrote. -/
def readAccount : Bytes → Option (Account × Bytes)
  | [] => none
  | i :: rest =>
    (readNat rest).bind fun r1 =>
    (readInt r1.2).bind fun r2 =>
    (readHash r2.2).bind fun r3 =>
    (readHash r3.2).bind fun r4 =>
    (readNat r4.2).bind fun r5 =>
    some ({ Initialised := decide (i ≠ 0), Nonce := r1.1, Balance := r2.1, Root := r3.1,
            CodeHash := r4.1, Incarnation := r5.1 }, r5.2)

/-- Modelled from the spec: the Merkle hash of a node over the hash function `H`
(`Hash()` of the trie is that of its root): the hash of what the node holds and of the hashes
of its children; a hash-only node has the digest that it carries. -/
def BinNode.hash (H : Bytes → Hash) : BinNode → Hash
  | BinNode.empty => H []
  | BinNode.leaf p v => H (0 :: (writeBits p ++ v))
  | BinNode.account p a st => H (1 :: (writeBits p ++ (writeAccount a ++ (st.hash H).val)))
  | BinNode.ext p c => H (2 :: (writeBits p ++ (c.hash H).val))
  | BinNode.branch z o => H (3 :: ((z.hash H).val ++ (o.hash H).val))
  | BinNode.hashOnly d => d

/-- Modelled from the spec: the resolve set of a witness, the keys that the block touched;
a path shorter than `minLength` is always kept. -/
structure ResolveSet where
  minLength : Nat
  keys : List (List Bool)

/-- Modelled from the spec: `NewBinaryResolveSet(minLength)`. -/
def NewBinaryResolveSet (minLength : Nat) : ResolveSet := { minLength := minLength, keys := [] }

/-- Modelled from the spec: `rs.AddKey(key)` of a binary resolve set. -/
def ResolveSet.AddKey (rs : ResolveSet) (key : Bytes) : ResolveSet :=
  { rs with keys := rs.keys ++ [keyBits key] }

/-- Modelled from the spec: whether the subtree at the path `pre` is kept: the path is short,
or a key of the set passes through it. -/
def ResolveSet.keeps (rs : ResolveSet) (pre : List Bool) : Bool :=
  decide (pre.length < rs.minLength) || rs.keys.any (fun k => decide (k.take pre.length = pre))

/-- Modelled from the spec: the trie restricted to the resolve set, the node standing at the
path `pre`: a subtree that no key of the set passes through is replaced by a hash-only node
with its hash. -/
def BinNode.prune (H : Bytes → Hash) (rs : ResolveSet) : List Bool → BinNode → BinNode
  | pre, BinNode.empty => if rs.keeps pre then BinNode.empty else BinNode.hashOnly (H [])
  | pre, BinNode.leaf p v =>
    if rs.keeps pre then BinNode.leaf p v else BinNode.hashOnly ((BinNode.leaf p v).hash H)
  | pre, BinNode.account p a st =>
    if rs.keeps pre then BinNode.account p a (st.prune H rs (pre ++ p))
    else BinNode.hashOnly ((BinNode.account p a st).hash H)
  | pre, BinNode.ext p c =>
    if rs.keeps pre then BinNode.ext p (c.prune H rs (pre ++ p))
    else BinNode.hashOnly ((BinNode.ext p c).hash H)
  | pre, BinNode.branch z o =>
    if rs.keeps pre then
      BinNode.branch (z.prune H rs (pre ++ [false])) (o.prune H rs (pre ++ [true]))
    else BinNode.hashOnly ((BinNode.branch z o).hash H)
  | _, BinNode.hashOnly d => BinNode.hashOnly d

/-- Modelled from the spec: a node in the stream: a byte for the variant, what the node holds,
then its children. -/
def writeNode : BinNode → Bytes
  | BinNode.empty => [0]
  | BinNode.leaf p v => 1 :: (writeBits p ++ writeBytes v)
  | BinNode.account p a st => 2 :: (writeBits p ++ (writeAccount a ++ writeNode st))
  | BinNode.ext p c => 3 :: (writeBits p ++ writeNode c)
  | BinNode.branch z o => 4 :: (writeNode z ++ writeNode o)
  | BinNode.hashOnly d => 5 :: d.val

/-- Modelled from the spec: reads what `writeNode` wrote, through at most `fuel` levels of
nodes. -/
def readNode : Nat → Bytes → Option (BinNode × Bytes)
  | 0, _ => none
  | _ + 1, [] => none
  | fuel + 1, tag :: rest =>
    if tag = 0 then some (BinNode.empty, rest)
    else if tag = 1 then
      (readBits rest).bind fun r1 =>
      (readBytes r1.2).bind fun r2 => some (BinNode.leaf r1.1 r2.1, r2.2)
    else if tag = 2 then
      (readBits rest).bind fun r1 =>
      (readAccount r1.2).bind fun r2 =>
      (readNode fuel r2.2).bind fun r3 => some (BinNode.account r1.1 r2.1 r3.1, r3.2)
    else if tag = 3 then
      (readBits rest).bind fun r1 =>
      (readNode fuel r1.2).bind fun r2 => some (BinNode.ext r1.1 r2.1, r2.2)
    else if tag = 4 then
      (readNode fuel rest).bind fun r1 =>
      (readNode fuel r1.2).bind fun r2 => some (BinNode.branch r1.1 r2.1, r2.2)
    else if tag = 5 then
      (readHash rest).bind fun r1 => some (BinNode.hashOnly r1.1, r1.2)
    else none

/-- The number of levels of nodes below a node. -/
def BinNode.depth : BinNode → Nat
  | BinNode.empty => 0
  | BinNode.leaf _ _ => 0
  | BinNode.account _ _ st => st.depth + 1
  | BinNode.ext _ c => c.depth + 1
  | BinNode.branch z o => max z.depth o.depth + 1
  | BinNode.hashOnly _ => 0

/-- Modelled from the spec: the code map in the stream: the number of entries, then each code
hash with its code. -/
def writeCodes (codeMap : List (Hash × Bytes)) : Bytes :=
  writeNat codeMap.length ++ codeMap.flatMap (fun e => e.1.val ++ writeBytes e.2)

/-- Modelled from the spec: reads `n` entries of a code map. -/
def readCodeEntries : Nat → Bytes → Option (List (Hash × Bytes) × Bytes)
  | 0, l => some ([], l)
  | n + 1, l =>
    (readHash l).bind fun r1 =>
    (readBytes r1.2).bind fun r2 =>
    (readCodeEntries n r2.2).bind fun r3 => some ((r1.1, r2.1) :: r3.1, r3.2)

/-- Modelled from the spec: reads what `writeCodes` wrote. -/
def readCodes (l : Bytes) : Option (List (Hash × Bytes) × Bytes) :=
  (readNat l).bind fun r => readCodeEntries r.1 r.2

/-- Modelled from the spec: the witness that `MakeBlockWitnessBin(trBin, rs, codeMap)` leaves
in the builder: the trie restricted to the resolve set, and the code map (the entries of the
map as a list). -/
structure BlockWitnessBuilder where
  trie : BinNode
  codeMap : List (Hash × Bytes)

/-- Modelled from the spec: `bwb.MakeBlockWitnessBin(trBin, rs, codeMap)`. -/
def MakeBlockWitnessBin (H : Bytes → Hash) (trBin : BinNode) (rs : ResolveSet)
    (codeMap : List (Hash × Bytes)) : BlockWitnessBuilder :=
  { trie := trBin.prune H rs [], codeMap := codeMap }

/-- Modelled from the spec: `bwb.WriteTo(&b)`: the bytes written, and as statistics the sizes
of the section of the trie and of the section of the codes. -/
def BlockWitnessBuilder.WriteTo (bwb : BlockWitnessBuilder) : Bytes × Nat × Nat :=
  (writeNode bwb.trie ++ writeCodes bwb.codeMap, (writeNode bwb.trie).length,
    (writeCodes bwb.codeMap).length)

/-- Modelled from the spec: `BlockWitnessToTrieBin(bytes)`: the trie and the code map that
the bytes of a witness hold; `none` is the error. -/
def BlockWitnessToTrieBin (bytes : Bytes) : Option (BinNode × List (Hash × Bytes)) :=
  (readNode bytes.length bytes).bind fun r1 =>
  (readCodes r1.2).bind fun r2 => if r2.2 = [] then some (r1.1, r2.1) else none

/-- The part of `ExtractWitness` with `bin` set that follows the extraction of the touches
and of the code map from the proof generator: the touches and the storage touches are added
to a binary resolve set made with `NewBinaryResolveSet(0)`, the witness is made of the binary
trie `HexToBin(tds.t)` and written; the result is the bytes and the statistics. -/
def ExtractWitnessBin (H : Bytes → Hash) (trBin : BinNode) (touches storageTouches : List Bytes)
    (codeMap : List (Hash × Bytes)) : Bytes × Nat × Nat :=
  let rs := NewBinaryResolveSet 0
  let rs := touches.foldl (fun rs touch => rs.AddKey touch) rs
  let rs := storageTouches.foldl (fun rs touch => rs.AddKey touch) rs
  (MakeBlockWitnessBin H trBin rs codeMap).WriteTo

/-- The trie of the test of the witness: the two keys `ABCD0001` and `ABCE0002` (their bytes
in ASCII) under a common extension, the first holding `val1`, the second `val2`. -/
def sampleBinTrie : BinNode :=
  BinNode.ext ((keyBits [65, 66, 67, 68]).take 31)
    (BinNode.branch
      (BinNode.leaf (keyBits [48, 48, 48, 49]) [118, 97, 108, 49])
      (BinNode.leaf (keyBits [48, 48, 48, 50]) [118, 97, 108, 50]))

/-- The key `ABCD0001` of the test of the witness, its bytes in ASCII. -/
def sampleKey1 : Bytes := [65, 66, 67, 68, 48, 48, 48, 49]

/-- The key `ABCE0002` of the test of the witness. -/
def sampleKey2 : Bytes := [65, 66, 67, 69, 48, 48, 48, 50]

/-- The resolve set of the test of the witness: `NewBinaryResolveSet(2)` with the first key
added. -/
def sampleResolveSet : ResolveSet := (NewBinaryResolveSet 2).AddKey sampleKey1

/-- The account of the test of the witness for accounts: a new account with the balance
1000000. -/
def sampleWitnessAccount : Account :=
  { Initialised := true, Nonce := 0, Balance := 1000000, Root := Hash.ofByte 1,
    CodeHash := Hash.ofByte 2, Incarnation := 0 }

/-- The trie of the test of the witness for accounts: the account under the first key. -/
def sampleAccountTrie : BinNode :=
  BinNode.account (keyBits sampleKey1) sampleWitnessAccount BinNode.empty

/-- The state of the instance with the listing trie after this run: in the first buffer the
account of the address of twenty bytes 1 is deleted; in the second buffer the account is
registered again, the contract created and its slot 2 written; then `ResolveStateTrie`. -/
def deletedThenCreatedState : TrieDbState sampleExt.logged :=
  ((TrieStateWriter.DeleteAccount loggedStartedState (Address.ofByte 1) none).bind fun r1 =>
    (TrieStateWriter.UpdateAccountData r1.1.StartNewBuffer (Address.ofByte 1) none
      (some 0)).bind fun r2 =>
    (TrieStateWriter.CreateContract r2.1 (Address.ofByte 1)).bind fun r3 =>
    (TrieStateWriter.WriteAccountStorage r3.1 (Address.ofByte 1) 1 (Hash.ofByte 2) Hash.zero
      (Hash.ofByte 7)).map fun r4 => r4.1.ResolveStateTrie.1).getD loggedStartedState

/-- The state of the instance with the listing trie after this run, all in one buffer: the
account of the address of twenty bytes 1 is deleted, registered again, the contract created
and its slot 2 written; then `ResolveStateTrie`. -/
def deletedCreatedInOneState : TrieDbState sampleExt.logged :=
  ((TrieStateWriter.DeleteAccount loggedStartedState (Address.ofByte 1) none).bind fun r1 =>
    (TrieStateWriter.UpdateAccountData r1.1 (Address.ofByte 1) none (some 0)).bind fun r2 =>
    (TrieStateWriter.CreateContract r2.1 (Address.ofByte 1)).bind fun r3 =>
    (TrieStateWriter.WriteAccountStorage r3.1 (Address.ofByte 1) 1 (Hash.ofByte 2) Hash.zero
      (Hash.ofByte 7)).map fun r4 => r4.1.ResolveStateTrie.1).getD loggedStartedState

/-! ## Contents of maps and buffers -/

/-- Two maps hold the same entries, whatever the iteration order. -/
def GoMap.sameContents {K V : Type} [DecidableEq K] (m₁ m₂ : GoMap K V) : Prop :=
  ∀ k, m₁.get? k = m₂.get? k

/-- Two maps of maps have the same outer keys and inner maps with the same entries. -/
def GoMap.sameNested {K V : Type} [DecidableEq K] (m₁ m₂ : GoMap K (GoMap K V)) : Prop :=
  ∀ a, (m₁.get? a).map GoMap.get? = (m₂.get? a).map GoMap.get?

/-- Two buffers hold the same contents. -/
def Buffer.sameContents (b₁ b₂ : Buffer) : Prop :=
  GoMap.sameNested b₁.storageUpdates b₂.storageUpdates ∧
  GoMap.sameNested b₁.storageReads b₂.storageReads ∧
  GoMap.sameContents b₁.accountUpdates b₂.accountUpdates ∧
  GoMap.sameContents b₁.accountReads b₂.accountReads ∧
  GoMap.sameContents b₁.deleted b₂.deleted ∧
  GoMap.sameContents b₁.created b₂.created

/-- The storage write pending for a slot: `none` when the address or the slot has no entry. -/
def Buffer.storageWrite? (b : Buffer) (addrHash keyHash : Hash) : Option (Option Bytes) :=
  (b.storageUpdates.get? addrHash).bind (fun m => m.get? keyHash)

/-- Whether the slot is in the read set of the address. -/
def Buffer.storageRead (b : Buffer) (addrHash keyHash : Hash) : Bool :=
  ((b.storageReads.get? addrHash).bind (fun m => m.get? keyHash)).isSome

/-! ## The touches as lists of pairs -/

/-- The pairs (outer key, inner key) of a map of maps that `sel` keeps, in iteration order. -/
def nestedPairs {V : Type} (M : GoMap Hash (GoMap Hash V)) (sel : Hash → Hash → Bool) :
    List (Hash × Hash) :=
  M.entries.flatMap (fun e => (e.2.keys.filter (sel e.1)).map (fun k => (e.1, k)))

/-- Whether the slot has a pending write in the buffer: the test on `mWrite`. -/
def Buffer.written (b : Buffer) (addrHash keyHash : Hash) : Bool :=
  match b.storageUpdates.get? addrHash with
  | some mw => mw.contains keyHash
  | none => false

/-- The pairs that the first loop of `buildStorageTouches` emits. -/
def updatePairs (b : Buffer) (withValues : Bool) : List (Hash × Hash) :=
  nestedPairs b.storageUpdates (fun a _ => !(withValues && b.deleted.contains a))

/-- The pairs that the second loop of `buildStorageTouches` emits. -/
def readPairs (b : Buffer) : List (Hash × Hash) :=
  nestedPairs b.storageReads (fun a k => !(b.written a k))

/-- What the first loop of `buildAccountTouches` emits for one account update. -/
def updateTouches (b : Buffer) (e : Hash × Option AccountRef) : List Hash :=
  if (e.2.isSome && b.deleted.contains e.1) = true then [e.1, e.1] else [e.1]

/-- What the second loop of `buildAccountTouches` emits for one account read. -/
def readTouches (b : Buffer) (e : Hash × Unit) : List Hash :=
  if b.accountUpdates.contains e.1 = true then [] else [e.1]

/-! ## Lemmas on maps -/

section MapLemmas

variable {K V : Type} [DecidableEq K]

theorem alLookup_alAssign (k k' : K) (v : V) (l : List (K × V)) :
    alLookup k' (alAssign k v l) = if k' = k then some v else alLookup k' l := by
  induction l with
  | nil =>
    by_cases h : k' = k
    · simp [alAssign, alLookup, h]
    · have h2 : ¬ k = k' := fun h3 => h h3.symm
      simp [alAssign, alLookup, h, h2]
  | cons e rest ih =>
    by_cases he : e.1 = k
    · by_cases h : k' = k
      · simp [alAssign, alLookup, he, h]
      · have h2 : ¬ k = k' := fun h3 => h h3.symm
        simp [alAssign, alLookup, he, h, h2]
    · by_cases h : k' = k
      · subst h
        simp [alAssign, alLookup, he, ih]
      · simp [alAssign, alLookup, he, ih, h]

theorem alLookup_alDelete (k k' : K) (l : List (K × V)) :
    alLookup k' (alDelete k l) = if k' = k then none else alLookup k' l := by
  induction l with
  | nil => simp [alDelete, alLookup]
  | cons e rest ih =>
    by_cases he : e.1 = k
    · by_cases h : k' = k
      · rw [h] at ih ⊢
        simpa [alDelete, he] using ih
      · have h2 : ¬ k = k' := fun h3 => h h3.symm
        simp [alDelete, alLookup, he, ih, h, h2]
    · by_cases h : k' = k
      · subst h
        simp [alDelete, alLookup, he, ih]
      · simp [alDelete, alLookup, he, ih, h]

theorem alLookup_eq_none_of_not_mem (k : K) (l : List (K × V)) (h : k ∉ l.map Prod.fst) :
    alLookup k l = none := by
  induction l with
  | nil => rfl
  | cons e rest ih =>
    simp only [List.map_cons, List.mem_cons, not_or] at h
    have h1 : ¬ e.1 = k := fun h3 => h.1 h3.symm
    simp [alLookup, h1, ih h.2]

theorem alLookup_isSome_iff (k : K) (l : List (K × V)) :
    (alLookup k l).isSome = true ↔ k ∈ l.map Prod.fst := by
  induction l with
  | nil => simp [alLookup]
  | cons e rest ih =>
    by_cases he : e.1 = k
    · simp [alLookup, he]
    · have h2 : ¬ k = e.1 := fun h3 => he h3.symm
      simp only [alLookup, he, if_false, ih, List.map_cons, List.mem_cons, h2, false_or]

theorem alLookup_eq_some_iff (k : K) (v : V) (l : List (K × V)) (hl : (l.map Prod.fst).Nodup) :
    alLookup k l = some v ↔ (k, v) ∈ l := by
  induction l with
  | nil => simp [alLookup]
  | cons e rest ih =>
    rw [List.map_cons, List.nodup_cons] at hl
    by_cases he : e.1 = k
    · have hnot : ∀ w, (k, w) ∉ rest := fun w hw =>
        hl.1 (he ▸ List.mem_map_of_mem Prod.fst hw)
      simp only [alLookup, he, if_true, List.mem_cons]
      constructor
      · intro h
        left
        cases e
        simp at h he
        simp [h, he]
      · intro h
        rcases h with h | h
        · rw [← h]
        · exact absurd h (hnot v)
    · simp only [alLookup, he, if_false, List.mem_cons, ih hl.2]
      constructor
      · exact fun h => Or.inr h
      · intro h
        rcases h with h | h
        · exact absurd (by rw [← h]) he
        · exact h

@[simp] theorem GoMap.get?_empty (k : K) : (GoMap.empty : GoMap K V).get? k = none := rfl

theorem GoMap.get?_set (m : GoMap K V) (k k' : K) (v : V) :
    (m.set k v).get? k' = if k' = k then some v else m.get? k' :=
  alLookup_alAssign k k' v m.entries

theorem GoMap.get?_delete (m : GoMap K V) (k k' : K) :
    (m.delete k).get? k' = if k' = k then none else m.get? k' :=
  alLookup_alDelete k k' m.entries

theorem GoMap.contains_iff_mem_keys (m : GoMap K V) (k : K) :
    m.contains k = true ↔ k ∈ m.keys :=
  alLookup_isSome_iff k m.entries

theorem GoMap.get?_eq_some_iff (m : GoMap K V) (k : K) (v : V) :
    m.get? k = some v ↔ (k, v) ∈ m.entries :=
  alLookup_eq_some_iff k v m.entries m.nodup

theorem foldl_set_get? (l : List (K × V)) (hl : (l.map Prod.fst).Nodup) (m : GoMap K V) (k : K) :
    (l.foldl (fun m e => m.set e.1 e.2) m).get? k = (alLookup k l).or (m.get? k) := by
  induction l generalizing m with
  | nil => simp [alLookup]
  | cons e rest ih =>
    rw [List.map_cons, List.nodup_cons] at hl
    rw [List.foldl_cons, ih hl.2, GoMap.get?_set]
    by_cases he : e.1 = k
    · subst he
      simp [alLookup, alLookup_eq_none_of_not_mem _ _ hl.1]
    · have h2 : ¬ k = e.1 := fun h3 => he h3.symm
      simp [alLookup, he, h2]

end MapLemmas

theorem Buffer.mergeInto_get? {V : Type} (m om : GoMap Hash V) (k : Hash) :
    (Buffer.mergeInto m om).get? k = (om.get? k).or (m.get? k) :=
  foldl_set_get? om.entries om.nodup m k

theorem Buffer.mergeNested_get?_aux {V : Type} (l : List (Hash × GoMap Hash V))
    (hl : (l.map Prod.fst).Nodup) (bm : GoMap Hash (GoMap Hash V)) (a : Hash) :
    (l.foldl (fun bm e =>
        match bm.get? e.1 with
        | some m => bm.set e.1 (Buffer.mergeInto m e.2)
        | none => (bm.set e.1 GoMap.empty).set e.1 (Buffer.mergeInto GoMap.empty e.2)) bm).get? a =
      match alLookup a l with
      | some om => some (Buffer.mergeInto ((bm.get? a).getD GoMap.empty) om)
      | none => bm.get? a := by
  induction l generalizing bm with
  | nil => simp [alLookup]
  | cons e rest ih =>
    rw [List.map_cons, List.nodup_cons] at hl
    rw [List.foldl_cons, ih hl.2]
    by_cases he : e.1 = a
    · subst he
      rw [alLookup_eq_none_of_not_mem _ _ hl.1]
      cases hb : bm.get? e.1 <;> simp [alLookup, GoMap.get?_set]
    · have h2 : ¬ a = e.1 := fun h3 => he h3.symm
      cases hb : bm.get? e.1 <;> simp [alLookup, he, h2, GoMap.get?_set]

theorem Buffer.mergeNested_get? {V : Type} (bm other : GoMap Hash (GoMap Hash V)) (a : Hash) :
    (Buffer.mergeNested bm other).get? a =
      match other.get? a with
      | some om => some (Buffer.mergeInto ((bm.get? a).getD GoMap.empty) om)
      | none => bm.get? a :=
  Buffer.mergeNested_get?_aux other.entries other.nodup bm a

theorem Buffer.mergeInto_contains {V : Type} (m om : GoMap Hash V) (k : Hash) :
    (Buffer.mergeInto m om).contains k = (m.contains k || om.contains k) := by
  unfold GoMap.contains
  rw [Buffer.mergeInto_get?]
  cases om.get? k <;> cases m.get? k <;> rfl

theorem Buffer.mergeNested_contains {V : Type} (bm other : GoMap Hash (GoMap Hash V)) (a : Hash) :
    (Buffer.mergeNested bm other).contains a = (bm.contains a || other.contains a) := by
  unfold GoMap.contains
  rw [Buffer.mergeNested_get?]
  cases other.get? a <;> cases bm.get? a <;> rfl

theorem Buffer.mergeNested_bind_get? {V : Type} (bm other : GoMap Hash (GoMap Hash V))
    (a k : Hash) :
    ((Buffer.mergeNested bm other).get? a).bind (fun m => m.get? k) =
      ((other.get? a).bind (fun m => m.get? k)).or ((bm.get? a).bind (fun m => m.get? k)) := by
  rw [Buffer.mergeNested_get?]
  cases other.get? a <;> cases bm.get? a <;> simp [Buffer.mergeInto_get?]

theorem Buffer.mergeInto_assoc {V : Type} (m a b : GoMap Hash V) :
    GoMap.sameContents (Buffer.mergeInto (Buffer.mergeInto m a) b)
      (Buffer.mergeInto m (Buffer.mergeInto a b)) := by
  intro k
  simp only [Buffer.mergeInto_get?, Option.or_assoc]

theorem Buffer.mergeNested_assoc {V : Type} (m a b : GoMap Hash (GoMap Hash V)) :
    GoMap.sameNested (Buffer.mergeNested (Buffer.mergeNested m a) b)
      (Buffer.mergeNested m (Buffer.mergeNested a b)) := by
  intro x
  simp only [Buffer.mergeNested_get?]
  cases b.get? x <;> cases a.get? x <;> cases m.get? x <;>
    simp only [Option.map_some', Option.map_none', Option.getD_some, Option.getD_none,
      Option.some.injEq] <;>
    first
      | rfl
      | (funext k; simp [Buffer.mergeInto_get?, Option.or_assoc])

/-- C3: after `b.merge(other)` every storage write and every account update of `other` is in
`b` with the value of `other`, entries of `b` whose key is absent from `other` are unchanged,
and the storage reads (per address), account reads, deleted and created sets are the unions
of the sets of `b` and `other`; an address has an inner map of storage writes or reads after
the call exactly when it had one in `b` or in `other`. -/
theorem Buffer.merge_overwrites_and_unions (b other : Buffer) :
    (∀ a k v, other.storageWrite? a k = some v → (b.merge other).storageWrite? a k = some v) ∧
    (∀ a k, other.storageWrite? a k = none →
      (b.merge other).storageWrite? a k = b.storageWrite? a k) ∧
    (∀ a, (b.merge other).storageUpdates.contains a =
      (b.storageUpdates.contains a || other.storageUpdates.contains a)) ∧
    (∀ a v, other.accountUpdates.get? a = some v → (b.merge other).accountUpdates.get? a = some v) ∧
    (∀ a, other.accountUpdates.get? a = none →
      (b.merge other).accountUpdates.get? a = b.accountUpdates.get? a) ∧
    (∀ a k, (b.merge other).storageRead a k = (b.storageRead a k || other.storageRead a k)) ∧
    (∀ a, (b.merge other).storageReads.contains a =
      (b.storageReads.contains a || other.storageReads.contains a)) ∧
    (∀ a, (b.merge other).accountReads.contains a =
      (b.accountReads.contains a || other.accountReads.contains a)) ∧
    (∀ a, (b.merge other).deleted.contains a = (b.deleted.contains a || other.deleted.contains a)) ∧
    (∀ a, (b.merge other).created.contains a = (b.created.contains a || other.created.contains a)) := by
  refine ⟨?_, ?_, ?_, ?_, ?_, ?_, ?_, ?_, ?_, ?_⟩
  · intro a k v h
    unfold Buffer.storageWrite? at h ⊢
    simp only [Buffer.merge, Buffer.mergeNested_bind_get?, h, Option.or_some]
  · intro a k h
    unfold Buffer.storageWrite? at h ⊢
    simp only [Buffer.merge, Buffer.mergeNested_bind_get?, h, Option.none_or]
  · intro a
    exact Buffer.mergeNested_contains _ _ a
  · intro a v h
    simp only [Buffer.merge, Buffer.mergeInto_get?, h, Option.or_some]
  · intro a h
    simp only [Buffer.merge, Buffer.mergeInto_get?, h, Option.none_or]
  · intro a k
    unfold Buffer.storageRead
    simp only [Buffer.merge, Buffer.mergeNested_bind_get?]
    cases (other.storageReads.get? a).bind (fun m => m.get? k) <;>
      cases (b.storageReads.get? a).bind (fun m => m.get? k) <;> rfl
  · intro a
    exact Buffer.mergeNested_contains _ _ a
  · intro a
    exact Buffer.mergeInto_contains _ _ a
  · intro a
    exact Buffer.mergeInto_contains _ _ a
  · intro a
    exact Buffer.mergeInto_contains _ _ a

/-- C4: buffer merge is associative: merging `b` into `a` and then `c` gives the same buffer
contents as merging `c` into `b` first and the result into `a`. -/
theorem Buffer.merge_assoc (a b c : Buffer) :
    Buffer.sameContents ((a.merge b).merge c) (a.merge (b.merge c)) :=
  ⟨Buffer.mergeNested_assoc _ _ _, Buffer.mergeNested_assoc _ _ _, Buffer.mergeInto_assoc _ _ _,
    Buffer.mergeInto_assoc _ _ _, Buffer.mergeInto_assoc _ _ _, Buffer.mergeInto_assoc _ _ _⟩

/-! ## Lemmas on byte order and sorting -/

theorem bytesLess_iff_lex (a b : Bytes) :
    bytesLess a b = true ↔ List.Lex (fun x y : Byte => x < y) a b := by
  induction a generalizing b with
  | nil =>
    cases b with
    | nil => simp [bytesLess]
    | cons y ys => simp [bytesLess, List.Lex.nil]
  | cons x xs ih =>
    cases b with
    | nil => simp [bytesLess]
    | cons y ys =>
      unfold bytesLess
      by_cases h1 : x < y
      · simp only [h1, if_true, true_iff]
        exact List.Lex.rel h1
      · by_cases h2 : y < x
        · simp only [h1, h2, if_true, if_false, Bool.false_eq_true, false_iff]
          intro h
          cases h with
          | cons _ => exact lt_irrefl _ h2
          | rel h3 => exact h1 h3
        · have hxy : x = y := le_antisymm (not_lt.mp h2) (not_lt.mp h1)
          subst hxy
          simp only [h1, if_false, ih]
          constructor
          · exact fun h => List.Lex.cons h
          · intro h
            cases h with
            | cons h3 => exact h3
            | rel h3 => exact absurd h3 h1

theorem bytesLess_irrefl (a : Bytes) : bytesLess a a = false := by
  rw [← Bool.not_eq_true, bytesLess_iff_lex]
  exact irrefl (r := List.Lex (fun x y : Byte => x < y)) a

theorem bytesLess_trans {a b c : Bytes} (h1 : bytesLess a b = true) (h2 : bytesLess b c = true) :
    bytesLess a c = true := by
  rw [bytesLess_iff_lex] at *
  exact IsTrans.trans (r := List.Lex (fun x y : Byte => x < y)) _ _ _ h1 h2

theorem bytesLess_trichotomy (a b : Bytes) :
    bytesLess a b = true ∨ a = b ∨ bytesLess b a = true := by
  simp only [bytesLess_iff_lex]
  exact trichotomous (r := List.Lex (fun x y : Byte => x < y)) a b

theorem bytesLess_asymm {a b : Bytes} (h1 : bytesLess a b = true) : bytesLess b a = false := by
  rw [← Bool.not_eq_true]
  intro h2
  have h3 := bytesLess_trans h1 h2
  rw [bytesLess_irrefl] at h3
  exact Bool.noConfusion h3

theorem bytesLe_total (a b : Bytes) : bytesLe a b ∨ bytesLe b a := by
  unfold bytesLe
  cases h : bytesLess b a
  · exact Or.inl rfl
  · exact Or.inr (bytesLess_asymm h)

theorem bytesLe_trans {a b c : Bytes} (h1 : bytesLe a b) (h2 : bytesLe b c) : bytesLe a c := by
  unfold bytesLe at *
  rw [← Bool.not_eq_true] at *
  intro h
  rcases bytesLess_trichotomy a b with h3 | h3 | h3
  · exact h2 (bytesLess_trans h h3)
  · subst h3
    exact h2 h
  · exact h1 h3

theorem bytesLess_of_le_of_ne {a b : Bytes} (h1 : bytesLe a b) (h2 : a ≠ b) :
    bytesLess a b = true := by
  unfold bytesLe at h1
  rcases bytesLess_trichotomy a b with h3 | h3 | h3
  · exact h3
  · exact absurd h3 h2
  · rw [h1] at h3
    exact Bool.noConfusion h3

theorem sortByBytes_perm {n : Nat} (l : List { b : Bytes // b.length = n }) :
    (sortByBytes l).Perm l :=
  List.perm_insertionSort _ l

theorem sortByBytes_ascending {n : Nat} (l : List { b : Bytes // b.length = n }) :
    Ascending ((sortByBytes l).map Subtype.val) := by
  have _i1 : IsTotal { b : Bytes // b.length = n } (fun a b => bytesLe a.val b.val) :=
    ⟨fun a b => bytesLe_total a.val b.val⟩
  have _i2 : IsTrans { b : Bytes // b.length = n } (fun a b => bytesLe a.val b.val) :=
    ⟨fun _ _ _ h1 h2 => bytesLe_trans h1 h2⟩
  have h := List.sorted_insertionSort (fun a b : { b : Bytes // b.length = n } => bytesLe a.val b.val) l
  unfold Ascending
  rw [List.pairwise_map]
  exact h

theorem sortByBytes_strictAscending {n : Nat} (l : List { b : Bytes // b.length = n })
    (hl : l.Nodup) : StrictAscending ((sortByBytes l).map Subtype.val) := by
  have h1 := sortByBytes_ascending l
  have h2 : (sortByBytes l).Nodup := (sortByBytes_perm l).nodup_iff.mpr hl
  unfold StrictAscending
  unfold Ascending at h1
  rw [List.pairwise_map] at h1 ⊢
  have h3 := List.Pairwise.and h1 h2
  exact h3.imp (fun {a b} h => bytesLess_of_le_of_ne h.1 (fun hab => h.2 (Subtype.ext hab)))

/-! ## Lemmas on the touches -/

theorem foldl_append_flatMap {A B : Type} (step : List B → A → List B) (F : A → List B)
    (h : ∀ acc x, step acc x = acc ++ F x) (init : List B) (l : List A) :
    l.foldl step init = init ++ l.flatMap F := by
  induction l generalizing init with
  | nil => simp
  | cons x rest ih => rw [List.foldl_cons, h, ih, List.flatMap_cons, List.append_assoc]

theorem flatMap_singleton_eq_map {A B : Type} (g : A → B) (l : List A) :
    l.flatMap (fun x => [g x]) = l.map g := by
  induction l with
  | nil => rfl
  | cons x rest ih => rw [List.flatMap_cons, ih]; rfl

theorem nestedPairs_nodup {V : Type} (M : GoMap Hash (GoMap Hash V)) (sel : Hash → Hash → Bool) :
    (nestedPairs M sel).Nodup := by
  unfold nestedPairs
  rw [List.nodup_flatMap]
  constructor
  · intro e _
    refine List.Nodup.map ?_ (e.2.nodup.filter _)
    intro k1 k2 h
    exact (Prod.mk.injEq _ _ _ _ ▸ h).2
  · have h := M.nodup
    unfold List.Nodup at h
    rw [List.pairwise_map] at h
    refine h.imp ?_
    intro e1 e2 hne x h1 h2
    simp only [List.mem_map, List.mem_filter] at h1 h2
    obtain ⟨k1, _, rfl⟩ := h1
    obtain ⟨k2, _, h3⟩ := h2
    exact hne (Prod.mk.injEq _ _ _ _ ▸ h3).1.symm

theorem nestedPairs_mem {V : Type} (M : GoMap Hash (GoMap Hash V)) (sel : Hash → Hash → Bool)
    (a k : Hash) :
    (a, k) ∈ nestedPairs M sel ↔
      ∃ m, M.get? a = some m ∧ m.contains k = true ∧ sel a k = true := by
  unfold nestedPairs
  simp only [List.mem_flatMap, List.mem_map, List.mem_filter, Prod.mk.injEq]
  constructor
  · rintro ⟨e, he, k', ⟨hk', hsel⟩, rfl, rfl⟩
    refine ⟨e.2, (GoMap.get?_eq_some_iff M e.1 e.2).mpr he, ?_, hsel⟩
    exact (GoMap.contains_iff_mem_keys e.2 k').mpr hk'
  · rintro ⟨m, hm, hk, hsel⟩
    refine ⟨(a, m), (GoMap.get?_eq_some_iff M a m).mp hm, k, ⟨?_, hsel⟩, rfl, rfl⟩
    exact (GoMap.contains_iff_mem_keys m k).mp hk

theorem StorageKey.make_injective (a k a' k' : Hash) (h : StorageKey.make a k = StorageKey.make a' k') :
    a = a' ∧ k = k' := by
  have h1 : a.val ++ k.val = a'.val ++ k'.val := congrArg Subtype.val h
  have h2 := List.append_inj h1 (a.property.trans a'.property.symm)
  exact ⟨Subtype.ext h2.1, Subtype.ext h2.2⟩

theorem buildStorageTouches_keys (b : Buffer) (withReads withValues : Bool) :
    (buildStorageTouches b withReads withValues).1 =
      sortByBytes ((updatePairs b withValues ++ if withReads then readPairs b else []).map
        (fun p => StorageKey.make p.1 p.2)) := by
  have h1 : ∀ (l : List (Hash × GoMap Hash (Option Bytes))) (init : List StorageKey),
      l.foldl (fun touches e =>
        if withValues && b.deleted.contains e.1 then touches
        else e.2.entries.foldl (fun touches kv => touches ++ [StorageKey.make e.1 kv.1]) touches)
        init =
      init ++ l.flatMap (fun e =>
        ((e.2.keys.filter (fun _ => !(withValues && b.deleted.contains e.1))).map
          (fun k => (e.1, k))).map (fun p => StorageKey.make p.1 p.2)) := by
    intro l init
    apply foldl_append_flatMap
    intro acc e
    by_cases hc : (withValues && b.deleted.contains e.1) = true
    · simp [hc]
    · rw [if_neg hc]
      have h := foldl_append_flatMap
        (fun (touches : List StorageKey) (kv : Hash × Option Bytes) =>
          touches ++ [StorageKey.make e.1 kv.1])
        (fun kv => [StorageKey.make e.1 kv.1]) (fun _ _ => rfl) acc e.2.entries
      rw [h, flatMap_singleton_eq_map]
      simp [hc, GoMap.keys, List.map_map, Function.comp_def]
  have h2 : ∀ (l : List (Hash × GoMap Hash Unit)) (init : List StorageKey),
      l.foldl (fun touches e =>
        let mWrite := b.storageUpdates.get? e.1
        e.2.entries.foldl (fun touches kv =>
          match mWrite with
          | some mw =>
            if mw.contains kv.1 then touches else touches ++ [StorageKey.make e.1 kv.1]
          | none => touches ++ [StorageKey.make e.1 kv.1]) touches) init =
      init ++ l.flatMap (fun e =>
        ((e.2.keys.filter (fun k => !(b.written e.1 k))).map
          (fun k => (e.1, k))).map (fun p => StorageKey.make p.1 p.2)) := by
    intro l init
    apply foldl_append_flatMap
    intro acc e
    have h := foldl_append_flatMap
      (fun (touches : List StorageKey) (kv : Hash × Unit) =>
        match b.storageUpdates.get? e.1 with
        | some mw =>
          if mw.contains kv.1 then touches else touches ++ [StorageKey.make e.1 kv.1]
        | none => touches ++ [StorageKey.make e.1 kv.1])
      (fun kv => if b.written e.1 kv.1 then [] else [StorageKey.make e.1 kv.1])
      (by
        intro acc2 kv
        unfold Buffer.written
        cases b.storageUpdates.get? e.1 with
        | none => simp
        | some mw => by_cases hc : mw.contains kv.1 = true <;> simp [hc])
      acc e.2.entries
    simp only
    rw [h]
    congr 1
    simp only [GoMap.keys, List.map_map, List.filter_map, Function.comp_def]
    generalize e.2.entries = l2
    induction l2 with
    | nil => rfl
    | cons kv rest ih =>
      rw [List.flatMap_cons, ih]
      by_cases hw : b.written e.1 kv.1 = true <;> simp [hw, List.filter_cons]
  unfold buildStorageTouches
  simp only [h1, h2]
  congr 1
  cases withReads <;>
    simp [updatePairs, readPairs, nestedPairs, List.map_flatMap, List.map_append]

theorem Buffer.written_iff (b : Buffer) (a k : Hash) :
    b.written a k = true ↔ ∃ m, b.storageUpdates.get? a = some m ∧ m.contains k = true := by
  unfold Buffer.written
  cases b.storageUpdates.get? a <;> simp

theorem Buffer.written_eq_isSome (b : Buffer) (a k : Hash) :
    b.written a k = (b.storageWrite? a k).isSome := by
  unfold Buffer.written Buffer.storageWrite? GoMap.contains
  cases b.storageUpdates.get? a <;> simp

theorem Buffer.storageRead_iff (b : Buffer) (a k : Hash) :
    b.storageRead a k = true ↔ ∃ m, b.storageReads.get? a = some m ∧ m.contains k = true := by
  unfold Buffer.storageRead GoMap.contains
  cases b.storageReads.get? a <;> simp

theorem updatePairs_mem (b : Buffer) (withValues : Bool) (a k : Hash) :
    (a, k) ∈ updatePairs b withValues ↔
      b.written a k = true ∧ (withValues && b.deleted.contains a) = false := by
  unfold updatePairs
  rw [nestedPairs_mem, Buffer.written_iff]
  constructor
  · rintro ⟨m, h1, h2, h3⟩
    refine ⟨⟨m, h1, h2⟩, ?_⟩
    cases hc : (withValues && b.deleted.contains a)
    · rfl
    · rw [hc] at h3
      exact Bool.noConfusion h3
  · rintro ⟨⟨m, h1, h2⟩, h3⟩
    exact ⟨m, h1, h2, by rw [h3]; rfl⟩

theorem readPairs_mem (b : Buffer) (a k : Hash) :
    (a, k) ∈ readPairs b ↔ b.storageRead a k = true ∧ b.written a k = false := by
  unfold readPairs
  rw [nestedPairs_mem, Buffer.storageRead_iff]
  constructor
  · rintro ⟨m, h1, h2, h3⟩
    exact ⟨⟨m, h1, h2⟩, by simpa using h3⟩
  · rintro ⟨⟨m, h1, h2⟩, h3⟩
    exact ⟨m, h1, h2, by simp [h3]⟩

theorem storagePairs_nodup (b : Buffer) (withReads withValues : Bool) :
    (updatePairs b withValues ++ if withReads then readPairs b else []).Nodup := by
  rw [List.nodup_append]
  refine ⟨nestedPairs_nodup _ _, ?_, ?_⟩
  · cases withReads
    · exact List.nodup_nil
    · rw [if_pos rfl]
      exact nestedPairs_nodup b.storageReads _
  · intro p h1 h2
    cases withReads
    · simp at h2
    · obtain ⟨a, k⟩ := p
      rw [updatePairs_mem] at h1
      simp only [if_true] at h2
      rw [readPairs_mem] at h2
      rw [h1.1] at h2
      exact Bool.noConfusion h2.2

theorem storageKeys_nodup (b : Buffer) (withReads withValues : Bool) :
    ((updatePairs b withValues ++ if withReads then readPairs b else []).map
      (fun p => StorageKey.make p.1 p.2)).Nodup := by
  refine List.Nodup.map ?_ (storagePairs_nodup b withReads withValues)
  intro p q h
  have h2 := StorageKey.make_injective _ _ _ _ h
  exact Prod.ext h2.1 h2.2

theorem buildStorageTouches_mem (b : Buffer) (withReads withValues : Bool) (a k : Hash) :
    StorageKey.make a k ∈ (buildStorageTouches b withReads withValues).1 ↔
      (b.written a k = true ∧ (withValues && b.deleted.contains a) = false) ∨
      (withReads = true ∧ b.storageRead a k = true ∧ b.written a k = false) := by
  rw [buildStorageTouches_keys, (sortByBytes_perm _).mem_iff, List.mem_map]
  constructor
  · rintro ⟨⟨a', k'⟩, h1, h2⟩
    obtain ⟨rfl, rfl⟩ := StorageKey.make_injective _ _ _ _ h2
    rw [List.mem_append] at h1
    rcases h1 with h1 | h1
    · exact Or.inl ((updatePairs_mem b withValues a' k').mp h1)
    · cases withReads
      · simp at h1
      · exact Or.inr ⟨rfl, (readPairs_mem b a' k').mp h1⟩
  · intro h
    refine ⟨(a, k), ?_, rfl⟩
    rw [List.mem_append]
    rcases h with h | ⟨h1, h2⟩
    · exact Or.inl ((updatePairs_mem b withValues a k).mpr h)
    · subst h1
      exact Or.inr ((readPairs_mem b a k).mpr h2)

/-- C5 (amended): for every aggregate buffer and all values of withReads and withValues,
`buildStorageTouches` returns its keys in strictly ascending byte order; a key that is in
both `storageReads[a]` and `storageUpdates[a]` occurs exactly once in the result, except
that it does not occur when withValues is set and `a` is in the deleted set. -/
theorem buildStorageTouches_strictAscending (b : Buffer) (withReads withValues : Bool) :
    StrictAscending ((buildStorageTouches b withReads withValues).1.map Subtype.val) ∧
    ∀ a k, b.storageRead a k = true → (b.storageWrite? a k).isSome = true →
      (buildStorageTouches b withReads withValues).1.count (StorageKey.make a k) =
        if (withValues && b.deleted.contains a) = true then 0 else 1 := by
  constructor
  · rw [buildStorageTouches_keys]
    exact sortByBytes_strictAscending _ (storageKeys_nodup b withReads withValues)
  · intro a k _ hw
    have hnd : (buildStorageTouches b withReads withValues).1.Nodup := by
      rw [buildStorageTouches_keys]
      exact (sortByBytes_perm _).nodup_iff.mpr (storageKeys_nodup b withReads withValues)
    rw [← Buffer.written_eq_isSome] at hw
    rw [List.count_eq_of_nodup hnd]
    have hm := buildStorageTouches_mem b withReads withValues a k
    by_cases hc : (withValues && b.deleted.contains a) = true
    · have : StorageKey.make a k ∉ (buildStorageTouches b withReads withValues).1 := by
        rw [hm]
        simp [hw, hc]
      simp [this, hc]
    · have : StorageKey.make a k ∈ (buildStorageTouches b withReads withValues).1 := by
        rw [hm]
        exact Or.inl ⟨hw, by simpa using hc⟩
      simp [this, hc]

/-- C6 (amended): with withValues = false, the call of `ResolveStateTrie`, no storage write
is skipped: the key of every storage write, of a deleted address or not, is among the
touches. The writes of deleted addresses are skipped with withValues = true, the call of
`CalcTrieRoots`. -/
theorem buildStorageTouches_deleted_writes (b : Buffer) (withReads : Bool) :
    (∀ a k, (b.storageWrite? a k).isSome = true →
      StorageKey.make a k ∈ (buildStorageTouches b withReads false).1) ∧
    (∀ a k, b.deleted.contains a = true → (b.storageWrite? a k).isSome = true →
      StorageKey.make a k ∉ (buildStorageTouches b withReads true).1) := by
  constructor
  · intro a k hw
    rw [← Buffer.written_eq_isSome] at hw
    rw [buildStorageTouches_mem]
    exact Or.inl ⟨hw, rfl⟩
  · intro a k hd hw
    rw [← Buffer.written_eq_isSome] at hw
    rw [buildStorageTouches_mem]
    simp [hw, hd]

theorem buildAccountTouches_keys (E : Ext) (b : Buffer) (heap : Heap) (withReads withValues : Bool) :
    (buildAccountTouches E b heap withReads withValues).1 =
      sortByBytes (b.accountUpdates.entries.flatMap (updateTouches b) ++
        if withReads then b.accountReads.entries.flatMap (readTouches b) else []) := by
  have h1 := foldl_append_flatMap
    (fun (touches : List Hash) (e : Hash × Option AccountRef) =>
      let touches :=
        if e.2.isSome && b.deleted.contains e.1 then touches ++ [e.1] else touches
      touches ++ [e.1])
    (updateTouches b)
    (by
      intro acc e
      unfold updateTouches
      by_cases hc : (e.2.isSome && b.deleted.contains e.1) = true <;> simp [hc])
    [] b.accountUpdates.entries
  have h2 := fun init => foldl_append_flatMap
    (fun (touches : List Hash) (e : Hash × Unit) =>
      if b.accountUpdates.contains e.1 then touches else touches ++ [e.1])
    (readTouches b)
    (by
      intro acc e
      unfold readTouches
      by_cases hc : b.accountUpdates.contains e.1 = true <;> simp [hc])
    init b.accountReads.entries
  unfold buildAccountTouches
  simp only [h1, h2, List.nil_append]
  congr 1
  cases withReads <;> simp

theorem count_updateTouches (b : Buffer) (a : Hash) (l : List (Hash × Option AccountRef))
    (hl : (l.map Prod.fst).Nodup) :
    (l.flatMap (updateTouches b)).count a =
      match alLookup a l with
      | some v => if (v.isSome && b.deleted.contains a) = true then 2 else 1
      | none => 0 := by
  induction l with
  | nil => simp [alLookup]
  | cons e rest ih =>
    rw [List.map_cons, List.nodup_cons] at hl
    rw [List.flatMap_cons, List.count_append, ih hl.2]
    by_cases he : e.1 = a
    · subst he
      rw [alLookup_eq_none_of_not_mem _ _ hl.1]
      unfold updateTouches
      by_cases hc : (e.2.isSome && b.deleted.contains e.1) = true <;> simp [alLookup, hc]
    · unfold updateTouches
      by_cases hc : (e.2.isSome && b.deleted.contains e.1) = true <;>
        simp [alLookup, he, hc, List.count_cons]

theorem count_readTouches (b : Buffer) (a : Hash) (l : List (Hash × Unit))
    (hl : (l.map Prod.fst).Nodup) :
    (l.flatMap (readTouches b)).count a =
      if ((alLookup a l).isSome && !b.accountUpdates.contains a) = true then 1 else 0 := by
  induction l with
  | nil => simp [alLookup]
  | cons e rest ih =>
    rw [List.map_cons, List.nodup_cons] at hl
    rw [List.flatMap_cons, List.count_append, ih hl.2]
    by_cases he : e.1 = a
    · subst he
      rw [alLookup_eq_none_of_not_mem _ _ hl.1]
      unfold readTouches
      by_cases hc : b.accountUpdates.contains e.1 = true <;> simp [alLookup, hc]
    · unfold readTouches
      by_cases hc : b.accountUpdates.contains e.1 = true <;>
        simp [alLookup, he, hc, List.count_cons]

/-- C7 (amended): for every aggregate buffer, `buildAccountTouches(withReads, false)` returns
an ascending list that contains every addrHash of accountUpdates, twice when its update is
not null and the addrHash is also in deleted and once otherwise, plus (only when withReads)
each addrHash of accountReads that has no entry in accountUpdates exactly once, and nothing
else. -/
theorem buildAccountTouches_counts (E : Ext) (b : Buffer) (heap : Heap) (withReads : Bool) :
    Ascending ((buildAccountTouches E b heap withReads false).1.map Subtype.val) ∧
    ∀ a, (buildAccountTouches E b heap withReads false).1.count a =
      match b.accountUpdates.get? a with
      | some account => if (account.isSome && b.deleted.contains a) = true then 2 else 1
      | none => if (withReads && b.accountReads.contains a) = true then 1 else 0 := by
  constructor
  · rw [buildAccountTouches_keys]
    exact sortByBytes_ascending _
  · intro a
    rw [buildAccountTouches_keys, (sortByBytes_perm _).count_eq, List.count_append,
      count_updateTouches b a _ b.accountUpdates.nodup]
    have hr := count_readTouches b a _ b.accountReads.nodup
    unfold GoMap.contains GoMap.get? at *
    cases hu : alLookup a b.accountUpdates.entries with
    | some v =>
      rw [hu] at hr
      cases withReads
      · simp
      · simp only [if_true, hr]
        simp
    | none =>
      rw [hu] at hr
      cases withReads
      · simp
      · simp only [if_true, hr]
        simp

/-! ## Lemmas on hashing and the writer -/

theorem TrieDbState.HashAddress_of_ok (tds : TrieDbState E) (address : Address) (h : Hash)
    (hh : E.HashData address.val = (h, none)) : tds.HashAddress address false = (tds, h, none) := by
  unfold TrieDbState.HashAddress TrieDbState.savePreimage
  rw [hh]
  rfl

theorem TrieDbState.HashAddress_of_err (tds : TrieDbState E) (address : Address) (h : Hash)
    (err : Error) (hh : E.HashData address.val = (h, some err)) :
    tds.HashAddress address false = (tds, Hash.zero, some err) := by
  unfold TrieDbState.HashAddress
  rw [hh]

theorem TrieDbState.HashKey_of_ok (tds : TrieDbState E) (key : Hash) (h : Hash)
    (hh : E.HashData key.val = (h, none)) : tds.HashKey key false = (tds, h, none) := by
  unfold TrieDbState.HashKey TrieDbState.savePreimage
  rw [hh]
  rfl

theorem TrieDbState.HashAddress_state (tds : TrieDbState E) (address : Address) :
    (tds.HashAddress address false).1 = tds := by
  rcases hh : E.HashData address.val with ⟨h, _ | err⟩
  · rw [TrieDbState.HashAddress_of_ok tds address h hh]
  · rw [TrieDbState.HashAddress_of_err tds address h err hh]

theorem trimLeftZeros_spec (value : Bytes) :
    value = List.replicate (value.length - (trimLeftZeros value).length) 0 ++ trimLeftZeros value ∧
    (trimLeftZeros value).head? ≠ some 0 := by
  unfold trimLeftZeros
  induction value with
  | nil => simp
  | cons x rest ih =>
    by_cases hx : x = 0
    · subst hx
      have hle : (List.dropWhile (fun x => decide (x = 0)) rest).length ≤ rest.length :=
        (List.dropWhile_suffix _).length_le
      simp only [List.dropWhile_cons, decide_True, if_true, List.length_cons]
      refine ⟨?_, ih.2⟩
      rw [Nat.succ_sub hle, List.replicate_succ, List.cons_append, ← ih.1]
    · simp [List.dropWhile_cons, hx]

/-- C8: a successful `WriteAccountStorage` (current buffer present, both hashes computed)
leaves at `currentBuffer.storageUpdates[hash(address)][hash(key)]` the value without its
leading zero bytes when that is not empty and nil when the value is all zero bytes; no other
storage write, no inner map of another address and no other field of the buffer changes,
and nothing outside the current buffer changes. -/
theorem TrieStateWriter.WriteAccountStorage_stores_trimmed (tds : TrieDbState E)
    (address : Address) (incarnation : Nat) (key original value : Hash) (cur : Buffer)
    (addrHash keyHash : Hash) (hcur : tds.currentBuffer = some cur)
    (ha : E.HashData address.val = (addrHash, none))
    (hk : E.HashData key.val = (keyHash, none)) :
    ∃ cur',
      TrieStateWriter.WriteAccountStorage tds address incarnation key original value =
        some ({ tds with currentBuffer := some cur' }, none) ∧
      cur'.storageWrite? addrHash keyHash =
        some (if trimLeftZeros value.val = [] then none else some (trimLeftZeros value.val)) ∧
      (value.val = List.replicate (value.val.length - (trimLeftZeros value.val).length) 0 ++
          trimLeftZeros value.val ∧ (trimLeftZeros value.val).head? ≠ some 0) ∧
      (∀ a k, (a ≠ addrHash ∨ k ≠ keyHash) → cur'.storageWrite? a k = cur.storageWrite? a k) ∧
      (∀ a, a ≠ addrHash → cur'.storageUpdates.get? a = cur.storageUpdates.get? a) ∧
      cur'.storageReads = cur.storageReads ∧ cur'.accountUpdates = cur.accountUpdates ∧
      cur'.accountReads = cur.accountReads ∧ cur'.deleted = cur.deleted ∧
      cur'.created = cur.created := by
  have hget : ∀ (v : Option Bytes) (x : Hash),
      ((cur.withInnerMap addrHash).storageUpdates.set addrHash
          (((cur.storageUpdates.get? addrHash).getD GoMap.empty).set keyHash v)).get? x =
        if x = addrHash then
          some (((cur.storageUpdates.get? addrHash).getD GoMap.empty).set keyHash v)
        else cur.storageUpdates.get? x := by
    intro v x
    rw [GoMap.get?_set]
    by_cases hx : x = addrHash
    · simp [hx]
    · simp only [hx, if_false]
      unfold Buffer.withInnerMap
      split
      · rfl
      · simp [GoMap.get?_set, hx]
  refine ⟨{ cur.withInnerMap addrHash with
      storageUpdates := (cur.withInnerMap addrHash).storageUpdates.set addrHash
        (((cur.storageUpdates.get? addrHash).getD GoMap.empty).set keyHash
          (if trimLeftZeros value.val = [] then none else some (trimLeftZeros value.val))) },
    ?_, ?_, trimLeftZeros_spec value.val, ?_, ?_, ?_, ?_, ?_, ?_, ?_⟩
  · unfold TrieStateWriter.WriteAccountStorage
    rw [TrieDbState.HashAddress_of_ok tds address addrHash ha]
    simp only [hcur]
    rw [TrieDbState.HashKey_of_ok _ key keyHash hk]
    by_cases hv : trimLeftZeros value.val = []
    · simp [hv]
    · have hpos : 0 < (trimLeftZeros value.val).length := List.length_pos.mpr hv
      simp [hv, hpos]
  · unfold Buffer.storageWrite?
    simp only [hget, if_true, Option.some_bind, GoMap.get?_set]
  · intro a k hak
    unfold Buffer.storageWrite?
    simp only [hget]
    by_cases hx : a = addrHash
    · subst hx
      have hk2 : k ≠ keyHash := by
        rcases hak with h | h
        · exact absurd rfl h
        · exact h
      simp only [if_true, Option.some_bind, GoMap.get?_set, hk2, if_false]
      cases cur.storageUpdates.get? a <;> simp
    · simp only [hx, if_false]
  · intro a hx
    simp only [hget, hx, if_false]
  all_goals (unfold Buffer.withInnerMap; split <;> rfl)

/-- Witness of C8: in the instance, the word with last byte 7 is stored as the single byte
7 in a buffer that had no entry for the address. -/
theorem TrieStateWriter.WriteAccountStorage_stores_trimmed_witness :
    ∃ cur',
      TrieStateWriter.WriteAccountStorage startedState (Address.ofByte 1) 0 (Hash.ofByte 2)
        Hash.zero (Hash.ofByte 7) = some ({ startedState with currentBuffer := some cur' }, none) ∧
      cur'.storageWrite? (padHash (List.replicate 20 1)) (Hash.ofByte 2) = some (some [7]) :=
  match TrieStateWriter.WriteAccountStorage_stores_trimmed startedState (Address.ofByte 1) 0
      (Hash.ofByte 2) Hash.zero (Hash.ofByte 7) Buffer.fresh (padHash (List.replicate 20 1))
      (Hash.ofByte 2) rfl rfl rfl with
  | ⟨cur', h1, h2, _⟩ => ⟨cur', h1, h2.trans (by decide)⟩

/-- C9: after `DeleteAccount(addr)` with addrHash = hash(addr), the current buffer has the
null delete marker at `accountUpdates[addrHash]`, no entry for addrHash in `storageUpdates`
and addrHash in `deleted`; the entries of every other address, the created set and the read
sets are unchanged, as is everything outside the current buffer. -/
theorem TrieStateWriter.DeleteAccount_effect (tds : TrieDbState E) (address : Address)
    (original : Option AccountRef) (cur : Buffer) (addrHash : Hash)
    (hcur : tds.currentBuffer = some cur) (ha : E.HashData address.val = (addrHash, none)) :
    ∃ cur',
      TrieStateWriter.DeleteAccount tds address original =
        some ({ tds with currentBuffer := some cur' }, none) ∧
      cur'.accountUpdates.get? addrHash = some none ∧
      cur'.storageUpdates.get? addrHash = none ∧
      cur'.deleted.contains addrHash = true ∧
      (∀ a, a ≠ addrHash →
        cur'.accountUpdates.get? a = cur.accountUpdates.get? a ∧
        cur'.storageUpdates.get? a = cur.storageUpdates.get? a ∧
        cur'.deleted.get? a = cur.deleted.get? a) ∧
      cur'.created = cur.created ∧ cur'.storageReads = cur.storageReads ∧
      cur'.accountReads = cur.accountReads := by
  refine ⟨{ cur with
      accountUpdates := cur.accountUpdates.set addrHash none
      storageUpdates := cur.storageUpdates.delete addrHash
      deleted := cur.deleted.set addrHash () }, ?_, ?_, ?_, ?_, ?_, rfl, rfl, rfl⟩
  · unfold TrieStateWriter.DeleteAccount
    rw [TrieDbState.HashAddress_of_ok tds address addrHash ha]
    simp [hcur]
  · simp [GoMap.get?_set]
  · simp [GoMap.get?_delete]
  · simp [GoMap.contains, GoMap.get?_set]
  · intro a hne
    simp [GoMap.get?_set, GoMap.get?_delete, hne]

/-- Witness of C9: in the instance, deleting the address of twenty bytes 1 from the buffer
`deletedThenWritten`, which holds a storage write for it. -/
theorem TrieStateWriter.DeleteAccount_effect_witness :
    ∃ cur',
      TrieStateWriter.DeleteAccount
          { startedState with currentBuffer := some deletedThenWritten } (Address.ofByte 1) none =
        some ({ startedState with currentBuffer := some cur' }, none) ∧
      cur'.storageUpdates.get? (padHash (List.replicate 20 1)) = none :=
  match TrieStateWriter.DeleteAccount_effect
      { startedState with currentBuffer := some deletedThenWritten } (Address.ofByte 1) none
      deletedThenWritten (padHash (List.replicate 20 1)) rfl rfl with
  | ⟨cur', h1, _, h3, _⟩ => ⟨cur', h1, h3⟩

/-- C10: `DeleteAccount` tests the hashing error with `err != err`, which is false for every
error: whenever there is a current buffer it returns no error, whether `HashAddress` failed
or not, and records the deletion in the current buffer under the hash that `HashAddress`
returned, the zero hash when hashing failed. -/
theorem TrieStateWriter.DeleteAccount_ignores_hash_error (tds : TrieDbState E)
    (address : Address) (original : Option AccountRef) (cur : Buffer)
    (hcur : tds.currentBuffer = some cur) :
    (∀ err : Option Error, ¬ (err ≠ err)) ∧
    (∃ cur',
      TrieStateWriter.DeleteAccount tds address original =
        some ({ tds with currentBuffer := some cur' }, none) ∧
      cur'.accountUpdates.get? (tds.HashAddress address false).2.1 = some none ∧
      cur'.storageUpdates.get? (tds.HashAddress address false).2.1 = none ∧
      cur'.deleted.contains (tds.HashAddress address false).2.1 = true) ∧
    (∀ h err, E.HashData address.val = (h, some err) →
      (tds.HashAddress address false).2 = (Hash.zero, some err)) := by
  refine ⟨fun err h => h rfl, ?_, ?_⟩
  · refine ⟨{ cur with
        accountUpdates := cur.accountUpdates.set (tds.HashAddress address false).2.1 none
        storageUpdates := cur.storageUpdates.delete (tds.HashAddress address false).2.1
        deleted := cur.deleted.set (tds.HashAddress address false).2.1 () }, ?_, ?_, ?_, ?_⟩
    · unfold TrieStateWriter.DeleteAccount
      have hs := TrieDbState.HashAddress_state tds address
      rcases hh : tds.HashAddress address false with ⟨tds', addrHash, err⟩
      rw [hh] at hs
      simp only at hs
      subst hs
      simp [hcur]
    · simp [GoMap.get?_set]
    · simp [GoMap.get?_delete]
    · simp [GoMap.contains, GoMap.get?_set]
  · intro h err hh
    rw [TrieDbState.HashAddress_of_err tds address h err hh]

/-- Witness of C10: over the instance whose hash function fails, `DeleteAccount` returns no
error and marks the zero hash as deleted. -/
theorem TrieStateWriter.DeleteAccount_ignores_hash_error_witness :
    (startedFailingState.HashAddress (Address.ofByte 1) false).2.2 =
      some (Error.external "hash") ∧
    ∃ cur',
      TrieStateWriter.DeleteAccount startedFailingState (Address.ofByte 1) none =
        some ({ startedFailingState with currentBuffer := some cur' }, none) ∧
      cur'.deleted.contains Hash.zero = true :=
  ⟨rfl,
    match (TrieStateWriter.DeleteAccount_ignores_hash_error startedFailingState
        (Address.ofByte 1) none Buffer.fresh rfl).2.1 with
    | ⟨cur', h1, _, _, h4⟩ => ⟨cur', h1, h4⟩⟩

/-- Counterexample to C5 as stated: with withValues set, a slot that is both read and written
at a deleted address does not occur in the result at all. -/
theorem buildStorageTouches_read_written_absent :
    readWrittenDeleted.storageRead (Hash.ofByte 1) (Hash.ofByte 2) = true ∧
    (readWrittenDeleted.storageWrite? (Hash.ofByte 1) (Hash.ofByte 2)).isSome = true ∧
    (buildStorageTouches readWrittenDeleted false true).1.count
      (StorageKey.make (Hash.ofByte 1) (Hash.ofByte 2)) = 0 ∧
    (buildStorageTouches readWrittenDeleted true true).1.count
      (StorageKey.make (Hash.ofByte 1) (Hash.ofByte 2)) = 0 := by
  decide

/-- Counterexample to C6 as stated: after `DeleteAccount` and a storage write to the same
address, the aggregate that `ResolveStateTrie` builds has the address in deleted and its
storage write is among the touches of `buildStorageTouches(resolveReads, false)`. -/
theorem buildStorageTouches_deleted_not_skipped :
    ((TrieStateWriter.DeleteAccount startedState (Address.ofByte 1) none).bind (fun r =>
      (TrieStateWriter.WriteAccountStorage r.1 (Address.ofByte 1) 0 (Hash.ofByte 2) Hash.zero
        (Hash.ofByte 7)).bind (fun r => r.1.ResolveStateTrie.1.aggregateBuffer))) =
      some deletedThenWritten ∧
    deletedThenWritten.deleted.contains (padHash (List.replicate 20 1)) = true ∧
    deletedThenWritten.storageWrite? (padHash (List.replicate 20 1)) (Hash.ofByte 2) =
      some (some [7]) ∧
    StorageKey.make (padHash (List.replicate 20 1)) (Hash.ofByte 2) ∈
      (buildStorageTouches deletedThenWritten false false).1 := by
  decide

/-- Counterexample to C7 as stated: an address whose update is the null marker and which is
in deleted, as `DeleteAccount` leaves it, occurs once among the account touches, not twice. -/
theorem buildAccountTouches_deleted_once :
    deletedThenWritten.accountUpdates.get? (padHash (List.replicate 20 1)) = some none ∧
    deletedThenWritten.deleted.contains (padHash (List.replicate 20 1)) = true ∧
    (buildAccountTouches sampleExt deletedThenWritten ⟨[]⟩ false false).1.count
      (padHash (List.replicate 20 1)) = 1 ∧
    (buildAccountTouches sampleExt deletedThenWritten ⟨[]⟩ true false).1.count
      (padHash (List.replicate 20 1)) = 1 := by
  decide

/-! ## Lemmas on the computation of the roots -/

theorem bufferStep_fresh (E : Ext) (forward : Bool) (blockNr : Nat)
    (accountUpdates : GoMap Hash (Option AccountRef)) (s : RootsState E) :
    bufferStep E forward blockNr accountUpdates s Buffer.fresh = (s, none) := rfl

theorem bufferLoop_fresh (E : Ext) (forward : Bool) (blockNr : Nat)
    (accountUpdates : GoMap Hash (Option AccountRef)) (s : RootsState E) (roots : List Hash)
    (l : List Buffer) (hl : ∀ b ∈ l, b = Buffer.fresh) :
    bufferLoop E forward blockNr accountUpdates s roots l =
      (s, some (roots ++ List.replicate l.length (E.tHash s.t)), none) := by
  induction l generalizing roots with
  | nil => simp [bufferLoop]
  | cons b rest ih =>
    have hb : b = Buffer.fresh := hl b (List.mem_cons_self _ _)
    subst hb
    unfold bufferLoop
    rw [bufferStep_fresh]
    simp only
    rw [ih _ (fun b hb => hl b (List.mem_cons_of_mem _ hb))]
    simp [List.replicate_succ]

theorem loopErr_append {S A : Type} (f : S → A → S × Option Error) (s s' : S) (l₁ l₂ : List A)
    (h : loopErr f s l₁ = (s', none)) : loopErr f s (l₁ ++ l₂) = loopErr f s' l₂ := by
  induction l₁ generalizing s with
  | nil =>
    simp only [loopErr, Prod.mk.injEq, and_true] at h
    subst h
    rfl
  | cons a rest ih =>
    simp only [List.cons_append, loopErr] at h ⊢
    rcases hf : f s a with ⟨s₁, _ | err⟩
    · rw [hf] at h
      simp only at h ⊢
      exact ih s₁ h
    · rw [hf] at h
      simp at h

theorem bufferLoop_append (E : Ext) (forward : Bool) (blockNr : Nat)
    (accountUpdates : GoMap Hash (Option AccountRef)) (s s' : RootsState E)
    (roots roots' : List Hash) (l₁ l₂ : List Buffer)
    (h : bufferLoop E forward blockNr accountUpdates s roots l₁ = (s', some roots', none)) :
    bufferLoop E forward blockNr accountUpdates s roots (l₁ ++ l₂) =
      bufferLoop E forward blockNr accountUpdates s' roots' l₂ := by
  induction l₁ generalizing s roots with
  | nil =>
    simp only [bufferLoop, Prod.mk.injEq, Option.some.injEq, and_true] at h
    obtain ⟨h1, h2⟩ := h
    subst h1 h2
    rfl
  | cons b rest ih =>
    simp only [List.cons_append, bufferLoop] at h ⊢
    rcases hf : bufferStep E forward blockNr accountUpdates s b with ⟨s₁, _ | err⟩
    · rw [hf] at h
      simp only at h ⊢
      exact ih s₁ _ h
    · rw [hf] at h
      simp at h

/-- C1 (amended): when no updates have been buffered (every buffer of the stack is empty and
the aggregate is empty or absent), `ResolveStateTrie` returns no error and changes nothing
but for making an empty aggregate when there is a current buffer, and, when a current buffer
or an aggregate exists, the following `UpdateStateTrie` returns without error one root per
buffer of the stack, each the hash of the unchanged trie: an empty list only for an empty
stack. -/
theorem TrieDbState.resolve_update_without_updates (tds : TrieDbState E)
    (hfrozen : ∀ b ∈ tds.frozenBuffers, b = Buffer.fresh)
    (hcur : tds.currentBuffer = none ∨ tds.currentBuffer = some Buffer.fresh)
    (hagg : tds.aggregateBuffer = none ∨ tds.aggregateBuffer = some Buffer.fresh) :
    tds.ResolveStateTrie =
      ({ tds with
         aggregateBuffer := if tds.currentBuffer.isSome then some Buffer.fresh
           else tds.aggregateBuffer }, none) ∧
    ((tds.currentBuffer.isSome = true ∨ tds.aggregateBuffer.isSome = true) →
      tds.ResolveStateTrie.1.UpdateStateTrie =
        some (tds.clearUpdates, some (List.replicate tds.buffers.length (E.tHash tds.t)), none)) := by
  have hall : ∀ b ∈ tds.buffers, b = Buffer.fresh := by
    intro b hb
    unfold TrieDbState.buffers at hb
    rw [List.mem_append] at hb
    rcases hb with hb | hb
    · exact hfrozen b hb
    · rcases hcur with hc | hc <;> rw [hc] at hb <;> simp at hb
      exact hb
  have hres : tds.ResolveStateTrie =
      ({ tds with
         aggregateBuffer := if tds.currentBuffer.isSome then some Buffer.fresh
           else tds.aggregateBuffer }, none) := by
    obtain ⟨t, db, blockNr, frozen, agg, cur, cc, csc, hist, noh, rr, sp, pg, tp, heap⟩ := tds
    simp only at hcur hagg
    rcases hcur with rfl | rfl <;> rcases hagg with rfl | rfl <;> cases rr <;> rfl
  refine ⟨hres, ?_⟩
  intro hex
  rw [hres]
  have hsome : (if tds.currentBuffer.isSome then some Buffer.fresh else tds.aggregateBuffer) =
      some Buffer.fresh := by
    rcases hcur with hc | hc <;> rcases hagg with ha | ha <;> simp [hc, ha] at hex ⊢
  simp only [hsome]
  unfold TrieDbState.UpdateStateTrie TrieDbState.updateTrieRoots
  simp only
  have hb : (TrieDbState.buffers { tds with aggregateBuffer := some Buffer.fresh }) = tds.buffers := rfl
  rw [hb, bufferLoop_fresh E true tds.blockNr _ _ [] tds.buffers hall]
  rfl

/-- Witness of C1 (amended): the state of the instance after `StartNewBuffer`. -/
theorem TrieDbState.resolve_update_without_updates_witness :
    startedState.ResolveStateTrie =
      ({ startedState with aggregateBuffer := some Buffer.fresh }, none) ∧
    startedState.ResolveStateTrie.1.UpdateStateTrie =
      some (startedState.clearUpdates, some [Hash.ofByte 0], none) :=
  have h := TrieDbState.resolve_update_without_updates startedState
    (by decide) (Or.inr rfl) (Or.inl rfl)
  ⟨h.1, (h.2 (Or.inl rfl)).trans rfl⟩

/-- Counterexample to C1 as stated: with no update buffered and the one buffer that
`StartNewBuffer` made, `UpdateStateTrie` after `ResolveStateTrie` returns one root, not an
empty list. -/
theorem TrieDbState.update_without_updates_one_root :
    startedState.buffers = [Buffer.fresh] ∧ startedState.aggregateBuffer = none ∧
    startedState.ResolveStateTrie.2 = none ∧
    (startedState.ResolveStateTrie.1.UpdateStateTrie.map (fun r => r.2)) =
      some (some [sampleExt.tHash startedState.t], none) := by
  decide

theorem checkRoot_mismatch (heap : Heap) (m : GoMap Hash (Option AccountRef)) (addrHash h : Hash)
    (account : AccountRef) (hm : m.get? addrHash = some (some account))
    (hne : (heap.read account).Root ≠ h) :
    checkRoot heap m addrHash h =
      some (Error.mismatchedStorageRoot addrHash (heap.read account).Root h) := by
  unfold checkRoot
  rw [hm]
  simp [hne]

theorem checkRoot_error (heap : Heap) (m : GoMap Hash (Option AccountRef)) (addrHash h : Hash)
    (err : Error) (hc : checkRoot heap m addrHash h = some err) :
    ∃ expected, expected ≠ h ∧ err = Error.mismatchedStorageRoot addrHash expected h := by
  unfold checkRoot at hc
  split at hc
  · split at hc
    · rename_i account _ hne
      exact ⟨_, hne, (Option.some.inj hc).symm⟩
    · exact Option.noConfusion hc
  · exact Option.noConfusion hc

theorem storageStep_mismatch (E : Ext) (blockNr : Nat) (b : Buffer)
    (accountUpdates : GoMap Hash (Option AccountRef)) (s : RootsState E)
    (e : Hash × GoMap Hash (Option Bytes)) (account : AccountRef)
    (hthin : E.IsThinHistory = false)
    (hacc : b.accountUpdates.get? e.1 = some (some account) ∨
      accountUpdates.get? e.1 = some (some account))
    (hne : (s.heap.read account).Root ≠
      deepHashOrEmpty E (e.2.entries.foldl (storageWrite E false blockNr e.1) s.t) e.1) :
    ∃ s' expected,
      expected ≠ deepHashOrEmpty E (e.2.entries.foldl (storageWrite E false blockNr e.1) s.t) e.1 ∧
      storageStep E false blockNr b accountUpdates s e =
        (s', some (Error.mismatchedStorageRoot e.1 expected
          (deepHashOrEmpty E (e.2.entries.foldl (storageWrite E false blockNr e.1) s.t) e.1))) := by
  unfold storageStep
  simp only [hthin, Bool.or_self, Bool.false_eq_true, if_false]
  cases hb : checkRoot s.heap b.accountUpdates e.1
      (deepHashOrEmpty E (e.2.entries.foldl (storageWrite E false blockNr e.1) s.t) e.1) with
  | some err =>
    obtain ⟨expected, h1, h2⟩ := checkRoot_error _ _ _ _ _ hb
    exact ⟨_, expected, h1, by rw [h2]⟩
  | none =>
    rcases hacc with hacc | hacc
    · rw [checkRoot_mismatch _ _ _ _ account hacc hne] at hb
      exact Option.noConfusion hb
    · exact ⟨_, _, hne, by rw [checkRoot_mismatch _ _ _ _ account hacc hne]⟩

/-- C2 (amended): in a rewind compute (forward = false) with thin history off, whenever the
loop of `updateTrieRoots` reaches, in a buffer `b`, the storage writes of an address whose
non-null account, in `b.accountUpdates` or in the aggregate, stores a storage root that
differs from the deep hash of its storage subtrie after these writes (EmptyRoot when the
subtrie is absent), `updateTrieRoots` returns a mismatched-storage-root error for that
address and no roots. Here `pre` are the buffers before `b`, which passed, and `es1` the
addresses of `b` visited before, which passed. -/
theorem TrieDbState.updateTrieRoots_rewind_mismatch (tds : TrieDbState E) (agg b : Buffer)
    (pre post : List Buffer) (es1 es2 : List (Hash × GoMap Hash (Option Bytes)))
    (e : Hash × GoMap Hash (Option Bytes)) (sPre s : RootsState E) (rootsPre : List Hash)
    (account : AccountRef)
    (hthin : E.IsThinHistory = false)
    (hagg : tds.aggregateBuffer = some agg)
    (hbuf : tds.buffers = pre ++ b :: post)
    (hent : b.storageUpdates.entries = es1 ++ e :: es2)
    (hpre : bufferLoop E false tds.blockNr agg.accountUpdates ⟨tds.t, tds.heap, GoMap.empty⟩ [] pre =
      (sPre, some rootsPre, none))
    (hs : loopErr (storageStep E false tds.blockNr b agg.accountUpdates)
      (b.accountUpdates.entries.foldl (accountStep E tds.blockNr)
        (b.created.keys.foldl (createdStep E tds.blockNr b agg.accountUpdates) sPre)) es1 = (s, none))
    (hacc : b.accountUpdates.get? e.1 = some (some account) ∨
      agg.accountUpdates.get? e.1 = some (some account))
    (hne : (s.heap.read account).Root ≠
      deepHashOrEmpty E (e.2.entries.foldl (storageWrite E false tds.blockNr e.1) s.t) e.1) :
    ∃ tds' expected,
      expected ≠
        deepHashOrEmpty E (e.2.entries.foldl (storageWrite E false tds.blockNr e.1) s.t) e.1 ∧
      tds.updateTrieRoots false =
        some (tds', none, some (Error.mismatchedStorageRoot e.1 expected
          (deepHashOrEmpty E (e.2.entries.foldl (storageWrite E false tds.blockNr e.1) s.t) e.1))) := by
  obtain ⟨s', expected, h1, h2⟩ :=
    storageStep_mismatch E tds.blockNr b agg.accountUpdates s e account hthin hacc hne
  refine ⟨{ tds with t := s'.t, heap := s'.heap }, expected, h1, ?_⟩
  unfold TrieDbState.updateTrieRoots
  simp only [hagg, hbuf]
  rw [bufferLoop_append E false tds.blockNr agg.accountUpdates _ sPre [] rootsPre pre _ hpre]
  unfold bufferLoop bufferStep
  simp only [hent]
  rw [loopErr_append _ _ s es1 _ hs]
  unfold loopErr
  rw [h2]

/-- Witness of C2 (amended): in the instance, the account stores the root of last byte 9 and
the deep hash after the write is the hash of last byte 29. -/
theorem TrieDbState.updateTrieRoots_rewind_mismatch_witness :
    ∃ tds' expected,
      expected ≠ Hash.ofByte 29 ∧
      mismatchState.updateTrieRoots false =
        some (tds', none, some (Error.mismatchedStorageRoot (padHash (List.replicate 20 1))
          expected (Hash.ofByte 29))) :=
  TrieDbState.updateTrieRoots_rewind_mismatch mismatchState
    { Buffer.fresh with
      storageUpdates :=
        GoMap.empty.set (padHash (List.replicate 20 1)) (GoMap.empty.set (Hash.ofByte 2) (some [7]))
      accountUpdates := GoMap.empty.set (padHash (List.replicate 20 1)) (some 0) }
    { Buffer.fresh with
      storageUpdates :=
        GoMap.empty.set (padHash (List.replicate 20 1)) (GoMap.empty.set (Hash.ofByte 2) (some [7]))
      accountUpdates := GoMap.empty.set (padHash (List.replicate 20 1)) (some 0) }
    [] [] [] [] (padHash (List.replicate 20 1), GoMap.empty.set (Hash.ofByte 2) (some [7]))
    ⟨{ accounts := [], storage := [] }, ⟨[{ (default : Account) with Root := Hash.ofByte 9 }]⟩,
      GoMap.empty⟩
    ⟨{ accounts := [((padHash (List.replicate 20 1)).val,
        { (default : Account) with Root := Hash.ofByte 9 })], storage := [] },
      ⟨[{ (default : Account) with Root := Hash.ofByte 9 }]⟩, GoMap.empty⟩
    [] 0 rfl rfl rfl rfl rfl rfl (Or.inl rfl) (by decide)

/-- Counterexample to C2 as stated: in a forward compute with thin history off, on a state
whose written account stores a root (last byte 9) that differs from the deep hash of its
storage subtrie after the writes (last byte 29), `updateTrieRoots` returns one root and no
error; the same state in a rewind compute gets the error. -/
theorem TrieDbState.updateTrieRoots_forward_no_mismatch_error :
    sampleExt.IsThinHistory = false ∧
    (mismatchState.heap.read 0).Root = Hash.ofByte 9 ∧
    (mismatchState.updateTrieRoots true).map
        (fun r => (deepHashOrEmpty sampleExt r.1.t (padHash (List.replicate 20 1)),
          r.2.1.map List.length, r.2.2)) =
      some (Hash.ofByte 29, some 1, none) ∧
    (mismatchState.updateTrieRoots false).map (fun r => r.2) =
      some (none, some (Error.mismatchedStorageRoot (padHash (List.replicate 20 1))
        (Hash.ofByte 9) (Hash.ofByte 29))) := by
  decide

/-! ## Incarnations -/

theorem xor_allOnes (n x : Nat) (h : x < 2 ^ n) : Nat.xor (2 ^ n - 1) x = 2 ^ n - 1 - x := by
  apply Nat.eq_of_testBit_eq
  intro i
  have h1 : 2 ^ n - 1 - x = 2 ^ n - (x + 1) := by omega
  rw [h1, Nat.testBit_two_pow_sub_succ h]
  show (2 ^ n - 1 ^^^ x).testBit i = _
  rw [Nat.testBit_xor, Nat.testBit_two_pow_sub_one]
  by_cases hi : i < n
  · simp [hi]
  · have hx : x.testBit i = false :=
      Nat.testBit_lt_two_pow (lt_of_lt_of_le h (Nat.pow_le_pow_right (by decide) (not_lt.mp hi)))
    simp [hi, hx]

theorem beUint_foldl (b : Bytes) (acc : Nat) :
    b.foldl (fun acc x => acc * 256 + x.val) acc = acc * 256 ^ b.length + beUint b := by
  induction b generalizing acc with
  | nil => simp [beUint]
  | cons x rest ih =>
    unfold beUint
    rw [List.foldl_cons, List.foldl_cons, ih, ih (0 * 256 + x.val), List.length_cons, Nat.pow_succ]
    ring

theorem beUint_lt (b : Bytes) : beUint b < 256 ^ b.length := by
  induction b with
  | nil => simp [beUint]
  | cons x rest ih =>
    unfold beUint
    rw [List.foldl_cons, beUint_foldl, List.length_cons, Nat.pow_succ]
    have hx : x.val < 256 := x.isLt
    have h0 : (0 * 256 + x.val) * 256 ^ rest.length + beUint rest <
        (x.val + 1) * 256 ^ rest.length := by
      rw [Nat.zero_mul, Nat.zero_add, Nat.add_mul, Nat.one_mul]
      omega
    calc (0 * 256 + x.val) * 256 ^ rest.length + beUint rest
        < (x.val + 1) * 256 ^ rest.length := h0
      _ ≤ 256 * 256 ^ rest.length := Nat.mul_le_mul_right _ hx
      _ = 256 ^ rest.length * 256 := Nat.mul_comm _ _

theorem copyBytes_incarnation (addrHash : Hash) (xs tail : Bytes) (hxs : xs.length = 8) :
    copyBytes IncarnationLength ((addrHash.val ++ xs ++ tail).drop HashLength) = xs := by
  have h1 : (addrHash.val ++ xs ++ tail).drop HashLength = xs ++ tail := by
    rw [List.append_assoc, List.drop_append_of_le_length (by rw [addrHash.property])]
    rw [List.drop_of_length_le (by rw [addrHash.property])]
    rfl
  unfold copyBytes
  rw [h1]
  have h2 : (xs ++ tail).take IncarnationLength = xs := by
    unfold IncarnationLength
    rw [← hxs, List.take_left']
    rfl
  have h3 : IncarnationLength - (xs ++ tail).length = 0 := by
    unfold IncarnationLength
    rw [List.length_append, hxs]
    omega
  rw [h2, h3]
  simp

theorem TrieDbState.nextIncarnation_eq (tds : TrieDbState E) (addrHash : Hash) :
    tds.nextIncarnation addrHash =
      match tds.incarnationWalk addrHash with
      | ([], some err) => (0, some err)
      | ([], none) => (FirstContractIncarnation, none)
      | (e :: _, _) =>
        ((Nat.xor (2 ^ 64 - 1) (beUint (copyBytes IncarnationLength (e.1.drop HashLength))) + 1)
          % 2 ^ 64, none) := by
  unfold TrieDbState.nextIncarnation TrieDbState.incarnationWalk Walk WalkAsOf
  cases tds.historical
  · simp only [Bool.false_eq_true, if_false]
    rcases E.dbWalk tds.db E.StorageBucket
      (copyBytes (HashLength + IncarnationLength + HashLength) addrHash.val) (8 * HashLength)
      with ⟨_ | ⟨e, rest⟩, _ | err⟩ <;> simp [walkEntries, incarnationWalker]
  · simp only [if_true]
    rcases E.dbWalkAsOf tds.db E.StorageBucket E.StorageHistoryBucket
      (copyBytes (HashLength + IncarnationLength + HashLength + MaxTimestampLength) addrHash.val)
      (8 * HashLength) tds.blockNr
      with ⟨_ | ⟨e, rest⟩, _ | err⟩ <;> simp [walkEntries, incarnationWalker]

/-- C12: `nextIncarnation(addrHash)` returns 1 when the walk of the storage bucket finds no
key under the addrHash prefix; when the first key found carries the 8 big-endian bytes `xs`
right after the 32-byte address hash it returns ((2^64 − 1) XOR x) + 1 modulo 2^64, x the
number `xs` spell, which is p + 1 modulo 2^64 whenever x is the one's complement of the
previous incarnation p, hence p + 1 itself for p below 2^64 − 1. -/
theorem TrieDbState.nextIncarnation_values (tds : TrieDbState E) (addrHash : Hash) :
    (tds.incarnationWalk addrHash = ([], none) → tds.nextIncarnation addrHash = (1, none)) ∧
    (∀ xs tail v rest err, tds.incarnationWalk addrHash = ((addrHash.val ++ xs ++ tail, v) :: rest, err) →
      xs.length = 8 →
      tds.nextIncarnation addrHash = ((Nat.xor (2 ^ 64 - 1) (beUint xs) + 1) % 2 ^ 64, none) ∧
      ∀ p, p < 2 ^ 64 → beUint xs = 2 ^ 64 - 1 - p →
        tds.nextIncarnation addrHash = ((p + 1) % 2 ^ 64, none) ∧
        (p < 2 ^ 64 - 1 → tds.nextIncarnation addrHash = (p + 1, none))) := by
  constructor
  · intro h
    rw [TrieDbState.nextIncarnation_eq, h]
    rfl
  · intro xs tail v rest err h hxs
    have h1 : tds.nextIncarnation addrHash =
        ((Nat.xor (2 ^ 64 - 1) (beUint xs) + 1) % 2 ^ 64, none) := by
      rw [TrieDbState.nextIncarnation_eq, h]
      simp only [copyBytes_incarnation addrHash xs tail hxs]
    refine ⟨h1, ?_⟩
    intro p hp hx
    have hlt : beUint xs < 2 ^ 64 := by
      have := beUint_lt xs
      rw [hxs] at this
      exact this
    have h2 : Nat.xor (2 ^ 64 - 1) (beUint xs) = p := by
      rw [xor_allOnes 64 _ hlt, hx]
      omega
    rw [h1, h2]
    refine ⟨rfl, ?_⟩
    intro hp2
    rw [Nat.mod_eq_of_lt (by omega)]

theorem TrieDbState.savePreimage_fields (tds : TrieDbState E) (save : Bool) (hash preimage : Bytes) :
    (tds.savePreimage save hash preimage).1 =
      { tds with db := (tds.savePreimage save hash preimage).1.db } := by
  unfold TrieDbState.savePreimage
  split
  · rfl
  · split <;> rfl

theorem TrieDbState.HashAddress_fields (tds : TrieDbState E) (address : Address) (save : Bool) :
    (tds.HashAddress address save).1 = { tds with db := (tds.HashAddress address save).1.db } := by
  unfold TrieDbState.HashAddress
  rcases hh : E.HashData address.val with ⟨h, _ | err⟩
  · exact TrieDbState.savePreimage_fields tds save h.val address.val
  · rfl

/-- C11: a successful `CreateContract` (current buffer present, address hashed and its
preimage saved, next incarnation found) adds hash(address) to `currentBuffer.created` and
changes no other entry of the buffer; when `currentBuffer.accountUpdates` holds a non-null
account for that hash, the incarnation of that account object is set to
`nextIncarnation(addrHash)`; when there is no pending account, the account objects do not
change either. -/
theorem TrieStateWriter.CreateContract_effect (tds tds1 : TrieDbState E) (address : Address)
    (cur : Buffer) (addrHash : Hash) (incarnation : Nat)
    (hcur : tds.currentBuffer = some cur)
    (ha : tds.HashAddress address true = (tds1, addrHash, none))
    (hinc : tds1.nextIncarnation addrHash = (incarnation, none)) :
    ∃ heap,
      TrieStateWriter.CreateContract tds address =
        some ({ tds1 with
                currentBuffer := some { cur with created := cur.created.set addrHash () }
                heap := heap }, none) ∧
      (cur.created.set addrHash ()).contains addrHash = true ∧
      (∀ a, a ≠ addrHash → (cur.created.set addrHash ()).get? a = cur.created.get? a) ∧
      (∀ account, cur.accountUpdates.get? addrHash = some (some account) →
        heap = tds.heap.write account { tds.heap.read account with Incarnation := incarnation }) ∧
      ((cur.accountUpdates.get? addrHash = none ∨ cur.accountUpdates.get? addrHash = some none) →
        heap = tds.heap) := by
  have hf := TrieDbState.HashAddress_fields tds address true
  rw [ha] at hf
  simp only at hf
  have hcur1 : tds1.currentBuffer = some cur := by rw [hf]; exact hcur
  have hheap : tds1.heap = tds.heap := by rw [hf]
  have hinc2 : TrieDbState.nextIncarnation
      { tds1 with currentBuffer := some { cur with created := cur.created.set addrHash () } }
      addrHash = (incarnation, none) := hinc
  refine ⟨(match cur.accountUpdates.get? addrHash with
    | some (some account) =>
      tds.heap.write account { tds.heap.read account with Incarnation := incarnation }
    | _ => tds.heap), ?_, ?_, ?_, ?_, ?_⟩
  · unfold TrieStateWriter.CreateContract
    rw [ha]
    simp only [hcur1, hinc2]
    rcases hacc : cur.accountUpdates.get? addrHash with _ | ⟨_ | account⟩ <;>
      simp only [hheap]
  · simp [GoMap.contains, GoMap.get?_set]
  · intro a hne
    simp [GoMap.get?_set, hne]
  · intro account hacc
    rw [hacc]
  · intro hacc
    rcases hacc with hacc | hacc <;> rw [hacc]

/-- Witness of C11: in the instance, the pending account object 0 gets the incarnation 5,
the storage bucket holding a slot stored under the complement of incarnation 4. -/
theorem TrieStateWriter.CreateContract_effect_witness :
    ∃ (heap : Heap) (tds1 : TrieDbState sampleExt),
      TrieStateWriter.CreateContract pendingAccountState (Address.ofByte 1) =
        some ({ tds1 with
                currentBuffer := some
                  { Buffer.fresh with
                    accountUpdates := GoMap.empty.set (padHash (List.replicate 20 1)) (some 0)
                    created := GoMap.empty.set (padHash (List.replicate 20 1)) () }
                heap := heap }, none) ∧
      heap = ⟨[{ (default : Account) with Incarnation := 5 }]⟩ :=
  match TrieStateWriter.CreateContract_effect pendingAccountState
      (pendingAccountState.HashAddress (Address.ofByte 1) true).1 (Address.ofByte 1)
      { Buffer.fresh with
        accountUpdates := GoMap.empty.set (padHash (List.replicate 20 1)) (some 0) }
      (padHash (List.replicate 20 1)) 5 rfl rfl (by decide) with
  | ⟨heap, h1, _, _, h4, _⟩ => ⟨heap, _, h1, (h4 0 (by decide)).trans (by decide)⟩

/-- C13: for an address whose hash is in the deleted set of the current buffer or of the
aggregate buffer, `ReadAccountStorage` returns an empty value and no error for every key
and leaves the state as it is: no read is recorded, and the result is the same whatever the
trie and the database hold. -/
theorem TrieDbState.ReadAccountStorage_deleted (tds : TrieDbState E) (address : Address)
    (incarnation : Nat) (key : Hash) (addrHash : Hash)
    (ha : E.HashData address.val = (addrHash, none))
    (hdel : (∃ cur, tds.currentBuffer = some cur ∧ cur.deleted.contains addrHash = true) ∨
      (∃ agg, tds.aggregateBuffer = some agg ∧ agg.deleted.contains addrHash = true)) :
    tds.ReadAccountStorage address incarnation key = some (tds, none, none) := by
  unfold TrieDbState.ReadAccountStorage
  rw [TrieDbState.HashAddress_of_ok tds address addrHash ha]
  simp only
  rcases hdel with ⟨cur, h1, h2⟩ | ⟨agg, h1, h2⟩
  · simp [h1, h2]
  · simp only [h1, h2, if_true]
    split <;> rfl

/-- Witness of C13: in the instance, with resolveReads set, a read of slot 2 of the address
deleted in the buffer `deletedThenWritten`, which holds a write for that slot. -/
theorem TrieDbState.ReadAccountStorage_deleted_witness :
    TrieDbState.ReadAccountStorage
        { startedState with currentBuffer := some deletedThenWritten, resolveReads := true }
        (Address.ofByte 1) 0 (Hash.ofByte 2) =
      some ({ startedState with currentBuffer := some deletedThenWritten, resolveReads := true },
        none, none) :=
  TrieDbState.ReadAccountStorage_deleted
    { startedState with currentBuffer := some deletedThenWritten, resolveReads := true }
    (Address.ofByte 1) 0 (Hash.ofByte 2) (padHash (List.replicate 20 1)) rfl
    (Or.inl ⟨deletedThenWritten, rfl, by decide⟩)

/-! ## One root per buffer -/

theorem loopErr_of_no_error {S A : Type} (f : S → A → S × Option Error)
    (hf : ∀ s a, (f s a).2 = none) (s : S) (l : List A) :
    loopErr f s l = (l.foldl (fun s a => (f s a).1) s, none) := by
  induction l generalizing s with
  | nil => rfl
  | cons a rest ih =>
    unfold loopErr
    rcases h : f s a with ⟨s₁, _ | err⟩
    · simp only [List.foldl_cons, h]
      exact ih s₁
    · have := hf s a
      rw [h] at this
      exact Option.noConfusion this

theorem storageStep_forward (E : Ext) (blockNr : Nat) (b : Buffer)
    (accountUpdates : GoMap Hash (Option AccountRef)) (s : RootsState E)
    (e : Hash × GoMap Hash (Option Bytes)) :
    (storageStep E true blockNr b accountUpdates s e).2 = none := by
  unfold storageStep
  simp

theorem bufferStep_forward (E : Ext) (blockNr : Nat)
    (accountUpdates : GoMap Hash (Option AccountRef)) (s : RootsState E) (b : Buffer) :
    (bufferStep E true blockNr accountUpdates s b).2 = none := by
  unfold bufferStep
  simp only [loopErr_of_no_error _ (storageStep_forward E blockNr b accountUpdates)]

theorem bufferLoop_forward (E : Ext) (blockNr : Nat)
    (accountUpdates : GoMap Hash (Option AccountRef)) (s : RootsState E) (roots : List Hash)
    (l : List Buffer) :
    ∃ s' r, bufferLoop E true blockNr accountUpdates s roots l = (s', some r, none) := by
  induction l generalizing s roots with
  | nil => exact ⟨s, roots, rfl⟩
  | cons b rest ih =>
    unfold bufferLoop
    have h := bufferStep_forward E blockNr accountUpdates s b
    rcases hb : bufferStep E true blockNr accountUpdates s b with ⟨s₁, _ | err⟩
    · exact ih s₁ _
    · rw [hb] at h
      exact Option.noConfusion h

theorem bufferLoop_roots (E : Ext) (forward : Bool) (blockNr : Nat)
    (accountUpdates : GoMap Hash (Option AccountRef)) (s s' : RootsState E)
    (roots r : List Hash) (err : Option Error) (l : List Buffer)
    (h : bufferLoop E forward blockNr accountUpdates s roots l = (s', some r, err)) :
    err = none ∧ ∃ rs, r = roots ++ rs ∧ rs.length = l.length ∧
      ∀ i, i < l.length → ∃ si ri,
        bufferLoop E forward blockNr accountUpdates s roots (l.take (i + 1)) = (si, some ri, none) ∧
        rs[i]? = some (E.tHash si.t) := by
  induction l generalizing s roots with
  | nil =>
    simp only [bufferLoop, Prod.mk.injEq, Option.some.injEq] at h
    refine ⟨h.2.2.symm, [], by simp [h.2.1], rfl, ?_⟩
    intro i hi
    simp at hi
  | cons b rest ih =>
    unfold bufferLoop at h
    rcases hb : bufferStep E forward blockNr accountUpdates s b with ⟨s₁, _ | e₁⟩
    · rw [hb] at h
      simp only at h
      obtain ⟨h1, rs, h2, h3, h4⟩ := ih s₁ _ h
      refine ⟨h1, E.tHash s₁.t :: rs, by rw [h2]; simp, by simp [h3], ?_⟩
      intro i hi
      cases i with
      | zero =>
        refine ⟨s₁, roots ++ [E.tHash s₁.t], ?_, by simp⟩
        simp only [Nat.zero_add, List.take_succ_cons, List.take_zero]
        unfold bufferLoop
        rw [hb]
        rfl
      | succ j =>
        have hj : j < rest.length := by simpa using hi
        obtain ⟨si, ri, h5, h6⟩ := h4 j hj
        refine ⟨si, ri, ?_, by simpa using h6⟩
        rw [List.take_succ_cons]
        unfold bufferLoop
        rw [hb]
        exact h5
    · rw [hb] at h
      simp at h

/-- C14: for every state with n buffers on the buffer stack, an `updateTrieRoots` that
returns roots returns no error and exactly n roots, `roots[i]` being the hash of the trie
right after the loop over the buffers has processed the buffers 0..i; a forward
`updateTrieRoots` on a state with an aggregate buffer always returns roots, and
`UpdateStateTrie` returns the roots of the forward `updateTrieRoots`. -/
theorem TrieDbState.updateTrieRoots_one_root_per_buffer (tds : TrieDbState E) (forward : Bool) :
    (∀ tds' roots err, tds.updateTrieRoots forward = some (tds', some roots, err) →
      err = none ∧ roots.length = tds.buffers.length ∧
      ∀ i, i < tds.buffers.length → ∃ agg si ri,
        tds.aggregateBuffer = some agg ∧
        bufferLoop E forward tds.blockNr agg.accountUpdates ⟨tds.t, tds.heap, GoMap.empty⟩ []
          (tds.buffers.take (i + 1)) = (si, some ri, none) ∧
        roots[i]? = some (E.tHash si.t)) ∧
    (∀ agg, tds.aggregateBuffer = some agg →
      ∃ tds' roots, tds.updateTrieRoots true = some (tds', some roots, none)) ∧
    (∀ tds' roots err, tds.updateTrieRoots true = some (tds', roots, err) →
      tds.UpdateStateTrie = some (tds'.clearUpdates, roots, err)) := by
  refine ⟨?_, ?_, ?_⟩
  · intro tds' roots err h
    unfold TrieDbState.updateTrieRoots at h
    rcases hagg : tds.aggregateBuffer with _ | agg
    · rw [hagg] at h
      exact Option.noConfusion h
    · rw [hagg] at h
      simp only at h
      rcases hl : bufferLoop E forward tds.blockNr agg.accountUpdates
        ⟨tds.t, tds.heap, GoMap.empty⟩ [] tds.buffers with ⟨s, r, e⟩
      rw [hl] at h
      simp only [Option.some.injEq, Prod.mk.injEq] at h
      obtain ⟨_, hr, he⟩ := h
      subst hr he
      obtain ⟨h1, rs, h2, h3, h4⟩ := bufferLoop_roots E forward _ _ _ _ _ _ _ _ hl
      rw [List.nil_append] at h2
      subst h2
      refine ⟨h1, h3, ?_⟩
      intro i hi
      obtain ⟨si, ri, h5, h6⟩ := h4 i hi
      exact ⟨agg, si, ri, rfl, h5, h6⟩
  · intro agg hagg
    obtain ⟨s', r, h⟩ := bufferLoop_forward E tds.blockNr agg.accountUpdates
      ⟨tds.t, tds.heap, GoMap.empty⟩ [] tds.buffers
    refine ⟨{ tds with t := s'.t, heap := s'.heap }, r, ?_⟩
    unfold TrieDbState.updateTrieRoots
    simp only [hagg, h]
  · intro tds' roots err h
    unfold TrieDbState.UpdateStateTrie
    rw [h]

/-! ## The trie calls of a buffer -/

theorem storageWrite_logged_forward (E : Ext) (blockNr : Nat) (a : Hash) (t : E.logged.Trie)
    (l : List (Hash × Option Bytes)) :
    (l.foldl (storageWrite E.logged true blockNr a) t).2 = t.2 ++ l.map (forwardWriteOp blockNr a) := by
  induction l generalizing t with
  | nil => simp
  | cons kv rest ih =>
    rw [List.foldl_cons, ih, List.map_cons]
    have h : (storageWrite E.logged true blockNr a t kv).2 = t.2 ++ [forwardWriteOp blockNr a kv] := by
      unfold storageWrite forwardWriteOp
      by_cases hv : 0 < (kv.2.getD []).length
      · simp only [hv, if_true]
        rfl
      · simp only [hv, if_false, if_true]
        rfl
    rw [h, List.append_assoc]
    rfl

theorem storageStep_logged_forward (E : Ext) (blockNr : Nat) (b : Buffer)
    (accountUpdates : GoMap Hash (Option AccountRef)) (s : RootsState E.logged)
    (e : Hash × GoMap Hash (Option Bytes)) :
    (storageStep E.logged true blockNr b accountUpdates s e).1.t.2 =
      s.t.2 ++ e.2.entries.map (forwardWriteOp blockNr e.1) := by
  unfold storageStep
  simp only [Bool.true_or, if_true]
  exact storageWrite_logged_forward E blockNr e.1 s.t e.2.entries

theorem storageLoop_logged_forward (E : Ext) (blockNr : Nat) (b : Buffer)
    (accountUpdates : GoMap Hash (Option AccountRef)) (s : RootsState E.logged)
    (es : List (Hash × GoMap Hash (Option Bytes))) :
    (es.foldl (fun s e => (storageStep E.logged true blockNr b accountUpdates s e).1) s).t.2 =
      s.t.2 ++ es.flatMap (fun e => e.2.entries.map (forwardWriteOp blockNr e.1)) := by
  induction es generalizing s with
  | nil => simp
  | cons e rest ih =>
    rw [List.foldl_cons, ih, storageStep_logged_forward, List.flatMap_cons, List.append_assoc]

theorem deletedLoop_logged (E : Ext) (blockNr : Nat) (b : Buffer)
    (accountUpdates : GoMap Hash (Option AccountRef)) (s : RootsState E.logged) (ks : List Hash) :
    ∃ ops, (ks.foldl (deletedStep E.logged blockNr b accountUpdates) s).t.2 = s.t.2 ++ ops ∧
      ∀ op ∈ ops, ∃ a, b.created.contains a = false ∧ op = TrieOp.DeleteSubtree a.val blockNr := by
  induction ks generalizing s with
  | nil => exact ⟨[], by simp, by simp⟩
  | cons k rest ih =>
    rw [List.foldl_cons]
    obtain ⟨ops, h1, h2⟩ := ih (deletedStep E.logged blockNr b accountUpdates s k)
    by_cases hc : b.created.contains k = true
    · have hs : deletedStep E.logged blockNr b accountUpdates s k = s := by
        unfold deletedStep
        simp [hc]
      rw [hs] at h1 ⊢
      exact ⟨ops, h1, h2⟩
    · have hs : (deletedStep E.logged blockNr b accountUpdates s k).t.2 =
          s.t.2 ++ [TrieOp.DeleteSubtree k.val blockNr] := by
        unfold deletedStep
        simp only [hc, if_false]
        rfl
      refine ⟨TrieOp.DeleteSubtree k.val blockNr :: ops, ?_, ?_⟩
      · rw [h1, hs, List.append_assoc]
        rfl
      · intro op hop
        rcases List.mem_cons.mp hop with h | h
        · exact ⟨k, by simpa using hc, h⟩
        · exact h2 op h

theorem createdLoop_logged (E : Ext) (blockNr : Nat) (b : Buffer)
    (accountUpdates : GoMap Hash (Option AccountRef)) (s : RootsState E.logged) (ks : List Hash) :
    ∃ ops, (ks.foldl (createdStep E.logged blockNr b accountUpdates) s).t.2 = s.t.2 ++ ops := by
  induction ks generalizing s with
  | nil => exact ⟨[], by simp⟩
  | cons k rest ih =>
    rw [List.foldl_cons]
    obtain ⟨ops, h1⟩ := ih (createdStep E.logged blockNr b accountUpdates s k)
    by_cases hc : s.alreadyCreated.contains k = true
    · have hs : createdStep E.logged blockNr b accountUpdates s k = s := by
        unfold createdStep
        simp [hc]
      rw [hs] at h1 ⊢
      exact ⟨ops, h1⟩
    · have hs : (createdStep E.logged blockNr b accountUpdates s k).t.2 =
          s.t.2 ++ [TrieOp.DeleteSubtree k.val blockNr] := by
        unfold createdStep
        simp only [hc, if_false]
        rfl
      exact ⟨TrieOp.DeleteSubtree k.val blockNr :: ops, by rw [h1, hs, List.append_assoc]; rfl⟩

theorem accountLoop_logged (E : Ext) (blockNr : Nat) (s : RootsState E.logged)
    (es : List (Hash × Option AccountRef)) :
    ∃ ops, (es.foldl (accountStep E.logged blockNr) s).t.2 = s.t.2 ++ ops := by
  induction es generalizing s with
  | nil => exact ⟨[], by simp⟩
  | cons e rest ih =>
    rw [List.foldl_cons]
    obtain ⟨ops, h1⟩ := ih (accountStep E.logged blockNr s e)
    have hs : ∃ op, (accountStep E.logged blockNr s e).t.2 = s.t.2 ++ [op] := by
      unfold accountStep
      cases e.2 with
      | none => exact ⟨_, rfl⟩
      | some account => exact ⟨_, rfl⟩
    obtain ⟨op, hop⟩ := hs
    exact ⟨op :: ops, by rw [h1, hop, List.append_assoc]; rfl⟩

/-- The carve-out within one buffer: when an address is created in a buffer (and deleted in
it or not), the deleted loop of that buffer does nothing for it (no `DeleteSubtree`, no reset of the root
of its account), and a forward step applies the storage writes of that buffer for the address
to the trie and issues, in the rest of the processing of that buffer, no `DeleteSubtree` on
that address. The calls are those that the listing trie `E.logged` records. -/
theorem bufferStep_deleted_created_keeps_writes (E : Ext) (blockNr : Nat)
    (accountUpdates : GoMap Hash (Option AccountRef)) (s : RootsState E.logged) (b : Buffer)
    (a : Hash) (m : GoMap Hash (Option Bytes))
    (hc : b.created.contains a = true) (hm : b.storageUpdates.get? a = some m) :
    (∀ s' : RootsState E.logged, deletedStep E.logged blockNr b accountUpdates s' a = s') ∧
    ∃ pre post,
      (bufferStep E.logged true blockNr accountUpdates s b).1.t.2 =
        s.t.2 ++ pre ++ m.entries.map (forwardWriteOp blockNr a) ++ post ∧
      ∀ op ∈ post, ∀ n, op ≠ TrieOp.DeleteSubtree a.val n := by
  constructor
  · intro s'
    unfold deletedStep
    simp [hc]
  · obtain ⟨es1, es2, hsplit⟩ := List.append_of_mem ((GoMap.get?_eq_some_iff _ a m).mp hm)
    obtain ⟨ops1, h1⟩ := createdLoop_logged E blockNr b accountUpdates s b.created.keys
    obtain ⟨ops2, h2⟩ := accountLoop_logged E blockNr
      (b.created.keys.foldl (createdStep E.logged blockNr b accountUpdates) s)
      b.accountUpdates.entries
    have h3 := storageLoop_logged_forward E blockNr b accountUpdates
      (b.accountUpdates.entries.foldl (accountStep E.logged blockNr)
        (b.created.keys.foldl (createdStep E.logged blockNr b accountUpdates) s))
      b.storageUpdates.entries
    obtain ⟨ops4, h4, h5⟩ := deletedLoop_logged E blockNr b accountUpdates
      (b.storageUpdates.entries.foldl
        (fun s e => (storageStep E.logged true blockNr b accountUpdates s e).1)
        (b.accountUpdates.entries.foldl (accountStep E.logged blockNr)
          (b.created.keys.foldl (createdStep E.logged blockNr b accountUpdates) s)))
      b.deleted.keys
    refine ⟨ops1 ++ ops2 ++ es1.flatMap (fun e => e.2.entries.map (forwardWriteOp blockNr e.1)),
      es2.flatMap (fun e => e.2.entries.map (forwardWriteOp blockNr e.1)) ++ ops4, ?_, ?_⟩
    · unfold bufferStep
      simp only [loopErr_of_no_error _ (storageStep_forward E.logged blockNr b accountUpdates)]
      rw [h4, h3, h2, h1, hsplit]
      simp only [List.flatMap_append, List.flatMap_cons, List.append_assoc]
    · intro op hop n heq
      rcases List.mem_append.mp hop with h | h
      · rw [List.mem_flatMap] at h
        obtain ⟨e, _, he⟩ := h
        rw [List.mem_map] at he
        obtain ⟨kv, _, hkv⟩ := he
        rw [heq] at hkv
        unfold forwardWriteOp at hkv
        split at hkv <;> exact TrieOp.noConfusion hkv
      · obtain ⟨a', ha', hop'⟩ := h5 op h
        rw [heq] at hop'
        have hval : a.val = a'.val := (TrieOp.DeleteSubtree.injEq _ _ _ _ ▸ hop').1
        have : a = a' := Subtype.ext hval
        subst this
        rw [hc] at ha'
        exact Bool.noConfusion ha'

/-- The carve-out on the instance with the listing trie: the buffer `deletedCreatedWritten`
leads to the calls DeleteSubtree (created), UpdateAccount and Update of the slot, and to
nothing after it. -/
theorem bufferStep_deleted_created_keeps_writes_witness :
    (bufferStep sampleExt.logged true 0 deletedCreatedWritten.accountUpdates
        ⟨loggedStartedState.t, loggedStartedState.heap, GoMap.empty⟩ deletedCreatedWritten).1.t.2 =
      [TrieOp.DeleteSubtree (Hash.ofByte 1).val 0,
       TrieOp.UpdateAccount (Hash.ofByte 1).val { (default : Account) with Root := Hash.zero },
       TrieOp.Update (GenerateCompositeTrieKey (Hash.ofByte 1) (Hash.ofByte 2)) [7] 0] ∧
    ∃ pre post,
      (bufferStep sampleExt.logged true 0 deletedCreatedWritten.accountUpdates
          ⟨loggedStartedState.t, loggedStartedState.heap, GoMap.empty⟩ deletedCreatedWritten).1.t.2 =
        [] ++ pre ++ [TrieOp.Update (GenerateCompositeTrieKey (Hash.ofByte 1) (Hash.ofByte 2)) [7] 0]
          ++ post ∧
      ∀ op ∈ post, ∀ n, op ≠ TrieOp.DeleteSubtree (Hash.ofByte 1).val n :=
  ⟨by decide,
    (bufferStep_deleted_created_keeps_writes sampleExt 0 deletedCreatedWritten.accountUpdates
      ⟨loggedStartedState.t, loggedStartedState.heap, GoMap.empty⟩ deletedCreatedWritten
      (Hash.ofByte 1) (GoMap.empty.set (Hash.ofByte 2) (some [7])) (by decide)
      (by decide)).2⟩

/-- The order create, write, delete: a contract is created and written in one buffer and
deleted in the next buffer of the same block. The deletion comes after the writes, the
address is in created and in deleted of the aggregate, and `updateTrieRoots` performs
`DeleteSubtree` on it after the storage write was applied: the account is removed with its
storage. -/
theorem updateTrieRoots_created_then_deleted :
    createdThenDeletedRun.map (fun tds =>
        (tds.aggregateBuffer.map (fun agg =>
          (agg.created.contains (padHash (List.replicate 20 1)),
           agg.deleted.contains (padHash (List.replicate 20 1)))),
         tds.t.2)) =
      some (some (true, true),
        [TrieOp.DeleteSubtree (padHash (List.replicate 20 1)).val 0,
         TrieOp.UpdateAccount (padHash (List.replicate 20 1)).val
           { (default : Account) with Incarnation := 1 },
         TrieOp.Update
           (GenerateCompositeTrieKey (padHash (List.replicate 20 1)) (Hash.ofByte 2)) [7] 0,
         TrieOp.Delete (padHash (List.replicate 20 1)).val 0,
         TrieOp.DeleteSubtree (padHash (List.replicate 20 1)).val 0]) := by
  decide

/-! ## Storage roots of the written accounts -/

theorem Heap.write_length (h : Heap) (r : AccountRef) (x : Account) :
    (h.write r x).cells.length = h.cells.length := by
  simp [Heap.write]

theorem Heap.read_write_ne (h : Heap) (r r' : AccountRef) (x : Account) (hne : r' ≠ r) :
    (h.write r x).read r' = h.read r' := by
  unfold Heap.read Heap.write
  simp only [List.getD_eq_getElem?_getD]
  rw [List.getElem?_set_ne (fun h2 => hne h2.symm)]

theorem Heap.read_write_eq (h : Heap) (r : AccountRef) (x : Account) (hr : r < h.cells.length) :
    (h.write r x).read r = x := by
  unfold Heap.read Heap.write
  simp only [List.getD_eq_getElem?_getD]
  rw [List.getElem?_set_self hr]
  rfl

theorem setRoot_length (heap : Heap) (m : GoMap Hash (Option AccountRef)) (a root : Hash) :
    (setRoot heap m a root).cells.length = heap.cells.length := by
  unfold setRoot
  split
  · exact Heap.write_length _ _ _
  · rfl

theorem setRoot_read_other (heap : Heap) (m : GoMap Hash (Option AccountRef)) (a root : Hash)
    (r : AccountRef) (h : m.get? a ≠ some (some r)) :
    (setRoot heap m a root).read r = heap.read r := by
  unfold setRoot
  split
  · rename_i account hacc
    have hne : r ≠ account := by
      intro heq
      subst heq
      exact h hacc
    exact Heap.read_write_ne _ _ _ _ hne
  · rfl

theorem setRoot_read_hit (heap : Heap) (m : GoMap Hash (Option AccountRef)) (a root : Hash)
    (r : AccountRef) (h : m.get? a = some (some r)) (hr : r < heap.cells.length) :
    ((setRoot heap m a root).read r).Root = root := by
  unfold setRoot
  rw [h]
  simp only
  rw [Heap.read_write_eq _ _ _ hr]

theorem createdStep_frame (E : Ext) (blockNr : Nat) (b : Buffer)
    (accountUpdates : GoMap Hash (Option AccountRef)) (s : RootsState E) (a : Hash)
    (r : AccountRef) :
    (createdStep E blockNr b accountUpdates s a).heap.cells.length = s.heap.cells.length ∧
    (NotHeldAt b accountUpdates r a →
      (createdStep E blockNr b accountUpdates s a).heap.read r = s.heap.read r) := by
  unfold createdStep
  split
  · exact ⟨rfl, fun _ => rfl⟩
  · refine ⟨by simp only [setRoot_length], ?_⟩
    intro h
    simp only
    rw [setRoot_read_other _ _ _ _ _ h.2, setRoot_read_other _ _ _ _ _ h.1]

theorem deletedStep_frame (E : Ext) (blockNr : Nat) (b : Buffer)
    (accountUpdates : GoMap Hash (Option AccountRef)) (s : RootsState E) (a : Hash)
    (r : AccountRef) :
    (deletedStep E blockNr b accountUpdates s a).heap.cells.length = s.heap.cells.length ∧
    ((b.created.contains a = true ∨ NotHeldAt b accountUpdates r a) →
      (deletedStep E blockNr b accountUpdates s a).heap.read r = s.heap.read r) := by
  unfold deletedStep
  split
  · exact ⟨rfl, fun _ => rfl⟩
  · rename_i hc
    refine ⟨by simp only [setRoot_length], ?_⟩
    intro h
    rcases h with h | h
    · exact absurd h hc
    · simp only
      rw [setRoot_read_other _ _ _ _ _ h.2, setRoot_read_other _ _ _ _ _ h.1]

theorem accountStep_heap (E : Ext) (blockNr : Nat) (s : RootsState E)
    (e : Hash × Option AccountRef) : (accountStep E blockNr s e).heap = s.heap := by
  unfold accountStep
  split <;> rfl

theorem storageStep_forward_frame (E : Ext) (blockNr : Nat) (b : Buffer)
    (accountUpdates : GoMap Hash (Option AccountRef)) (s : RootsState E)
    (e : Hash × GoMap Hash (Option Bytes)) (r : AccountRef) :
    (storageStep E true blockNr b accountUpdates s e).1.heap.cells.length = s.heap.cells.length ∧
    (NotHeldAt b accountUpdates r e.1 →
      (storageStep E true blockNr b accountUpdates s e).1.heap.read r = s.heap.read r) := by
  unfold storageStep
  simp only [Bool.true_or, if_true]
  refine ⟨by simp only [setRoot_length], ?_⟩
  intro h
  rw [setRoot_read_other _ _ _ _ _ h.2, setRoot_read_other _ _ _ _ _ h.1]

theorem storageStep_forward_hit (E : Ext) (blockNr : Nat) (b : Buffer)
    (accountUpdates : GoMap Hash (Option AccountRef)) (s : RootsState E)
    (e : Hash × GoMap Hash (Option Bytes)) (r : AccountRef)
    (hacc : b.accountUpdates.get? e.1 = some (some r)) (hr : r < s.heap.cells.length) :
    ((storageStep E true blockNr b accountUpdates s e).1.heap.read r).Root =
      deepHashOrEmpty E (e.2.entries.foldl (storageWrite E true blockNr e.1) s.t) e.1 := by
  unfold storageStep
  simp only [Bool.true_or, if_true]
  by_cases h2 : accountUpdates.get? e.1 = some (some r)
  · exact setRoot_read_hit _ _ _ _ _ h2 (by rw [setRoot_length]; exact hr)
  · rw [setRoot_read_other _ _ _ _ _ h2]
    exact setRoot_read_hit _ _ _ _ _ hacc hr

theorem foldl_frame {S A : Type} (f : S → A → S) (P : S → S → Prop)
    (hrefl : ∀ s, P s s) (htrans : ∀ s₁ s₂ s₃, P s₁ s₂ → P s₂ s₃ → P s₁ s₃)
    (l : List A) (Q : A → Prop) (hstep : ∀ s a, Q a → P s (f s a)) (hl : ∀ a ∈ l, Q a) (s : S) :
    P s (l.foldl f s) := by
  induction l generalizing s with
  | nil => exact hrefl s
  | cons a rest ih =>
    rw [List.foldl_cons]
    exact htrans _ _ _ (hstep s a (hl a (List.mem_cons_self _ _)))
      (ih (fun x hx => hl x (List.mem_cons_of_mem _ hx)) (f s a))

theorem KeepsRef.refl (r : AccountRef) {E : Ext} (s : RootsState E) : KeepsRef r s s := ⟨rfl, rfl⟩

theorem KeepsRef.trans (r : AccountRef) {E : Ext} (s₁ s₂ s₃ : RootsState E)
    (h1 : KeepsRef r s₁ s₂) (h2 : KeepsRef r s₂ s₃) : KeepsRef r s₁ s₃ :=
  ⟨h2.1.trans h1.1, h2.2.trans h1.2⟩

theorem bufferStep_forward_eq (E : Ext) (blockNr : Nat)
    (accountUpdates : GoMap Hash (Option AccountRef)) (s : RootsState E) (b : Buffer) :
    (bufferStep E true blockNr accountUpdates s b).1 =
      b.deleted.keys.foldl (deletedStep E blockNr b accountUpdates)
        (b.storageUpdates.entries.foldl
          (fun s e => (storageStep E true blockNr b accountUpdates s e).1)
          (b.accountUpdates.entries.foldl (accountStep E blockNr)
            (b.created.keys.foldl (createdStep E blockNr b accountUpdates) s))) := by
  unfold bufferStep
  simp only [loopErr_of_no_error _ (storageStep_forward E blockNr b accountUpdates)]

theorem createdLoop_size (E : Ext) (blockNr : Nat) (b : Buffer)
    (accountUpdates : GoMap Hash (Option AccountRef)) (ks : List Hash) (s : RootsState E) :
    KeepsSize s (ks.foldl (createdStep E blockNr b accountUpdates) s) :=
  foldl_frame _ KeepsSize (fun _ => rfl) (fun _ _ _ h1 h2 => h2.trans h1) ks (fun _ => True)
    (fun s a _ => (createdStep_frame E blockNr b accountUpdates s a 0).1) (fun _ _ => trivial) s

theorem accountLoop_heap (E : Ext) (blockNr : Nat) (es : List (Hash × Option AccountRef))
    (s : RootsState E) : (es.foldl (accountStep E blockNr) s).heap = s.heap := by
  induction es generalizing s with
  | nil => rfl
  | cons e rest ih => rw [List.foldl_cons, ih, accountStep_heap]

theorem storageLoop_size (E : Ext) (blockNr : Nat) (b : Buffer)
    (accountUpdates : GoMap Hash (Option AccountRef)) (es : List (Hash × GoMap Hash (Option Bytes)))
    (s : RootsState E) :
    KeepsSize s (es.foldl (fun s e => (storageStep E true blockNr b accountUpdates s e).1) s) :=
  foldl_frame _ KeepsSize (fun _ => rfl) (fun _ _ _ h1 h2 => h2.trans h1) es (fun _ => True)
    (fun s e _ => (storageStep_forward_frame E blockNr b accountUpdates s e 0).1)
    (fun _ _ => trivial) s

theorem bufferStep_forward_untouched (E : Ext) (blockNr : Nat)
    (accountUpdates : GoMap Hash (Option AccountRef)) (s : RootsState E) (b : Buffer)
    (r : AccountRef) (h : ∀ a, NotHeldAt b accountUpdates r a) :
    KeepsRef r s (bufferStep E true blockNr accountUpdates s b).1 := by
  rw [bufferStep_forward_eq]
  have h1 : KeepsRef r s (b.created.keys.foldl (createdStep E blockNr b accountUpdates) s) :=
    foldl_frame _ (KeepsRef r) (KeepsRef.refl r) (KeepsRef.trans r) _ (fun _ => True)
      (fun s a _ => ⟨(createdStep_frame E blockNr b accountUpdates s a r).1,
        (createdStep_frame E blockNr b accountUpdates s a r).2 (h a)⟩)
      (fun _ _ => trivial) s
  have h2 : KeepsRef r (b.created.keys.foldl (createdStep E blockNr b accountUpdates) s)
      (b.accountUpdates.entries.foldl (accountStep E blockNr)
        (b.created.keys.foldl (createdStep E blockNr b accountUpdates) s)) :=
    ⟨by rw [accountLoop_heap], by rw [accountLoop_heap]⟩
  have h3 := foldl_frame (fun s e => (storageStep E true blockNr b accountUpdates s e).1)
    (KeepsRef r) (KeepsRef.refl r) (KeepsRef.trans r) b.storageUpdates.entries (fun _ => True)
    (fun s e _ => ⟨(storageStep_forward_frame E blockNr b accountUpdates s e r).1,
      (storageStep_forward_frame E blockNr b accountUpdates s e r).2 (h e.1)⟩)
    (fun _ _ => trivial)
    (b.accountUpdates.entries.foldl (accountStep E blockNr)
      (b.created.keys.foldl (createdStep E blockNr b accountUpdates) s))
  have h4 := foldl_frame (deletedStep E blockNr b accountUpdates)
    (KeepsRef r) (KeepsRef.refl r) (KeepsRef.trans r) b.deleted.keys (fun _ => True)
    (fun s a _ => ⟨(deletedStep_frame E blockNr b accountUpdates s a r).1,
      (deletedStep_frame E blockNr b accountUpdates s a r).2 (Or.inr (h a))⟩)
    (fun _ _ => trivial)
    (b.storageUpdates.entries.foldl
      (fun s e => (storageStep E true blockNr b accountUpdates s e).1)
      (b.accountUpdates.entries.foldl (accountStep E blockNr)
        (b.created.keys.foldl (createdStep E blockNr b accountUpdates) s)))
  exact KeepsRef.trans r _ _ _ (KeepsRef.trans r _ _ _ (KeepsRef.trans r _ _ _ h1 h2) h3) h4

theorem bufferStep_forward_size (E : Ext) (blockNr : Nat)
    (accountUpdates : GoMap Hash (Option AccountRef)) (s : RootsState E) (b : Buffer) :
    KeepsSize s (bufferStep E true blockNr accountUpdates s b).1 := by
  rw [bufferStep_forward_eq]
  unfold KeepsSize
  rw [foldl_frame _ KeepsSize (fun _ => rfl) (fun _ _ _ h1 h2 => h2.trans h1) b.deleted.keys
    (fun _ => True) (fun s a _ => (deletedStep_frame E blockNr b accountUpdates s a 0).1)
    (fun _ _ => trivial) _]
  rw [storageLoop_size E blockNr b accountUpdates, accountLoop_heap]
  exact createdLoop_size E blockNr b accountUpdates _ s

theorem bufferLoop_forward_cons (E : Ext) (blockNr : Nat)
    (accountUpdates : GoMap Hash (Option AccountRef)) (s : RootsState E) (roots : List Hash)
    (b : Buffer) (rest : List Buffer) :
    bufferLoop E true blockNr accountUpdates s roots (b :: rest) =
      bufferLoop E true blockNr accountUpdates (bufferStep E true blockNr accountUpdates s b).1
        (roots ++ [E.tHash (bufferStep E true blockNr accountUpdates s b).1.t]) rest := by
  have h := bufferStep_forward E blockNr accountUpdates s b
  rcases hb : bufferStep E true blockNr accountUpdates s b with ⟨s₁, e⟩
  rw [hb] at h
  simp only at h
  subst h
  simp only [bufferLoop, hb]

theorem bufferLoop_forward_size (E : Ext) (blockNr : Nat)
    (accountUpdates : GoMap Hash (Option AccountRef)) (l : List Buffer) (s : RootsState E)
    (roots : List Hash) :
    KeepsSize s (bufferLoop E true blockNr accountUpdates s roots l).1 := by
  induction l generalizing s roots with
  | nil => rfl
  | cons b rest ih =>
    rw [bufferLoop_forward_cons]
    exact (ih _ _).trans (bufferStep_forward_size E blockNr accountUpdates s b)

theorem bufferLoop_forward_untouched (E : Ext) (blockNr : Nat)
    (accountUpdates : GoMap Hash (Option AccountRef)) (l : List Buffer) (r : AccountRef)
    (h : ∀ b ∈ l, ∀ a, NotHeldAt b accountUpdates r a) (s : RootsState E) (roots : List Hash) :
    KeepsRef r s (bufferLoop E true blockNr accountUpdates s roots l).1 := by
  induction l generalizing s roots with
  | nil => exact KeepsRef.refl r s
  | cons b rest ih =>
    rw [bufferLoop_forward_cons]
    exact KeepsRef.trans r _ _ _
      (bufferStep_forward_untouched E blockNr accountUpdates s b r (h b (List.mem_cons_self _ _)))
      (ih (fun b' hb' => h b' (List.mem_cons_of_mem _ hb')) _ _)

theorem stateBeforeWrites_size (E : Ext) (blockNr : Nat) (b : Buffer)
    (accountUpdates : GoMap Hash (Option AccountRef)) (s : RootsState E)
    (es1 : List (Hash × GoMap Hash (Option Bytes))) :
    KeepsSize s (stateBeforeWrites E blockNr b accountUpdates s es1) := by
  unfold stateBeforeWrites KeepsSize
  rw [storageLoop_size E blockNr b accountUpdates, accountLoop_heap]
  exact createdLoop_size E blockNr b accountUpdates _ s

theorem bufferStep_forward_root (E : Ext) (blockNr : Nat)
    (accountUpdates : GoMap Hash (Option AccountRef)) (s : RootsState E) (b : Buffer)
    (es1 es2 : List (Hash × GoMap Hash (Option Bytes))) (a : Hash)
    (m : GoMap Hash (Option Bytes)) (r : AccountRef)
    (hent : b.storageUpdates.entries = es1 ++ (a, m) :: es2)
    (hacc : b.accountUpdates.get? a = some (some r))
    (hr : r < s.heap.cells.length)
    (hdel : b.deleted.contains a = true → b.created.contains a = true)
    (hna : ∀ a', a' ≠ a → NotHeldAt b accountUpdates r a') :
    ((bufferStep E true blockNr accountUpdates s b).1.heap.read r).Root =
      deepHashOrEmpty E (m.entries.foldl (storageWrite E true blockNr a)
        (stateBeforeWrites E blockNr b accountUpdates s es1).t) a := by
  have hnd := b.storageUpdates.nodup
  rw [hent, List.map_append, List.map_cons, List.nodup_append] at hnd
  have hes2 : ∀ e ∈ es2, e.1 ≠ a := by
    intro e he heq
    have hnot := (List.nodup_cons.mp hnd.2.1).1
    have hmem : e.1 ∈ es2.map Prod.fst := List.mem_map_of_mem Prod.fst he
    rw [heq] at hmem
    exact hnot hmem
  rw [bufferStep_forward_eq, hent, List.foldl_append, List.foldl_cons]
  have hr1 : r < (stateBeforeWrites E blockNr b accountUpdates s es1).heap.cells.length := by
    rw [stateBeforeWrites_size E blockNr b accountUpdates s es1]
    exact hr
  have hhit := storageStep_forward_hit E blockNr b accountUpdates
    (stateBeforeWrites E blockNr b accountUpdates s es1) (a, m) r hacc hr1
  have h3 := foldl_frame (fun s e => (storageStep E true blockNr b accountUpdates s e).1)
    (KeepsRef r) (KeepsRef.refl r) (KeepsRef.trans r) es2 (fun e => e.1 ≠ a)
    (fun s e he => ⟨(storageStep_forward_frame E blockNr b accountUpdates s e r).1,
      (storageStep_forward_frame E blockNr b accountUpdates s e r).2 (hna e.1 he)⟩)
    hes2
    (storageStep E true blockNr b accountUpdates
      (stateBeforeWrites E blockNr b accountUpdates s es1) (a, m)).1
  have h4 := foldl_frame (deletedStep E blockNr b accountUpdates)
    (KeepsRef r) (KeepsRef.refl r) (KeepsRef.trans r) b.deleted.keys
    (fun a' => b.created.contains a' = true ∨ NotHeldAt b accountUpdates r a')
    (fun s a' ha' => ⟨(deletedStep_frame E blockNr b accountUpdates s a' r).1,
      (deletedStep_frame E blockNr b accountUpdates s a' r).2 ha'⟩)
    (by
      intro a' ha'
      by_cases heq : a' = a
      · subst heq
        exact Or.inl (hdel ((GoMap.contains_iff_mem_keys _ _).mpr ha'))
      · exact Or.inr (hna a' heq))
    (es2.foldl (fun s e => (storageStep E true blockNr b accountUpdates s e).1)
      (storageStep E true blockNr b accountUpdates
        (stateBeforeWrites E blockNr b accountUpdates s es1) (a, m)).1)
  have h5 := KeepsRef.trans r _ _ _ h3 h4
  unfold stateBeforeWrites at h5 hhit ⊢
  rw [h5.2]
  exact hhit

/-- C15: after a forward `updateTrieRoots`, for every buffer `b` of the stack and every
addrHash that has both a non-null account `r` in `b.accountUpdates` and an entry in
`b.storageUpdates`, and is not deleted without being created in `b`, the storage root of
that account equals `DeepHash(addrHash)` of the trie as it stood right after the storage
writes of `b` for that address, and EmptyRoot when `DeepHash` reports the subtrie absent.
The account objects are taken apart as the engine keeps them: `r` is no other address's
account in `b` or in the aggregate, no account of a later buffer, and the aggregate holds it
for this address only when `b` is the last buffer. -/
theorem TrieDbState.updateTrieRoots_sets_storage_root (tds : TrieDbState E) (agg b : Buffer)
    (pre post : List Buffer) (es1 es2 : List (Hash × GoMap Hash (Option Bytes))) (a : Hash)
    (m : GoMap Hash (Option Bytes)) (r : AccountRef)
    (hagg : tds.aggregateBuffer = some agg)
    (hbuf : tds.buffers = pre ++ b :: post)
    (hent : b.storageUpdates.entries = es1 ++ (a, m) :: es2)
    (hacc : b.accountUpdates.get? a = some (some r))
    (hr : r < tds.heap.cells.length)
    (hdel : b.deleted.contains a = true → b.created.contains a = true)
    (hna : ∀ a', a' ≠ a → NotHeldAt b agg.accountUpdates r a')
    (hpost : ∀ b' ∈ post, ∀ a', b'.accountUpdates.get? a' ≠ some (some r))
    (hlast : post = [] ∨ agg.accountUpdates.get? a ≠ some (some r)) :
    ∃ tds' roots,
      tds.updateTrieRoots true = some (tds', some roots, none) ∧
      (tds'.heap.read r).Root =
        deepHashOrEmpty E (m.entries.foldl (storageWrite E true tds.blockNr a)
          (stateBeforeWrites E tds.blockNr b agg.accountUpdates
            (bufferLoop E true tds.blockNr agg.accountUpdates ⟨tds.t, tds.heap, GoMap.empty⟩ []
              pre).1 es1).t) a := by
  obtain ⟨sPre, rootsPre, hpre⟩ := bufferLoop_forward E tds.blockNr agg.accountUpdates
    ⟨tds.t, tds.heap, GoMap.empty⟩ [] pre
  obtain ⟨sF, rootsF, hF⟩ := bufferLoop_forward E tds.blockNr agg.accountUpdates
    (bufferStep E true tds.blockNr agg.accountUpdates sPre b).1
    (rootsPre ++ [E.tHash (bufferStep E true tds.blockNr agg.accountUpdates sPre b).1.t]) post
  have hall : bufferLoop E true tds.blockNr agg.accountUpdates ⟨tds.t, tds.heap, GoMap.empty⟩ []
      (pre ++ b :: post) = (sF, some rootsF, none) := by
    rw [bufferLoop_append E true tds.blockNr agg.accountUpdates _ sPre [] rootsPre pre _ hpre,
      bufferLoop_forward_cons, hF]
  refine ⟨{ tds with t := sF.t, heap := sF.heap }, rootsF, ?_, ?_⟩
  · unfold TrieDbState.updateTrieRoots
    simp only [hagg, hbuf, hall]
  · have hsize : sPre.heap.cells.length = tds.heap.cells.length := by
      have := bufferLoop_forward_size E tds.blockNr agg.accountUpdates pre
        ⟨tds.t, tds.heap, GoMap.empty⟩ []
      rw [hpre] at this
      exact this
    have hroot := bufferStep_forward_root E tds.blockNr agg.accountUpdates sPre b es1 es2 a m r
      hent hacc (by rw [hsize]; exact hr) hdel hna
    have hkeep := bufferLoop_forward_untouched E tds.blockNr agg.accountUpdates post r
      (by
        intro b' hb' a'
        refine ⟨hpost b' hb' a', ?_⟩
        by_cases heq : a' = a
        · subst heq
          rcases hlast with h | h
          · rw [h] at hb'
            simp at hb'
          · exact h
        · exact (hna a' heq).2)
      (bufferStep E true tds.blockNr agg.accountUpdates sPre b).1
      (rootsPre ++ [E.tHash (bufferStep E true tds.blockNr agg.accountUpdates sPre b).1.t])
    rw [hF] at hkeep
    rw [hpre]
    show (sF.heap.read r).Root = _
    rw [hkeep.2]
    exact hroot

/-- Witness of C15: in the instance with two buffers, the account object 1 of the first
buffer gets the deep hash after the write, the hash of last byte 10. -/
theorem TrieDbState.updateTrieRoots_sets_storage_root_witness :
    ∃ tds' roots,
      twoBufferState.updateTrieRoots true = some (tds', some roots, none) ∧
      (tds'.heap.read 1).Root = Hash.ofByte 10 :=
  match TrieDbState.updateTrieRoots_sets_storage_root twoBufferState
      { Buffer.fresh with
        storageUpdates :=
          GoMap.empty.set (Hash.ofByte 1) (GoMap.empty.set (Hash.ofByte 2) (some [7]))
        accountUpdates := GoMap.empty.set (Hash.ofByte 1) (some 0) }
      { Buffer.fresh with
        storageUpdates :=
          GoMap.empty.set (Hash.ofByte 1) (GoMap.empty.set (Hash.ofByte 2) (some [7]))
        accountUpdates := GoMap.empty.set (Hash.ofByte 1) (some 1) }
      [] [{ Buffer.fresh with accountUpdates := GoMap.empty.set (Hash.ofByte 1) (some 0) }]
      [] [] (Hash.ofByte 1) (GoMap.empty.set (Hash.ofByte 2) (some [7])) 1
      rfl rfl rfl (by decide) (by decide) (by decide)
      (by
        intro a' hne
        constructor
        · rw [GoMap.get?_set, if_neg hne]
          exact fun h => Option.noConfusion h
        · rw [GoMap.get?_set, if_neg hne]
          exact fun h => Option.noConfusion h)
      (by
        intro b' hb' a'
        rw [List.mem_singleton] at hb'
        subst hb'
        rw [GoMap.get?_set]
        split
        · exact fun h => absurd (Option.some.inj (Option.some.inj h)) (by decide)
        · exact fun h => Option.noConfusion h)
      (Or.inr (by decide)) with
  | ⟨tds', roots, h1, h2⟩ => ⟨tds', roots, h1, h2.trans (by decide)⟩

/-! ## Unwind -/

/-- C18 (the code at the failing input): in thin-history mode, for the account pre-image of
incarnation 1 without code hash, the lookup in the contract code bucket at
addrHash‖BE64(1) succeeds with 32 bytes 7, yet the account that the callback of `UnwindTo`
registers in the buffer, and the account that `UnwindTo` puts into the trie, have the empty
code hash: the code hash is copied under `err != nil`, only when the lookup fails. -/
theorem TrieDbState.unwind_code_hash_not_fetched :
    thinExt.IsThinHistory = true ∧
    thinExt.dbGet thinDb thinExt.ContractCodeBucket (GenerateStoragePrefix (Hash.ofByte 1) 1) =
      (some (List.replicate 32 7), none) ∧
    (thinState.StartNewBuffer.unwindStep thinExt.AccountsHistoryBucket (Hash.ofByte 1).val
        [1, 5, 1]).map (fun r =>
          (r.2, r.1.currentBuffer.map (fun b =>
            ((b.accountUpdates.get? (Hash.ofByte 1)).join.map (fun ref => r.1.heap.read ref))))) =
      some (none, some (some
        { Initialised := true, Nonce := 1, Balance := 5, Root := Hash.zero,
          CodeHash := Hash.zero, Incarnation := 1 })) ∧
    (thinState.UnwindTo 4).map (fun r => (r.2, r.1.blockNr, r.1.t.accounts.map (fun e => e.2.CodeHash))) =
      some (none, 4, [Hash.zero]) := by
  decide

theorem unwindStep_code_hash (tds : TrieDbState E) (b : Buffer) (key value codeHash : Bytes)
    (acc : Account)
    (hb : tds.currentBuffer = some b) (hv : 0 < value.length)
    (hdec : E.DecodeForStorage value = (acc, none))
    (hget : E.dbGet tds.db E.ContractCodeBucket
      (GenerateStoragePrefix (Hash.copyFrom key) acc.Incarnation) = (some codeHash, none)) :
    ∃ db err,
      tds.unwindStep E.AccountsHistoryBucket key value =
        some ({ tds with
                currentBuffer := some
                  { b with accountUpdates :=
                      b.accountUpdates.set (Hash.copyFrom key) (some tds.heap.cells.length) }
                heap := ⟨tds.heap.cells ++ [acc]⟩
                db := db }, err) := by
  refine ⟨(E.dbPut tds.db E.AccountsBucket (Hash.copyFrom key).val value).1,
    (E.dbPut tds.db E.AccountsBucket (Hash.copyFrom key).val value).2, ?_⟩
  unfold TrieDbState.unwindStep
  simp only [hb, if_true, hv, hdec, hget, ite_self]
  rfl

theorem loopErr_invariant {S A : Type} (f : S → A → S × Option Error) (P : S → Prop)
    (hf : ∀ s a, P s → P (f s a).1) (s : S) (l : List A) (hs : P s) : P (loopErr f s l).1 := by
  induction l generalizing s with
  | nil => exact hs
  | cons a rest ih =>
    unfold loopErr
    have h := hf s a hs
    rcases hfa : f s a with ⟨s₁, _ | err⟩
    · rw [hfa] at h
      exact ih s₁ h
    · rw [hfa] at h
      exact h

theorem loopErr_eq_foldl {S A : Type} (f : S → A → S × Option Error) (s s' : S) (l : List A)
    (h : loopErr f s l = (s', none)) : s' = l.foldl (fun s a => (f s a).1) s := by
  induction l generalizing s with
  | nil =>
    simp only [loopErr, Prod.mk.injEq, and_true] at h
    exact h.symm
  | cons a rest ih =>
    unfold loopErr at h
    rcases hfa : f s a with ⟨s₁, _ | err⟩
    · rw [hfa] at h
      simp only at h
      rw [List.foldl_cons, hfa]
      exact ih s₁ h
    · rw [hfa] at h
      simp at h

theorem TrieDbState.StartNewBuffer_blockNr (tds : TrieDbState E) :
    tds.StartNewBuffer.blockNr = tds.blockNr := by
  unfold TrieDbState.StartNewBuffer
  split <;> rfl

theorem TrieDbState.unwindStep_blockNr (tds tds' : TrieDbState E) (bucket key value : Bytes)
    (err : Option Error) (h : tds.unwindStep bucket key value = some (tds', err)) :
    tds'.blockNr = tds.blockNr := by
  unfold TrieDbState.unwindStep at h
  split at h
  · exact Option.noConfusion h
  · split at h
    · split at h
      · split at h
        · simp only [Option.some.injEq, Prod.mk.injEq] at h
          rw [← h.1]
        · simp only [Option.some.injEq, Prod.mk.injEq] at h
          rw [← h.1]
      · simp only [Option.some.injEq, Prod.mk.injEq] at h
        rw [← h.1]
    · split at h
      · split at h
        · exact Option.noConfusion h
        · split at h
          · simp only [Option.some.injEq, Prod.mk.injEq] at h
            rw [← h.1]
          · simp only [Option.some.injEq, Prod.mk.injEq] at h
            rw [← h.1]
      · simp only [Option.some.injEq, Prod.mk.injEq] at h
        rw [← h.1]

theorem unwindDf_blockNr (c : Nat) (s : Option (TrieDbState E)) (bucket key value : Bytes)
    (hs : ∀ tds, s = some tds → tds.blockNr = c) :
    ∀ tds, (unwindDf s bucket key value).1 = some tds → tds.blockNr = c := by
  intro tds h
  unfold unwindDf at h
  split at h
  · exact Option.noConfusion h
  · rename_i tds0
    split at h
    · exact Option.noConfusion h
    · rename_i tds1 err hstep
      simp only [Option.some.injEq] at h
      subst h
      rw [TrieDbState.unwindStep_blockNr _ _ _ _ _ _ hstep]
      exact hs tds0 rfl

theorem RewindData_invariant {S : Type} (E : Ext) (db : E.Db) (src dst : Nat)
    (df : S → Bytes → Bytes → Bytes → S × Option Error) (P : S → Prop)
    (hdf : ∀ s b k v, P s → P (df s b k v).1) (s : S) (hs : P s) :
    P (RewindData E db src dst df s).1 := by
  unfold RewindData
  simp only
  split
  · exact hs
  · exact loopErr_invariant _ P
      (fun s e hs => loopErr_invariant _ P (fun s kv hs => hdf s e.1 kv.1 kv.2 hs) s _ hs) s _ hs

theorem TrieDbState.resolveAccountTouches_blockNr (tds : TrieDbState E) (l : List Hash) :
    (tds.resolveAccountTouches l).1.blockNr = tds.blockNr := by
  unfold TrieDbState.resolveAccountTouches
  simp only
  split <;> rfl

theorem TrieDbState.resolveStorageTouches_blockNr (tds : TrieDbState E) (l : List StorageKey) :
    (tds.resolveStorageTouches l).1.blockNr = tds.blockNr := by
  unfold TrieDbState.resolveStorageTouches
  simp only
  split <;> rfl

theorem TrieDbState.ResolveStateTrie_blockNr (tds : TrieDbState E) :
    tds.ResolveStateTrie.1.blockNr = tds.blockNr := by
  have hmerge : (match tds.currentBuffer with
      | some cur =>
        { tds with
          aggregateBuffer := some ((match tds.aggregateBuffer with
            | some agg => agg
            | none => Buffer.fresh).merge cur) }
      | none => tds).blockNr = tds.blockNr := by
    split <;> rfl
  unfold TrieDbState.ResolveStateTrie
  simp only
  split
  · exact hmerge
  · split
    · rename_i t2 err h2
      have := congrArg (fun r : TrieDbState E × Option Error => r.1.blockNr) h2
      simp only [TrieDbState.resolveAccountTouches_blockNr] at this
      rw [← this]
      exact hmerge
    · rename_i t2 h2
      have hb2 : t2.blockNr = tds.blockNr := by
        have := congrArg (fun r : TrieDbState E × Option Error => r.1.blockNr) h2
        simp only [TrieDbState.resolveAccountTouches_blockNr] at this
        rw [← this]
        exact hmerge
      have hb3 : ∀ l, (if t2.resolveReads = true then t2.populateAccountBlockProof l
          else t2).blockNr = tds.blockNr := by
        intro l
        split
        · exact hb2
        · exact hb2
      split
      · rename_i t3 err h3
        have := congrArg (fun r : TrieDbState E × Option Error => r.1.blockNr) h3
        simp only [TrieDbState.resolveStorageTouches_blockNr] at this
        rw [← this]
        exact hb3 _
      · rename_i t3 h3
        have hb4 : t3.blockNr = tds.blockNr := by
          have := congrArg (fun r : TrieDbState E × Option Error => r.1.blockNr) h3
          simp only [TrieDbState.resolveStorageTouches_blockNr] at this
          rw [← this]
          exact hb3 _
        split
        · split
          · rename_i t4 err h4
            have := congrArg (fun r : TrieDbState E × Option Error => r.1.blockNr) h4
            simp only [TrieDbState.populateStorageBlockProof] at this
            rw [← this]
            exact hb4
          · rename_i t4 h4
            have := congrArg (fun r : TrieDbState E × Option Error => r.1.blockNr) h4
            simp only [TrieDbState.populateStorageBlockProof] at this
            rw [← this]
            exact hb4
        · exact hb4

theorem TrieDbState.updateTrieRoots_blockNr (tds tds' : TrieDbState E) (forward : Bool)
    (roots : Option (List Hash)) (err : Option Error)
    (h : tds.updateTrieRoots forward = some (tds', roots, err)) :
    tds'.blockNr = tds.blockNr ∧ tds'.db = tds.db := by
  unfold TrieDbState.updateTrieRoots at h
  split at h
  · exact Option.noConfusion h
  · simp only [Option.some.injEq, Prod.mk.injEq] at h
    rw [← h.1]
    exact ⟨rfl, rfl⟩

theorem TrieDbState.unwindPrepare_blockNr (tds mid : TrieDbState E) (target : Nat)
    (err : Option Error) (h : tds.unwindPrepare target = some (mid, err)) :
    mid.blockNr = tds.blockNr := by
  unfold TrieDbState.unwindPrepare at h
  simp only at h
  have hrw := RewindData_invariant E tds.StartNewBuffer.db tds.StartNewBuffer.blockNr target
    unwindDf (fun s => ∀ x, s = some x → x.blockNr = tds.blockNr)
    (fun s b k v hs => unwindDf_blockNr tds.blockNr s b k v hs) (some tds.StartNewBuffer)
    (fun x hx => by
      rw [← Option.some.inj hx]
      exact TrieDbState.StartNewBuffer_blockNr tds)
  split at h
  · exact Option.noConfusion h
  · rename_i t1 e1 h1
    simp only [Option.some.injEq, Prod.mk.injEq] at h
    rw [h1] at hrw
    rw [← h.1]
    exact hrw t1 rfl
  · rename_i t1 h1
    rw [h1] at hrw
    have hb1 : t1.blockNr = tds.blockNr := hrw t1 rfl
    have hb2 := TrieDbState.ResolveStateTrie_blockNr t1
    split at h
    · rename_i t2 e2 h2
      simp only [Option.some.injEq, Prod.mk.injEq] at h
      rw [h2] at hb2
      rw [← h.1]
      exact hb2.trans hb1
    · rename_i t2 h2
      rw [h2] at hb2
      split at h
      · exact Option.noConfusion h
      · rename_i t3 r3 e3 h3
        simp only [Option.some.injEq, Prod.mk.injEq] at h
        rw [← h.1, (TrieDbState.updateTrieRoots_blockNr _ _ _ _ _ h3).1]
        exact hb2.trans hb1

theorem unwindTimestamps_mem (current target t : Nat) :
    t ∈ unwindTimestamps current target ↔ target < t ∧ t ≤ current := by
  unfold unwindTimestamps
  simp only [List.mem_map, List.mem_range]
  constructor
  · rintro ⟨j, hj, rfl⟩
    omega
  · intro h
    exact ⟨current - t, by omega, by omega⟩

theorem unwindTimestamps_descending (current target : Nat) :
    (unwindTimestamps current target).Pairwise (fun a b => b < a) := by
  unfold unwindTimestamps
  rw [List.pairwise_map]
  refine List.Pairwise.imp_of_mem ?_ (List.pairwise_lt_range _)
  intro a b ha hb hab
  rw [List.mem_range] at ha hb
  omega

theorem unwindTimestamps_empty (current target : Nat) (h : current ≤ target) :
    unwindTimestamps current target = [] := by
  unfold unwindTimestamps
  rw [Nat.sub_eq_zero_of_le h]
  rfl

/-- C19: when `UnwindTo(target)` from the block `c` returns, the timestamps of its deletion
loop are exactly the `t` with `target < t ≤ c`, each once, from `c` downwards (none when
`target ≥ c`). When it returns without error, the part before the loop ended without error in
a state `mid` still at block `c`, `DeleteTimestamp` was called on the database of `mid` for
these timestamps in turn, each call without error, and the result holds the database after the
last call, no frozen buffer, no current buffer, no aggregate buffer, and `blockNr = target`.
When it returns an error, `blockNr` is still `c`. -/
theorem TrieDbState.UnwindTo_effect (tds : TrieDbState E) (target : Nat)
    (r : TrieDbState E × Option Error) (h : tds.UnwindTo target = some r) :
    (∀ t, t ∈ unwindTimestamps tds.blockNr target ↔ target < t ∧ t ≤ tds.blockNr) ∧
    (unwindTimestamps tds.blockNr target).Pairwise (fun a b => b < a) ∧
    (unwindTimestamps tds.blockNr target).Nodup ∧
    (tds.blockNr ≤ target → unwindTimestamps tds.blockNr target = []) ∧
    (r.2 = none →
      ∃ mid, tds.unwindPrepare target = some (mid, none) ∧ mid.blockNr = tds.blockNr ∧
        loopErr (fun db i => E.dbDeleteTimestamp db i) mid.db
          (unwindTimestamps tds.blockNr target) = (r.1.db, none) ∧
        r.1.frozenBuffers = [] ∧ r.1.currentBuffer = none ∧ r.1.aggregateBuffer = none ∧
        r.1.blockNr = target) ∧
    (r.2 ≠ none → r.1.blockNr = tds.blockNr) := by
  refine ⟨unwindTimestamps_mem _ _, unwindTimestamps_descending _ _,
    (unwindTimestamps_descending _ _).imp (fun hab => Nat.ne_of_gt hab),
    unwindTimestamps_empty _ _, ?_, ?_⟩
  · intro hr
    unfold TrieDbState.UnwindTo at h
    split at h
    · exact Option.noConfusion h
    · rename_i mid e hp
      rw [← Option.some.inj h] at hr
      exact Option.noConfusion hr
    · rename_i mid hp
      have hmid := TrieDbState.unwindPrepare_blockNr _ _ _ _ hp
      split at h
      · rename_i db e hl
        rw [← Option.some.inj h] at hr
        exact Option.noConfusion hr
      · rename_i db hl
        rw [← Option.some.inj h]
        rw [hmid] at hl
        exact ⟨mid, hp, hmid, hl, rfl, rfl, rfl, rfl⟩
  · intro hr
    unfold TrieDbState.UnwindTo at h
    split at h
    · exact Option.noConfusion h
    · rename_i mid e hp
      rw [← Option.some.inj h]
      exact TrieDbState.unwindPrepare_blockNr _ _ _ _ hp
    · rename_i mid hp
      split at h
      · rw [← Option.some.inj h]
        exact TrieDbState.unwindPrepare_blockNr tds mid target none hp
      · rw [← Option.some.inj h] at hr
        exact absurd rfl hr

/-- Witness of C19: in the instance, the state at block 6 over `historyDb` is unwound to
block 3 without error. -/
theorem TrieDbState.UnwindTo_effect_witness :
    ∃ r, historyState.UnwindTo 3 = some r ∧ r.2 = none ∧ r.1.blockNr = 3 ∧
      r.1.frozenBuffers = [] ∧ r.1.currentBuffer = none ∧ r.1.aggregateBuffer = none ∧
      unwindTimestamps historyState.blockNr 3 = [6, 5, 4] :=
  match h : historyState.UnwindTo 3,
      (by decide : (historyState.UnwindTo 3).map (fun r => r.2) = some none) with
  | some r, hr =>
    have hnone : r.2 = none := Option.some.inj hr
    match (TrieDbState.UnwindTo_effect historyState 3 r h).2.2.2.2.1 hnone with
    | ⟨_, _, _, _, hf, hc, ha, hb⟩ => ⟨r, rfl, hnone, hb, hf, hc, ha, by decide⟩

/-! ## Rewind data -/

theorem loopErr_append_error {S A : Type} (f : S → A → S × Option Error) (s s' : S) (err : Error)
    (l₁ l₂ : List A) (h : loopErr f s l₁ = (s', some err)) :
    loopErr f s (l₁ ++ l₂) = (s', some err) := by
  induction l₁ generalizing s with
  | nil => simp [loopErr] at h
  | cons a rest ih =>
    simp only [List.cons_append, loopErr] at h ⊢
    rcases hf : f s a with ⟨s₁, _ | e⟩
    · rw [hf] at h
      simp only at h ⊢
      exact ih s₁ h
    · rw [hf] at h
      simp only at h ⊢
      exact h

theorem loopErr_map {S A B : Type} (f : S → B → S × Option Error) (g : A → B) (s : S)
    (l : List A) : loopErr f s (l.map g) = loopErr (fun s a => f s (g a)) s l := by
  induction l generalizing s with
  | nil => rfl
  | cons a rest ih =>
    simp only [List.map_cons, loopErr]
    rcases f s (g a) with ⟨s₁, _ | e⟩
    · exact ih s₁
    · rfl

theorem loopErr_flatMap {S A B : Type} (f : S → B → S × Option Error) (g : A → List B) (s : S)
    (l : List A) : loopErr (fun s a => loopErr f s (g a)) s l = loopErr f s (l.flatMap g) := by
  induction l generalizing s with
  | nil => rfl
  | cons a rest ih =>
    rw [List.flatMap_cons]
    conv_lhs => unfold loopErr
    rcases h : loopErr f s (g a) with ⟨s₁, _ | e⟩
    · rw [loopErr_append f s s₁ (g a) _ h]
      exact ih s₁
    · rw [loopErr_append_error f s s₁ e (g a) _ h]

theorem alLookup_append {K V : Type} [DecidableEq K] (k : K) (l₁ l₂ : List (K × V)) :
    alLookup k (l₁ ++ l₂) = (alLookup k l₁).or (alLookup k l₂) := by
  induction l₁ with
  | nil => simp [alLookup]
  | cons e rest ih =>
    by_cases he : e.1 = k
    · simp [alLookup, he]
    · simp [alLookup, he, ih]

theorem alLookup_map_bucket (bucket b k : Bytes) (cs : List (Bytes × Bytes)) :
    alLookup (b, k) (cs.map (fun kv => ((bucket, kv.1), kv.2))) =
      if b = bucket then alLookup k cs else none := by
  induction cs with
  | nil => simp [alLookup]
  | cons c rest ih =>
    by_cases hb : b = bucket
    · subst hb
      by_cases hk : c.1 = k
      · simp [alLookup, hk]
      · simp [alLookup, hk, ih]
    · have hb2 : ¬ bucket = b := fun h => hb h.symm
      simp [alLookup, hb, hb2, ih]

theorem foldl_firstWrite_get? (cs : List (Bytes × Bytes)) (t : GoMap Bytes Bytes) (k : Bytes) :
    (cs.foldl (fun t kv => if t.contains kv.1 then t else t.set kv.1 kv.2) t).get? k =
      (t.get? k).or (alLookup k cs) := by
  induction cs generalizing t with
  | nil => simp [alLookup]
  | cons c rest ih =>
    rw [List.foldl_cons, ih]
    by_cases hc : t.contains c.1 = true
    · simp only [hc, if_true]
      by_cases hk : c.1 = k
      · subst hk
        unfold GoMap.contains at hc
        obtain ⟨v, hv⟩ := Option.isSome_iff_exists.mp hc
        simp [hv]
      · simp [alLookup, hk]
    · have hc2 : t.contains c.1 = false := by simpa using hc
      simp only [hc2, Bool.false_eq_true, if_false]
      rw [GoMap.get?_set]
      by_cases hk : c.1 = k
      · subst hk
        have hnone : t.get? c.1 = none := by
          unfold GoMap.contains at hc
          simpa using hc
        simp [alLookup, hnone]
      · have hk2 : ¬ k = c.1 := fun h => hk h.symm
        simp [alLookup, hk, hk2]

theorem rewindAbsorb_value (E : Ext) (m : GoMap Bytes (GoMap Bytes Bytes)) (e : Bytes × Bytes)
    (b k : Bytes) :
    rewindValue (rewindAbsorb E m e) b k =
      (rewindValue m b k).or (firstChange (changesOf E [e]) b k) := by
  have hch : changesOf E [e] =
      (E.DecodeChangeSet e.2).1.map (fun kv => (((E.DecodeTimestamp e.1).2, kv.1), kv.2)) := by
    simp [changesOf]
  unfold firstChange
  rw [hch, alLookup_map_bucket]
  unfold rewindAbsorb rewindValue
  by_cases hlen : (E.DecodeChangeSet e.2).1.length > 0
  · simp only [hlen, if_true]
    rw [GoMap.get?_set]
    by_cases hb : b = (E.DecodeTimestamp e.1).2
    · subst hb
      simp only [if_true, Option.some_bind, foldl_firstWrite_get?]
      cases m.get? (E.DecodeTimestamp e.1).2 <;> simp
    · simp [hb]
  · have hnil : (E.DecodeChangeSet e.2).1 = [] := by
      cases h : (E.DecodeChangeSet e.2).1 with
      | nil => rfl
      | cons a l => rw [h] at hlen; simp at hlen
    simp [hnil, alLookup]

theorem changesOf_cons (E : Ext) (e : Bytes × Bytes) (l : List (Bytes × Bytes)) :
    changesOf E (e :: l) = changesOf E [e] ++ changesOf E l := by
  simp [changesOf]

theorem foldl_rewindAbsorb_value (E : Ext) (l : List (Bytes × Bytes))
    (m : GoMap Bytes (GoMap Bytes Bytes)) (b k : Bytes) :
    rewindValue (l.foldl (rewindAbsorb E) m) b k =
      (rewindValue m b k).or (firstChange (changesOf E l) b k) := by
  induction l generalizing m with
  | nil => simp [changesOf, firstChange, alLookup]
  | cons e rest ih =>
    rw [List.foldl_cons, ih, rewindAbsorb_value]
    conv_rhs => rw [changesOf_cons]
    unfold firstChange
    rw [alLookup_append, Option.or_assoc]

theorem rewindWalker_le (E : Ext) (src : Nat) (m : GoMap Bytes (GoMap Bytes Bytes))
    (e : Bytes × Bytes) (hts : entryTimestamp E e ≤ src)
    (hdec : (E.DecodeChangeSet e.2).2 = none) :
    rewindWalker E src m e.1 e.2 = (rewindAbsorb E m e, true, none) := by
  unfold rewindWalker rewindAbsorb
  unfold entryTimestamp at hts
  rcases hd : E.DecodeChangeSet e.2 with ⟨cs, _ | err⟩
  · simp only [gt_iff_lt, Nat.not_lt.mpr hts, if_false]
    split <;> rfl
  · rw [hd] at hdec
    exact Option.noConfusion hdec

theorem rewindWalker_gt (E : Ext) (src : Nat) (m : GoMap Bytes (GoMap Bytes Bytes))
    (e : Bytes × Bytes) (hts : src < entryTimestamp E e) :
    rewindWalker E src m e.1 e.2 = (m, false, none) := by
  unfold rewindWalker
  unfold entryTimestamp at hts
  simp only [gt_iff_lt, hts, if_true]

theorem walkEntries_rewindWalker (E : Ext) (src : Nat) (l : List (Bytes × Bytes))
    (m : GoMap Bytes (GoMap Bytes Bytes))
    (hasc : l.Pairwise (fun a b => entryTimestamp E a ≤ entryTimestamp E b))
    (hdec : ∀ e ∈ l, (E.DecodeChangeSet e.2).2 = none) :
    walkEntries (rewindWalker E src) m l none =
      ((l.filter (fun e => decide (entryTimestamp E e ≤ src))).foldl (rewindAbsorb E) m, none) := by
  induction l generalizing m with
  | nil => rfl
  | cons e rest ih =>
    rw [List.pairwise_cons] at hasc
    unfold walkEntries
    by_cases hts : entryTimestamp E e ≤ src
    · rw [rewindWalker_le E src m e hts (hdec e (List.mem_cons_self _ _))]
      simp only [List.filter_cons, hts, decide_True, if_true, List.foldl_cons]
      exact ih _ hasc.2 (fun x hx => hdec x (List.mem_cons_of_mem _ hx))
    · rw [rewindWalker_gt E src m e (Nat.lt_of_not_le hts)]
      have hnil : (e :: rest).filter (fun e => decide (entryTimestamp E e ≤ src)) = [] := by
        rw [List.filter_eq_nil_iff]
        intro x hx
        rcases List.mem_cons.mp hx with rfl | hx
        · simpa using hts
        · have := hasc.1 x hx
          simp only [decide_eq_true_eq]
          omega
      rw [hnil]
      rfl

theorem RewindData_eq_calls {S : Type} (E : Ext) (db : E.Db) (src dst : Nat)
    (df : S → Bytes → Bytes → Bytes → S × Option Error) (s : S) (l : List (Bytes × Bytes))
    (hwalk : E.dbWalk db E.ChangeSetBucket (E.EncodeTimestamp ((dst + 1) % 2 ^ 64)) 0 = (l, none))
    (hasc : l.Pairwise (fun a b => entryTimestamp E a ≤ entryTimestamp E b))
    (hdec : ∀ e ∈ l, (E.DecodeChangeSet e.2).2 = none) :
    RewindData E db src dst df s =
      loopErr (fun s (c : Bytes × Bytes × Bytes) => df s c.1 c.2.1 c.2.2) s
        (rewindCalls ((l.filter (fun e => decide (entryTimestamp E e ≤ src))).foldl
          (rewindAbsorb E) GoMap.empty)) := by
  unfold RewindData Walk
  simp only [hwalk, walkEntries_rewindWalker E src l GoMap.empty hasc hdec]
  unfold rewindCalls
  rw [← loopErr_flatMap]
  congr 1
  funext s e
  rw [loopErr_map]

theorem rewindCalls_mem (m : GoMap Bytes (GoMap Bytes Bytes)) (b k v : Bytes) :
    (b, k, v) ∈ rewindCalls m ↔ rewindValue m b k = some v := by
  unfold rewindCalls rewindValue
  simp only [List.mem_flatMap, List.mem_map, Prod.mk.injEq, Option.bind_eq_some]
  constructor
  · rintro ⟨e, he, kv, hkv, rfl, rfl, rfl⟩
    exact ⟨e.2, (GoMap.get?_eq_some_iff m e.1 e.2).mpr he,
      (GoMap.get?_eq_some_iff e.2 kv.1 kv.2).mpr hkv⟩
  · rintro ⟨t, ht, hv⟩
    exact ⟨(b, t), (GoMap.get?_eq_some_iff m b t).mp ht, (k, v),
      (GoMap.get?_eq_some_iff t k v).mp hv, rfl, rfl, rfl⟩

theorem rewindCalls_nodup (m : GoMap Bytes (GoMap Bytes Bytes)) :
    ((rewindCalls m).map (fun c => (c.1, c.2.1))).Nodup := by
  unfold rewindCalls
  rw [List.map_flatMap, List.nodup_flatMap]
  constructor
  · intro e _
    rw [List.map_map]
    have h := e.2.nodup
    unfold List.Nodup at h ⊢
    rw [List.pairwise_map] at h ⊢
    refine h.imp ?_
    intro a c hne heq
    exact hne (Prod.mk.injEq _ _ _ _ ▸ heq).2
  · have h := m.nodup
    unfold List.Nodup at h
    rw [List.pairwise_map] at h
    refine h.imp ?_
    intro e1 e2 hne x h1 h2
    simp only [List.mem_map] at h1 h2
    obtain ⟨c1, ⟨k1, _, rfl⟩, rfl⟩ := h1
    obtain ⟨c2, ⟨k2, _, rfl⟩, h3⟩ := h2
    exact hne (Prod.mk.injEq _ _ _ _ ▸ h3).1.symm

theorem loopErr_recordCall (log calls : List (Bytes × Bytes × Bytes)) :
    loopErr (fun s (c : Bytes × Bytes × Bytes) => recordCall s c.1 c.2.1 c.2.2) log calls =
      (log ++ calls, none) := by
  induction calls generalizing log with
  | nil => simp [loopErr]
  | cons c rest ih =>
    unfold loopErr
    have hc : recordCall log c.1 c.2.1 c.2.2 = (log ++ [c], none) := rfl
    simp only [hc]
    rw [ih]
    simp

theorem changesOf_lookup_single (E : Ext) (e : Bytes × Bytes) (b k : Bytes) :
    alLookup (b, k) (changesOf E [e]) =
      if b = (E.DecodeTimestamp e.1).2 then alLookup k (E.DecodeChangeSet e.2).1 else none := by
  have hch : changesOf E [e] =
      (E.DecodeChangeSet e.2).1.map (fun kv => (((E.DecodeTimestamp e.1).2, kv.1), kv.2)) := by
    simp [changesOf]
  rw [hch, alLookup_map_bucket]

theorem firstChange_earliest (E : Ext) (l : List (Bytes × Bytes)) (b k v : Bytes)
    (hasc : l.Pairwise (fun a b => entryTimestamp E a ≤ entryTimestamp E b))
    (h : firstChange (changesOf E l) b k = some v) :
    ∃ e ∈ l, (E.DecodeTimestamp e.1).2 = b ∧ alLookup k (E.DecodeChangeSet e.2).1 = some v ∧
      ∀ e' ∈ l, (E.DecodeTimestamp e'.1).2 = b →
        k ∈ (E.DecodeChangeSet e'.2).1.map Prod.fst → entryTimestamp E e ≤ entryTimestamp E e' := by
  induction l with
  | nil => simp [firstChange, changesOf, alLookup] at h
  | cons e rest ih =>
    rw [List.pairwise_cons] at hasc
    unfold firstChange at h ih
    rw [changesOf_cons, alLookup_append, changesOf_lookup_single] at h
    by_cases hb : b = (E.DecodeTimestamp e.1).2
    · rw [if_pos hb] at h
      rcases hl : alLookup k (E.DecodeChangeSet e.2).1 with _ | w
      · rw [hl, Option.none_or] at h
        obtain ⟨e0, he0, hb0, hv0, hmin⟩ := ih hasc.2 h
        refine ⟨e0, List.mem_cons_of_mem _ he0, hb0, hv0, ?_⟩
        intro e' he' hb' hk'
        rcases List.mem_cons.mp he' with rfl | he'
        · have hsome := (alLookup_isSome_iff k (E.DecodeChangeSet e'.2).1).mpr hk'
          rw [hl] at hsome
          exact absurd hsome (by simp)
        · exact hmin e' he' hb' hk'
      · rw [hl] at h
        have h : some w = some v := h
        refine ⟨e, List.mem_cons_self _ _, hb.symm, ?_, ?_⟩
        · rw [hl, ← Option.some.inj h]
        · intro e' he' _ _
          rcases List.mem_cons.mp he' with rfl | he'
          · exact Nat.le_refl _
          · exact hasc.1 e' he'
    · rw [if_neg hb, Option.none_or] at h
      obtain ⟨e0, he0, hb0, hv0, hmin⟩ := ih hasc.2 h
      refine ⟨e0, List.mem_cons_of_mem _ he0, hb0, hv0, ?_⟩
      intro e' he' hb' hk'
      rcases List.mem_cons.mp he' with rfl | he'
      · exact absurd hb'.symm hb
      · exact hmin e' he' hb' hk'

theorem firstChange_isSome (E : Ext) (l : List (Bytes × Bytes)) (e : Bytes × Bytes)
    (kv : Bytes × Bytes) (he : e ∈ l) (hkv : kv ∈ (E.DecodeChangeSet e.2).1) :
    ∃ v, firstChange (changesOf E l) (E.DecodeTimestamp e.1).2 kv.1 = some v := by
  apply Option.isSome_iff_exists.mp
  unfold firstChange
  rw [alLookup_isSome_iff]
  unfold changesOf
  simp only [List.mem_map, List.mem_flatMap]
  exact ⟨(((E.DecodeTimestamp e.1).2, kv.1), kv.2), ⟨e, he, kv, hkv, rfl⟩, rfl⟩

/-- Away from the wrap-around of `timestampDst + 1`: when the walk from the encoded timestamp
`timestampDst + 1` offers, without error, the entries of the change-set bucket whose timestamp
is above `timestampDst`, the bucket is in ascending timestamp order and every change set decodes,
there is a list `calls` of tuples such that `RewindData` with any callback runs the callback
over `calls` in turn and stops at its first error (so a callback that records its arguments
ends with `calls`); no (bucket, key) occurs twice in `calls`; every key of every change set with
`timestampDst < t ≤ timestampSrc` has a tuple; and every tuple carries the value that a change
set of that bucket with `timestampDst < t ≤ timestampSrc` records for the key, a change set
whose timestamp is the least among those in range that hold the key. -/
theorem RewindData_calls (E : Ext) (db : E.Db) (src dst : Nat)
    (hdst : dst + 1 < 2 ^ 64)
    (hwalk : E.dbWalk db E.ChangeSetBucket (E.EncodeTimestamp (dst + 1)) 0 =
      ((changeSetEntries E db).filter (fun e => decide (dst < entryTimestamp E e)), none))
    (hasc : (changeSetEntries E db).Pairwise
      (fun a b => entryTimestamp E a ≤ entryTimestamp E b))
    (hdec : ∀ e ∈ changeSetEntries E db, (E.DecodeChangeSet e.2).2 = none) :
    ∃ calls : List (Bytes × Bytes × Bytes),
      (∀ (S : Type) (df : S → Bytes → Bytes → Bytes → S × Option Error) (s : S),
        RewindData E db src dst df s =
          loopErr (fun s (c : Bytes × Bytes × Bytes) => df s c.1 c.2.1 c.2.2) s calls) ∧
      RewindData E db src dst recordCall [] = (calls, none) ∧
      (calls.map (fun c => (c.1, c.2.1))).Nodup ∧
      (∀ e ∈ changeSetEntries E db, dst < entryTimestamp E e → entryTimestamp E e ≤ src →
        ∀ kv ∈ (E.DecodeChangeSet e.2).1, ∃ v, ((E.DecodeTimestamp e.1).2, kv.1, v) ∈ calls) ∧
      (∀ b k v, (b, k, v) ∈ calls →
        ∃ e ∈ changeSetEntries E db, dst < entryTimestamp E e ∧ entryTimestamp E e ≤ src ∧
          (E.DecodeTimestamp e.1).2 = b ∧ alLookup k (E.DecodeChangeSet e.2).1 = some v ∧
          ∀ e' ∈ changeSetEntries E db, dst < entryTimestamp E e' → entryTimestamp E e' ≤ src →
            (E.DecodeTimestamp e'.1).2 = b → k ∈ (E.DecodeChangeSet e'.2).1.map Prod.fst →
            entryTimestamp E e ≤ entryTimestamp E e') := by
  have hwalk2 : E.dbWalk db E.ChangeSetBucket (E.EncodeTimestamp ((dst + 1) % 2 ^ 64)) 0 =
      ((changeSetEntries E db).filter (fun e => decide (dst < entryTimestamp E e)), none) := by
    rw [Nat.mod_eq_of_lt hdst]
    exact hwalk
  have hasc2 := hasc.filter (fun e => decide (dst < entryTimestamp E e))
  have hdec2 : ∀ e ∈ (changeSetEntries E db).filter (fun e => decide (dst < entryTimestamp E e)),
      (E.DecodeChangeSet e.2).2 = none := fun e he => hdec e (List.mem_filter.mp he).1
  have hasc3 := hasc2.filter (fun e => decide (entryTimestamp E e ≤ src))
  have hmem : ∀ e, e ∈ ((changeSetEntries E db).filter
      (fun e => decide (dst < entryTimestamp E e))).filter
        (fun e => decide (entryTimestamp E e ≤ src)) ↔
      e ∈ changeSetEntries E db ∧ dst < entryTimestamp E e ∧ entryTimestamp E e ≤ src := by
    intro e
    simp only [List.mem_filter, decide_eq_true_eq, and_assoc]
  have hcalls : ∀ (S : Type) (df : S → Bytes → Bytes → Bytes → S × Option Error) (s : S),
      RewindData E db src dst df s =
        loopErr (fun s (c : Bytes × Bytes × Bytes) => df s c.1 c.2.1 c.2.2) s
          (rewindCalls ((((changeSetEntries E db).filter
            (fun e => decide (dst < entryTimestamp E e))).filter
              (fun e => decide (entryTimestamp E e ≤ src))).foldl (rewindAbsorb E) GoMap.empty)) :=
    fun S df s => RewindData_eq_calls E db src dst df s _ hwalk2 hasc2 hdec2
  have hval : ∀ b k, rewindValue ((((changeSetEntries E db).filter
      (fun e => decide (dst < entryTimestamp E e))).filter
        (fun e => decide (entryTimestamp E e ≤ src))).foldl (rewindAbsorb E) GoMap.empty) b k =
      firstChange (changesOf E (((changeSetEntries E db).filter
        (fun e => decide (dst < entryTimestamp E e))).filter
          (fun e => decide (entryTimestamp E e ≤ src)))) b k := by
    intro b k
    rw [foldl_rewindAbsorb_value]
    exact Option.none_or
  refine ⟨_, hcalls, ?_, rewindCalls_nodup _, ?_, ?_⟩
  · rw [hcalls, loopErr_recordCall, List.nil_append]
  · intro e he h1 h2 kv hkv
    obtain ⟨v, hv⟩ := firstChange_isSome E _ e kv ((hmem e).mpr ⟨he, h1, h2⟩) hkv
    exact ⟨v, (rewindCalls_mem _ _ _ _).mpr ((hval _ _).trans hv)⟩
  · intro b k v hc
    have hv := (hval b k).symm.trans ((rewindCalls_mem _ _ _ _).mp hc)
    obtain ⟨e, he, hb, hl, hmin⟩ := firstChange_earliest E _ b k v hasc3 hv
    obtain ⟨he1, he2, he3⟩ := (hmem e).mp he
    exact ⟨e, he1, he2, he3, hb, hl,
      fun e' he' h1 h2 hb' hk' => hmin e' ((hmem e').mpr ⟨he', h1, h2⟩) hb' hk'⟩

/-- The hypotheses of `RewindData_calls` hold in the instance over `historyDb`, from block 6 to
block 3: the callback is called with the pre-images of the two accounts, the values recorded
at timestamp 4. -/
theorem RewindData_calls_at_history :
    ∃ calls, RewindData sampleExt historyDb 6 3 recordCall [] = (calls, none) ∧
      (calls.map (fun c => (c.1, c.2.1))).Nodup ∧
      calls = [([104, 65], (Hash.ofByte 1).val, [2, 5, 0]), ([104, 65], (Hash.ofByte 2).val, [])] :=
  match RewindData_calls sampleExt historyDb 6 3 (by decide) (by decide) (by decide)
      (by decide) with
  | ⟨calls, _, h2, h3, _⟩ =>
    have hrun : RewindData sampleExt historyDb 6 3 recordCall [] =
        ([([104, 65], (Hash.ofByte 1).val, [2, 5, 0]), ([104, 65], (Hash.ofByte 2).val, [])],
          none) := by decide
    ⟨calls, h2, h3, (Prod.mk.inj (h2.symm.trans hrun)).1⟩

/-- C17 (the code at the failing input): for `timestampDst = 2^64 - 1` no timestamp is above
`timestampDst`, so no key changed at a timestamp `t` with `timestampDst < t ≤ timestampSrc`;
yet the sum `timestampDst + 1` wraps to 0, the walk starts at the encoded timestamp 0, and
over `historyDb`, whose change sets have the timestamps 3, 4 and 6, the callback is called
with the values recorded at timestamp 3 and 4 for both keys. For `timestampDst = 2^64 - 2`
it is not called. -/
theorem RewindData_wraps_at_max_timestamp :
    (changeSetEntries sampleExt historyDb).map (entryTimestamp sampleExt) = [3, 4, 6] ∧
    (changeSetEntries sampleExt historyDb).filter
      (fun e => decide (2 ^ 64 - 1 < entryTimestamp sampleExt e)) = [] ∧
    RewindData sampleExt historyDb 6 (2 ^ 64 - 1) recordCall [] =
      ([([104, 65], (Hash.ofByte 1).val, [1, 5, 0]), ([104, 65], (Hash.ofByte 2).val, [])],
        none) ∧
    RewindData sampleExt historyDb (2 ^ 64 - 1) (2 ^ 64 - 1) recordCall [] =
      ([([104, 65], (Hash.ofByte 1).val, [1, 5, 0]), ([104, 65], (Hash.ofByte 2).val, [])],
        none) ∧
    RewindData sampleExt historyDb 6 (2 ^ 64 - 2) recordCall [] = ([], none) := by
  decide

/-! ## Modified accounts -/

theorem walkEntries_modifiedWalker (E : Ext) (endTimestamp : Nat) (l : List (Bytes × Bytes))
    (keys : List Bytes)
    (hasc : l.Pairwise (fun a b => entryTimestamp E a ≤ entryTimestamp E b))
    (hdec : ∀ e ∈ l, (E.DecodeChangeSet e.2).2 = none) :
    walkEntries (modifiedWalker E endTimestamp) keys l none =
      (keys ++ (l.filter (fun e => decide ((E.DecodeTimestamp e.1).2 = E.AccountsHistoryBucket ∧
          entryTimestamp E e ≤ endTimestamp))).flatMap
        (fun e => (E.DecodeChangeSet e.2).1.map Prod.fst), none) := by
  induction l generalizing keys with
  | nil => simp [walkEntries]
  | cons e rest ih =>
    rw [List.pairwise_cons] at hasc
    have ih2 := fun keys => ih keys hasc.2 (fun x hx => hdec x (List.mem_cons_of_mem _ hx))
    unfold walkEntries
    by_cases hb : (E.DecodeTimestamp e.1).2 = E.AccountsHistoryBucket
    · by_cases hts : entryTimestamp E e ≤ endTimestamp
      · have hd := hdec e (List.mem_cons_self _ _)
        have hw : modifiedWalker E endTimestamp keys e.1 e.2 =
            (keys ++ (E.DecodeChangeSet e.2).1.map Prod.fst, true, none) := by
          unfold modifiedWalker
          unfold entryTimestamp at hts
          rcases hdc : E.DecodeChangeSet e.2 with ⟨cs, _ | err⟩
          · simp only [hb, ne_eq, not_true_eq_false, if_false, gt_iff_lt, Nat.not_lt.mpr hts]
          · rw [hdc] at hd
            exact Option.noConfusion hd
        rw [hw]
        simp only [ih2, List.filter_cons, hb, hts, and_self, decide_True, if_true,
          List.flatMap_cons, List.append_assoc]
      · have hw : modifiedWalker E endTimestamp keys e.1 e.2 = (keys, false, none) := by
          unfold modifiedWalker
          unfold entryTimestamp at hts
          simp only [hb, ne_eq, not_true_eq_false, if_false, gt_iff_lt, Nat.lt_of_not_le hts,
            if_true]
        rw [hw]
        have hnil : (e :: rest).filter (fun e =>
            decide ((E.DecodeTimestamp e.1).2 = E.AccountsHistoryBucket ∧
              entryTimestamp E e ≤ endTimestamp)) = [] := by
          rw [List.filter_eq_nil_iff]
          intro x hx
          rcases List.mem_cons.mp hx with rfl | hx
          · simp [hts]
          · have := hasc.1 x hx
            simp only [decide_eq_true_eq, not_and]
            intro _
            omega
        rw [hnil]
        simp
    · have hw : modifiedWalker E endTimestamp keys e.1 e.2 = (keys, true, none) := by
        unfold modifiedWalker
        simp only [ne_eq, hb, not_false_eq_true, if_true]
      rw [hw]
      simp only [ih2, List.filter_cons, hb, false_and, decide_False, Bool.false_eq_true, if_false]

theorem resolvePreimages_ok (E : Ext) (db : E.Db) (keys : List Bytes)
    (h : ∀ k ∈ keys, (E.dbGet db E.PreimagePrefix k).2 = none) :
    resolvePreimages E db keys = (keys.map (preimageAddress E db), none) := by
  induction keys with
  | nil => rfl
  | cons k rest ih =>
    unfold resolvePreimages
    have hk := h k (List.mem_cons_self _ _)
    rcases hg : E.dbGet db E.PreimagePrefix k with ⟨value, _ | err⟩
    · simp only [ih (fun x hx => h x (List.mem_cons_of_mem _ hx)), List.map_cons,
        preimageAddress, hg]
    · rw [hg] at hk
      exact Option.noConfusion hk

theorem resolvePreimages_error (E : Ext) (db : E.Db) (keys : List Bytes)
    (h : ∃ k ∈ keys, (E.dbGet db E.PreimagePrefix k).2 ≠ none) :
    ∃ k ∈ keys, (E.dbGet db E.PreimagePrefix k).2 ≠ none ∧
      resolvePreimages E db keys = ([], some (Error.noPreimage k)) := by
  induction keys with
  | nil =>
    obtain ⟨k, hk, _⟩ := h
    exact absurd hk (List.not_mem_nil k)
  | cons k rest ih =>
    unfold resolvePreimages
    rcases hg : E.dbGet db E.PreimagePrefix k with ⟨value, _ | err⟩
    · have hrest : ∃ k ∈ rest, (E.dbGet db E.PreimagePrefix k).2 ≠ none := by
        obtain ⟨k', hk', hne⟩ := h
        rcases List.mem_cons.mp hk' with rfl | hk'
        · rw [hg] at hne
          exact absurd rfl hne
        · exact ⟨k', hk', hne⟩
      obtain ⟨k', hk', hne, hres⟩ := ih hrest
      exact ⟨k', List.mem_cons_of_mem _ hk', hne, by simp only [hres]⟩
    · refine ⟨k, List.mem_cons_self _ _, ?_, rfl⟩
      rw [hg]
      exact fun h => Option.noConfusion h

theorem GetModifiedAccounts_keys (E : Ext) (db : E.Db) (startTimestamp endTimestamp : Nat)
    (hwalk : E.dbWalk db E.ChangeSetBucket (E.EncodeTimestamp startTimestamp) 0 =
      ((changeSetEntries E db).filter (fun e => decide (startTimestamp ≤ entryTimestamp E e)),
        none))
    (hasc : (changeSetEntries E db).Pairwise
      (fun a b => entryTimestamp E a ≤ entryTimestamp E b))
    (hdec : ∀ e ∈ changeSetEntries E db, (E.DecodeChangeSet e.2).2 = none) :
    Walk E db E.ChangeSetBucket (E.EncodeTimestamp startTimestamp) 0
        (modifiedWalker E endTimestamp) [] =
      (modifiedKeys E db startTimestamp endTimestamp, none) := by
  unfold Walk
  rw [hwalk]
  simp only
  rw [walkEntries_modifiedWalker E endTimestamp _ []
    (hasc.filter _) (fun e he => hdec e (List.mem_filter.mp he).1)]
  unfold modifiedKeys
  simp only [List.nil_append, List.filter_filter, Prod.mk.injEq, and_true]
  congr 1
  apply List.filter_congr
  intro e _
  by_cases h1 : (E.DecodeTimestamp e.1).2 = E.AccountsHistoryBucket <;>
    by_cases h2 : startTimestamp ≤ entryTimestamp E e <;>
    by_cases h3 : entryTimestamp E e ≤ endTimestamp <;> simp [h1, h2, h3]

/-- C20: when the walk from the encoded `startTimestamp` offers, without error, the entries
of the change-set bucket from that timestamp on, the bucket is in ascending timestamp order
and every change set decodes, `GetModifiedAccounts` works on `modifiedKeys`, the keys of the
change sets of the accounts history bucket with `startTimestamp ≤ t ≤ endTimestamp` and only
those: without such a key it returns nil and no error; when every key has a pre-image it
returns the addresses of the pre-images of the keys, in order; when some key has no pre-image
(the lookup fails) it returns nil and the error that names such a key. -/
theorem GetModifiedAccounts_result (E : Ext) (db : E.Db) (startTimestamp endTimestamp : Nat)
    (hwalk : E.dbWalk db E.ChangeSetBucket (E.EncodeTimestamp startTimestamp) 0 =
      ((changeSetEntries E db).filter (fun e => decide (startTimestamp ≤ entryTimestamp E e)),
        none))
    (hasc : (changeSetEntries E db).Pairwise
      (fun a b => entryTimestamp E a ≤ entryTimestamp E b))
    (hdec : ∀ e ∈ changeSetEntries E db, (E.DecodeChangeSet e.2).2 = none) :
    (∀ k, k ∈ modifiedKeys E db startTimestamp endTimestamp ↔
      ∃ e ∈ changeSetEntries E db, (E.DecodeTimestamp e.1).2 = E.AccountsHistoryBucket ∧
        startTimestamp ≤ entryTimestamp E e ∧ entryTimestamp E e ≤ endTimestamp ∧
        k ∈ (E.DecodeChangeSet e.2).1.map Prod.fst) ∧
    (modifiedKeys E db startTimestamp endTimestamp = [] →
      GetModifiedAccounts E db startTimestamp endTimestamp = (none, none)) ∧
    (modifiedKeys E db startTimestamp endTimestamp ≠ [] →
      (∀ k ∈ modifiedKeys E db startTimestamp endTimestamp,
        (E.dbGet db E.PreimagePrefix k).2 = none) →
      GetModifiedAccounts E db startTimestamp endTimestamp =
        (some ((modifiedKeys E db startTimestamp endTimestamp).map (preimageAddress E db)),
          none)) ∧
    ((∃ k ∈ modifiedKeys E db startTimestamp endTimestamp,
        (E.dbGet db E.PreimagePrefix k).2 ≠ none) →
      ∃ k ∈ modifiedKeys E db startTimestamp endTimestamp,
        (E.dbGet db E.PreimagePrefix k).2 ≠ none ∧
        GetModifiedAccounts E db startTimestamp endTimestamp =
          (none, some (Error.noPreimage k))) := by
  have hkeys := GetModifiedAccounts_keys E db startTimestamp endTimestamp hwalk hasc hdec
  refine ⟨?_, ?_, ?_, ?_⟩
  · intro k
    unfold modifiedKeys
    simp only [List.mem_flatMap, List.mem_filter, decide_eq_true_eq, and_assoc]
  · intro hnil
    unfold GetModifiedAccounts
    simp only [hkeys, hnil, List.length_nil, if_true]
  · intro hne hall
    unfold GetModifiedAccounts
    have hlen : ¬ (modifiedKeys E db startTimestamp endTimestamp).length = 0 :=
      fun h => hne (List.length_eq_zero.mp h)
    simp only [hkeys, hlen, if_false, resolvePreimages_ok E db _ hall]
  · intro hex
    obtain ⟨k, hk, hne, hres⟩ := resolvePreimages_error E db _ hex
    refine ⟨k, hk, hne, ?_⟩
    unfold GetModifiedAccounts
    have hlen : ¬ (modifiedKeys E db startTimestamp endTimestamp).length = 0 := by
      intro h
      rw [List.length_eq_zero.mp h] at hk
      exact absurd hk (List.not_mem_nil k)
    simp only [hkeys, hlen, if_false, hres]

/-- Witness of C20: in the instance over `historyDb`, the accounts changed at timestamp 3 are
the address of twenty bytes 1; from timestamp 3 to 4 the key of the address hash 2, which has
no pre-image, is among the keys and the call fails; from timestamp 7 on there is no key. -/
theorem GetModifiedAccounts_result_witness :
    GetModifiedAccounts sampleExt historyDb 3 3 =
      (some [Address.copyFrom (List.replicate 20 1)], none) ∧
    (∃ k, (sampleExt.dbGet historyDb sampleExt.PreimagePrefix k).2 ≠ none ∧
      GetModifiedAccounts sampleExt historyDb 3 4 = (none, some (Error.noPreimage k))) ∧
    GetModifiedAccounts sampleExt historyDb 7 9 = (none, none) :=
  ⟨((GetModifiedAccounts_result sampleExt historyDb 3 3 (by decide) (by decide)
      (by decide)).2.2.1 (by decide) (by decide)).trans (by decide),
   match (GetModifiedAccounts_result sampleExt historyDb 3 4 (by decide) (by decide)
      (by decide)).2.2.2 ⟨(Hash.ofByte 2).val, by decide, by decide⟩ with
   | ⟨k, _, hne, h⟩ => ⟨k, hne, h⟩,
   (GetModifiedAccounts_result sampleExt historyDb 7 9 (by decide) (by decide)
      (by decide)).2.1 (by decide)⟩

/-! ## Equality of accounts -/

/-- C21: `accountsEqual` ignores the balance of uninitialised accounts: two accounts with equal
nonce, storage root and code hash that are both uninitialised compare equal whatever their
balances; two accounts of which exactly one is initialised compare unequal; two initialised
accounts compare equal only if their balances are equal. Altogether the result is true
exactly when nonce, initialised flag, storage root and code hash agree and, for initialised
accounts, the balances agree. -/
theorem accountsEqual_balance (a1 a2 : Account) :
    (a1.Nonce = a2.Nonce → a1.Root = a2.Root → a1.CodeHash = a2.CodeHash →
      a1.Initialised = false → a2.Initialised = false → accountsEqual a1 a2 = true) ∧
    (a1.Initialised ≠ a2.Initialised → accountsEqual a1 a2 = false) ∧
    (a1.Initialised = true → a2.Initialised = true → accountsEqual a1 a2 = true →
      a1.Balance = a2.Balance) ∧
    (accountsEqual a1 a2 = true ↔
      a1.Nonce = a2.Nonce ∧ a1.Initialised = a2.Initialised ∧
      (a1.Initialised = true → a1.Balance = a2.Balance) ∧
      a1.Root = a2.Root ∧ a1.CodeHash = a2.CodeHash) := by
  have hiff : accountsEqual a1 a2 = true ↔
      a1.Nonce = a2.Nonce ∧ a1.Initialised = a2.Initialised ∧
      (a1.Initialised = true → a1.Balance = a2.Balance) ∧
      a1.Root = a2.Root ∧ a1.CodeHash = a2.CodeHash := by
    unfold accountsEqual
    by_cases hn : a1.Nonce = a2.Nonce <;>
      by_cases hr : a1.Root = a2.Root <;>
      by_cases hc : a1.CodeHash = a2.CodeHash <;>
      by_cases hb : a1.Balance = a2.Balance <;>
      by_cases hz : a2.CodeHash = Hash.zero <;>
      cases h1 : a1.Initialised <;> cases h2 : a2.Initialised <;>
      simp_all
  refine ⟨?_, ?_, ?_, hiff⟩
  · intro hn hr hc h1 h2
    rw [hiff]
    exact ⟨hn, h1.trans h2.symm, fun h => absurd (h1.symm.trans h) (by decide), hr, hc⟩
  · intro hne
    cases h : accountsEqual a1 a2
    · rfl
    · exact absurd (hiff.mp h).2.1 hne
  · intro h1 _ h
    exact (hiff.mp h).2.2.1 h1

/-! ## A state with buffers of its own -/

/-- C29 (amended): `WithNewBuffer` returns a state with the trie, the database, the block
number, the code caches, the proof generator and the pruner of the receiver, a buffer stack of
exactly one empty buffer, which is the current buffer, an empty aggregate, and the
`historical`, `noHistory` and `resolveReads` settings of the receiver; its `savePreimages`
setting is off. -/
theorem TrieDbState.WithNewBuffer_shares (tds : TrieDbState E) :
    tds.WithNewBuffer.t = tds.t ∧ tds.WithNewBuffer.db = tds.db ∧
    tds.WithNewBuffer.blockNr = tds.blockNr ∧
    tds.WithNewBuffer.codeCache = tds.codeCache ∧
    tds.WithNewBuffer.codeSizeCache = tds.codeSizeCache ∧
    tds.WithNewBuffer.pg = tds.pg ∧ tds.WithNewBuffer.tp = tds.tp ∧
    tds.WithNewBuffer.buffers = [Buffer.fresh] ∧
    tds.WithNewBuffer.currentBuffer = some Buffer.fresh ∧
    tds.WithNewBuffer.aggregateBuffer = some Buffer.fresh ∧
    Buffer.fresh = Buffer.initialise default ∧
    tds.WithNewBuffer.historical = tds.historical ∧
    tds.WithNewBuffer.noHistory = tds.noHistory ∧
    tds.WithNewBuffer.resolveReads = tds.resolveReads ∧
    tds.WithNewBuffer.savePreimages = false :=
  ⟨rfl, rfl, rfl, rfl, rfl, rfl, rfl, rfl, rfl, rfl, rfl, rfl, rfl, rfl, rfl⟩

/-- Counterexample to C29 as stated: the state that `newTrieDbState` makes saves preimages,
the state that `WithNewBuffer` returns for it does not. -/
theorem TrieDbState.WithNewBuffer_drops_savePreimages :
    sampleState.savePreimages = true ∧ sampleState.WithNewBuffer.savePreimages = false ∧
    sampleState.WithNewBuffer.savePreimages ≠ sampleState.savePreimages := by
  decide

/-! ## Buffers after the update of the trie -/

/-- C30: when `UpdateStateTrie` returns, with roots or with an error of `updateTrieRoots`, the
buffer stack, the current buffer and the aggregate buffer of the state are cleared, and the
result is that of the forward `updateTrieRoots`. -/
theorem TrieDbState.UpdateStateTrie_clears (tds tds' : TrieDbState E)
    (roots : Option (List Hash)) (err : Option Error)
    (h : tds.UpdateStateTrie = some (tds', roots, err)) :
    tds'.buffers = [] ∧ tds'.frozenBuffers = [] ∧ tds'.currentBuffer = none ∧
    tds'.aggregateBuffer = none ∧
    ∃ mid, tds.updateTrieRoots true = some (mid, roots, err) ∧ tds' = mid.clearUpdates := by
  unfold TrieDbState.UpdateStateTrie at h
  split at h
  · exact Option.noConfusion h
  · rename_i mid r e hmid
    simp only [Option.some.injEq, Prod.mk.injEq] at h
    obtain ⟨h1, h2, h3⟩ := h
    subst h1 h2 h3
    exact ⟨rfl, rfl, rfl, rfl, mid, hmid, rfl⟩

/-- Witness of C30: in the instance, the update of the state with two buffers returns two
roots and leaves no buffer. -/
theorem TrieDbState.UpdateStateTrie_clears_witness :
    ∃ r, twoBufferState.UpdateStateTrie = some r ∧ r.2.1.map List.length = some 2 ∧
      r.2.2 = none ∧ r.1.buffers = [] ∧ r.1.aggregateBuffer = none :=
  match h : twoBufferState.UpdateStateTrie,
      (by decide : (twoBufferState.UpdateStateTrie).map
        (fun r => (r.2.1.map List.length, r.2.2)) = some (some 2, none)) with
  | some r, hr =>
    ⟨r, rfl, congrArg Prod.fst (Option.some.inj hr), congrArg Prod.snd (Option.some.inj hr),
      (TrieDbState.UpdateStateTrie_clears twoBufferState r.1 r.2.1 r.2.2 h).1,
      (TrieDbState.UpdateStateTrie_clears twoBufferState r.1 r.2.1 r.2.2 h).2.2.2.1⟩

/-! ## The probe of a rewind -/

theorem storageWrite_logged (E : Ext) (forward : Bool) (blockNr : Nat) (a : Hash)
    (t : E.logged.Trie) (kv : Hash × Option Bytes) :
    (storageWrite E.logged forward blockNr a t kv).2 =
      t.2 ++ (if forward || (E.tGet t.1 (GenerateCompositeTrieKey a kv.1)).2
        then [forwardWriteOp blockNr a kv] else []) := by
  unfold storageWrite forwardWriteOp
  by_cases hv : 0 < (kv.2.getD []).length <;> cases forward <;>
    by_cases hg : (E.tGet t.1 (GenerateCompositeTrieKey a kv.1)).2 = true <;>
    simp [hv, hg, Ext.logged]

/-- C27: in rewind mode (`forward = false`) `updateTrieRoots` applies the storage write of
`a‖k`, an `Update` for a value that is not empty and a `Delete` otherwise, when `Get(a‖k)`
reports the path as resolved, and otherwise leaves the trie as it is and issues no call; the
body of the loop has no error to return. In forward mode the write is applied whatever `Get`
reports, and the result is the same for every `Get` put in its place. The trie after the
writes of an address is the trie after these steps, one per write. The calls are those that
the listing trie `E.logged` records. -/
theorem storageWrite_probe (E : Ext) (blockNr : Nat) (a : Hash) (t : E.logged.Trie)
    (kv : Hash × Option Bytes) :
    ((E.tGet t.1 (GenerateCompositeTrieKey a kv.1)).2 = true →
      storageWrite E.logged false blockNr a t kv =
        ((if 0 < (kv.2.getD []).length
            then E.tUpdate t.1 (GenerateCompositeTrieKey a kv.1) (kv.2.getD []) blockNr
            else E.tDelete t.1 (GenerateCompositeTrieKey a kv.1) blockNr),
          t.2 ++ [forwardWriteOp blockNr a kv])) ∧
    ((E.tGet t.1 (GenerateCompositeTrieKey a kv.1)).2 = false →
      storageWrite E.logged false blockNr a t kv = t) ∧
    storageWrite E.logged true blockNr a t kv =
      ((if 0 < (kv.2.getD []).length
          then E.tUpdate t.1 (GenerateCompositeTrieKey a kv.1) (kv.2.getD []) blockNr
          else E.tDelete t.1 (GenerateCompositeTrieKey a kv.1) blockNr),
        t.2 ++ [forwardWriteOp blockNr a kv]) ∧
    (∀ g : E.Trie → Bytes → Option Bytes × Bool,
      storageWrite (Ext.logged { E with tGet := g }) true blockNr a t kv =
        storageWrite E.logged true blockNr a t kv) ∧
    (∀ (forward : Bool) (b : Buffer) (accountUpdates : GoMap Hash (Option AccountRef))
        (s : RootsState E.logged) (e : Hash × GoMap Hash (Option Bytes)),
      (storageStep E.logged forward blockNr b accountUpdates s e).1.t =
        e.2.entries.foldl (storageWrite E.logged forward blockNr e.1) s.t) := by
  refine ⟨?_, ?_, ?_, ?_, ?_⟩
  · intro hg
    unfold storageWrite forwardWriteOp
    by_cases hv : 0 < (kv.2.getD []).length <;> simp [hv, hg, Ext.logged]
  · intro hg
    unfold storageWrite
    by_cases hv : 0 < (kv.2.getD []).length <;> simp [hv, hg, Ext.logged]
  · unfold storageWrite forwardWriteOp
    by_cases hv : 0 < (kv.2.getD []).length <;> simp [hv, Ext.logged]
  · intro g
    unfold storageWrite
    by_cases hv : 0 < (kv.2.getD []).length <;> simp [hv, Ext.logged]
  · intro forward b accountUpdates s e
    unfold storageStep
    simp only
    split
    · rfl
    · split <;> rfl

/-! ## The order of the trie calls -/

theorem createdLoop_ops (E : Ext) (blockNr : Nat) (b : Buffer)
    (accountUpdates : GoMap Hash (Option AccountRef)) (s : RootsState E.logged) (ks : List Hash)
    (hks : ks.Nodup) :
    (ks.foldl (createdStep E.logged blockNr b accountUpdates) s).t.2 =
      s.t.2 ++ (ks.filter (fun k => !s.alreadyCreated.contains k)).map
        (fun k => TrieOp.DeleteSubtree k.val blockNr) := by
  induction ks generalizing s with
  | nil => simp
  | cons k rest ih =>
    rw [List.nodup_cons] at hks
    rw [List.foldl_cons, ih _ hks.2]
    by_cases hc : s.alreadyCreated.contains k = true
    · have hs : createdStep E.logged blockNr b accountUpdates s k = s := by
        unfold createdStep
        simp [hc]
      rw [hs]
      simp [List.filter_cons, hc]
    · have hlog : (createdStep E.logged blockNr b accountUpdates s k).t.2 =
          s.t.2 ++ [TrieOp.DeleteSubtree k.val blockNr] := by
        unfold createdStep
        simp only [hc, if_false]
        rfl
      have hac : (createdStep E.logged blockNr b accountUpdates s k).alreadyCreated =
          s.alreadyCreated.set k () := by
        unfold createdStep
        simp only [hc, Bool.false_eq_true, if_false]
      have hfil : rest.filter (fun k' =>
            !(createdStep E.logged blockNr b accountUpdates s k).alreadyCreated.contains k') =
          rest.filter (fun k' => !s.alreadyCreated.contains k') := by
        apply List.filter_congr
        intro k' hk'
        have hne : k' ≠ k := fun h => hks.1 (h ▸ hk')
        rw [hac]
        simp [GoMap.contains, GoMap.get?_set, hne]
      rw [hlog, hfil]
      simp [List.filter_cons, hc]

theorem accountLoop_ops (E : Ext) (blockNr : Nat) (s : RootsState E.logged)
    (es : List (Hash × Option AccountRef)) :
    (es.foldl (accountStep E.logged blockNr) s).t.2 =
      s.t.2 ++ es.map (accountOp blockNr s.heap) := by
  induction es generalizing s with
  | nil => simp
  | cons e rest ih =>
    rw [List.foldl_cons, ih]
    have hs : (accountStep E.logged blockNr s e).t.2 = s.t.2 ++ [accountOp blockNr s.heap e] ∧
        (accountStep E.logged blockNr s e).heap = s.heap := by
      unfold accountStep accountOp
      cases e.2 with
      | none => exact ⟨rfl, rfl⟩
      | some account => exact ⟨rfl, rfl⟩
    rw [hs.1, hs.2, List.map_cons, List.append_assoc]
    rfl

theorem storageWrites_ops (E : Ext) (forward : Bool) (blockNr : Nat) (a : Hash)
    (t : E.logged.Trie) (l : List (Hash × Option Bytes)) :
    ∃ ops, (l.foldl (storageWrite E.logged forward blockNr a) t).2 = t.2 ++ ops ∧
      ops.Sublist (l.map (forwardWriteOp blockNr a)) ∧
      (forward = true → ops = l.map (forwardWriteOp blockNr a)) := by
  induction l generalizing t with
  | nil => exact ⟨[], by simp, List.Sublist.refl _, fun _ => rfl⟩
  | cons kv rest ih =>
    obtain ⟨ops, h1, h2, h3⟩ := ih (storageWrite E.logged forward blockNr a t kv)
    rw [List.foldl_cons, h1, storageWrite_logged]
    by_cases hg : (forward || (E.tGet t.1 (GenerateCompositeTrieKey a kv.1)).2) = true
    · refine ⟨forwardWriteOp blockNr a kv :: ops, ?_, ?_, ?_⟩
      · simp [hg]
      · rw [List.map_cons]
        exact h2.cons₂ _
      · intro hf
        rw [h3 hf, List.map_cons]
    · refine ⟨ops, ?_, ?_, ?_⟩
      · simp [hg]
      · rw [List.map_cons]
        exact h2.cons _
      · intro hf
        rw [hf] at hg
        simp at hg

theorem storageLoop_ops (E : Ext) (forward : Bool) (blockNr : Nat) (b : Buffer)
    (accountUpdates : GoMap Hash (Option AccountRef)) (s : RootsState E.logged)
    (es : List (Hash × GoMap Hash (Option Bytes))) :
    ∃ ops,
      (loopErr (storageStep E.logged forward blockNr b accountUpdates) s es).1.t.2 =
        s.t.2 ++ ops ∧
      ops.Sublist (es.flatMap (fun e => e.2.entries.map (forwardWriteOp blockNr e.1))) ∧
      (forward = true →
        ops = es.flatMap (fun e => e.2.entries.map (forwardWriteOp blockNr e.1)) ∧
        (loopErr (storageStep E.logged forward blockNr b accountUpdates) s es).2 = none) := by
  induction es generalizing s with
  | nil => exact ⟨[], by simp [loopErr], List.Sublist.refl _, fun _ => ⟨rfl, rfl⟩⟩
  | cons e rest ih =>
    have hstep : (storageStep E.logged forward blockNr b accountUpdates s e).1.t =
        e.2.entries.foldl (storageWrite E.logged forward blockNr e.1) s.t := by
      unfold storageStep
      simp only
      split
      · rfl
      · split <;> rfl
    obtain ⟨ops1, h1, h2, h3⟩ := storageWrites_ops E forward blockNr e.1 s.t e.2.entries
    have hlog : (storageStep E.logged forward blockNr b accountUpdates s e).1.t.2 =
        s.t.2 ++ ops1 := by rw [hstep, h1]
    unfold loopErr
    rcases hst : storageStep E.logged forward blockNr b accountUpdates s e with ⟨s₁, _ | err⟩
    · rw [hst] at hlog
      obtain ⟨ops2, g1, g2, g3⟩ := ih s₁
      refine ⟨ops1 ++ ops2, ?_, ?_, ?_⟩
      · simp only
        rw [g1, hlog, List.append_assoc]
      · rw [List.flatMap_cons]
        exact h2.append g2
      · intro hf
        simp only
        rw [List.flatMap_cons, h3 hf, (g3 hf).1]
        exact ⟨rfl, (g3 hf).2⟩
    · rw [hst] at hlog
      refine ⟨ops1, hlog, ?_, ?_⟩
      · rw [List.flatMap_cons]
        exact h2.trans (List.sublist_append_left _ _)
      · intro hf
        have hnone := storageStep_forward E.logged blockNr b accountUpdates s e
        rw [hf] at hst
        rw [hst] at hnone
        exact Option.noConfusion hnone

theorem deletedLoop_ops (E : Ext) (blockNr : Nat) (b : Buffer)
    (accountUpdates : GoMap Hash (Option AccountRef)) (s : RootsState E.logged) (ks : List Hash) :
    (ks.foldl (deletedStep E.logged blockNr b accountUpdates) s).t.2 =
      s.t.2 ++ (ks.filter (fun k => !b.created.contains k)).map
        (fun k => TrieOp.DeleteSubtree k.val blockNr) := by
  induction ks generalizing s with
  | nil => simp
  | cons k rest ih =>
    rw [List.foldl_cons, ih]
    by_cases hc : b.created.contains k = true
    · have hs : deletedStep E.logged blockNr b accountUpdates s k = s := by
        unfold deletedStep
        simp [hc]
      rw [hs]
      simp [List.filter_cons, hc]
    · have hlog : (deletedStep E.logged blockNr b accountUpdates s k).t.2 =
          s.t.2 ++ [TrieOp.DeleteSubtree k.val blockNr] := by
        unfold deletedStep
        simp only [hc, if_false]
        rfl
      rw [hlog]
      simp [List.filter_cons, hc]

theorem createdStep_keeps_created (E : Ext) (blockNr : Nat) (b : Buffer)
    (accountUpdates : GoMap Hash (Option AccountRef)) (s : RootsState E) (k a : Hash)
    (h : s.alreadyCreated.contains a = true) :
    (createdStep E blockNr b accountUpdates s k).alreadyCreated.contains a = true := by
  unfold createdStep
  split
  · exact h
  · simp only [GoMap.contains, GoMap.get?_set]
    split
    · rfl
    · exact h

theorem createdStep_already (E : Ext) (blockNr : Nat) (b : Buffer)
    (accountUpdates : GoMap Hash (Option AccountRef)) (s : RootsState E) (a : Hash)
    (h : s.alreadyCreated.contains a = true) :
    createdStep E blockNr b accountUpdates s a = s := by
  unfold createdStep
  rw [if_pos h]

theorem createdStep_enters (E : Ext) (blockNr : Nat) (b : Buffer)
    (accountUpdates : GoMap Hash (Option AccountRef)) (s : RootsState E) (k : Hash) :
    (createdStep E blockNr b accountUpdates s k).alreadyCreated.contains k = true := by
  unfold createdStep
  split
  · rename_i h
    exact h
  · simp [GoMap.contains, GoMap.get?_set]

theorem createdLoop_created (E : Ext) (blockNr : Nat) (b : Buffer)
    (accountUpdates : GoMap Hash (Option AccountRef)) (a : Hash) (ks : List Hash) :
    ∀ s : RootsState E, (s.alreadyCreated.contains a = true ∨ a ∈ ks) →
      (ks.foldl (createdStep E blockNr b accountUpdates) s).alreadyCreated.contains a = true := by
  induction ks with
  | nil =>
    intro s h
    rcases h with h | h
    · exact h
    · exact absurd h (List.not_mem_nil a)
  | cons k rest ih =>
    intro s h
    rw [List.foldl_cons]
    apply ih
    rcases h with h | h
    · exact Or.inl (createdStep_keeps_created E blockNr b accountUpdates s k a h)
    · rcases List.mem_cons.mp h with h | h
      · subst h
        exact Or.inl (createdStep_enters E blockNr b accountUpdates s a)
      · exact Or.inr h

theorem foldl_keeps {S A B : Type} (f : S → A → S) (g : S → B) (hf : ∀ s a, g (f s a) = g s)
    (l : List A) : ∀ s, g (l.foldl f s) = g s := by
  induction l with
  | nil => intro s; rfl
  | cons a rest ih =>
    intro s
    rw [List.foldl_cons, ih, hf]

theorem bufferStep_alreadyCreated (E : Ext) (forward : Bool) (blockNr : Nat)
    (accountUpdates : GoMap Hash (Option AccountRef)) (s : RootsState E) (b : Buffer) :
    (bufferStep E forward blockNr accountUpdates s b).1.alreadyCreated =
      (b.created.keys.foldl (createdStep E blockNr b accountUpdates) s).alreadyCreated := by
  have hacc : ∀ s₀ : RootsState E,
      (b.accountUpdates.entries.foldl (accountStep E blockNr) s₀).alreadyCreated =
        s₀.alreadyCreated := by
    apply foldl_keeps
    intro s₀ e
    unfold accountStep
    cases e.2 <;> rfl
  have hsto : ∀ s₀ : RootsState E,
      (loopErr (storageStep E forward blockNr b accountUpdates) s₀
        b.storageUpdates.entries).1.alreadyCreated = s₀.alreadyCreated := by
    intro s₀
    apply loopErr_invariant _ (fun s₁ : RootsState E => s₁.alreadyCreated = s₀.alreadyCreated)
    · intro s₁ e h₁
      rw [← h₁]
      unfold storageStep
      simp only
      split
      · rfl
      · split <;> rfl
    · rfl
  have hdel : ∀ s₀ : RootsState E,
      (b.deleted.keys.foldl (deletedStep E blockNr b accountUpdates) s₀).alreadyCreated =
        s₀.alreadyCreated := by
    apply foldl_keeps
    intro s₀ k
    unfold deletedStep
    split <;> rfl
  unfold bufferStep
  simp only
  rcases hl : loopErr (storageStep E forward blockNr b accountUpdates)
    (b.accountUpdates.entries.foldl (accountStep E blockNr)
      (b.created.keys.foldl (createdStep E blockNr b accountUpdates) s))
    b.storageUpdates.entries with ⟨s₃, _ | err⟩
  · simp only
    rw [hdel]
    have h := hsto (b.accountUpdates.entries.foldl (accountStep E blockNr)
      (b.created.keys.foldl (createdStep E blockNr b accountUpdates) s))
    rw [hl] at h
    rw [h, hacc]
  · simp only
    have h := hsto (b.accountUpdates.entries.foldl (accountStep E blockNr)
      (b.created.keys.foldl (createdStep E blockNr b accountUpdates) s))
    rw [hl] at h
    rw [h, hacc]

theorem bufferStep_created (E : Ext) (forward : Bool) (blockNr : Nat)
    (accountUpdates : GoMap Hash (Option AccountRef)) (s : RootsState E) (b : Buffer) (a : Hash)
    (h : s.alreadyCreated.contains a = true ∨ b.created.contains a = true) :
    (bufferStep E forward blockNr accountUpdates s b).1.alreadyCreated.contains a = true := by
  rw [bufferStep_alreadyCreated]
  apply createdLoop_created
  rcases h with h | h
  · exact Or.inl h
  · exact Or.inr ((GoMap.contains_iff_mem_keys _ _).mp h)

theorem bufferLoop_created (E : Ext) (blockNr : Nat)
    (accountUpdates : GoMap Hash (Option AccountRef)) (a : Hash) (l : List Buffer) :
    ∀ (s : RootsState E) (roots : List Hash),
      (s.alreadyCreated.contains a = true ∨ ∃ c ∈ l, c.created.contains a = true) →
      (bufferLoop E true blockNr accountUpdates s roots l).1.alreadyCreated.contains a = true := by
  induction l with
  | nil =>
    intro s roots h
    rcases h with h | ⟨c, hc, _⟩
    · exact h
    · exact absurd hc (List.not_mem_nil c)
  | cons b rest ih =>
    intro s roots h
    rw [bufferLoop_forward_cons]
    apply ih
    rcases h with h | ⟨c, hc, hcc⟩
    · exact Or.inl (bufferStep_created E true blockNr accountUpdates s b a (Or.inl h))
    · rcases List.mem_cons.mp hc with hc | hc
      · subst hc
        exact Or.inl (bufferStep_created E true blockNr accountUpdates s c a (Or.inr hcc))
      · exact Or.inr ⟨c, hc, hcc⟩

theorem createdStep_alreadyCreated (E : Ext) (blockNr : Nat) (b : Buffer)
    (accountUpdates : GoMap Hash (Option AccountRef)) (s : RootsState E) (k a : Hash) :
    (createdStep E blockNr b accountUpdates s k).alreadyCreated.contains a =
      (s.alreadyCreated.contains a || decide (a = k)) := by
  unfold createdStep
  by_cases h : s.alreadyCreated.contains k = true
  · rw [if_pos h]
    by_cases hak : a = k
    · subst hak
      simp [h]
    · simp [hak]
  · rw [if_neg h]
    by_cases hak : a = k
    · simp [GoMap.contains, GoMap.get?_set, hak]
    · simp [GoMap.contains, GoMap.get?_set, hak]

theorem createdLoop_alreadyCreated (E : Ext) (blockNr : Nat) (b : Buffer)
    (accountUpdates : GoMap Hash (Option AccountRef)) (a : Hash) (ks : List Hash) :
    ∀ s : RootsState E,
      (ks.foldl (createdStep E blockNr b accountUpdates) s).alreadyCreated.contains a =
        (s.alreadyCreated.contains a || decide (a ∈ ks)) := by
  induction ks with
  | nil => intro s; simp
  | cons k rest ih =>
    intro s
    rw [List.foldl_cons, ih, createdStep_alreadyCreated]
    by_cases hak : a = k
    · simp [hak]
    · simp [hak]

theorem bufferStep_alreadyCreated_contains (E : Ext) (forward : Bool) (blockNr : Nat)
    (accountUpdates : GoMap Hash (Option AccountRef)) (s : RootsState E) (b : Buffer) (a : Hash) :
    (bufferStep E forward blockNr accountUpdates s b).1.alreadyCreated.contains a =
      (s.alreadyCreated.contains a || b.created.contains a) := by
  rw [bufferStep_alreadyCreated, createdLoop_alreadyCreated]
  congr 1
  rw [Bool.eq_iff_iff, decide_eq_true_iff]
  exact (GoMap.contains_iff_mem_keys _ _).symm

theorem writeCalls_listed (E : Ext) (forward : Bool) (blockNr : Nat) (a : Hash)
    (l : List (Hash × Option Bytes)) :
    ∀ t : E.logged.Trie,
      (l.foldl (storageWrite E.logged forward blockNr a) t).2 =
        t.2 ++ writeCalls E.logged forward blockNr a t l := by
  induction l with
  | nil => intro t; simp [writeCalls]
  | cons kv rest ih =>
    intro t
    rw [List.foldl_cons, ih, storageWrite_logged]
    simp only [writeCalls, List.append_assoc]
    rfl

theorem storageCalls_listed (E : Ext) (forward : Bool) (blockNr : Nat) (b : Buffer)
    (accountUpdates : GoMap Hash (Option AccountRef))
    (es : List (Hash × GoMap Hash (Option Bytes))) :
    ∀ s : RootsState E.logged,
      (loopErr (storageStep E.logged forward blockNr b accountUpdates) s es).1.t.2 =
        s.t.2 ++ storageCalls E.logged forward blockNr b accountUpdates s es := by
  induction es with
  | nil => intro s; simp [loopErr, storageCalls]
  | cons e rest ih =>
    intro s
    have hstep : (storageStep E.logged forward blockNr b accountUpdates s e).1.t =
        e.2.entries.foldl (storageWrite E.logged forward blockNr e.1) s.t := by
      unfold storageStep
      simp only
      split
      · rfl
      · split <;> rfl
    have hlog := writeCalls_listed E forward blockNr e.1 e.2.entries s.t
    rw [← hstep] at hlog
    unfold loopErr storageCalls
    rcases hst : storageStep E.logged forward blockNr b accountUpdates s e with ⟨s₁, _ | err⟩
    · rw [hst] at hlog
      simp only
      rw [ih s₁, hlog, List.append_assoc]
    · rw [hst] at hlog
      simp only [List.append_nil]
      exact hlog

theorem loopErr_error {S A : Type} (f : S → A → S × Option Error) (l : List A) :
    ∀ (s s' : S) (err : Error), loopErr f s l = (s', some err) →
      ∃ s₀ a, a ∈ l ∧ (f s₀ a).2 = some err := by
  induction l with
  | nil =>
    intro s s' err h
    simp [loopErr] at h
  | cons a rest ih =>
    intro s s' err h
    unfold loopErr at h
    rcases hf : f s a with ⟨s₁, _ | e⟩
    · rw [hf] at h
      obtain ⟨s₀, a', ha', he⟩ := ih s₁ s' err h
      exact ⟨s₀, a', List.mem_cons_of_mem _ ha', he⟩
    · rw [hf] at h
      simp only [Prod.mk.injEq, Option.some.injEq] at h
      refine ⟨s, a, List.mem_cons_self _ _, ?_⟩
      rw [hf, ← h.2]

theorem storageStep_error (E : Ext) (forward : Bool) (blockNr : Nat) (b : Buffer)
    (accountUpdates : GoMap Hash (Option AccountRef)) (s : RootsState E)
    (e : Hash × GoMap Hash (Option Bytes)) (err : Error)
    (h : (storageStep E forward blockNr b accountUpdates s e).2 = some err) :
    forward = false ∧ E.IsThinHistory = false ∧
      ∃ expected got, expected ≠ got ∧ err = Error.mismatchedStorageRoot e.1 expected got := by
  unfold storageStep at h
  simp only at h
  by_cases hft : (forward || E.IsThinHistory) = true
  · rw [if_pos hft] at h
    exact Option.noConfusion h
  · rw [if_neg hft] at h
    have hft2 : forward = false ∧ E.IsThinHistory = false := by
      cases forward <;> cases hth : E.IsThinHistory <;> simp [hth] at hft ⊢
    refine ⟨hft2.1, hft2.2, ?_⟩
    split at h
    · rename_i err' hc
      simp only [Option.some.injEq] at h
      subst h
      obtain ⟨expected, hne, he⟩ := checkRoot_error _ _ _ _ _ hc
      exact ⟨expected, _, hne, he⟩
    · obtain ⟨expected, hne, he⟩ := checkRoot_error _ _ _ _ _ h
      exact ⟨expected, _, hne, he⟩

/-- C26 (amended): the loop of `updateTrieRoots` processes the buffers in append order, each
on the trie that the buffers before it left, and takes the root of a buffer after the calls
of that buffer. Within a buffer the calls that change the trie are exactly these, in this
order: `DeleteSubtree` for the created addresses that no earlier buffer of the run has
cleared; then `UpdateAccount` or `Delete` for every account update; then the calls
`storageCalls` of the storage writes: address by address and write by write, `Update` or
`Delete` for every write in forward mode, and in rewind mode for exactly the writes for which
`Get` reports the path of the slot as resolved on the trie as it stands at that write, up to
and including the writes of the address at which the comparison of a storage root ends the
run; then, unless the run has so ended, `DeleteSubtree` for the addresses that are deleted and
not created in the buffer. An error is a mismatched storage root in a rewind without thin
history; a forward run has none. The addresses that count as cleared after the buffer are
those that counted before it and the created addresses of the buffer (the run starts with
none). The calls are those that the listing trie `E.logged` records. -/
theorem bufferStep_trie_calls (E : Ext) (forward : Bool) (blockNr : Nat)
    (accountUpdates : GoMap Hash (Option AccountRef)) (s : RootsState E.logged) (b : Buffer)
    (roots : List Hash) (rest : List Buffer) :
    (bufferStep E.logged forward blockNr accountUpdates s b).1.t.2 =
      s.t.2 ++ createdOps blockNr s.alreadyCreated b ++
        b.accountUpdates.entries.map (accountOp blockNr
          (b.created.keys.foldl (createdStep E.logged blockNr b accountUpdates) s).heap) ++
        storageCalls E.logged forward blockNr b accountUpdates
          (b.accountUpdates.entries.foldl (accountStep E.logged blockNr)
            (b.created.keys.foldl (createdStep E.logged blockNr b accountUpdates) s))
          b.storageUpdates.entries ++
        (if (bufferStep E.logged forward blockNr accountUpdates s b).2 = none
          then deletedOps blockNr b else []) ∧
    (∀ (s' : RootsState E.logged) (e : Hash × GoMap Hash (Option Bytes))
        (es : List (Hash × GoMap Hash (Option Bytes))),
      storageCalls E.logged forward blockNr b accountUpdates s' [] = [] ∧
      storageCalls E.logged forward blockNr b accountUpdates s' (e :: es) =
        writeCalls E.logged forward blockNr e.1 s'.t e.2.entries ++
          (if (storageStep E.logged forward blockNr b accountUpdates s' e).2 = none
            then storageCalls E.logged forward blockNr b accountUpdates
              (storageStep E.logged forward blockNr b accountUpdates s' e).1 es
            else [])) ∧
    (∀ (a : Hash) (t : E.logged.Trie) (kv : Hash × Option Bytes)
        (l : List (Hash × Option Bytes)),
      writeCalls E.logged forward blockNr a t [] = [] ∧
      writeCalls E.logged forward blockNr a t (kv :: l) =
        (if forward = true ∨ (E.tGet t.1 (GenerateCompositeTrieKey a kv.1)).2 = true
          then [forwardWriteOp blockNr a kv] else []) ++
          writeCalls E.logged forward blockNr a (storageWrite E.logged forward blockNr a t kv) l) ∧
    (storageCalls E.logged forward blockNr b accountUpdates
        (b.accountUpdates.entries.foldl (accountStep E.logged blockNr)
          (b.created.keys.foldl (createdStep E.logged blockNr b accountUpdates) s))
        b.storageUpdates.entries).Sublist (storageOps blockNr b) ∧
    (forward = true →
      storageCalls E.logged forward blockNr b accountUpdates
          (b.accountUpdates.entries.foldl (accountStep E.logged blockNr)
            (b.created.keys.foldl (createdStep E.logged blockNr b accountUpdates) s))
          b.storageUpdates.entries = storageOps blockNr b ∧
        (bufferStep E.logged forward blockNr accountUpdates s b).2 = none) ∧
    (∀ err, (bufferStep E.logged forward blockNr accountUpdates s b).2 = some err →
      forward = false ∧ E.IsThinHistory = false ∧
        ∃ a expected got, b.storageUpdates.contains a = true ∧ expected ≠ got ∧
          err = Error.mismatchedStorageRoot a expected got) ∧
    (∀ a, (bufferStep E.logged forward blockNr accountUpdates s b).1.alreadyCreated.contains a =
      (s.alreadyCreated.contains a || b.created.contains a)) ∧
    bufferLoop E.logged forward blockNr accountUpdates s roots (b :: rest) =
      (match bufferStep E.logged forward blockNr accountUpdates s b with
       | (s', some err) => (s', none, some err)
       | (s', none) => bufferLoop E.logged forward blockNr accountUpdates s'
           (roots ++ [E.tHash s'.t.1]) rest) := by
  have h1 := createdLoop_ops E blockNr b accountUpdates s b.created.keys b.created.nodup
  have h2 := accountLoop_ops E blockNr
    (b.created.keys.foldl (createdStep E.logged blockNr b accountUpdates) s)
    b.accountUpdates.entries
  obtain ⟨ops, h3, h4, h5⟩ := storageLoop_ops E forward blockNr b accountUpdates
    (b.accountUpdates.entries.foldl (accountStep E.logged blockNr)
      (b.created.keys.foldl (createdStep E.logged blockNr b accountUpdates) s))
    b.storageUpdates.entries
  have hcalls := storageCalls_listed E forward blockNr b accountUpdates b.storageUpdates.entries
    (b.accountUpdates.entries.foldl (accountStep E.logged blockNr)
      (b.created.keys.foldl (createdStep E.logged blockNr b accountUpdates) s))
  have hops : ops = storageCalls E.logged forward blockNr b accountUpdates
      (b.accountUpdates.entries.foldl (accountStep E.logged blockNr)
        (b.created.keys.foldl (createdStep E.logged blockNr b accountUpdates) s))
      b.storageUpdates.entries :=
    List.append_cancel_left (h3.symm.trans hcalls)
  subst hops
  refine ⟨?_, ?_, ?_, h4, ?_, ?_,
    bufferStep_alreadyCreated_contains E.logged forward blockNr accountUpdates s b, ?_⟩
  · rcases hl : loopErr (storageStep E.logged forward blockNr b accountUpdates)
      (b.accountUpdates.entries.foldl (accountStep E.logged blockNr)
        (b.created.keys.foldl (createdStep E.logged blockNr b accountUpdates) s))
      b.storageUpdates.entries with ⟨s₃, _ | err⟩
    · have hb : bufferStep E.logged forward blockNr accountUpdates s b =
          (b.deleted.keys.foldl (deletedStep E.logged blockNr b accountUpdates) s₃, none) := by
        unfold bufferStep
        simp only [hl]
      rw [hl] at h3
      rw [hb]
      simp only [if_true]
      unfold createdOps deletedOps
      rw [deletedLoop_ops, h3, h2, h1]
    · have hb : bufferStep E.logged forward blockNr accountUpdates s b = (s₃, some err) := by
        unfold bufferStep
        simp only [hl]
      rw [hl] at h3
      rw [hb]
      simp only [reduceCtorEq, if_false, List.append_nil]
      unfold createdOps
      rw [h3, h2, h1]
  · intro s' e es
    refine ⟨rfl, ?_⟩
    conv_lhs => unfold storageCalls
    rcases storageStep E.logged forward blockNr b accountUpdates s' e with ⟨s₁, _ | err⟩
    · simp
    · simp
  · intro a t kv l
    refine ⟨rfl, ?_⟩
    conv_lhs => unfold writeCalls
    cases forward <;>
      by_cases hg : (E.tGet t.1 (GenerateCompositeTrieKey a kv.1)).2 = true <;>
      simp [hg, Ext.logged]
  · intro hf
    have hnone : (bufferStep E.logged forward blockNr accountUpdates s b).2 = none := by
      rw [hf]
      exact bufferStep_forward E.logged blockNr accountUpdates s b
    exact ⟨(h5 hf).1, hnone⟩
  · intro err herr
    rcases hl : loopErr (storageStep E.logged forward blockNr b accountUpdates)
      (b.accountUpdates.entries.foldl (accountStep E.logged blockNr)
        (b.created.keys.foldl (createdStep E.logged blockNr b accountUpdates) s))
      b.storageUpdates.entries with ⟨s₃, _ | err'⟩
    · have hb : bufferStep E.logged forward blockNr accountUpdates s b =
          (b.deleted.keys.foldl (deletedStep E.logged blockNr b accountUpdates) s₃, none) := by
        unfold bufferStep
        simp only [hl]
      rw [hb] at herr
      exact Option.noConfusion herr
    · have hb : bufferStep E.logged forward blockNr accountUpdates s b = (s₃, some err') := by
        unfold bufferStep
        simp only [hl]
      rw [hb] at herr
      simp only [Option.some.injEq] at herr
      subst herr
      obtain ⟨s₀, e, he, hse⟩ := loopErr_error _ _ _ _ _ hl
      obtain ⟨g1, g2, expected, got, hne, heq⟩ :=
        storageStep_error E.logged forward blockNr b accountUpdates s₀ e err' hse
      refine ⟨g1, g2, e.1, expected, got, ?_, hne, heq⟩
      rw [GoMap.contains_iff_mem_keys]
      exact List.mem_map_of_mem Prod.fst he
  · conv_lhs => unfold bufferLoop
    rcases bufferStep E.logged forward blockNr accountUpdates s b with ⟨s', _ | err⟩ <;> rfl

/-- Counterexample to C26 as stated: two buffers create the same address, and the forward
run issues one `DeleteSubtree` in all, none for the second buffer; a buffer holds a storage
write, the trie reports its path as not resolved, and the rewind run issues no call at all
and returns the root of the buffer without error. -/
theorem updateTrieRoots_calls_left_out :
    twiceCreatedState.buffers.map (fun b => b.created.keys) =
      [[Hash.ofByte 1], [Hash.ofByte 1]] ∧
    (twiceCreatedState.updateTrieRoots true).map
        (fun r => (r.1.t.2, r.2.1.map List.length, r.2.2)) =
      some ([TrieOp.DeleteSubtree (Hash.ofByte 1).val 0], some 2, none) ∧
    unresolvedWriteState.buffers.map (storageOps 0) =
      [[TrieOp.Update (GenerateCompositeTrieKey (Hash.ofByte 1) (Hash.ofByte 2)) [7] 0]] ∧
    (unresolvedWriteState.updateTrieRoots false).map
        (fun r => (r.1.t.2, r.2.1.map List.length, r.2.2)) =
      some ([], some 1, none) := by
  decide

/-! ## Touches and the order of iteration -/

theorem sortByBytes_eq_of_perm {n : Nat} (l₁ l₂ : List { b : Bytes // b.length = n })
    (h : l₁.Perm l₂) : sortByBytes l₁ = sortByBytes l₂ := by
  have _i1 : IsTotal { b : Bytes // b.length = n } (fun a b => bytesLe a.val b.val) :=
    ⟨fun a b => bytesLe_total a.val b.val⟩
  have _i2 : IsTrans { b : Bytes // b.length = n } (fun a b => bytesLe a.val b.val) :=
    ⟨fun _ _ _ h1 h2 => bytesLe_trans h1 h2⟩
  have _i3 : IsAntisymm { b : Bytes // b.length = n } (fun a b => bytesLe a.val b.val) :=
    ⟨fun a b h1 h2 => by
      by_contra hne
      have h3 := bytesLess_of_le_of_ne h1 (fun hab => hne (Subtype.ext hab))
      unfold bytesLe at h2
      rw [h2] at h3
      exact Bool.noConfusion h3⟩
  unfold sortByBytes
  exact List.eq_of_perm_of_sorted
    (((List.perm_insertionSort _ l₁).trans h).trans (List.perm_insertionSort _ l₂).symm)
    (List.sorted_insertionSort _ l₁) (List.sorted_insertionSort _ l₂)

theorem GoMap.sameContents_contains {K V : Type} [DecidableEq K] (m₁ m₂ : GoMap K V)
    (h : GoMap.sameContents m₁ m₂) (k : K) : m₁.contains k = m₂.contains k := by
  unfold GoMap.contains
  rw [h k]

theorem GoMap.sameNested_bind {K V : Type} [DecidableEq K] (m₁ m₂ : GoMap K (GoMap K V))
    (h : GoMap.sameNested m₁ m₂) (a k : K) :
    (m₁.get? a).bind (fun m => m.get? k) = (m₂.get? a).bind (fun m => m.get? k) := by
  have ha := h a
  rcases h1 : m₁.get? a with _ | x <;> rcases h2 : m₂.get? a with _ | y <;>
    rw [h1, h2] at ha <;> simp only [Option.map_none', Option.map_some', Option.some.injEq,
      reduceCtorEq] at ha
  exact congrFun ha k

theorem GoMap.sameNested_contains {K V : Type} [DecidableEq K] (m₁ m₂ : GoMap K (GoMap K V))
    (h : GoMap.sameNested m₁ m₂) (a : K) : m₁.contains a = m₂.contains a := by
  have ha := h a
  unfold GoMap.contains
  rcases h1 : m₁.get? a with _ | x <;> rcases h2 : m₂.get? a with _ | y <;>
    rw [h1, h2] at ha <;> simp only [Option.map_none', Option.map_some', reduceCtorEq] at ha
  rfl

theorem Buffer.sameContents_written (b₁ b₂ : Buffer) (h : Buffer.sameContents b₁ b₂)
    (a k : Hash) : b₁.written a k = b₂.written a k := by
  rw [Buffer.written_eq_isSome, Buffer.written_eq_isSome]
  unfold Buffer.storageWrite?
  rw [GoMap.sameNested_bind _ _ h.1 a k]

theorem Buffer.sameContents_storageRead (b₁ b₂ : Buffer) (h : Buffer.sameContents b₁ b₂)
    (a k : Hash) : b₁.storageRead a k = b₂.storageRead a k := by
  unfold Buffer.storageRead
  rw [GoMap.sameNested_bind _ _ h.2.1 a k]

theorem storagePairs_perm (b₁ b₂ : Buffer) (h : Buffer.sameContents b₁ b₂)
    (withReads withValues : Bool) :
    (updatePairs b₁ withValues ++ if withReads then readPairs b₁ else []).Perm
      (updatePairs b₂ withValues ++ if withReads then readPairs b₂ else []) := by
  rw [List.perm_ext_iff_of_nodup (storagePairs_nodup b₁ withReads withValues)
    (storagePairs_nodup b₂ withReads withValues)]
  rintro ⟨a, k⟩
  have hw := Buffer.sameContents_written b₁ b₂ h a k
  have hr := Buffer.sameContents_storageRead b₁ b₂ h a k
  have hd := GoMap.sameContents_contains _ _ h.2.2.2.2.1 a
  cases withReads
  · simp only [Bool.false_eq_true, if_false, List.append_nil, updatePairs_mem, hw, hd]
  · simp only [if_true, List.mem_append, updatePairs_mem, readPairs_mem, hw, hr, hd]

theorem accountTouches_perm (b₁ b₂ : Buffer) (h : Buffer.sameContents b₁ b₂)
    (withReads : Bool) :
    (b₁.accountUpdates.entries.flatMap (updateTouches b₁) ++
        if withReads then b₁.accountReads.entries.flatMap (readTouches b₁) else []).Perm
      (b₂.accountUpdates.entries.flatMap (updateTouches b₂) ++
        if withReads then b₂.accountReads.entries.flatMap (readTouches b₂) else []) := by
  rw [List.perm_iff_count]
  intro a
  have hu : alLookup a b₁.accountUpdates.entries = alLookup a b₂.accountUpdates.entries :=
    h.2.2.1 a
  have hrd : alLookup a b₁.accountReads.entries = alLookup a b₂.accountReads.entries :=
    h.2.2.2.1 a
  have hd := GoMap.sameContents_contains _ _ h.2.2.2.2.1 a
  have hc := GoMap.sameContents_contains _ _ h.2.2.1 a
  rw [List.count_append, List.count_append,
    count_updateTouches b₁ a _ b₁.accountUpdates.nodup,
    count_updateTouches b₂ a _ b₂.accountUpdates.nodup, hu, hd]
  cases withReads
  · rfl
  · simp only [if_true]
    rw [count_readTouches b₁ a _ b₁.accountReads.nodup,
      count_readTouches b₂ a _ b₂.accountReads.nodup, hrd, hc]

theorem accountValues_congr (E : Ext) (b₁ b₂ : Buffer) (h : Buffer.sameContents b₁ b₂)
    (heap : Heap) (l : List Hash) : accountValues E b₁ heap l = accountValues E b₂ heap l := by
  induction l with
  | nil => rfl
  | cons a rest ih =>
    unfold accountValues
    rw [ih, h.2.2.1 a, GoMap.sameNested_contains _ _ h.1 a]

theorem accountValues_getElem? (E : Ext) (b : Buffer) (heap : Heap) (l : List Hash) (i : Nat) :
    (accountValues E b heap l)[i]? =
      (l[i]?).map (fun a => accountValueAt E b heap a l[i + 1]?) := by
  induction l generalizing i with
  | nil => simp [accountValues]
  | cons a rest ih =>
    unfold accountValues
    cases i with
    | zero =>
      simp only [List.getElem?_cons_zero, Option.map_some', accountValueAt, zero_add,
        List.getElem?_cons_succ, List.head?_eq_getElem?]
    | succ j =>
      simp only [List.getElem?_cons_succ]
      exact ih j

theorem buildStorageTouches_values (b : Buffer) (withReads withValues : Bool) :
    (buildStorageTouches b withReads withValues).2 =
      if withValues then
        (buildStorageTouches b withReads withValues).1.map
          (fun key => (b.storageWrite? key.addrHash key.keyHash).join)
      else [] := by
  unfold buildStorageTouches
  simp only
  cases withValues
  · rfl
  · simp only [if_true]
    apply List.map_congr_left
    intro key _
    unfold Buffer.storageWrite?
    cases b.storageUpdates.get? key.addrHash <;> rfl

theorem buildAccountTouches_values (E : Ext) (b : Buffer) (heap : Heap)
    (withReads withValues : Bool) :
    (buildAccountTouches E b heap withReads withValues).2 =
      if withValues then
        accountValues E b heap (buildAccountTouches E b heap withReads withValues).1
      else [] := by
  unfold buildAccountTouches
  rfl

/-- C28 (amended): `buildStorageTouches` and `buildAccountTouches` are deterministic in the
contents of the buffer: for two aggregate buffers with the same contents, whatever the
iteration orders of their maps, they return the same list of keys and, with `withValues`, the
same list of values aligned with those keys. `values[i]` of the storage touches is the pending
write of key i. `values[i]` of the account touches is nil when key i + 1 is the same address
(the wipe marker) and otherwise the pending account of key i, as a copy whose storage root is
`EmptyRoot` when the address has storage writes (nil for a pending delete). -/
theorem buildTouches_deterministic (E : Ext) (heap : Heap) (b₁ b₂ : Buffer)
    (h : Buffer.sameContents b₁ b₂) (withReads withValues : Bool) :
    buildStorageTouches b₁ withReads withValues = buildStorageTouches b₂ withReads withValues ∧
    buildAccountTouches E b₁ heap withReads withValues =
      buildAccountTouches E b₂ heap withReads withValues ∧
    (buildStorageTouches b₁ withReads true).2 =
      (buildStorageTouches b₁ withReads true).1.map
        (fun key => (b₁.storageWrite? key.addrHash key.keyHash).join) ∧
    ∀ i, (buildAccountTouches E b₁ heap withReads true).2[i]? =
      ((buildAccountTouches E b₁ heap withReads true).1[i]?).map (fun a =>
        accountValueAt E b₁ heap a (buildAccountTouches E b₁ heap withReads true).1[i + 1]?) := by
  have hk1 : (buildStorageTouches b₁ withReads withValues).1 =
      (buildStorageTouches b₂ withReads withValues).1 := by
    rw [buildStorageTouches_keys, buildStorageTouches_keys]
    exact sortByBytes_eq_of_perm _ _ ((storagePairs_perm b₁ b₂ h withReads withValues).map _)
  have hk2 : (buildAccountTouches E b₁ heap withReads withValues).1 =
      (buildAccountTouches E b₂ heap withReads withValues).1 := by
    rw [buildAccountTouches_keys, buildAccountTouches_keys]
    exact sortByBytes_eq_of_perm _ _ (accountTouches_perm b₁ b₂ h withReads)
  refine ⟨?_, ?_, ?_, ?_⟩
  · refine Prod.ext hk1 ?_
    rw [buildStorageTouches_values, buildStorageTouches_values, hk1]
    cases withValues
    · rfl
    · simp only [if_true]
      apply List.map_congr_left
      intro key _
      unfold Buffer.storageWrite?
      rw [GoMap.sameNested_bind _ _ h.1]
  · refine Prod.ext hk2 ?_
    rw [buildAccountTouches_values, buildAccountTouches_values, hk2]
    cases withValues
    · rfl
    · simp only [if_true]
      exact accountValues_congr E b₁ b₂ h heap _
  · rw [buildStorageTouches_values]
    rfl
  · intro i
    rw [buildAccountTouches_values]
    simp only [if_true]
    exact accountValues_getElem? E b₁ heap _ i

/-- Witness of C28 (amended): two buffers of the same contents whose maps were filled in
opposite orders give the same touches in the instance. -/
theorem buildTouches_deterministic_witness :
    orderedBuffer ≠ reorderedBuffer ∧
    buildStorageTouches orderedBuffer false true =
      buildStorageTouches reorderedBuffer false true ∧
    buildAccountTouches sampleExt orderedBuffer ⟨[(default : Account)]⟩ false true =
      buildAccountTouches sampleExt reorderedBuffer ⟨[(default : Account)]⟩ false true := by
  have h23 : Hash.ofByte 2 ≠ Hash.ofByte 3 := by decide
  have h12 : Hash.ofByte 1 ≠ Hash.ofByte 2 := by decide
  have hs : Buffer.sameContents orderedBuffer reorderedBuffer := by
    refine ⟨?_, ?_, ?_, ?_, ?_, ?_⟩
    · intro a
      unfold orderedBuffer reorderedBuffer
      simp only [GoMap.get?_set]
      by_cases ha : a = Hash.ofByte 1
      · simp only [ha, if_true, Option.map_some', Option.some.injEq]
        funext k
        simp only [GoMap.get?_set]
        by_cases hk2 : k = Hash.ofByte 2 <;> by_cases hk3 : k = Hash.ofByte 3 <;>
          simp_all
      · simp only [ha, if_false]
    · intro a
      rfl
    · intro a
      unfold orderedBuffer reorderedBuffer
      simp only [GoMap.get?_set]
      by_cases ha1 : a = Hash.ofByte 1 <;> by_cases ha2 : a = Hash.ofByte 2 <;> simp_all
    · intro a
      rfl
    · intro a
      rfl
    · intro a
      rfl
  have hd := buildTouches_deterministic sampleExt ⟨[(default : Account)]⟩ orderedBuffer
    reorderedBuffer hs false true
  exact ⟨by decide, hd.1, hd.2.1⟩

/-- Counterexample to C28 as stated: the pending account of the address has the storage root
of last byte 9 and the address has a storage write; the value that `buildAccountTouches`
aligns with the address is not that pending write but a copy with the storage root
`EmptyRoot`. -/
theorem buildAccountTouches_value_not_pending :
    mismatchState.aggregateBuffer.map (fun b =>
        ((buildAccountTouches sampleExt b mismatchState.heap false true).2,
         (b.accountUpdates.get? (padHash (List.replicate 20 1))).join.map
           mismatchState.heap.read)) =
      some ([some { (default : Account) with Root := sampleExt.EmptyRoot }],
        some { (default : Account) with Root := Hash.ofByte 9 }) ∧
    sampleExt.EmptyRoot ≠ Hash.ofByte 9 := by
  decide

/-! ## The remote server -/

theorem decodeUint_ok (bits : Nat) (l : List Item) (a : Nat) (rest : List Item)
    (h : decodeUint bits l = Decoded.ok a rest) : l = Item.uint a :: rest ∧ a < 2 ^ bits := by
  unfold decodeUint at h
  split at h
  · exact Decoded.noConfusion h
  · split at h
    · rename_i hlt
      injection h with h1 h2
      subst h1 h2
      exact ⟨rfl, hlt⟩
    · exact Decoded.noConfusion h
  · exact Decoded.noConfusion h

theorem decodeBytes_ok (l : List Item) (b : Bytes) (rest : List Item)
    (h : decodeBytes l = Decoded.ok b rest) : l = Item.bytes b :: rest := by
  unfold decodeBytes at h
  split at h
  · exact Decoded.noConfusion h
  · injection h with h1 h2
    subst h1 h2
    rfl
  · exact Decoded.noConfusion h

theorem decodeUint_cons (bits n : Nat) (rest : List Item) (h : n < 2 ^ bits) :
    decodeUint bits (Item.uint n :: rest) = Decoded.ok n rest := by
  unfold decodeUint
  simp only [h, if_true]

theorem cmdSeek_same {B : Bolt} (σ : ServerState B) (rest : List Item) :
    (∀ σ' err, cmdSeek σ rest = Outcome.finished σ' err → σ' = σ) ∧
    (∀ σ' rest', cmdSeek σ rest = Outcome.next σ' rest' → σ' = σ ∧ rest'.length ≤ rest.length) := by
  unfold cmdSeek
  constructor
  · intro σ' err h
    split at h
    · split at h
      · exact Outcome.noConfusion h
      · injection h with h1 _
        exact h1.symm
    · injection h with h1 _
      exact h1.symm
  · intro σ' rest' h
    split at h
    · rename_i c r1 hd1
      split at h
      · rename_i k r2 hd2
        injection h with h1 h2
        have e1 := (decodeUint_ok _ _ _ _ hd1).1
        have e2 := decodeBytes_ok _ _ _ hd2
        subst h1 h2 e1 e2
        exact ⟨rfl, by simp; omega⟩
      · exact Outcome.noConfusion h
    · exact Outcome.noConfusion h

/-- C25 (the code at the failing input): a turn of the loop that reads `CmdSeek`, a cursor
handle and a seek key leaves the whole context of the connection, the replies written so far
included, as it was: nothing is written in response. In the instance, a client that begins a
transaction, opens the bucket `[98]`, makes a cursor on it and seeks the key `[1]` with the
cursor handle 3 receives the three handles and nothing else, although the bucket holds the
key `[1]` with the value `[10]`. -/
theorem Server_seek_writes_nothing :
    (∀ (B : Bolt) (σ : ServerState B) (cursorHandle : Nat) (seekKey : Bytes) (rest : List Item),
      cursorHandle < 2 ^ 64 →
      serverStep σ (Item.uint CmdSeek :: Item.uint cursorHandle :: Item.bytes seekKey :: rest) =
        Outcome.next σ rest) ∧
    (Server sampleBolt sampleBoltDb
        [Item.uint CmdBeginTx, Item.uint CmdBucket, Item.uint 1, Item.bytes [98],
         Item.uint CmdCursor, Item.uint 2,
         Item.uint CmdSeek, Item.uint 3, Item.bytes [1]]).map
      (fun r => (r.1.out, r.2)) =
      some ([Reply.handle 1, Reply.handle 2, Reply.handle 3], none) ∧
    (Server sampleBolt sampleBoltDb
        [Item.uint CmdBeginTx, Item.uint CmdBucket, Item.uint 1, Item.bytes [98],
         Item.uint CmdCursor, Item.uint 2,
         Item.uint CmdSeek, Item.uint 3, Item.bytes [1]]).map
      (fun r => sampleCursorAt r.1 3) = some (some [([1], [10]), ([3], [30])]) := by
  constructor
  · intro B σ cursorHandle seekKey rest hlt
    have h8 : CmdSeek < 2 ^ 8 := by decide
    unfold serverStep
    rw [decodeUint_cons 8 CmdSeek _ h8]
    simp only [CmdSeek, CmdVersion, CmdLastError, CmdBeginTx, CmdEndTx, CmdBucket, CmdGet,
      CmdCursor, OfNat.ofNat_ne_zero, OfNat.ofNat_ne_one, Nat.reduceEqDiff, if_false, if_true]
    unfold cmdSeek
    rw [decodeUint_cons 64 cursorHandle _ hlt]
    rfl
  · exact ⟨by decide, by decide⟩

theorem handleReplies_append_handle (out : List Reply) (h : Nat) :
    handleReplies (out ++ [Reply.handle h]) = handleReplies out ++ [h] := by
  simp [handleReplies, List.filterMap_append]

theorem handleReplies_append_other (out : List Reply) (r : Reply)
    (hr : ∀ h, r ≠ Reply.handle h) : handleReplies (out ++ [r]) = handleReplies out := by
  cases r with
  | handle h => exact absurd rfl (hr h)
  | version n => simp [handleReplies, List.filterMap_append]
  | errorString s => simp [handleReplies, List.filterMap_append]
  | value v => simp [handleReplies, List.filterMap_append]

theorem ServerState.Turn.same {B : Bolt} (σ σ' : ServerState B) (n n' : Nat) (hn : n' ≤ n)
    (ho : handleReplies σ'.out = handleReplies σ.out) (hl : σ'.lastHandle = σ.lastHandle)
    (ht : σ'.transactions = σ.transactions) (hb : σ'.buckets = σ.buckets)
    (hc : σ'.cursors = σ.cursors) (hbt : σ'.bucketsByTx = σ.bucketsByTx)
    (hcb : σ'.cursorsByBucket = σ.cursorsByBucket) : σ.Turn n σ' n' := by
  refine ⟨hn, fun _ => ⟨by rw [hl], by rw [hl]; omega, ?_, ?_⟩⟩
  · intro hi
    exact ⟨by rw [ho]; exact hi.sorted, by rw [ho, hl]; exact hi.repliesLe,
      by rw [ht, hl]; exact hi.txLe, by rw [hb, hl]; exact hi.bucketsLe,
      by rw [hc, hl]; exact hi.cursorsLe, by rw [hbt, hl]; exact hi.byTxLe,
      by rw [hcb, hl]; exact hi.byBucketLe, by rw [hbt]; exact hi.byTxDisjoint,
      by rw [hcb]; exact hi.byBucketDisjoint⟩
  · intro bh _ hnone
    rw [hb]
    exact hnone

theorem ServerState.Turn.failed {B : Bolt} (σ σ' : ServerState B) (n n' : Nat) (hn : n' ≤ n)
    (ho : σ'.out = σ.out ++ [Reply.handle 0]) (hl : σ'.lastHandle = σ.lastHandle)
    (ht : σ'.transactions = σ.transactions) (hb : σ'.buckets = σ.buckets)
    (hc : σ'.cursors = σ.cursors) (hbt : σ'.bucketsByTx = σ.bucketsByTx)
    (hcb : σ'.cursorsByBucket = σ.cursorsByBucket) : σ.Turn n σ' n' := by
  refine ⟨hn, fun _ => ⟨by rw [hl], by rw [hl]; omega, ?_, ?_⟩⟩
  · intro hi
    refine ⟨?_, ?_,
      by rw [ht, hl]; exact hi.txLe, by rw [hb, hl]; exact hi.bucketsLe,
      by rw [hc, hl]; exact hi.cursorsLe, by rw [hbt, hl]; exact hi.byTxLe,
      by rw [hcb, hl]; exact hi.byBucketLe, by rw [hbt]; exact hi.byTxDisjoint,
      by rw [hcb]; exact hi.byBucketDisjoint⟩
    · rw [ho, handleReplies_append_handle, List.pairwise_append]
      refine ⟨hi.sorted, List.pairwise_singleton _ _, ?_⟩
      intro a _ b hb0 hne
      rw [List.mem_singleton] at hb0
      exact absurd hb0 hne
    · intro h hh
      rw [ho, handleReplies_append_handle, List.mem_append, List.mem_singleton] at hh
      rcases hh with hh | hh
      · rw [hl]
        exact hi.repliesLe h hh
      · rw [hh]
        exact Nat.zero_le _
  · intro bh _ hnone
    rw [hb]
    exact hnone

theorem ExtendsAt.bounded {V : Type} (m' m : GoMap Nat V) (new bound : Nat)
    (he : ExtendsAt m' m new) (hm : ∀ h x, m.get? h = some x → h ≤ bound) (hb : bound ≤ new) :
    ∀ h x, m'.get? h = some x → h ≤ new := by
  intro h x hx
  rcases he with he | ⟨v, he⟩
  · rw [he] at hx
    exact Nat.le_trans (hm h x hx) hb
  · rw [he] at hx
    by_cases hn : h = new
    · rw [hn]
    · rw [if_neg hn] at hx
      exact Nat.le_trans (hm h x hx) hb

theorem ListsExtend.members_bounded (m' m : GoMap Nat (List Nat)) (new bound : Nat)
    (he : ListsExtend m' m new) (hm : ∀ k l, m.get? k = some l → ∀ h ∈ l, h ≤ bound)
    (hb : bound ≤ new) : ∀ k l, m'.get? k = some l → ∀ h ∈ l, h ≤ new := by
  intro k l hl h hh
  rcases he with he | ⟨key, he⟩
  · rw [he] at hl
    exact Nat.le_trans (hm k l hl h hh) hb
  · rw [he] at hl
    by_cases hk : k = key
    · rw [if_pos hk, Option.some.injEq] at hl
      rw [← hl, List.mem_append, List.mem_singleton] at hh
      rcases hh with hh | hh
      · rcases hg : m.get? key with _ | l0
        · rw [hg] at hh
          simp at hh
        · rw [hg] at hh
          exact Nat.le_trans (hm key l0 hg h hh) hb
      · rw [hh]
    · rw [if_neg hk] at hl
      exact Nat.le_trans (hm k l hl h hh) hb

theorem ListsExtend.disjoint (m' m : GoMap Nat (List Nat)) (new bound : Nat)
    (he : ListsExtend m' m new) (hm : ∀ k l, m.get? k = some l → ∀ h ∈ l, h ≤ bound)
    (hd : ∀ k₁ k₂ l₁ l₂, k₁ ≠ k₂ → m.get? k₁ = some l₁ → m.get? k₂ = some l₂ →
      ∀ h ∈ l₁, h ∉ l₂)
    (hb : bound < new) :
    ∀ k₁ k₂ l₁ l₂, k₁ ≠ k₂ → m'.get? k₁ = some l₁ → m'.get? k₂ = some l₂ →
      ∀ h ∈ l₁, h ∉ l₂ := by
  rcases he with he | ⟨key, he⟩
  · rw [he]
    exact hd
  · have hold : ∀ k l0 l, k ≠ key → m.get? key = some l0 ∨ (m.get? key = none ∧ l0 = []) →
        m.get? k = some l → ∀ h, h ∈ l0 ++ [new] → h ∉ l := by
      intro k l0 l hk h0 hl h hh hin
      rw [List.mem_append, List.mem_singleton] at hh
      rcases hh with hh | hh
      · rcases h0 with h0 | ⟨_, h0⟩
        · exact hd key k l0 l (fun e => hk e.symm) h0 hl h hh hin
        · rw [h0] at hh
          simp at hh
      · rw [hh] at hin
        have := hm k l hl new hin
        omega
    have hkey : ∀ l, m'.get? key = some l →
        ∃ l0, l = l0 ++ [new] ∧ (m.get? key = some l0 ∨ (m.get? key = none ∧ l0 = [])) := by
      intro l hl
      rw [he, if_pos rfl, Option.some.injEq] at hl
      rcases hg : m.get? key with _ | l0
      · rw [hg] at hl
        exact ⟨[], hl.symm, Or.inr ⟨rfl, rfl⟩⟩
      · rw [hg] at hl
        exact ⟨l0, hl.symm, Or.inl rfl⟩
    intro k₁ k₂ l₁ l₂ hne h1 h2 h hh1 hh2
    by_cases hk1 : k₁ = key
    · have hk2 : k₂ ≠ key := fun e => hne (hk1.trans e.symm)
      rw [hk1] at h1
      obtain ⟨l0, hl, h0⟩ := hkey l₁ h1
      rw [he, if_neg hk2] at h2
      rw [hl] at hh1
      exact hold k₂ l0 l₂ hk2 h0 h2 h hh1 hh2
    · rw [he, if_neg hk1] at h1
      by_cases hk2 : k₂ = key
      · rw [hk2] at h2
        obtain ⟨l0, hl, h0⟩ := hkey l₂ h2
        rw [hl] at hh2
        exact hold k₁ l0 l₁ hk1 h0 h1 h hh2 hh1
      · rw [he, if_neg hk2] at h2
        exact hd k₁ k₂ l₁ l₂ hne h1 h2 h hh1 hh2

theorem ServerState.Turn.allocated {B : Bolt} (σ σ' : ServerState B) (n n' : Nat) (hn : n' ≤ n)
    (hl : σ'.lastHandle = (σ.lastHandle + 1) % 2 ^ 64)
    (ho : σ'.out = σ.out ++ [Reply.handle σ'.lastHandle])
    (ht : ExtendsAt σ'.transactions σ.transactions σ'.lastHandle)
    (hb : ExtendsAt σ'.buckets σ.buckets σ'.lastHandle)
    (hc : ExtendsAt σ'.cursors σ.cursors σ'.lastHandle)
    (hbt : ListsExtend σ'.bucketsByTx σ.bucketsByTx σ'.lastHandle)
    (hcb : ListsExtend σ'.cursorsByBucket σ.cursorsByBucket σ'.lastHandle) :
    σ.Turn n σ' n' := by
  refine ⟨hn, fun hw => ?_⟩
  rw [Nat.mod_eq_of_lt hw] at hl
  refine ⟨by omega, by omega, ?_, ?_⟩
  · intro hi
    have hle : σ.lastHandle ≤ σ'.lastHandle := by omega
    have hlt : σ.lastHandle < σ'.lastHandle := by omega
    refine ⟨?_, ?_, ExtendsAt.bounded _ _ _ _ ht hi.txLe hle, ExtendsAt.bounded _ _ _ _ hb hi.bucketsLe hle,
      ExtendsAt.bounded _ _ _ _ hc hi.cursorsLe hle, ListsExtend.members_bounded _ _ _ _ hbt hi.byTxLe hle,
      ListsExtend.members_bounded _ _ _ _ hcb hi.byBucketLe hle,
      ListsExtend.disjoint _ _ _ _ hbt hi.byTxLe hi.byTxDisjoint hlt,
      ListsExtend.disjoint _ _ _ _ hcb hi.byBucketLe hi.byBucketDisjoint hlt⟩
    · rw [ho, handleReplies_append_handle, List.pairwise_append]
      refine ⟨hi.sorted, List.pairwise_singleton _ _, ?_⟩
      intro a ha b hb0 _
      rw [List.mem_singleton] at hb0
      have := hi.repliesLe a ha
      omega
    · intro h hh
      rw [ho, handleReplies_append_handle, List.mem_append, List.mem_singleton] at hh
      rcases hh with hh | hh
      · exact Nat.le_trans (hi.repliesLe h hh) hle
      · rw [hh]
  · intro bh hbh hnone
    rcases hb with hb | ⟨v, hb⟩
    · rw [hb]
      exact hnone
    · rw [hb, if_neg (by omega)]
      exact hnone

theorem ServerState.Turn.removed {B : Bolt} (σ σ' : ServerState B) (n n' : Nat) (hn : n' ≤ n)
    (ho : σ'.out = σ.out) (hl : σ'.lastHandle = σ.lastHandle)
    (ht : ∀ h x, σ'.transactions.get? h = some x → σ.transactions.get? h = some x)
    (hb : ∀ h x, σ'.buckets.get? h = some x → σ.buckets.get? h = some x)
    (hc : ∀ h x, σ'.cursors.get? h = some x → σ.cursors.get? h = some x)
    (hbt : ∀ h x, σ'.bucketsByTx.get? h = some x → σ.bucketsByTx.get? h = some x)
    (hcb : ∀ h x, σ'.cursorsByBucket.get? h = some x → σ.cursorsByBucket.get? h = some x) :
    σ.Turn n σ' n' := by
  refine ⟨hn, fun _ => ⟨by rw [hl], by rw [hl]; omega, ?_, ?_⟩⟩
  · intro hi
    exact ⟨by rw [ho]; exact hi.sorted, by rw [ho, hl]; exact hi.repliesLe,
      fun h x hx => hl ▸ hi.txLe h x (ht h x hx),
      fun h x hx => hl ▸ hi.bucketsLe h x (hb h x hx),
      fun h x hx => hl ▸ hi.cursorsLe h x (hc h x hx),
      fun k l hk => hl ▸ hi.byTxLe k l (hbt k l hk),
      fun k l hk => hl ▸ hi.byBucketLe k l (hcb k l hk),
      fun k₁ k₂ l₁ l₂ hne h1 h2 => hi.byTxDisjoint k₁ k₂ l₁ l₂ hne (hbt _ _ h1) (hbt _ _ h2),
      fun k₁ k₂ l₁ l₂ hne h1 h2 =>
        hi.byBucketDisjoint k₁ k₂ l₁ l₂ hne (hcb _ _ h1) (hcb _ _ h2)⟩
  · intro bh _ hnone
    rcases hg : σ'.buckets.get? bh with _ | x
    · rfl
    · rw [hb bh x hg] at hnone
      exact Option.noConfusion hnone

theorem GoMap.get?_foldl_delete {V : Type} (l : List Nat) (m : GoMap Nat V) (k : Nat) :
    (l.foldl (fun m h => m.delete h) m).get? k = if k ∈ l then none else m.get? k := by
  induction l generalizing m with
  | nil => simp
  | cons a rest ih =>
    rw [List.foldl_cons, ih, GoMap.get?_delete]
    by_cases h1 : k ∈ rest
    · simp [h1]
    · by_cases h2 : k = a
      · simp [h2]
      · simp [h1, h2]

theorem removeBucket_fields {B : Bolt} (σ : ServerState B) (bh : Nat) :
    (removeBucket σ bh).out = σ.out ∧ (removeBucket σ bh).lastHandle = σ.lastHandle ∧
    (removeBucket σ bh).transactions = σ.transactions ∧
    (removeBucket σ bh).bucketsByTx = σ.bucketsByTx ∧
    (removeBucket σ bh).db = σ.db ∧ (removeBucket σ bh).lastError = σ.lastError ∧
    (removeBucket σ bh).deferred = σ.deferred ∧
    (∀ k, (removeBucket σ bh).buckets.get? k = if k = bh then none else σ.buckets.get? k) ∧
    (∀ k, (removeBucket σ bh).cursorsByBucket.get? k =
      if k = bh then none else σ.cursorsByBucket.get? k) ∧
    (∀ ch, (removeBucket σ bh).cursors.get? ch =
      if ch ∈ (σ.cursorsByBucket.get? bh).getD [] then none else σ.cursors.get? ch) := by
  unfold removeBucket
  rcases hg : σ.cursorsByBucket.get? bh with _ | l
  · refine ⟨rfl, rfl, rfl, rfl, rfl, rfl, rfl, fun k => GoMap.get?_delete _ _ _, ?_, ?_⟩
    · intro k
      by_cases hk : k = bh
      · rw [if_pos hk, hk]
        exact hg
      · rw [if_neg hk]
    · intro ch
      simp
  · refine ⟨rfl, rfl, rfl, rfl, rfl, rfl, rfl, fun k => GoMap.get?_delete _ _ _,
      fun k => GoMap.get?_delete _ _ _, ?_⟩
    intro ch
    exact GoMap.get?_foldl_delete l σ.cursors ch

theorem removeAll_fields {B : Bolt} (l : List Nat) (σ : ServerState B) :
    (l.foldl removeBucket σ).out = σ.out ∧ (l.foldl removeBucket σ).lastHandle = σ.lastHandle ∧
    (l.foldl removeBucket σ).transactions = σ.transactions ∧
    (l.foldl removeBucket σ).bucketsByTx = σ.bucketsByTx ∧
    (l.foldl removeBucket σ).db = σ.db ∧ (l.foldl removeBucket σ).lastError = σ.lastError ∧
    (l.foldl removeBucket σ).deferred = σ.deferred ∧
    (∀ k, (l.foldl removeBucket σ).buckets.get? k = if k ∈ l then none else σ.buckets.get? k) ∧
    (∀ k, (l.foldl removeBucket σ).cursorsByBucket.get? k =
      if k ∈ l then none else σ.cursorsByBucket.get? k) ∧
    (∀ ch, (∃ bh ∈ l, ch ∈ (σ.cursorsByBucket.get? bh).getD []) →
      (l.foldl removeBucket σ).cursors.get? ch = none) ∧
    (∀ ch, (¬ ∃ bh ∈ l, ch ∈ (σ.cursorsByBucket.get? bh).getD []) →
      (l.foldl removeBucket σ).cursors.get? ch = σ.cursors.get? ch) := by
  induction l generalizing σ with
  | nil => simp
  | cons a rest ih =>
    obtain ⟨i1, i2, i3, i4, i5, i6, i7, i8, i9, i10, i11⟩ := ih (removeBucket σ a)
    obtain ⟨r1, r2, r3, r4, r5, r6, r7, r8, r9, r10⟩ := removeBucket_fields σ a
    rw [List.foldl_cons]
    have hmem : ∀ ch, (∃ bh ∈ rest, ch ∈ ((removeBucket σ a).cursorsByBucket.get? bh).getD []) ↔
        ∃ bh ∈ rest, bh ≠ a ∧ ch ∈ (σ.cursorsByBucket.get? bh).getD [] := by
      intro ch
      constructor
      · rintro ⟨bh, hbh, hch⟩
        rw [r9] at hch
        by_cases hba : bh = a
        · rw [if_pos hba] at hch
          simp at hch
        · rw [if_neg hba] at hch
          exact ⟨bh, hbh, hba, hch⟩
      · rintro ⟨bh, hbh, hba, hch⟩
        refine ⟨bh, hbh, ?_⟩
        rw [r9, if_neg hba]
        exact hch
    refine ⟨i1.trans r1, i2.trans r2, i3.trans r3, i4.trans r4, i5.trans r5, i6.trans r6,
      i7.trans r7, ?_, ?_, ?_, ?_⟩
    · intro k
      rw [i8, r8]
      by_cases h1 : k ∈ rest
      · simp [h1]
      · by_cases h2 : k = a
        · simp [h2]
        · simp [h1, h2]
    · intro k
      rw [i9, r9]
      by_cases h1 : k ∈ rest
      · simp [h1]
      · by_cases h2 : k = a
        · simp [h2]
        · simp [h1, h2]
    · rintro ch ⟨bh, hbh, hch⟩
      by_cases hex : ∃ bh ∈ rest, ch ∈ ((removeBucket σ a).cursorsByBucket.get? bh).getD []
      · exact i10 ch hex
      · rw [i11 ch hex, r10]
        rcases List.mem_cons.mp hbh with hba | hbr
        · rw [hba] at hch
          rw [if_pos hch]
        · have hba : bh = a := by
            by_contra hne
            exact hex ((hmem ch).mpr ⟨bh, hbr, hne, hch⟩)
          rw [hba] at hch
          rw [if_pos hch]
    · intro ch hno
      have hex : ¬ ∃ bh ∈ rest, ch ∈ ((removeBucket σ a).cursorsByBucket.get? bh).getD [] := by
        intro hex
        obtain ⟨bh, hbh, _, hch⟩ := (hmem ch).mp hex
        exact hno ⟨bh, List.mem_cons_of_mem _ hbh, hch⟩
      rw [i11 ch hex, r10]
      have ha : ch ∉ (σ.cursorsByBucket.get? a).getD [] :=
        fun h => hno ⟨a, List.mem_cons_self _ _, h⟩
      rw [if_neg ha]

theorem ExtendsAt.of_set {V : Type} (m : GoMap Nat V) (new : Nat) (v : V) :
    ExtendsAt (m.set new v) m new :=
  Or.inr ⟨v, fun h => GoMap.get?_set m new h v⟩

theorem ListsExtend.of_match (m : GoMap Nat (List Nat)) (key new : Nat) :
    ListsExtend
      (match m.get? key with
        | some handles => m.set key (handles ++ [new])
        | none => m.set key [new]) m new := by
  refine Or.inr ⟨key, fun k => ?_⟩
  rcases hg : m.get? key with _ | l
  · simp only [GoMap.get?_set, Option.getD_none, List.nil_append]
  · simp only [GoMap.get?_set, Option.getD_some]

theorem cmdBeginTx_turn {B : Bolt} (σ σ' : ServerState B) (rest rest' : List Item)
    (h : cmdBeginTx σ rest = Outcome.next σ' rest') : σ.Turn rest.length σ' rest'.length := by
  unfold cmdBeginTx at h
  split at h
  · injection h with h1 h2
    subst h1 h2
    exact ServerState.Turn.allocated _ _ _ _ (Nat.le_refl _) rfl rfl
      (ExtendsAt.of_set _ _ _) (Or.inl rfl) (Or.inl rfl) (Or.inl rfl) (Or.inl rfl)
  · injection h with h1 h2
    subst h1 h2
    exact ServerState.Turn.failed _ _ _ _ (Nat.le_refl _) rfl rfl rfl rfl rfl rfl rfl

theorem removeBuckets_fields {B : Bolt} (σ : ServerState B) (tx : Nat) :
    (removeBuckets σ tx).out = σ.out ∧ (removeBuckets σ tx).lastHandle = σ.lastHandle ∧
    (removeBuckets σ tx).transactions = σ.transactions ∧
    (removeBuckets σ tx).db = σ.db ∧ (removeBuckets σ tx).lastError = σ.lastError ∧
    (removeBuckets σ tx).deferred = σ.deferred ∧
    (∀ k, (removeBuckets σ tx).bucketsByTx.get? k =
      if k = tx then none else σ.bucketsByTx.get? k) ∧
    (∀ k, (removeBuckets σ tx).buckets.get? k =
      if k ∈ (σ.bucketsByTx.get? tx).getD [] then none else σ.buckets.get? k) ∧
    (∀ k, (removeBuckets σ tx).cursorsByBucket.get? k =
      if k ∈ (σ.bucketsByTx.get? tx).getD [] then none else σ.cursorsByBucket.get? k) ∧
    (∀ ch, (∃ bh ∈ (σ.bucketsByTx.get? tx).getD [], ch ∈ (σ.cursorsByBucket.get? bh).getD []) →
      (removeBuckets σ tx).cursors.get? ch = none) ∧
    (∀ ch, (¬ ∃ bh ∈ (σ.bucketsByTx.get? tx).getD [],
        ch ∈ (σ.cursorsByBucket.get? bh).getD []) →
      (removeBuckets σ tx).cursors.get? ch = σ.cursors.get? ch) := by
  unfold removeBuckets
  rcases hg : σ.bucketsByTx.get? tx with _ | l
  · refine ⟨rfl, rfl, rfl, rfl, rfl, rfl, ?_, ?_, ?_, ?_, ?_⟩
    · intro k
      by_cases hk : k = tx
      · rw [if_pos hk, hk]
        exact hg
      · rw [if_neg hk]
    · intro k
      simp
    · intro k
      simp
    · rintro ch ⟨bh, hbh, _⟩
      simp at hbh
    · intro ch _
      rfl
  · obtain ⟨a1, a2, a3, a4, a5, a6, a7, a8, a9, a10, a11⟩ := removeAll_fields l σ
    refine ⟨a1, a2, a3, a5, a6, a7, ?_, a8, a9, a10, a11⟩
    intro k
    simp only [GoMap.get?_delete, a4]

theorem cmdEndTx_turn {B : Bolt} (σ σ' : ServerState B) (rest rest' : List Item)
    (h : cmdEndTx σ rest = Outcome.next σ' rest') : σ.Turn rest.length σ' rest'.length := by
  unfold cmdEndTx at h
  split at h
  · rename_i txHandle r1 hd
    have hr := (decodeUint_ok _ _ _ _ hd).1
    split at h
    · rename_i tx htx
      simp only at h
      split at h
      · exact Outcome.noConfusion h
      · rename_i db hroll
        injection h with h1 h2
        obtain ⟨a1, a2, a3, a4, a5, a6, a7, a8, a9, a10, a11⟩ := removeBuckets_fields σ txHandle
        subst h1 h2
        rw [hr]
        refine ServerState.Turn.removed _ _ _ _ (by simp) a1 a2 ?_ ?_ ?_ ?_ ?_
        · intro k x hx
          simp only [GoMap.get?_delete] at hx
          split at hx
          · exact Option.noConfusion hx
          · rw [a3] at hx
            exact hx
        · intro k x hx
          simp only at hx
          rw [a8] at hx
          split at hx
          · exact Option.noConfusion hx
          · exact hx
        · intro k x hx
          simp only at hx
          by_cases hex : ∃ bh ∈ (σ.bucketsByTx.get? txHandle).getD [],
              k ∈ (σ.cursorsByBucket.get? bh).getD []
          · rw [a10 k hex] at hx
            exact Option.noConfusion hx
          · rw [a11 k hex] at hx
            exact hx
        · intro k x hx
          simp only at hx
          rw [a7] at hx
          split at hx
          · exact Option.noConfusion hx
          · exact hx
        · intro k x hx
          simp only at hx
          rw [a9] at hx
          split at hx
          · exact Option.noConfusion hx
          · exact hx
    · injection h with h1 h2
      subst h1 h2
      rw [hr]
      exact ServerState.Turn.same _ _ _ _ (by simp) rfl rfl rfl rfl rfl rfl rfl
  · exact Outcome.noConfusion h

theorem cmdBucket_turn {B : Bolt} (σ σ' : ServerState B) (rest rest' : List Item)
    (h : cmdBucket σ rest = Outcome.next σ' rest') : σ.Turn rest.length σ' rest'.length := by
  unfold cmdBucket at h
  split at h
  · rename_i txHandle r1 hd1
    have hr1 := (decodeUint_ok _ _ _ _ hd1).1
    split at h
    · rename_i name r2 hd2
      have hr2 := decodeBytes_ok _ _ _ hd2
      have hlen : rest'.length = r2.length → rest'.length ≤ rest.length := by
        intro e
        rw [hr1, hr2, e]
        simp
        omega
      split at h
      · split at h
        · injection h with h1 h2
          subst h1
          exact ServerState.Turn.failed _ _ _ _ (hlen (by rw [h2])) rfl rfl rfl rfl rfl rfl rfl
        · injection h with h1 h2
          subst h1
          exact ServerState.Turn.allocated _ _ _ _ (hlen (by rw [h2])) rfl rfl (Or.inl rfl)
            (ExtendsAt.of_set _ _ _) (Or.inl rfl) (ListsExtend.of_match _ _ _) (Or.inl rfl)
      · injection h with h1 h2
        subst h1
        exact ServerState.Turn.failed _ _ _ _ (hlen (by rw [h2])) rfl rfl rfl rfl rfl rfl rfl
    · exact Outcome.noConfusion h
  · exact Outcome.noConfusion h

theorem cmdGet_turn {B : Bolt} (σ σ' : ServerState B) (rest rest' : List Item)
    (h : cmdGet σ rest = Outcome.next σ' rest') : σ.Turn rest.length σ' rest'.length := by
  unfold cmdGet at h
  split at h
  · rename_i bucketHandle r1 hd1
    have hr1 := (decodeUint_ok _ _ _ _ hd1).1
    split at h
    · rename_i key r2 hd2
      have hr2 := decodeBytes_ok _ _ _ hd2
      have hlen : rest'.length = r2.length → rest'.length ≤ rest.length := by
        intro e
        rw [hr1, hr2, e]
        simp
        omega
      split at h
      · injection h with h1 h2
        subst h1
        exact ServerState.Turn.same _ _ _ _ (hlen (by rw [h2]))
          (handleReplies_append_other _ _ (fun _ e => Reply.noConfusion e))
          rfl rfl rfl rfl rfl rfl
      · injection h with h1 h2
        subst h1
        exact ServerState.Turn.same _ _ _ _ (hlen (by rw [h2]))
          (handleReplies_append_other _ _ (fun _ e => Reply.noConfusion e))
          rfl rfl rfl rfl rfl rfl
    · exact Outcome.noConfusion h
  · exact Outcome.noConfusion h

theorem cmdCursor_turn {B : Bolt} (σ σ' : ServerState B) (rest rest' : List Item)
    (h : cmdCursor σ rest = Outcome.next σ' rest') : σ.Turn rest.length σ' rest'.length := by
  unfold cmdCursor at h
  split at h
  · rename_i bucketHandle r1 hd1
    have hr1 := (decodeUint_ok _ _ _ _ hd1).1
    have hlen : rest'.length = r1.length → rest'.length ≤ rest.length := by
      intro e
      rw [hr1, e]
      simp
    split at h
    · injection h with h1 h2
      subst h1
      exact ServerState.Turn.allocated _ _ _ _ (hlen (by rw [h2])) rfl rfl (Or.inl rfl)
        (Or.inl rfl) (ExtendsAt.of_set _ _ _) (Or.inl rfl) (ListsExtend.of_match _ _ _)
    · injection h with h1 h2
      subst h1
      exact ServerState.Turn.failed _ _ _ _ (hlen (by rw [h2])) rfl rfl rfl rfl rfl rfl rfl
  · exact Outcome.noConfusion h

theorem cmdSeek_turn {B : Bolt} (σ σ' : ServerState B) (rest rest' : List Item)
    (h : cmdSeek σ rest = Outcome.next σ' rest') : σ.Turn rest.length σ' rest'.length := by
  obtain ⟨h1, h2⟩ := (cmdSeek_same σ rest).2 σ' rest' h
  subst h1
  exact ServerState.Turn.same _ _ _ _ h2 rfl rfl rfl rfl rfl rfl rfl

theorem serverStep_turn {B : Bolt} (σ σ' : ServerState B) (input rest : List Item)
    (h : serverStep σ input = Outcome.next σ' rest) :
    ∃ c tail, input = Item.uint c :: tail ∧ σ.Turn tail.length σ' rest.length := by
  unfold serverStep at h
  split at h
  · exact Outcome.noConfusion h
  · exact Outcome.noConfusion h
  · rename_i c tail hd
    refine ⟨c, tail, (decodeUint_ok _ _ _ _ hd).1, ?_⟩
    split at h
    · injection h with h1 h2
      subst h1 h2
      exact ServerState.Turn.same _ _ _ _ (Nat.le_refl _)
        (handleReplies_append_other _ _ (fun _ e => Reply.noConfusion e)) rfl rfl rfl rfl rfl rfl
    · split at h
      · injection h with h1 h2
        subst h1 h2
        exact ServerState.Turn.same _ _ _ _ (Nat.le_refl _)
          (handleReplies_append_other _ _ (fun _ e => Reply.noConfusion e))
          rfl rfl rfl rfl rfl rfl
      · split at h
        · exact cmdBeginTx_turn _ _ _ _ h
        · split at h
          · exact cmdEndTx_turn _ _ _ _ h
          · split at h
            · exact cmdBucket_turn _ _ _ _ h
            · split at h
              · exact cmdGet_turn _ _ _ _ h
              · split at h
                · exact cmdCursor_turn _ _ _ _ h
                · split at h
                  · exact cmdSeek_turn _ _ _ _ h
                  · exact Outcome.noConfusion h

theorem serverStep_finished {B : Bolt} (σ σ' : ServerState B) (input : List Item)
    (err : Option Error) (h : serverStep σ input = Outcome.finished σ' err) :
    σ'.out = σ.out ∧ σ'.lastHandle = σ.lastHandle := by
  unfold serverStep at h
  split at h
  · injection h with h1 _
    subst h1
    exact ⟨rfl, rfl⟩
  · injection h with h1 _
    subst h1
    exact ⟨rfl, rfl⟩
  · split at h
    · exact Outcome.noConfusion h
    · split at h
      · exact Outcome.noConfusion h
      · split at h
        · unfold cmdBeginTx at h
          split at h <;> exact Outcome.noConfusion h
        · split at h
          · unfold cmdEndTx at h
            split at h
            · split at h
              · simp only at h
                split at h
                · injection h with h1 _
                  subst h1
                  exact ⟨(removeBuckets_fields σ _).1, (removeBuckets_fields σ _).2.1⟩
                · exact Outcome.noConfusion h
              · exact Outcome.noConfusion h
            · injection h with h1 _
              subst h1
              exact ⟨rfl, rfl⟩
          · split at h
            · unfold cmdBucket at h
              split at h
              · split at h
                · split at h
                  · split at h <;> exact Outcome.noConfusion h
                  · exact Outcome.noConfusion h
                · injection h with h1 _
                  subst h1
                  exact ⟨rfl, rfl⟩
              · injection h with h1 _
                subst h1
                exact ⟨rfl, rfl⟩
            · split at h
              · unfold cmdGet at h
                split at h
                · split at h
                  · split at h <;> exact Outcome.noConfusion h
                  · injection h with h1 _
                    subst h1
                    exact ⟨rfl, rfl⟩
                · injection h with h1 _
                  subst h1
                  exact ⟨rfl, rfl⟩
              · split at h
                · unfold cmdCursor at h
                  split at h
                  · split at h <;> exact Outcome.noConfusion h
                  · injection h with h1 _
                    subst h1
                    exact ⟨rfl, rfl⟩
                · split at h
                  · have := (cmdSeek_same σ _).1 σ' err h
                    rw [this]
                    exact ⟨rfl, rfl⟩
                  · injection h with h1 _
                    subst h1
                    exact ⟨rfl, rfl⟩

theorem ServerState.initial_inv (B : Bolt) (db : B.DB) : (ServerState.initial B db).Inv := by
  refine ⟨List.Pairwise.nil, ?_, ?_, ?_, ?_, ?_, ?_, ?_, ?_⟩
  · intro h hh
    simp [ServerState.initial, handleReplies] at hh
  · intro h x hx
    exact Option.noConfusion hx
  · intro h x hx
    exact Option.noConfusion hx
  · intro h x hx
    exact Option.noConfusion hx
  · intro h x hx
    exact Option.noConfusion hx
  · intro h x hx
    exact Option.noConfusion hx
  · intro k₁ k₂ l₁ l₂ _ h1
    exact Option.noConfusion h1
  · intro k₁ k₂ l₁ l₂ _ h1
    exact Option.noConfusion h1

theorem serverTurns_inv {B : Bolt} (n : Nat) (σ σ' : ServerState B) (input rest : List Item)
    (h : serverTurns n σ input = some (σ', rest))
    (hw : σ.lastHandle + input.length < 2 ^ 64) :
    σ.lastHandle ≤ σ'.lastHandle ∧ σ'.lastHandle + rest.length ≤ σ.lastHandle + input.length ∧
    (σ.Inv → σ'.Inv) ∧
    (∀ bh, bh ≤ σ.lastHandle → σ.buckets.get? bh = none → σ'.buckets.get? bh = none) := by
  induction n generalizing σ input with
  | zero =>
    simp only [serverTurns, Option.some.injEq, Prod.mk.injEq] at h
    obtain ⟨h1, h2⟩ := h
    subst h1 h2
    exact ⟨Nat.le_refl _, Nat.le_refl _, id, fun _ _ hn => hn⟩
  | succ n ih =>
    unfold serverTurns at h
    split at h
    · exact Option.noConfusion h
    · rename_i σ₁ r₁ hstep
      obtain ⟨c, tail, hin, hn, hturn⟩ := serverStep_turn σ σ₁ input r₁ hstep
      have hlen : input.length = tail.length + 1 := by rw [hin]; simp
      obtain ⟨t1, t2, t3, t4⟩ := hturn (by omega)
      obtain ⟨i1, i2, i3, i4⟩ := ih σ₁ r₁ h (by omega)
      exact ⟨Nat.le_trans t1 i1, by omega, fun hi => i3 (t3 hi),
        fun bh hbh hnone => i4 bh (Nat.le_trans hbh t1) (t4 bh hbh hnone)⟩

theorem serverLoop_turns {B : Bolt} (fuel : Nat) (σ σf : ServerState B) (input : List Item)
    (err : Option Error) (h : serverLoop fuel σ input = some (σf, err)) :
    ∃ n σ' rest, serverTurns n σ input = some (σ', rest) ∧
      serverStep σ' rest = Outcome.finished σf err := by
  induction fuel generalizing σ input with
  | zero => exact Option.noConfusion h
  | succ fuel ih =>
    unfold serverLoop at h
    split at h
    · rename_i σ₁ e₁ hstep
      simp only [Option.some.injEq, Prod.mk.injEq] at h
      obtain ⟨h1, h2⟩ := h
      subst h1 h2
      exact ⟨0, σ, input, rfl, hstep⟩
    · rename_i σ₁ r₁ hstep
      obtain ⟨n, σ', rest, h1, h2⟩ := ih σ₁ r₁ h
      refine ⟨n + 1, σ', rest, ?_, h2⟩
      unfold serverTurns
      rw [hstep]
      exact h1

theorem serverLoop_returns {B : Bolt} (fuel : Nat) (σ : ServerState B) (input : List Item)
    (h : input.length < fuel) : ∃ r, serverLoop fuel σ input = some r := by
  induction fuel generalizing σ input with
  | zero => exact absurd h (Nat.not_lt_zero _)
  | succ fuel ih =>
    unfold serverLoop
    rcases hstep : serverStep σ input with ⟨σ₁, e₁⟩ | ⟨σ₁, r₁⟩
    · exact ⟨_, rfl⟩
    · obtain ⟨c, tail, hin, hn, _⟩ := serverStep_turn σ σ₁ input r₁ hstep
      have hlen : input.length = tail.length + 1 := by rw [hin]; simp
      exact ih σ₁ r₁ (by omega)

theorem serverStep_handle_reply {B : Bolt} (σ σ' : ServerState B) (c : Nat)
    (tail rest : List Item) (hc : c = CmdBeginTx ∨ c = CmdBucket ∨ c = CmdCursor)
    (h : serverStep σ (Item.uint c :: tail) = Outcome.next σ' rest) :
    (σ'.lastError ≠ none ∧ σ'.out = σ.out ++ [Reply.handle 0] ∧
      σ'.lastHandle = σ.lastHandle ∧ σ'.transactions = σ.transactions ∧
      σ'.buckets = σ.buckets ∧ σ'.cursors = σ.cursors ∧
      σ'.bucketsByTx = σ.bucketsByTx ∧ σ'.cursorsByBucket = σ.cursorsByBucket) ∨
    (σ'.lastError = none ∧ σ'.lastHandle = (σ.lastHandle + 1) % 2 ^ 64 ∧
      σ'.out = σ.out ++ [Reply.handle σ'.lastHandle]) := by
  have hne : ∀ e : Error, (some e : Option Error) ≠ none := fun e h => Option.noConfusion h
  have h8 : c < 2 ^ 8 := by
    rcases hc with hc | hc | hc <;> rw [hc] <;> decide
  unfold serverStep at h
  rw [decodeUint_cons 8 c _ h8] at h
  simp only at h
  rcases hc with hc | hc | hc
  · subst hc
    simp only [CmdBeginTx, CmdVersion, CmdLastError, OfNat.ofNat_ne_zero, OfNat.ofNat_ne_one,
      if_false, if_true] at h
    unfold cmdBeginTx at h
    split at h
    · injection h with h1 _
      subst h1
      exact Or.inr ⟨rfl, rfl, rfl⟩
    · injection h with h1 _
      subst h1
      exact Or.inl ⟨hne _, rfl, rfl, rfl, rfl, rfl, rfl, rfl⟩
  · subst hc
    simp only [CmdBucket, CmdBeginTx, CmdEndTx, CmdVersion, CmdLastError, OfNat.ofNat_ne_zero,
      OfNat.ofNat_ne_one, Nat.reduceEqDiff, if_false, if_true] at h
    unfold cmdBucket at h
    split at h
    · split at h
      · split at h
        · split at h
          · injection h with h1 _
            subst h1
            exact Or.inl ⟨hne _, rfl, rfl, rfl, rfl, rfl, rfl, rfl⟩
          · injection h with h1 _
            subst h1
            exact Or.inr ⟨rfl, rfl, rfl⟩
        · injection h with h1 _
          subst h1
          exact Or.inl ⟨hne _, rfl, rfl, rfl, rfl, rfl, rfl, rfl⟩
      · exact Outcome.noConfusion h
    · exact Outcome.noConfusion h
  · subst hc
    simp only [CmdCursor, CmdGet, CmdBucket, CmdBeginTx, CmdEndTx, CmdVersion, CmdLastError,
      OfNat.ofNat_ne_zero, OfNat.ofNat_ne_one, Nat.reduceEqDiff, if_false, if_true] at h
    unfold cmdCursor at h
    split at h
    · split at h
      · injection h with h1 _
        subst h1
        exact Or.inr ⟨rfl, rfl, rfl⟩
      · injection h with h1 _
        subst h1
        exact Or.inl ⟨hne _, rfl, rfl, rfl, rfl, rfl, rfl, rfl⟩
    · exact Outcome.noConfusion h

/-- C23: on an input of fewer than 2^64 items (the counter of handles is a `uint64`),
`Server` returns, and among the handles that it wrote in reply every handle that is not 0 is
strictly greater than every handle written before it, whatever the commands that they
answer. A turn that serves `CmdBeginTx`, `CmdBucket` or `CmdCursor` either fails: it sets the
last error, writes the handle 0 and leaves the last handle and the maps of the context as
they were; or succeeds: it clears the last error and writes the last handle plus one, which
is not 0 and is above every handle written before. -/
theorem Server_handles_increase (B : Bolt) (db : B.DB) (input : List Item)
    (hlen : input.length < 2 ^ 64) :
    ∃ σ err, Server B db input = some (σ, err) ∧
      (handleReplies σ.out).Pairwise (fun a b => b ≠ 0 → a < b) ∧
      ∀ (n : Nat) (σ₁ σ₂ : ServerState B) (c : Nat) (tail rest : List Item),
        serverTurns n (ServerState.initial B db) input = some (σ₁, Item.uint c :: tail) →
        c = CmdBeginTx ∨ c = CmdBucket ∨ c = CmdCursor →
        serverStep σ₁ (Item.uint c :: tail) = Outcome.next σ₂ rest →
        (σ₂.lastError ≠ none ∧ σ₂.out = σ₁.out ++ [Reply.handle 0] ∧
          σ₂.lastHandle = σ₁.lastHandle ∧ σ₂.transactions = σ₁.transactions ∧
          σ₂.buckets = σ₁.buckets ∧ σ₂.cursors = σ₁.cursors ∧
          σ₂.bucketsByTx = σ₁.bucketsByTx ∧ σ₂.cursorsByBucket = σ₁.cursorsByBucket) ∨
        (σ₂.lastError = none ∧ σ₂.lastHandle = σ₁.lastHandle + 1 ∧
          σ₂.out = σ₁.out ++ [Reply.handle (σ₁.lastHandle + 1)] ∧
          ∀ h ∈ handleReplies σ₁.out, h < σ₁.lastHandle + 1) := by
  obtain ⟨⟨σf, err⟩, hloop⟩ := serverLoop_returns (input.length + 1) (ServerState.initial B db)
    input (Nat.lt_succ_self _)
  have hw : (ServerState.initial B db).lastHandle + input.length < 2 ^ 64 := by
    show 0 + input.length < 2 ^ 64
    omega
  refine ⟨runDeferred σf, err, ?_, ?_, ?_⟩
  · unfold Server
    rw [hloop]
    rfl
  · obtain ⟨n, σ', rest, h1, h2⟩ := serverLoop_turns _ _ _ _ _ hloop
    have hinv := (serverTurns_inv n _ σ' input rest h1 hw).2.2.1 (ServerState.initial_inv B db)
    have hout : (runDeferred σf).out = σ'.out := (serverStep_finished σ' σf rest err h2).1
    rw [hout]
    exact hinv.sorted
  · intro n σ₁ σ₂ c tail rest hturns hc hstep
    obtain ⟨_, i2, i3, _⟩ := serverTurns_inv n _ σ₁ input _ hturns hw
    have hinv := i3 (ServerState.initial_inv B db)
    have hnw : σ₁.lastHandle + 1 < 2 ^ 64 := by
      have : (ServerState.initial B db).lastHandle = 0 := rfl
      simp only [List.length_cons] at i2
      omega
    rcases serverStep_handle_reply σ₁ σ₂ c tail rest hc hstep with hf | ⟨s1, s2, s3⟩
    · exact Or.inl hf
    · rw [Nat.mod_eq_of_lt hnw] at s2
      rw [s2] at s3
      exact Or.inr ⟨s1, s2, s3, fun h hh => Nat.lt_succ_of_le (hinv.repliesLe h hh)⟩

/-- Witness of C23: in the instance, a client begins a transaction, asks for a bucket that
does not exist, opens the bucket `[98]` and makes a cursor on it: the handles written are 1,
0, 2 and 3. -/
theorem Server_handles_increase_witness :
    ∃ σ err, Server sampleBolt sampleBoltDb
        [Item.uint CmdBeginTx, Item.uint CmdBucket, Item.uint 1, Item.bytes [99],
         Item.uint CmdBucket, Item.uint 1, Item.bytes [98], Item.uint CmdCursor, Item.uint 2] =
        some (σ, err) ∧
      handleReplies σ.out = [1, 0, 2, 3] ∧
      (handleReplies σ.out).Pairwise (fun a b => b ≠ 0 → a < b) :=
  match Server_handles_increase sampleBolt sampleBoltDb
      [Item.uint CmdBeginTx, Item.uint CmdBucket, Item.uint 1, Item.bytes [99],
       Item.uint CmdBucket, Item.uint 1, Item.bytes [98], Item.uint CmdCursor, Item.uint 2]
      (by decide) with
  | ⟨σ, err, h1, h2, _⟩ =>
    have hrun : (Server sampleBolt sampleBoltDb
        [Item.uint CmdBeginTx, Item.uint CmdBucket, Item.uint 1, Item.bytes [99],
         Item.uint CmdBucket, Item.uint 1, Item.bytes [98], Item.uint CmdCursor,
         Item.uint 2]).map (fun r => handleReplies r.1.out) = some [1, 0, 2, 3] := by decide
    ⟨σ, err, h1, by rw [h1] at hrun; exact Option.some.inj hrun, h2⟩

theorem serverStep_get_closed {B : Bolt} (σ : ServerState B) (bh : Nat) (key : Bytes)
    (tail : List Item) (hbh : bh < 2 ^ 64) (hnone : σ.buckets.get? bh = none) :
    serverStep σ (Item.uint CmdGet :: Item.uint bh :: Item.bytes key :: tail) =
      Outcome.next
        { σ with lastError := some errBucketNotFound, out := σ.out ++ [Reply.value none] }
        tail := by
  have h8 : CmdGet < 2 ^ 8 := by decide
  unfold serverStep
  rw [decodeUint_cons 8 CmdGet _ h8]
  simp only [CmdGet, CmdBucket, CmdBeginTx, CmdEndTx, CmdVersion, CmdLastError,
    OfNat.ofNat_ne_zero, OfNat.ofNat_ne_one, Nat.reduceEqDiff, if_false, if_true]
  unfold cmdGet
  rw [decodeUint_cons 64 bh _ hbh]
  simp only [decodeBytes, hnone]

theorem serverStep_cursor_closed {B : Bolt} (σ : ServerState B) (bh : Nat)
    (tail : List Item) (hbh : bh < 2 ^ 64) (hnone : σ.buckets.get? bh = none) :
    serverStep σ (Item.uint CmdCursor :: Item.uint bh :: tail) =
      Outcome.next
        { σ with lastError := some errBucketNotFound, out := σ.out ++ [Reply.handle 0] }
        tail := by
  have h8 : CmdCursor < 2 ^ 8 := by decide
  unfold serverStep
  rw [decodeUint_cons 8 CmdCursor _ h8]
  simp only [CmdCursor, CmdGet, CmdBucket, CmdBeginTx, CmdEndTx, CmdVersion, CmdLastError,
    OfNat.ofNat_ne_zero, OfNat.ofNat_ne_one, Nat.reduceEqDiff, if_false, if_true]
  unfold cmdCursor
  rw [decodeUint_cons 64 bh _ hbh]
  simp only [hnone]

theorem serverStep_endTx {B : Bolt} (σ : ServerState B) (txHandle : Nat) (tx : B.Tx)
    (rest : List Item) (hlt : txHandle < 2 ^ 64)
    (htx : σ.transactions.get? txHandle = some tx)
    (hroll : (B.rollback (removeBuckets σ txHandle).db tx).2 = none) :
    serverStep σ (Item.uint CmdEndTx :: Item.uint txHandle :: rest) =
      Outcome.next
        { removeBuckets σ txHandle with
          db := (B.rollback (removeBuckets σ txHandle).db tx).1
          transactions := (removeBuckets σ txHandle).transactions.delete txHandle
          lastError := none } rest := by
  have h8 : CmdEndTx < 2 ^ 8 := by decide
  unfold serverStep
  rw [decodeUint_cons 8 CmdEndTx _ h8]
  simp only [CmdEndTx, CmdBeginTx, CmdVersion, CmdLastError,
    OfNat.ofNat_ne_zero, OfNat.ofNat_ne_one, Nat.reduceEqDiff, if_false, if_true]
  unfold cmdEndTx
  rw [decodeUint_cons 64 txHandle _ hlt]
  simp only [htx]
  rcases hr : B.rollback (removeBuckets σ txHandle).db tx with ⟨db, _ | err⟩
  · rfl
  · rw [hr] at hroll
    exact Option.noConfusion hroll

/-- C24: on an input of fewer than 2^64 items, when a turn of the loop reads `CmdEndTx` with
the handle of an open transaction and the rollback succeeds, the turn clears the last error
and removes the transaction, its list of buckets, every bucket handle opened under it with
its list of cursors, and every cursor handle opened on those buckets. At whatever later turn
a `CmdGet` or a `CmdCursor` comes with such a bucket handle, the server writes the nil value,
or the handle 0, and sets the last error to "bucket not found". The other transactions stay
as they were, with their lists of buckets, these buckets, their lists of cursors and these
cursors. -/
theorem Server_endTx_removes (B : Bolt) (db : B.DB) (input : List Item)
    (hlen : input.length < 2 ^ 64) (n : Nat) (σ : ServerState B) (txHandle : Nat) (tx : B.Tx)
    (rest : List Item)
    (hturns : serverTurns n (ServerState.initial B db) input =
      some (σ, Item.uint CmdEndTx :: Item.uint txHandle :: rest))
    (htx : σ.transactions.get? txHandle = some tx)
    (hroll : (B.rollback (removeBuckets σ txHandle).db tx).2 = none) :
    ∃ σ', serverStep σ (Item.uint CmdEndTx :: Item.uint txHandle :: rest) =
        Outcome.next σ' rest ∧
      σ'.lastError = none ∧ σ'.transactions.get? txHandle = none ∧
      σ'.bucketsByTx.get? txHandle = none ∧
      (∀ bh ∈ (σ.bucketsByTx.get? txHandle).getD [],
        σ'.buckets.get? bh = none ∧ σ'.cursorsByBucket.get? bh = none ∧
        ∀ ch ∈ (σ.cursorsByBucket.get? bh).getD [], σ'.cursors.get? ch = none) ∧
      (∀ (m : Nat) (σ'' : ServerState B) (later : List Item),
        serverTurns m σ' rest = some (σ'', later) →
        ∀ bh ∈ (σ.bucketsByTx.get? txHandle).getD [],
          (∀ key tail, later = Item.uint CmdGet :: Item.uint bh :: Item.bytes key :: tail →
            serverStep σ'' later = Outcome.next
              { σ'' with lastError := some errBucketNotFound
                         out := σ''.out ++ [Reply.value none] } tail) ∧
          (∀ tail, later = Item.uint CmdCursor :: Item.uint bh :: tail →
            serverStep σ'' later = Outcome.next
              { σ'' with lastError := some errBucketNotFound
                         out := σ''.out ++ [Reply.handle 0] } tail)) ∧
      (∀ tx', tx' ≠ txHandle →
        σ'.transactions.get? tx' = σ.transactions.get? tx' ∧
        σ'.bucketsByTx.get? tx' = σ.bucketsByTx.get? tx' ∧
        ∀ bh' ∈ (σ.bucketsByTx.get? tx').getD [],
          σ'.buckets.get? bh' = σ.buckets.get? bh' ∧
          σ'.cursorsByBucket.get? bh' = σ.cursorsByBucket.get? bh' ∧
          ∀ ch' ∈ (σ.cursorsByBucket.get? bh').getD [],
            σ'.cursors.get? ch' = σ.cursors.get? ch') := by
  have hw : (ServerState.initial B db).lastHandle + input.length < 2 ^ 64 := by
    show 0 + input.length < 2 ^ 64
    omega
  obtain ⟨_, i2, i3, _⟩ := serverTurns_inv n _ σ input _ hturns hw
  have hinv := i3 (ServerState.initial_inv B db)
  have h0 : (ServerState.initial B db).lastHandle = 0 := rfl
  simp only [List.length_cons] at i2
  have hlt : txHandle < 2 ^ 64 := by
    have := hinv.txLe txHandle tx htx
    omega
  obtain ⟨a1, a2, a3, a4, a5, a6, a7, a8, a9, a10, a11⟩ := removeBuckets_fields σ txHandle
  have hlist : ∀ l, σ.bucketsByTx.get? txHandle = some l →
      (σ.bucketsByTx.get? txHandle).getD [] = l := fun l hl => by rw [hl]; rfl
  have hble : ∀ bh ∈ (σ.bucketsByTx.get? txHandle).getD [], bh ≤ σ.lastHandle := by
    intro bh hbh
    rcases hg : σ.bucketsByTx.get? txHandle with _ | l
    · rw [hg] at hbh
      simp at hbh
    · rw [hg] at hbh
      exact hinv.byTxLe txHandle l hg bh hbh
  refine ⟨_, serverStep_endTx σ txHandle tx rest hlt htx hroll, rfl, ?_, ?_, ?_, ?_, ?_⟩
  · simp only [GoMap.get?_delete, if_true]
  · show (removeBuckets σ txHandle).bucketsByTx.get? txHandle = none
    rw [a7, if_pos rfl]
  · intro bh hbh
    refine ⟨?_, ?_, ?_⟩
    · show (removeBuckets σ txHandle).buckets.get? bh = none
      rw [a8, if_pos hbh]
    · show (removeBuckets σ txHandle).cursorsByBucket.get? bh = none
      rw [a9, if_pos hbh]
    · intro ch hch
      exact a10 ch ⟨bh, hbh, hch⟩
  · intro m σ'' later hlater bh hbh
    have hclosed : (removeBuckets σ txHandle).buckets.get? bh = none := by
      rw [a8, if_pos hbh]
    have hpers := (serverTurns_inv m
      { removeBuckets σ txHandle with
        db := (B.rollback (removeBuckets σ txHandle).db tx).1
        transactions := (removeBuckets σ txHandle).transactions.delete txHandle
        lastError := none } σ'' rest later hlater
      (by
        show (removeBuckets σ txHandle).lastHandle + rest.length < 2 ^ 64
        rw [a2]
        omega)).2.2.2 bh
      (by
        show bh ≤ (removeBuckets σ txHandle).lastHandle
        rw [a2]
        exact hble bh hbh) hclosed
    have hb64 : bh < 2 ^ 64 := by
      have := hble bh hbh
      omega
    refine ⟨?_, ?_⟩
    · intro key tail he
      rw [he]
      exact serverStep_get_closed σ'' bh key tail hb64 hpers
    · intro tail he
      rw [he]
      exact serverStep_cursor_closed σ'' bh tail hb64 hpers
  · intro tx' hne
    refine ⟨?_, ?_, ?_⟩
    · show ((removeBuckets σ txHandle).transactions.delete txHandle).get? tx' = _
      rw [GoMap.get?_delete, if_neg hne, a3]
    · show (removeBuckets σ txHandle).bucketsByTx.get? tx' = _
      rw [a7, if_neg hne]
    · intro bh' hbh'
      rcases hg' : σ.bucketsByTx.get? tx' with _ | l'
      · rw [hg'] at hbh'
        simp at hbh'
      · rw [hg'] at hbh'
        simp only [Option.getD_some] at hbh'
        have hnot : bh' ∉ (σ.bucketsByTx.get? txHandle).getD [] := by
          intro hin
          rcases hg : σ.bucketsByTx.get? txHandle with _ | l
          · rw [hg] at hin
            simp at hin
          · rw [hg] at hin
            exact hinv.byTxDisjoint tx' txHandle l' l hne hg' hg bh' hbh' hin
        refine ⟨?_, ?_, ?_⟩
        · show (removeBuckets σ txHandle).buckets.get? bh' = _
          rw [a8, if_neg hnot]
        · show (removeBuckets σ txHandle).cursorsByBucket.get? bh' = _
          rw [a9, if_neg hnot]
        · intro ch' hch'
          show (removeBuckets σ txHandle).cursors.get? ch' = _
          apply a11
          rintro ⟨bh, hbh, hch⟩
          have hbne : bh' ≠ bh := fun e => hnot (e ▸ hbh)
          rcases hc' : σ.cursorsByBucket.get? bh' with _ | c'
          · rw [hc'] at hch'
            simp at hch'
          · rcases hc : σ.cursorsByBucket.get? bh with _ | c
            · rw [hc] at hch
              simp at hch
            · rw [hc'] at hch'
              rw [hc] at hch
              exact hinv.byBucketDisjoint bh' bh c' c hbne hc' hc ch' hch' hch

/-- Witness of C24: in the instance, after the first transaction of `twoTxInput` is ended,
the bucket handle 2 and the cursor handle 3 are gone, the request through the bucket handle 2
is answered with the nil value, and the request through the bucket handle 5 of the second
transaction with the value `[10]`. -/
theorem Server_endTx_removes_witness :
    (∃ σ', serverStep twoTxState (Item.uint CmdEndTx :: Item.uint 1 :: twoTxInput.drop 12) =
        Outcome.next σ' (twoTxInput.drop 12) ∧
      σ'.transactions.get? 1 = none ∧ σ'.buckets.get? 2 = none ∧ σ'.cursors.get? 3 = none ∧
      σ'.buckets.get? 5 = twoTxState.buckets.get? 5) ∧
    (Server sampleBolt sampleBoltDb twoTxInput).map (fun r => (r.1.out, r.2)) =
      some ([Reply.handle 1, Reply.handle 2, Reply.handle 3, Reply.handle 4, Reply.handle 5,
        Reply.value none, Reply.value (some [10])], none) :=
  ⟨match Server_endTx_removes sampleBolt sampleBoltDb twoTxInput (by decide) 5 twoTxState 1
      sampleBoltDb (twoTxInput.drop 12) rfl rfl rfl with
    | ⟨σ', h1, _, h3, _, h5, _, h7⟩ =>
      ⟨σ', h1, h3, (h5 2 (by decide)).1, (h5 2 (by decide)).2.2 3 (by decide),
        ((h7 4 (by decide)).2.2 5 (by decide)).1⟩,
   by decide⟩

/-! ## The round trip of the block witness -/

theorem readNat_writeNatAux (fuel : Nat) :
    ∀ (n : Nat) (rest : Bytes), n ≤ fuel →
      readNat (writeNatAux fuel n ++ rest) = some (n, rest) := by
  induction fuel with
  | zero =>
    intro n rest h
    have hn : n = 0 := by omega
    subst hn
    rfl
  | succ fuel ih =>
    intro n rest h
    unfold writeNatAux
    by_cases hlt : n < 128
    · rw [if_pos hlt]
      have hv : (Fin.ofNat n : Byte).val = n := by
        show n % 256 = n
        omega
      show readNat (Fin.ofNat n :: rest) = some (n, rest)
      simp only [readNat, hv, if_pos hlt]
    · rw [if_neg hlt]
      have hv : (Fin.ofNat (128 + n % 128) : Byte).val = 128 + n % 128 := by
        show (128 + n % 128) % 256 = 128 + n % 128
        omega
      have hd : n / 128 ≤ fuel := by
        have : n / 128 < n := Nat.div_lt_self (by omega) (by decide)
        omega
      have hnot : ¬ 128 + n % 128 < 128 := by omega
      have he : 128 + n % 128 - 128 + 128 * (n / 128) = n := by omega
      show readNat (Fin.ofNat (128 + n % 128) :: (writeNatAux fuel (n / 128) ++ rest))
        = some (n, rest)
      simp only [readNat, hv, if_neg hnot]
      rw [ih (n / 128) rest hd]
      simp only [he]

theorem readNat_writeNat (n : Nat) (rest : Bytes) :
    readNat (writeNat n ++ rest) = some (n, rest) :=
  readNat_writeNatAux n n rest (Nat.le_refl n)

theorem readBytes_writeBytes (b rest : Bytes) :
    readBytes (writeBytes b ++ rest) = some (b, rest) := by
  unfold readBytes writeBytes
  rw [List.append_assoc, readNat_writeNat]
  simp

theorem readBits_writeBits (p : List Bool) (rest : Bytes) :
    readBits (writeBits p ++ rest) = some (p, rest) := by
  unfold readBits writeBits
  rw [List.append_assoc, readNat_writeNat]
  have hl : (p.map (fun b => if b then (1 : Byte) else 0)).length = p.length := by simp
  have ht : (p.map (fun b => if b then (1 : Byte) else 0) ++ rest).take p.length
      = p.map (fun b => if b then (1 : Byte) else 0) := List.take_left' hl
  have hd : (p.map (fun b => if b then (1 : Byte) else 0) ++ rest).drop p.length = rest :=
    List.drop_left' hl
  have hm : (p.map (fun b => if b then (1 : Byte) else 0)).map (fun x => decide (x ≠ 0)) = p := by
    rw [List.map_map]
    conv_rhs => rw [← List.map_id p]
    apply List.map_congr_left
    intro b _
    cases b <;> simp
  simp only [ht, hd, hm]
  rw [if_pos]
  rw [List.length_append, hl]
  omega

theorem readHash_val (h : Hash) (rest : Bytes) : readHash (h.val ++ rest) = some (h, rest) := by
  have hl : HashLength ≤ (h.val ++ rest).length := by
    rw [List.length_append, h.property]
    omega
  unfold readHash
  rw [dif_pos hl]
  have h1 : (h.val ++ rest).take HashLength = h.val := List.take_left' h.property
  have h2 : (h.val ++ rest).drop HashLength = rest := List.drop_left' h.property
  simp only [Option.some.injEq, Prod.mk.injEq]
  exact ⟨Subtype.ext h1, h2⟩

theorem readInt_writeInt (i : Int) (rest : Bytes) :
    readInt (writeInt i ++ rest) = some (i, rest) := by
  unfold writeInt
  simp only [List.cons_append, readInt, readNat_writeNat]
  by_cases hi : i < 0
  · have he : -((i.natAbs : Nat) : Int) = i := by omega
    simp only [hi, if_true, he]
  · have he : ((i.natAbs : Nat) : Int) = i := by omega
    have h01 : ¬ ((0 : Byte) = 1) := by decide
    simp only [hi, if_false, h01, he]

theorem readAccount_writeAccount (a : Account) (rest : Bytes) :
    readAccount (writeAccount a ++ rest) = some (a, rest) := by
  unfold writeAccount
  simp only [List.cons_append, List.append_assoc, readAccount, readNat_writeNat,
    readInt_writeInt, readHash_val, Option.some_bind]
  cases a with
  | mk i n b r c inc =>
    cases i <;> simp

theorem readNode_writeNode (n : BinNode) :
    ∀ (fuel : Nat) (rest : Bytes), n.depth < fuel →
      readNode fuel (writeNode n ++ rest) = some (n, rest) := by
  induction n with
  | empty =>
    intro fuel rest h
    cases fuel with
    | zero => omega
    | succ f => simp [writeNode, readNode]
  | leaf p v =>
    intro fuel rest h
    cases fuel with
    | zero => omega
    | succ f =>
      simp [writeNode, readNode, readBits_writeBits, readBytes_writeBytes]
  | account p a st ih =>
    intro fuel rest h
    cases fuel with
    | zero => omega
    | succ f =>
      have hd : st.depth < f := by
        simp only [BinNode.depth] at h
        omega
      simp [writeNode, readNode, readBits_writeBits, readAccount_writeAccount, ih f rest hd]
  | ext p c ih =>
    intro fuel rest h
    cases fuel with
    | zero => omega
    | succ f =>
      have hd : c.depth < f := by
        simp only [BinNode.depth] at h
        omega
      simp [writeNode, readNode, readBits_writeBits, ih f rest hd]
  | branch z o ihz iho =>
    intro fuel rest h
    cases fuel with
    | zero => omega
    | succ f =>
      have hz : z.depth < f := by
        simp only [BinNode.depth] at h
        omega
      have ho : o.depth < f := by
        simp only [BinNode.depth] at h
        omega
      simp [writeNode, readNode, ihz f (writeNode o ++ rest) hz, iho f rest ho]
  | hashOnly d =>
    intro fuel rest h
    cases fuel with
    | zero => omega
    | succ f => simp [writeNode, readNode, readHash_val]

theorem writeNode_length (n : BinNode) : n.depth < (writeNode n).length := by
  induction n with
  | empty => simp [writeNode, BinNode.depth]
  | leaf p v => simp [writeNode, BinNode.depth]
  | account p a st ih =>
    simp only [writeNode, BinNode.depth, List.length_cons, List.length_append]
    omega
  | ext p c ih =>
    simp only [writeNode, BinNode.depth, List.length_cons, List.length_append]
    omega
  | branch z o ihz iho =>
    simp only [writeNode, BinNode.depth, List.length_cons, List.length_append]
    omega
  | hashOnly d => simp [writeNode, BinNode.depth]

theorem readCodeEntries_write (codeMap : List (Hash × Bytes)) (rest : Bytes) :
    readCodeEntries codeMap.length
      (codeMap.flatMap (fun e => e.1.val ++ writeBytes e.2) ++ rest) = some (codeMap, rest) := by
  induction codeMap with
  | nil => rfl
  | cons e es ih =>
    simp only [List.flatMap_cons, List.length_cons, List.append_assoc, readCodeEntries,
      readHash_val, readBytes_writeBytes, Option.some_bind, ih]

theorem readCodes_writeCodes (codeMap : List (Hash × Bytes)) (rest : Bytes) :
    readCodes (writeCodes codeMap ++ rest) = some (codeMap, rest) := by
  unfold readCodes writeCodes
  rw [List.append_assoc, readNat_writeNat]
  exact readCodeEntries_write codeMap rest

/-- The decoder gives back every witness that was written. -/
theorem BlockWitnessToTrieBin_WriteTo (bwb : BlockWitnessBuilder) :
    BlockWitnessToTrieBin bwb.WriteTo.1 = some (bwb.trie, bwb.codeMap) := by
  unfold BlockWitnessToTrieBin BlockWitnessBuilder.WriteTo
  have hf : bwb.trie.depth < (writeNode bwb.trie ++ writeCodes bwb.codeMap).length := by
    have := writeNode_length bwb.trie
    rw [List.length_append]
    omega
  rw [readNode_writeNode bwb.trie _ _ hf]
  have hc := readCodes_writeCodes bwb.codeMap []
  rw [List.append_nil] at hc
  simp only [Option.some_bind, hc, if_true]

/-- Pruning keeps the hash of every node. -/
theorem BinNode.hash_prune (H : Bytes → Hash) (rs : ResolveSet) (n : BinNode) :
    ∀ pre : List Bool, (n.prune H rs pre).hash H = n.hash H := by
  induction n with
  | empty => intro pre; unfold BinNode.prune; split <;> rfl
  | leaf p v => intro pre; unfold BinNode.prune; split <;> rfl
  | account p a st ih =>
    intro pre
    unfold BinNode.prune
    split
    · simp only [BinNode.hash, ih]
    · rfl
  | ext p c ih =>
    intro pre
    unfold BinNode.prune
    split
    · simp only [BinNode.hash, ih]
    · rfl
  | branch z o ihz iho =>
    intro pre
    unfold BinNode.prune
    split
    · simp only [BinNode.hash, ihz, iho]
    · rfl
  | hashOnly d => intro pre; rfl

theorem ResolveSet.keeps_of_mem (rs : ResolveSet) (pre k : List Bool) (h : pre ++ k ∈ rs.keys) :
    rs.keeps pre = true := by
  unfold ResolveSet.keeps
  rw [Bool.or_eq_true]
  right
  rw [List.any_eq_true]
  exact ⟨pre ++ k, h, by simp⟩

/-- Pruning keeps what `Get` answers for every key of the resolve set. -/
theorem BinNode.get_prune (H : Bytes → Hash) (rs : ResolveSet) (n : BinNode) :
    ∀ pre k : List Bool, pre ++ k ∈ rs.keys → (n.prune H rs pre).get k = n.get k := by
  induction n with
  | empty =>
    intro pre k h
    unfold BinNode.prune
    rw [if_pos (rs.keeps_of_mem pre k h)]
  | leaf p v =>
    intro pre k h
    unfold BinNode.prune
    rw [if_pos (rs.keeps_of_mem pre k h)]
  | account p a st ih =>
    intro pre k h
    unfold BinNode.prune
    rw [if_pos (rs.keeps_of_mem pre k h)]
    simp only [BinNode.get]
    split
    · rename_i hk
      apply ih
      have hkk : p ++ k.drop p.length = k := by
        have ht := List.take_append_drop p.length k
        rw [hk] at ht
        exact ht
      rw [List.append_assoc, hkk]
      exact h
    · rfl
  | ext p c ih =>
    intro pre k h
    unfold BinNode.prune
    rw [if_pos (rs.keeps_of_mem pre k h)]
    simp only [BinNode.get]
    split
    · rename_i hk
      apply ih
      have hkk : p ++ k.drop p.length = k := by
        have ht := List.take_append_drop p.length k
        rw [hk] at ht
        exact ht
      rw [List.append_assoc, hkk]
      exact h
    · rfl
  | branch z o ihz iho =>
    intro pre k h
    unfold BinNode.prune
    rw [if_pos (rs.keeps_of_mem pre k h)]
    cases k with
    | nil => rfl
    | cons b k =>
      have hb : (pre ++ [b]) ++ k ∈ rs.keys := by
        rw [List.append_assoc]
        exact h
      cases b with
      | false =>
        simp only [BinNode.get, Bool.false_eq_true, if_false]
        exact ihz _ _ hb
      | true =>
        simp only [BinNode.get, if_true]
        exact iho _ _ hb
  | hashOnly d => intro pre k h; rfl

/-- Pruning keeps what `GetAccount` answers for every key of the resolve set. -/
theorem BinNode.getAccount_prune (H : Bytes → Hash) (rs : ResolveSet) (n : BinNode) :
    ∀ pre k : List Bool, pre ++ k ∈ rs.keys →
      (n.prune H rs pre).getAccount k = n.getAccount k := by
  induction n with
  | empty =>
    intro pre k h
    unfold BinNode.prune
    rw [if_pos (rs.keeps_of_mem pre k h)]
  | leaf p v =>
    intro pre k h
    unfold BinNode.prune
    rw [if_pos (rs.keeps_of_mem pre k h)]
  | account p a st ih =>
    intro pre k h
    unfold BinNode.prune
    rw [if_pos (rs.keeps_of_mem pre k h)]
    simp only [BinNode.getAccount]
  | ext p c ih =>
    intro pre k h
    unfold BinNode.prune
    rw [if_pos (rs.keeps_of_mem pre k h)]
    simp only [BinNode.getAccount]
    split
    · rename_i hk
      apply ih
      have hkk : p ++ k.drop p.length = k := by
        have ht := List.take_append_drop p.length k
        rw [hk] at ht
        exact ht
      rw [List.append_assoc, hkk]
      exact h
    · rfl
  | branch z o ihz iho =>
    intro pre k h
    unfold BinNode.prune
    rw [if_pos (rs.keeps_of_mem pre k h)]
    cases k with
    | nil => rfl
    | cons b k =>
      have hb : (pre ++ [b]) ++ k ∈ rs.keys := by
        rw [List.append_assoc]
        exact h
      cases b with
      | false =>
        simp only [BinNode.getAccount, Bool.false_eq_true, if_false]
        exact ihz _ _ hb
      | true =>
        simp only [BinNode.getAccount, if_true]
        exact iho _ _ hb
  | hashOnly d => intro pre k h; rfl

theorem ResolveSet.keys_foldl_AddKey (touches : List Bytes) :
    ∀ rs : ResolveSet,
      (touches.foldl (fun rs touch => rs.AddKey touch) rs).keys
        = rs.keys ++ touches.map keyBits := by
  induction touches with
  | nil => intro rs; simp
  | cons t ts ih =>
    intro rs
    rw [List.foldl_cons, ih]
    simp [ResolveSet.AddKey]

/-- C22: for every binary trie, every resolve set and every code map, the bytes that the
witness builder writes (`MakeBlockWitnessBin`, then `WriteTo`, as `ExtractWitness` does)
decode with `BlockWitnessToTrieBin` to a trie that has the hash of the source trie and on
which `Get` and `GetAccount` answer, for every key of the resolve set, what they answer on
the source trie; the same holds of the bytes of `ExtractWitnessBin` for every touch and
storage touch. On the tries of the two tests the decoded trie has the hash of the source, the
first key gives `val1`, respectively the account, and the second key, which is not in the
resolve set, is answered as not resolved. -/
theorem BlockWitness_round_trip :
    (∀ (H : Bytes → Hash) (trBin : BinNode) (rs : ResolveSet) (codeMap : List (Hash × Bytes)),
      ∃ trBin1,
        BlockWitnessToTrieBin (MakeBlockWitnessBin H trBin rs codeMap).WriteTo.1
          = some (trBin1, codeMap) ∧
        trBin1.hash H = trBin.hash H ∧
        ∀ key ∈ rs.keys,
          trBin1.get key = trBin.get key ∧ trBin1.getAccount key = trBin.getAccount key) ∧
    (∀ (H : Bytes → Hash) (trBin : BinNode) (touches storageTouches : List Bytes)
        (codeMap : List (Hash × Bytes)),
      ∃ trBin1,
        BlockWitnessToTrieBin (ExtractWitnessBin H trBin touches storageTouches codeMap).1
          = some (trBin1, codeMap) ∧
        trBin1.hash H = trBin.hash H ∧
        ∀ touch ∈ touches ++ storageTouches,
          trBin1.get (keyBits touch) = trBin.get (keyBits touch) ∧
          trBin1.getAccount (keyBits touch) = trBin.getAccount (keyBits touch)) ∧
    (BlockWitnessToTrieBin (MakeBlockWitnessBin padHash sampleBinTrie sampleResolveSet
        []).WriteTo.1).map
      (fun r => (r.1.get (keyBits sampleKey1), r.1.get (keyBits sampleKey2),
        decide (r.1.hash padHash = sampleBinTrie.hash padHash)))
      = some ((some [118, 97, 108, 49], true), (none, false), true) ∧
    (BlockWitnessToTrieBin (MakeBlockWitnessBin padHash sampleAccountTrie sampleResolveSet
        []).WriteTo.1).map
      (fun r => (r.1.getAccount (keyBits sampleKey1),
        decide (r.1.hash padHash = sampleAccountTrie.hash padHash)))
      = some ((some sampleWitnessAccount, true), true) := by
  have hgen : ∀ (H : Bytes → Hash) (trBin : BinNode) (rs : ResolveSet)
      (codeMap : List (Hash × Bytes)),
      ∃ trBin1,
        BlockWitnessToTrieBin (MakeBlockWitnessBin H trBin rs codeMap).WriteTo.1
          = some (trBin1, codeMap) ∧
        trBin1.hash H = trBin.hash H ∧
        ∀ key ∈ rs.keys,
          trBin1.get key = trBin.get key ∧ trBin1.getAccount key = trBin.getAccount key := by
    intro H trBin rs codeMap
    refine ⟨trBin.prune H rs [], BlockWitnessToTrieBin_WriteTo _, BinNode.hash_prune H rs trBin [],
      ?_⟩
    intro key hkey
    have hk : [] ++ key ∈ rs.keys := by
      rw [List.nil_append]
      exact hkey
    exact ⟨BinNode.get_prune H rs trBin [] key hk, BinNode.getAccount_prune H rs trBin [] key hk⟩
  refine ⟨hgen, ?_, ?_, ?_⟩
  · intro H trBin touches storageTouches codeMap
    obtain ⟨trBin1, h1, h2, h3⟩ := hgen H trBin
      (storageTouches.foldl (fun rs touch => rs.AddKey touch)
        (touches.foldl (fun rs touch => rs.AddKey touch) (NewBinaryResolveSet 0))) codeMap
    refine ⟨trBin1, h1, h2, ?_⟩
    intro touch ht
    apply h3
    rw [ResolveSet.keys_foldl_AddKey, ResolveSet.keys_foldl_AddKey]
    simp only [NewBinaryResolveSet, List.nil_append, ← List.map_append]
    exact List.mem_map_of_mem keyBits ht
  · set_option maxRecDepth 100000 in decide
  · set_option maxRecDepth 100000 in decide

/-! ## Storage writes after a re-creation -/

theorem bufferStep_forward_calls (E : Ext) (blockNr : Nat)
    (accountUpdates : GoMap Hash (Option AccountRef)) (s : RootsState E.logged) (b : Buffer) :
    (bufferStep E.logged true blockNr accountUpdates s b).1.t.2 =
      s.t.2 ++ (createdOps blockNr s.alreadyCreated b ++
        b.accountUpdates.entries.map (accountOp blockNr
          (b.created.keys.foldl (createdStep E.logged blockNr b accountUpdates) s).heap) ++
        storageOps blockNr b ++ deletedOps blockNr b) := by
  rw [bufferStep_forward_eq, deletedLoop_ops, storageLoop_logged_forward, accountLoop_ops,
    createdLoop_ops E blockNr b accountUpdates s b.created.keys b.created.nodup]
  unfold createdOps storageOps deletedOps
  simp only [List.append_assoc]

theorem forwardWriteOp_ne_clearout (blockNr : Nat) (a : Hash) (kv : Hash × Option Bytes)
    (key : Bytes) (n : Nat) : forwardWriteOp blockNr a kv ≠ TrieOp.DeleteSubtree key n := by
  unfold forwardWriteOp
  split <;> exact fun h => TrieOp.noConfusion h

theorem accountOp_ne_clearout (blockNr : Nat) (heap : Heap) (e : Hash × Option AccountRef)
    (key : Bytes) (n : Nat) : accountOp blockNr heap e ≠ TrieOp.DeleteSubtree key n := by
  unfold accountOp
  split <;> exact fun h => TrieOp.noConfusion h

/-- A forward step for a buffer issues no `DeleteSubtree` for an address that an earlier
buffer has cleared and that the buffer does not delete without creating it. -/
theorem bufferStep_no_clearout (E : Ext) (blockNr : Nat)
    (accountUpdates : GoMap Hash (Option AccountRef)) (s : RootsState E.logged) (b : Buffer)
    (a : Hash) (hs : s.alreadyCreated.contains a = true)
    (hd : b.deleted.contains a = true → b.created.contains a = true) :
    ∀ op ∈ createdOps blockNr s.alreadyCreated b ++
        b.accountUpdates.entries.map (accountOp blockNr
          (b.created.keys.foldl (createdStep E.logged blockNr b accountUpdates) s).heap) ++
        storageOps blockNr b ++ deletedOps blockNr b,
      ∀ n, op ≠ TrieOp.DeleteSubtree a.val n := by
  intro op hop n heq
  simp only [List.mem_append] at hop
  rcases hop with ((hop | hop) | hop) | hop
  · unfold createdOps at hop
    rw [List.mem_map] at hop
    obtain ⟨k, hk, hkop⟩ := hop
    rw [heq] at hkop
    have hka : k = a := Subtype.ext (TrieOp.DeleteSubtree.inj hkop).1
    subst hka
    rw [List.mem_filter] at hk
    rw [hs] at hk
    exact Bool.noConfusion hk.2
  · rw [List.mem_map] at hop
    obtain ⟨e, _, he⟩ := hop
    rw [heq] at he
    exact accountOp_ne_clearout _ _ _ _ _ he
  · unfold storageOps at hop
    rw [List.mem_flatMap] at hop
    obtain ⟨e, _, he⟩ := hop
    rw [List.mem_map] at he
    obtain ⟨kv, _, hkv⟩ := he
    rw [heq] at hkv
    exact forwardWriteOp_ne_clearout _ _ _ _ _ hkv
  · unfold deletedOps at hop
    rw [List.mem_map] at hop
    obtain ⟨k, hk, hkop⟩ := hop
    rw [heq] at hkop
    have hka : k = a := Subtype.ext (TrieOp.DeleteSubtree.inj hkop).1
    subst hka
    rw [List.mem_filter] at hk
    have hc := hd ((GoMap.contains_iff_mem_keys _ _).mpr hk.1)
    rw [hc] at hk
    exact Bool.noConfusion hk.2

/-- A forward run over buffers issues no `DeleteSubtree` for an address that an earlier
buffer has cleared and that none of the buffers deletes without creating it. -/
theorem bufferLoop_no_clearout (E : Ext) (blockNr : Nat)
    (accountUpdates : GoMap Hash (Option AccountRef)) (a : Hash) (l : List Buffer) :
    ∀ (s : RootsState E.logged) (roots : List Hash), s.alreadyCreated.contains a = true →
      (∀ c ∈ l, c.deleted.contains a = true → c.created.contains a = true) →
      ∃ ops, (bufferLoop E.logged true blockNr accountUpdates s roots l).1.t.2 = s.t.2 ++ ops ∧
        ∀ op ∈ ops, ∀ n, op ≠ TrieOp.DeleteSubtree a.val n := by
  induction l with
  | nil =>
    intro s roots _ _
    exact ⟨[], by simp [bufferLoop], by simp⟩
  | cons b rest ih =>
    intro s roots hs hd
    rw [bufferLoop_forward_cons]
    obtain ⟨ops, h1, h2⟩ := ih (bufferStep E.logged true blockNr accountUpdates s b).1
      (roots ++ [E.logged.tHash (bufferStep E.logged true blockNr accountUpdates s b).1.t])
      (bufferStep_created E.logged true blockNr accountUpdates s b a (Or.inl hs))
      (fun c hc => hd c (List.mem_cons_of_mem _ hc))
    obtain ⟨opsb, hb1, hb2⟩ : ∃ opsb,
        (bufferStep E.logged true blockNr accountUpdates s b).1.t.2 = s.t.2 ++ opsb ∧
        ∀ op ∈ opsb, ∀ n, op ≠ TrieOp.DeleteSubtree a.val n :=
      ⟨_, bufferStep_forward_calls E blockNr accountUpdates s b,
        bufferStep_no_clearout E blockNr accountUpdates s b a hs (hd b (List.mem_cons_self _ _))⟩
    refine ⟨opsb ++ ops, ?_, ?_⟩
    · rw [h1, hb1, List.append_assoc]
    · intro op hop
      rcases List.mem_append.mp hop with h | h
      · exact hb2 op h
      · exact h2 op h

theorem bufferLoop_forward_listed (E : Ext) (blockNr : Nat)
    (accountUpdates : GoMap Hash (Option AccountRef)) (l : List Buffer) :
    ∀ (s : RootsState E.logged) (roots : List Hash),
      ∃ ops, (bufferLoop E.logged true blockNr accountUpdates s roots l).1.t.2 = s.t.2 ++ ops := by
  induction l with
  | nil =>
    intro s roots
    exact ⟨[], by simp [bufferLoop]⟩
  | cons b rest ih =>
    intro s roots
    rw [bufferLoop_forward_cons]
    obtain ⟨ops, h1⟩ := ih (bufferStep E.logged true blockNr accountUpdates s b).1
      (roots ++ [E.logged.tHash (bufferStep E.logged true blockNr accountUpdates s b).1.t])
    have hb := bufferStep_forward_calls E blockNr accountUpdates s b
    rw [hb] at h1
    exact ⟨_, by rw [h1, List.append_assoc]⟩

theorem deletedOps_no_clearout (blockNr : Nat) (b : Buffer) (a : Hash)
    (hd : b.deleted.contains a = true → b.created.contains a = true) :
    ∀ op ∈ deletedOps blockNr b, ∀ n, op ≠ TrieOp.DeleteSubtree a.val n := by
  intro op hop n heq
  unfold deletedOps at hop
  rw [List.mem_map] at hop
  obtain ⟨k, hk, hkop⟩ := hop
  rw [heq] at hkop
  have hka : k = a := Subtype.ext (TrieOp.DeleteSubtree.inj hkop).1
  subst hka
  rw [List.mem_filter] at hk
  have hc := hd ((GoMap.contains_iff_mem_keys _ _).mpr hk.1)
  rw [hc] at hk
  exact Bool.noConfusion hk.2

/-- C16: an address is created in the buffer `b` of a block or in an earlier one, `b` holds
storage writes `m` for it, and from `b` on no buffer deletes the address without creating it
(the deletion came before the create: in an earlier buffer, or in the buffer of the create,
where the deleted loop carves the address out). Then a forward `updateTrieRoots` returns its
roots, applies the writes to the trie (the calls `Update` or `Delete` of the writes, in
order), and issues no `DeleteSubtree` on the address after them, in `b` or in any later
buffer. Nor is the root of its account reset after them: every step of a deleted loop for the
address from `b` on leaves the state as it is, the account objects included, and so does the
step of the created loop of every later buffer, in the state in which that loop reaches the
address. The calls are those that the listing trie `E.logged` records. -/
theorem updateTrieRoots_keeps_writes_after_create (E : Ext) (tds : TrieDbState E.logged)
    (agg : Buffer) (pre post : List Buffer) (b : Buffer) (a : Hash)
    (m : GoMap Hash (Option Bytes))
    (hagg : tds.aggregateBuffer = some agg)
    (hbuf : tds.buffers = pre ++ b :: post)
    (hc : ∃ c ∈ pre ++ [b], c.created.contains a = true)
    (hm : b.storageUpdates.get? a = some m)
    (hd : ∀ c ∈ b :: post, c.deleted.contains a = true → c.created.contains a = true) :
    (∃ tds' roots ops1 ops2,
      tds.updateTrieRoots true = some (tds', some roots, none) ∧
      tds'.t.2 = tds.t.2 ++ ops1 ++ m.entries.map (forwardWriteOp tds.blockNr a) ++ ops2 ∧
      ∀ op ∈ ops2, ∀ n, op ≠ TrieOp.DeleteSubtree a.val n) ∧
    (∀ c ∈ b :: post, c.deleted.contains a = true → ∀ s' : RootsState E.logged,
      deletedStep E.logged tds.blockNr c agg.accountUpdates s' a = s') ∧
    (∀ (p1 : List Buffer) (c : Buffer) (p2 : List Buffer) (ks1 ks2 : List Hash),
      post = p1 ++ c :: p2 → c.created.keys = ks1 ++ a :: ks2 →
      createdStep E.logged tds.blockNr c agg.accountUpdates
          (ks1.foldl (createdStep E.logged tds.blockNr c agg.accountUpdates)
            (bufferLoop E.logged true tds.blockNr agg.accountUpdates
              ⟨tds.t, tds.heap, GoMap.empty⟩ [] (pre ++ b :: p1)).1) a =
        ks1.foldl (createdStep E.logged tds.blockNr c agg.accountUpdates)
          (bufferLoop E.logged true tds.blockNr agg.accountUpdates
            ⟨tds.t, tds.heap, GoMap.empty⟩ [] (pre ++ b :: p1)).1) := by
  refine ⟨?_, ?_, ?_⟩
  · obtain ⟨s1, r1, hpre⟩ := bufferLoop_forward E.logged tds.blockNr agg.accountUpdates
      ⟨tds.t, tds.heap, GoMap.empty⟩ [] pre
    have happ := bufferLoop_append E.logged true tds.blockNr agg.accountUpdates
      ⟨tds.t, tds.heap, GoMap.empty⟩ s1 [] r1 pre (b :: post) hpre
    rw [bufferLoop_forward_cons] at happ
    obtain ⟨s2, r2, hpost⟩ := bufferLoop_forward E.logged tds.blockNr agg.accountUpdates
      (bufferStep E.logged true tds.blockNr agg.accountUpdates s1 b).1
      (r1 ++ [E.logged.tHash (bufferStep E.logged true tds.blockNr agg.accountUpdates s1 b).1.t])
      post
    rw [hpost] at happ
    obtain ⟨opsPre, hlpre⟩ := bufferLoop_forward_listed E tds.blockNr agg.accountUpdates pre
      ⟨tds.t, tds.heap, GoMap.empty⟩ []
    rw [hpre] at hlpre
    have hs1 : s1.alreadyCreated.contains a = true ∨ b.created.contains a = true := by
      obtain ⟨c, hcm, hcc⟩ := hc
      rcases List.mem_append.mp hcm with h | h
      · left
        have hcr := bufferLoop_created E.logged tds.blockNr agg.accountUpdates a pre
          ⟨tds.t, tds.heap, GoMap.empty⟩ [] (Or.inr ⟨c, h, hcc⟩)
        rw [hpre] at hcr
        exact hcr
      · right
        rw [List.mem_singleton] at h
        subst h
        exact hcc
    have hsb := bufferStep_created E.logged true tds.blockNr agg.accountUpdates s1 b a hs1
    obtain ⟨opsPost, hlpost, hno⟩ := bufferLoop_no_clearout E tds.blockNr agg.accountUpdates a
      post (bufferStep E.logged true tds.blockNr agg.accountUpdates s1 b).1
      (r1 ++ [E.logged.tHash (bufferStep E.logged true tds.blockNr agg.accountUpdates s1 b).1.t])
      hsb (fun c hcm => hd c (List.mem_cons_of_mem _ hcm))
    rw [hpost] at hlpost
    have hstep := bufferStep_forward_calls E tds.blockNr agg.accountUpdates s1 b
    obtain ⟨es1, es2, hsplit⟩ := List.append_of_mem ((GoMap.get?_eq_some_iff _ a m).mp hm)
    refine ⟨{ tds with t := s2.t, heap := s2.heap }, r2,
      opsPre ++ (createdOps tds.blockNr s1.alreadyCreated b ++
        b.accountUpdates.entries.map (accountOp tds.blockNr
          (b.created.keys.foldl (createdStep E.logged tds.blockNr b agg.accountUpdates)
            s1).heap)) ++
        es1.flatMap (fun e => e.2.entries.map (forwardWriteOp tds.blockNr e.1)),
      es2.flatMap (fun e => e.2.entries.map (forwardWriteOp tds.blockNr e.1)) ++
        deletedOps tds.blockNr b ++ opsPost, ?_, ?_, ?_⟩
    · unfold TrieDbState.updateTrieRoots
      simp only [hagg, hbuf, happ]
    · show s2.t.2 = _
      rw [hlpost, hstep, hlpre]
      unfold storageOps
      rw [hsplit]
      simp only [List.flatMap_append, List.flatMap_cons, List.append_assoc]
    · intro op hop n heq
      simp only [List.mem_append] at hop
      rcases hop with (hop | hop) | hop
      · rw [List.mem_flatMap] at hop
        obtain ⟨e, _, he⟩ := hop
        rw [List.mem_map] at he
        obtain ⟨kv, _, hkv⟩ := he
        rw [heq] at hkv
        exact forwardWriteOp_ne_clearout _ _ _ _ _ hkv
      · exact deletedOps_no_clearout tds.blockNr b a (hd b (List.mem_cons_self _ _)) op hop n heq
      · exact hno op hop n heq
  · intro c hcm hdel s'
    unfold deletedStep
    rw [if_pos (hd c hcm hdel)]
  · intro p1 c p2 ks1 ks2 _ _
    apply createdStep_already
    apply createdLoop_created
    left
    apply bufferLoop_created
    right
    obtain ⟨c', hcm, hcc⟩ := hc
    refine ⟨c', ?_, hcc⟩
    rcases List.mem_append.mp hcm with h | h
    · exact List.mem_append_left _ h
    · rw [List.mem_singleton] at h
      subst h
      exact List.mem_append_right _ (List.mem_cons_self _ _)

/-- Witness of C16: in the instance with the listing trie the account of the address of
twenty bytes 1 is deleted in the first buffer and, in the second, registered again, the
contract created and its slot 2 written; the forward run issues the `Update` of the slot last
and no `DeleteSubtree` after it. The same holds when all of it happens in one buffer. -/
theorem updateTrieRoots_keeps_writes_after_create_witness :
    deletedThenCreatedState.buffers.map
        (fun c => (c.deleted.keys, c.created.keys, c.storageUpdates.keys)) =
      [([padHash (List.replicate 20 1)], [], []),
       ([], [padHash (List.replicate 20 1)], [padHash (List.replicate 20 1)])] ∧
    (deletedThenCreatedState.updateTrieRoots true).map
        (fun r => (r.1.t.2, r.2.1.map List.length, r.2.2)) =
      some ([TrieOp.Delete (padHash (List.replicate 20 1)).val 0,
         TrieOp.DeleteSubtree (padHash (List.replicate 20 1)).val 0,
         TrieOp.DeleteSubtree (padHash (List.replicate 20 1)).val 0,
         TrieOp.UpdateAccount (padHash (List.replicate 20 1)).val
           { (default : Account) with Incarnation := 1 },
         TrieOp.Update
           (GenerateCompositeTrieKey (padHash (List.replicate 20 1)) (Hash.ofByte 2)) [7] 0],
        some 2, none) ∧
    (∃ tds' roots ops1 ops2,
      deletedThenCreatedState.updateTrieRoots true = some (tds', some roots, none) ∧
      tds'.t.2 = deletedThenCreatedState.t.2 ++ ops1 ++
        (GoMap.empty.set (Hash.ofByte 2) (some [7])).entries.map
          (forwardWriteOp deletedThenCreatedState.blockNr (padHash (List.replicate 20 1))) ++
        ops2 ∧
      ∀ op ∈ ops2, ∀ n, op ≠ TrieOp.DeleteSubtree (padHash (List.replicate 20 1)).val n) ∧
    deletedCreatedInOneState.buffers.map
        (fun c => (c.deleted.keys, c.created.keys, c.storageUpdates.keys)) =
      [([padHash (List.replicate 20 1)], [padHash (List.replicate 20 1)],
        [padHash (List.replicate 20 1)])] ∧
    (∃ tds' roots ops1 ops2,
      deletedCreatedInOneState.updateTrieRoots true = some (tds', some roots, none) ∧
      tds'.t.2 = deletedCreatedInOneState.t.2 ++ ops1 ++
        (GoMap.empty.set (Hash.ofByte 2) (some [7])).entries.map
          (forwardWriteOp deletedCreatedInOneState.blockNr (padHash (List.replicate 20 1))) ++
        ops2 ∧
      ∀ op ∈ ops2, ∀ n, op ≠ TrieOp.DeleteSubtree (padHash (List.replicate 20 1)).val n) :=
  ⟨by decide, by decide,
    (updateTrieRoots_keeps_writes_after_create sampleExt deletedThenCreatedState
      (deletedThenCreatedState.aggregateBuffer.getD Buffer.fresh)
      deletedThenCreatedState.frozenBuffers []
      (deletedThenCreatedState.currentBuffer.getD Buffer.fresh)
      (padHash (List.replicate 20 1)) (GoMap.empty.set (Hash.ofByte 2) (some [7]))
      (by decide) (by decide) (by decide) (by decide) (by decide)).1,
    by decide,
    (updateTrieRoots_keeps_writes_after_create sampleExt deletedCreatedInOneState
      (deletedCreatedInOneState.aggregateBuffer.getD Buffer.fresh) [] []
      (deletedCreatedInOneState.currentBuffer.getD Buffer.fresh)
      (padHash (List.replicate 20 1)) (GoMap.empty.set (Hash.ofByte 2) (some [7]))
      (by decide) (by decide) (by decide) (by decide) (by decide)).1⟩

end TurboGeth
